import Mathlib

/-!
# The HAT-trie engine of `lib/hattrie.c`

A shallow embedding of the node engine (`hat_open`, `hat_cell`, `hat_find`, the
array / pail / bucket / radix restructuring routines) and of the ordering cursor
(`hat_cursor`, `hat_start`, `hat_nxt`, `hat_prv`, `hat_last`, `hat_key`,
`hat_slot`, `hat_sort`, `hat_qsort`).

Conventions of the embedding.

* The 64-bit configuration of the source is modelled (`HAT_slot_size = 8`).
* Machine integers are natural numbers reduced modulo `2^16`, `2^32` or `2^64`
  wherever the C type of the variable wraps.
* A tagged slot word is modelled by the node it designates (`HatNode`, `BSlot`):
  the tag is the constructor, the address is a field of the node.  A function
  of the source that receives a slot pointer and overwrites the slot receives
  the content of the slot and returns the new content.
* An array node carries the bytes of its block that follow the header
  (`HatBase.keys`): key records are packed from the front, auxiliary payloads
  from the back, exactly as in the source.
* Block addresses are the ones `hat_alloc` computes from its bump pointer and
  its free lists; the addresses `malloc` returns are a parameter (`Hat.malloc`).
* The slot table of a bucket, pail or radix node is a table of its own, with
  the slots the engine indexes (`HatBucketSlots`, `HatPailMax`, 128), all empty
  when the node is allocated.  The sizes `HatSize` gives for a bucket and a
  pail (8 and 0 bytes) enter only the bump pointer of the allocator.
* A run ends in `Res.ok`, in `Res.fault` (the C code reads or writes outside the
  object it addresses, reinterprets a node of one kind as another, or aborts),
  or in `Res.nofuel` (the bound given to a loop was too small).
* The write-only statistics (`MaxMem`, `Searches`, `Probes`, `Bucket`, `Pail`,
  `Radix`, `Small`, `Hat.counts`) are left out.
-/

namespace HatTrie

/-- Outcome of running a fragment of the C code. -/
inductive Res (α : Type) where
  | ok (val : α)
  | fault
  | nofuel
deriving DecidableEq, Repr

/-- Sequencing of outcomes: a fault or an exhausted bound ends the run. -/
def Res.bind {α β : Type} (x : Res α) (f : α → Res β) : Res β :=
  match x with
  | .ok a => f a
  | .fault => .fault
  | .nofuel => .nofuel

instance : Monad Res where
  pure := Res.ok
  bind := Res.bind

/-! ## Constants and tables -/

abbrev U8 : Nat := 256
abbrev U16 : Nat := 65536
abbrev U32 : Nat := 4294967296
abbrev U64 : Nat := 18446744073709551616

abbrev HAT_slot_size : Nat := 8
abbrev HAT_node_size : Nat := 16
abbrev HAT_cache_line : Nat := 8
abbrev HAT_seg : Nat := 65536 * HAT_slot_size + 32

abbrev HAT_radix : Nat := 0
abbrev HAT_bucket : Nat := 1
abbrev HAT_array : Nat := 2
abbrev HAT_pail : Nat := 3
abbrev HAT_1 : Nat := 4
abbrev HAT_32 : Nat := 15

/-- Value of `sizeof(HatBucket)`: a `uint count` padded to the alignment of the
zero-length `HatSlot slots[0]`. -/
abbrev sizeof_HatBucket : Nat := 8
/-- Value of `sizeof(HatPail)`: only the zero-length `HatSlot array[0]`. -/
abbrev sizeof_HatPail : Nat := 0
/-- Value of `sizeof(HatBase)`: `ushort nxt; uchar type; uchar cnt`. -/
abbrev sizeof_HatBase : Nat := 4
/-- Value of `sizeof(HatSeg)`: `void *seg; uint next` padded to 8. -/
abbrev sizeof_HatSeg : Nat := 16

/-- The initialiser of `uint HatSize[32]`; the 16 entries without an
initialiser are zero. -/
def HatSizeTable : List Nat :=
  [HAT_slot_size * 128, sizeof_HatBucket, 0, sizeof_HatPail,
   1 * HAT_node_size, 2 * HAT_node_size, 3 * HAT_node_size, 4 * HAT_node_size,
   6 * HAT_node_size, 8 * HAT_node_size, 10 * HAT_node_size, 12 * HAT_node_size,
   14 * HAT_node_size, 16 * HAT_node_size, 24 * HAT_node_size, 32 * HAT_node_size,
   0, 0, 0, 0, 0, 0, 0, 0, 0, 0, 0, 0, 0, 0, 0, 0]

/-- Read of `HatSize[type]`; an index past the 32 entries is a fault. -/
def HatSize (type : Nat) : Res Nat :=
  match HatSizeTable[type]? with
  | some s => .ok s
  | none => .fault

abbrev HatBucketSlots : Nat := 2047
abbrev HatBucketMax : Nat := 65536
abbrev HatPailMax : Nat := 127
abbrev HatMax : Nat := HAT_32

/-! ## Nodes -/

/-- An array node (`HatBase`): its address, its header and the bytes of the
block after the header. -/
structure HatBase where
  addr : Nat
  nxt : Nat
  type : Nat
  cnt : Nat
  keys : List Nat

/-- A pail node (`HatPail`): `HatPailMax` slots, each empty or an array node.
The slots are a table of the node's own, as the layout `HatSlot array[0]`
names them.  In the source they are the words from the address of the block on,
and the block `hat_alloc` hands out has `HatSize[HAT_pail]` = 0 bytes: the model
follows the source on hats without a pail or a bucket (`ArrayOnly`), and in
statements that do not depend on where the table lies. -/
structure HatPail where
  addr : Nat
  array : Nat → Option HatBase

/-- Content of a bucket slot: empty, an array node or a pail node. -/
inductive BSlot where
  | empty
  | array (base : HatBase)
  | pail (pail : HatPail)

/-- A bucket node (`HatBucket`): the count and `HatBucketSlots` slots.  The
slots are a table of the node's own, as the layout `HatSlot slots[0]` names
them.  In the source they are the words behind the 8 bytes of
`HatSize[HAT_bucket]`, outside the block `hat_alloc` hands out and zeroes: the
model follows the source on hats without a pail or a bucket (`ArrayOnly`), and
in statements that do not depend on where the table lies. -/
structure HatBucket where
  addr : Nat
  count : Nat
  slots : Nat → BSlot

/-- Content of a root slot or of a radix slot. -/
inductive HatNode where
  | empty
  | radix (addr : Nat) (table : Nat → HatNode)
  | bucket (bucket : HatBucket)
  | array (base : HatBase)
  | pail (pail : HatPail)

/-- The node a bucket slot holds, seen as the content of a general slot. -/
def BSlot.toNode : BSlot → HatNode
  | .empty => .empty
  | .array b => .array b
  | .pail p => .pail p

/-- Store into one slot of a slot table. -/
def setSlot {α : Type} (t : Nat → α) (i : Nat) (v : α) : Nat → α :=
  fun j => if j = i then v else t j

/-- The `Hat` object together with the state of its allocator. -/
structure Hat where
  reuse : Nat → List Nat
  seg : Nat
  next : Nat
  nseg : Nat
  malloc : Nat → Nat
  bootlvl : Nat
  aux : Nat
  nroot : Nat
  root : Nat → HatNode

/-! ## Memory and pointers -/

/-- Read of a byte at an offset of a block; an offset outside the block faults. -/
def rd (mem : List Nat) (i : Nat) : Res Nat :=
  match mem[i]? with
  | some b => .ok b
  | none => .fault

/-- Write of a byte at an offset of a block. -/
def wr (mem : List Nat) (i : Nat) (b : Nat) : Res (List Nat) :=
  if i < mem.length then .ok (mem.set i b) else .fault

/-- Model of `memcpy (dst + pos, src, n)`: both ranges must lie inside their blocks. -/
def memcpy (dst : List Nat) (pos : Nat) (src : List Nat) (n : Nat) : Res (List Nat) :=
  if n ≤ src.length ∧ pos + n ≤ dst.length then
    .ok (dst.take pos ++ src.take n ++ dst.drop (pos + n))
  else .fault

/-- Pointer minus an unsigned offset, in 64-bit arithmetic. -/
def ptr_sub (p off : Nat) : Nat := (p + (U64 - off % U64)) % U64

/-- The address `(uchar *)base + size - off` of the source. -/
def slot_ptr (addr size off : Nat) : Nat := ptr_sub ((addr + size) % U64) off

/-! ## Arena -/

/-- Rounding of a size to the allocation granule, as `hat_alloc` and `hat_data` do it. -/
def round_amt (amt : Nat) : Nat :=
  if amt &&& (HAT_cache_line - 1) ≠ 0 then (amt ||| (HAT_cache_line - 1)) + 1 else amt

/-- The branch of `hat_alloc` / `hat_data` that obtains a fresh segment. -/
def new_seg (hat : Hat) : Res Hat :=
  let seg := hat.malloc hat.nseg
  if seg = 0 then .fault
  else
    let round := seg &&& (HAT_cache_line - 1)
    let next := if round ≠ 0 then sizeof_HatSeg + (HAT_cache_line - round) else sizeof_HatSeg
    .ok { hat with seg := seg, next := next, nseg := hat.nseg + 1 }

/-- Model of `hat_alloc`: the address of a zeroed block for a node of kind `type`. -/
def hat_alloc (hat : Hat) (type : Nat) : Res (Hat × Nat) := do
  let amt ← HatSize type
  let amt := round_amt amt
  match hat.reuse type with
  | block :: rest => pure ({ hat with reuse := setSlot hat.reuse type rest }, block)
  | [] =>
    let hat1 ← if (hat.next + amt) % U32 > HAT_seg then new_seg hat else pure hat
    pure ({ hat1 with next := (hat1.next + amt) % U32 }, (hat1.seg + hat1.next) % U64)

/-- Model of `hat_data (hat, amt)`: the hat after the call, the address of the
block and the bytes of the block after the `memset`; `amt` is rounded in `uint`
arithmetic. -/
def hat_data (hat : Hat) (amt : Nat) : Res (Hat × Nat × List Nat) := do
  let amt := round_amt amt % U32
  let hat1 ← if (hat.next + amt) % U32 > HAT_seg then new_seg hat else pure hat
  pure ({ hat1 with next := (hat1.next + amt) % U32 }, (hat1.seg + hat1.next) % U64,
    List.replicate amt 0)

/-- The call `hat_alloc (hat, type)` together with the bytes of the block after
the `memset (block, 0, amt)` both of its paths end with. -/
def hat_alloc_block (hat : Hat) (type : Nat) : Res (Hat × Nat × List Nat) := do
  let amt ← HatSize type
  let (hat1, block) ← hat_alloc hat type
  pure (hat1, block, List.replicate (round_amt amt) 0)

/-- Model of `hat_free`: the block is pushed on the free list of its kind. -/
def hat_free (hat : Hat) (block : Nat) (type : Nat) : Hat :=
  { hat with reuse := setSlot hat.reuse type (block :: hat.reuse type) }

/-! ## Key codec -/

/-- The loop of `hat_code`. -/
def hat_code_loop : Nat → List Nat → Nat → Res Nat
  | 0, _, hash => .ok hash
  | _ + 1, [], _ => .fault
  | n + 1, b :: rest, hash =>
    hat_code_loop n rest ((hash + ((hash <<< 5) % U32 + (hash >>> 27) + b)) % U32)

/-- Model of `hat_code (buff, max)`. -/
def hat_code (buff : List Nat) (max : Nat) : Res Nat :=
  hat_code_loop max buff max

/-- First loop of `keycmp`: the bytes above the last multiple of the word size,
compared from the last one down.  `none` stands for `return 1`. -/
def keycmp_bytes : Nat → List Nat → List Nat → Nat → Res (Option Nat)
  | 0, _, _, _ => .nofuel
  | f + 1, str1, str2, len =>
    if len &&& (HAT_slot_size - 1) ≠ 0 then do
      let a ← rd str1 (len - 1)
      let b ← rd str2 (len - 1)
      if a ≠ b then pure none else keycmp_bytes f str1 str2 (len - 1)
    else pure (some len)

/-- Second loop of `keycmp`: whole words from the front. -/
def keycmp_words : Nat → List Nat → List Nat → Nat → Res Nat
  | 0, _, _, _ => .nofuel
  | f + 1, str1, str2, len =>
    if len ≠ 0 then
      if str1.length < HAT_slot_size ∨ str2.length < HAT_slot_size then .fault
      else if str1.take HAT_slot_size ≠ str2.take HAT_slot_size then pure 1
      else keycmp_words f (str1.drop HAT_slot_size) (str2.drop HAT_slot_size) (len - HAT_slot_size)
    else pure 0

/-- Model of `keycmp (str1, str2, len)`: 0 when the first `len` bytes agree. -/
def keycmp (str1 str2 : List Nat) (len : Nat) : Res Nat := do
  match ← keycmp_bytes HAT_slot_size str1 str2 len with
  | none => pure 1
  | some len1 => keycmp_words (len1 / HAT_slot_size + 1) str1 str2 len1

/-! ## Array engine -/

/-- Bytes of the auxiliary area of record number `cnt` (counted from 0) of an
array node: the `hat->aux` bytes at `(uchar *)base + HatSize[base->type] -
(cnt + 1) * hat->aux`.  Nothing is read when `aux` is 0. -/
def aux_read (base : HatBase) (cnt aux : Nat) : Res (List Nat) :=
  if aux = 0 then .ok [] else do
    let size ← HatSize base.type
    let d := ((cnt + 1) * aux) % U32
    if d + sizeof_HatBase ≤ size ∧ size - sizeof_HatBase - d + aux ≤ base.keys.length then
      pure ((base.keys.drop (size - sizeof_HatBase - d)).take aux)
    else .fault

/-- Model of `memcpy (cell, value, hat->aux)` for a `cell` inside the block of `base`. -/
def poke (base : HatBase) (cell : Nat) (value : List Nat) : Res HatBase := do
  let keys ← memcpy base.keys (ptr_sub cell ((base.addr + sizeof_HatBase) % U64)) value value.length
  pure { base with keys := keys }

/-- The `while` loop of `hat_new_array` that picks the size class. -/
def new_array_type : Nat → Hat → Nat → Nat → Nat → Res Nat
  | 0, _, _, _, _ => .nofuel
  | f + 1, hat, amt, skip, type => do
    let size ← HatSize type
    if (hat.aux + amt + skip) % U32 + sizeof_HatBase > size then
      new_array_type f hat amt skip (type + 1)
    else pure type

/-- The length prefix and the key bytes of a record, written at offset `pos` of
the keys of a node by `hat_new_array` and `hat_add_array`. -/
def put_record (keys : List Nat) (pos : Nat) (buff : List Nat) (amt skip : Nat) :
    Res (List Nat) := do
  let keys ← memcpy keys (pos + skip) buff amt
  let keys ← wr keys pos (amt &&& 0x7f)
  if amt > 0x7f then do
    let k0 ← rd keys pos
    let keys ← wr keys pos (k0 ||| 0x80)
    wr keys (pos + 1) ((amt >>> 7) % U8)
  else pure keys

/-- Model of `hat_new_array`: the node that is stored in the slot (`none` when
the function returns NULL and leaves the slot alone) and the returned address. -/
def hat_new_array (hat : Hat) (buff : List Nat) (amt : Nat) :
    Res (Hat × Option HatBase × Nat) := do
  let skip := if amt > 0x7f then 2 else 1
  let type ← new_array_type 64 hat amt skip HAT_1
  if type > HatMax then pure (hat, none, 0) else do
    let (hat1, addr) ← hat_alloc hat type
    let size ← HatSize type
    let keys ← put_record (List.replicate (size - sizeof_HatBase) 0) 0 buff amt skip
    pure (hat1, some { addr := addr, nxt := (amt + skip) % U16, type := type, cnt := 1, keys := keys },
      slot_ptr addr size (hat.aux % U32))

/-- The `do ... while` loop of `hat_promote` that picks the size class. -/
def promote_type : Nat → Nat → Nat → Res Nat
  | 0, _, _ => .nofuel
  | f + 1, need, type => do
    let size ← HatSize type
    if need > size then
      if type < HatMax then promote_type f need (type + 1) else pure (type + 1)
    else pure type

/-- Model of `hat_promote`, with the call of `hat_new_pail` passed as `new_pail`
(the source recurses through `hat_new_pail` only when `pail` is non-zero, and
`hat_new_pail` itself only adds with `pail` zero). -/
def hat_promote_k (new_pail : Hat → HatBase → List Nat → Nat → Res (Hat × BSlot × Nat))
    (hat : Hat) (base : HatBase) (buff : List Nat) (amt : Nat) (pail : Nat) :
    Res (Hat × BSlot × Nat) := do
  let skip := if amt > 0x7f ∧ amt < 2147483648 then 2 else 1
  let oldtype := base.type
  let oldsize ← HatSize oldtype
  let type ←
    if hat.aux = 0 ∨ base.cnt < 255 then
      promote_type 64 ((((base.cnt + 1) * hat.aux) + base.nxt + amt + skip) % U32 + sizeof_HatBase) oldtype
    else pure (HatMax + 1)
  if type > HatMax then
    if pail ≠ 0 ∧ HatPailMax ≠ 0 then new_pail hat base buff amt
    else pure (hat, .array base, 0)
  else do
    let (hat1, addr) ← hat_alloc hat type
    let size ← HatSize type
    let keys := List.replicate (size - sizeof_HatBase) 0
    let keys ← memcpy keys 0 base.keys base.nxt
    let n := (base.cnt * hat.aux) % U32
    let keys ←
      if hat.aux ≠ 0 then
        if n + sizeof_HatBase ≤ size ∧ n + sizeof_HatBase ≤ oldsize then
          memcpy keys (size - sizeof_HatBase - n) (base.keys.drop (oldsize - sizeof_HatBase - n)) n
        else .fault
      else pure keys
    let tst := base.nxt
    let keys ← wr keys tst (amt &&& 0x7f)
    let keys ← if amt &&& 0x80 ≠ 0 then wr keys (tst + 1) ((amt >>> 7) % U8) else pure keys
    let keys ← memcpy keys (tst + skip) buff amt
    let cnt := (base.cnt + 1) % U8
    let hat2 := hat_free hat1 base.addr oldtype
    pure (hat2, .array { addr := addr, nxt := (tst + amt + skip) % U16, type := type, cnt := cnt, keys := keys },
      slot_ptr addr size ((cnt * hat.aux) % U32))

/-- Model of `hat_add_array`, with the call of `hat_new_pail` passed as `new_pail`. -/
def hat_add_array_k (new_pail : Hat → HatBase → List Nat → Nat → Res (Hat × BSlot × Nat))
    (hat : Hat) (base : HatBase) (buff : List Nat) (amt : Nat) (pail : Nat) :
    Res (Hat × BSlot × Nat) := do
  let skip := if amt > 0x7f then 2 else 1
  let type := base.type
  let size ← HatSize type
  if (hat.aux = 0 ∨ base.cnt < 255) ∧
      (((base.cnt + 1) * hat.aux) + base.nxt + amt + skip) % U32 + sizeof_HatBase ≤ size then do
    let keys ← put_record base.keys base.nxt buff amt skip
    let cnt := (base.cnt + 1) % U8
    pure (hat, .array { base with nxt := (base.nxt + amt + skip) % U16, cnt := cnt, keys := keys },
      slot_ptr base.addr size ((cnt * hat.aux) % U32))
  else hat_promote_k new_pail hat base buff amt pail

/-! ## Pail engine -/

/-- Stand-in for `hat_new_pail` in the calls of `hat_add_array` with `pail` zero,
which never reach it. -/
def no_new_pail (_ : Hat) (_ : HatBase) (_ : List Nat) (_ : Nat) : Res (Hat × BSlot × Nat) :=
  .fault

/-- Model of `hat_add_array (hat, &pail->array[slot], buff, amt, 0)`: the slot of a
pail keeps an array node. -/
def hat_add_array0 (hat : Hat) (base : HatBase) (buff : List Nat) (amt : Nat) :
    Res (Hat × HatBase × Nat) := do
  let (hat1, slot, cell) ← hat_add_array_k no_new_pail hat base buff amt 0
  match slot with
  | .array b => pure (hat1, b, cell)
  | _ => .fault

/-- Model of `hat_add_pail`. -/
def hat_add_pail (hat : Hat) (pail : HatPail) (buff : List Nat) (amt : Nat) :
    Res (Hat × HatPail × Nat) := do
  let slot := (← hat_code buff amt) % HatPailMax
  match pail.array slot with
  | none => do
    let (hat1, nb, cell) ← hat_new_array hat buff amt
    match nb with
    | some b => pure (hat1, { pail with array := setSlot pail.array slot (some b) }, cell)
    | none => pure (hat1, pail, cell)
  | some base => do
    let (hat1, b, cell) ← hat_add_array0 hat base buff amt
    pure (hat1, { pail with array := setSlot pail.array slot (some b) }, cell)

/-- The `while` loop of `hat_new_pail` over the records of the full array node. -/
def hat_new_pail_loop : Nat → Hat → HatBase → (Nat → Option HatBase) → Nat → Nat →
    Res (Hat × (Nat → Option HatBase))
  | 0, _, _, _, _, _ => .nofuel
  | f + 1, hat, base, array, tst, cnt =>
    if tst < base.nxt then do
      let len ← rd base.keys tst
      let tst := (tst + 1) % U16
      let (len, tst) ←
        if len &&& 0x80 ≠ 0 then do
          let hi ← rd base.keys tst
          pure (((len &&& 0x7f) + (hi <<< 7)) % U16, (tst + 1) % U16)
        else (pure (len, tst) : Res (Nat × Nat))
      let code := (← hat_code (base.keys.drop tst) len) % HatPailMax
      let (hat1, nb, cell) ←
        match array code with
        | some child => do
          let (h, b, cell) ← hat_add_array0 hat child (base.keys.drop tst) len
          pure (h, some b, cell)
        | none => hat_new_array hat (base.keys.drop tst) len
      let nb ←
        if hat.aux ≠ 0 then
          match nb with
          | some b => do
            let value ← aux_read base cnt hat.aux
            let b1 ← poke b cell value
            pure (some b1)
          | none => .fault
        else pure nb
      let array1 := match nb with
        | some b => setSlot array code (some b)
        | none => array
      hat_new_pail_loop f hat1 base array1 ((tst + len) % U16) ((cnt + 1) % U16)
    else pure (hat, array)

/-- Model of `hat_new_pail`. -/
def hat_new_pail (hat : Hat) (base : HatBase) (buff : List Nat) (amt : Nat) :
    Res (Hat × BSlot × Nat) := do
  let (hat1, addr) ← hat_alloc hat HAT_pail
  let (hat2, array) ← hat_new_pail_loop U16 hat1 base (fun _ => none) 0 0
  let hat3 := hat_free hat2 base.addr base.type
  let (hat4, pail, cell) ← hat_add_pail hat3 { addr := addr, array := array } buff amt
  pure (hat4, .pail pail, cell)

/-- Model of `hat_add_array`. -/
def hat_add_array (hat : Hat) (base : HatBase) (buff : List Nat) (amt : Nat) (pail : Nat) :
    Res (Hat × BSlot × Nat) :=
  hat_add_array_k hat_new_pail hat base buff amt pail

/-- Model of `memcpy (cell, value, hat->aux)` for the `cell` returned by a store
of the key `buff`, `amt` into a slot that holds `slot` afterwards: the address
lies in the array node of the slot, or, for a pail, in the array node of the
pail slot the key hashes to. -/
def poke_slot (slot : BSlot) (buff : List Nat) (amt : Nat) (cell : Nat) (value : List Nat) :
    Res BSlot :=
  match slot with
  | .empty => .fault
  | .array b => do
    let b1 ← poke b cell value
    pure (.array b1)
  | .pail p => do
    let code := (← hat_code buff amt) % HatPailMax
    match p.array code with
    | some b => do
      let b1 ← poke b cell value
      pure (.pail { p with array := setSlot p.array code (some b1) })
    | none => .fault

/-! ## Bursting an array or a pail into a bucket -/

/-- Store of one record into `bucket->slots[code]`, as the loops of
`hat_burst_array` and `hat_burst_pail` do it; `tagged` tells whether the tag of
an occupied slot is inspected (`hat_burst_pail`) or the slot is taken to hold an
array node (`hat_burst_array`). -/
def burst_store (tagged : Bool) (hat : Hat) (slots : Nat → BSlot) (code : Nat)
    (buff : List Nat) (len : Nat) (value : Res (List Nat)) : Res (Hat × (Nat → BSlot)) := do
  let (hat1, slot, cell) ←
    match slots code with
    | .empty => do
      let (h, nb, cell) ← hat_new_array hat buff len
      match nb with
      | some b => pure (h, BSlot.array b, cell)
      | none => pure (h, BSlot.empty, cell)
    | .array child => hat_add_array hat child buff len 1
    | .pail p =>
      if tagged then do
        let (h, p1, cell) ← hat_add_pail hat p buff len
        pure (h, BSlot.pail p1, cell)
      else .fault
  let slot ←
    if hat.aux ≠ 0 then do
      let v ← value
      poke_slot slot buff len cell v
    else pure slot
  pure (hat1, setSlot slots code slot)

/-- The `while` loop of `hat_burst_array`. -/
def hat_burst_array_loop : Nat → Hat → HatBase → HatBucket → Nat → Nat → Res (Hat × HatBucket)
  | 0, _, _, _, _, _ => .nofuel
  | f + 1, hat, base, bucket, tst, cnt =>
    if tst < base.nxt then do
      let len ← rd base.keys tst
      let tst := (tst + 1) % U16
      let (len, tst) ←
        if len > 0x7f then do
          let hi ← rd base.keys tst
          pure (((len &&& 0x7f) + (hi <<< 7)) % U16, (tst + 1) % U16)
        else (pure (len, tst) : Res (Nat × Nat))
      let code := (← hat_code (base.keys.drop tst) len) % HatBucketSlots
      let (hat1, slots) ← burst_store false hat bucket.slots code (base.keys.drop tst) len
        (aux_read base cnt hat.aux)
      hat_burst_array_loop f hat1 base
        { bucket with count := (bucket.count + 1) % U32, slots := slots }
        ((tst + len) % U16) ((cnt + 1) % U16)
    else pure (hat, bucket)

/-- Model of `hat_burst_array (hat, parent)`: `slot` is the content of `*parent`,
which the function reads as an array node; the result is the bucket node it
stores there. -/
def hat_burst_array (hat : Hat) (slot : BSlot) : Res (Hat × HatBucket) :=
  match slot with
  | .array base => do
    let (hat1, addr) ← hat_alloc hat HAT_bucket
    let (hat2, bucket) ← hat_burst_array_loop U16 hat1 base
      { addr := addr, count := 0, slots := fun _ => .empty } 0 0
    pure (hat_free hat2 base.addr base.type, bucket)
  | _ => .fault

/-- The `while` loop of `hat_burst_pail` over the records of one array node. -/
def hat_burst_pail_loop : Nat → Hat → HatBase → HatBucket → Nat → Nat → Res (Hat × HatBucket)
  | 0, _, _, _, _, _ => .nofuel
  | f + 1, hat, base, bucket, tst, cnt =>
    if tst < base.nxt then do
      let len ← rd base.keys tst
      let tst := (tst + 1) % U16
      let (len, tst) ←
        if len &&& 0x80 ≠ 0 then do
          let hi ← rd base.keys tst
          pure (((len &&& 0x7f) + hi) % U16, (tst + 1) % U16)
        else (pure (len, tst) : Res (Nat × Nat))
      let code := (← hat_code (base.keys.drop tst) len) % HatBucketSlots
      let (hat1, slots) ← burst_store true hat bucket.slots code (base.keys.drop tst) len
        (aux_read base cnt hat.aux)
      hat_burst_pail_loop f hat1 base
        { bucket with count := (bucket.count + 1) % U32, slots := slots }
        ((tst + len) % U16) ((cnt + 1) % U16)
    else pure (hat, bucket)

/-- The `for` loop of `hat_burst_pail` over the slots of the pail; `n` slots
remain, the current one is `HatPailMax - n`. -/
def hat_burst_pail_slots : Nat → Hat → HatPail → HatBucket → Res (Hat × HatBucket)
  | 0, hat, _, bucket => .ok (hat, bucket)
  | n + 1, hat, pail, bucket =>
    match pail.array (HatPailMax - (n + 1)) with
    | none => hat_burst_pail_slots n hat pail bucket
    | some base => do
      let (hat1, bucket1) ← hat_burst_pail_loop U16 hat base bucket 0 0
      hat_burst_pail_slots n (hat_free hat1 base.addr base.type) pail bucket1

/-- Model of `hat_burst_pail`: the bucket node stored in the slot of the pail. -/
def hat_burst_pail (hat : Hat) (pail : HatPail) : Res (Hat × HatBucket) := do
  let (hat1, addr) ← hat_alloc hat HAT_bucket
  let (hat2, bucket) ← hat_burst_pail_slots HatPailMax hat1 pail
    { addr := addr, count := 0, slots := fun _ => .empty }
  pure (hat_free hat2 pail.addr HAT_pail, bucket)

/-! ## Bucket engine -/

/-- Model of `hat_add_bucket`: the bucket after the call and the returned flag. -/
def hat_add_bucket (hat : Hat) (bucket : HatBucket) (buff : List Nat) (amt : Nat)
    (value : Res (List Nat)) : Res (Hat × HatBucket × Nat) := do
  let code := (← hat_code buff amt) % HatBucketSlots
  let bucket1 := { bucket with count := (bucket.count + 1) % U32 }
  if bucket.count < HatBucketMax then
    match bucket.slots code with
    | .empty => do
      let (hat1, nb, cell) ← hat_new_array hat buff amt
      let slot : BSlot := match nb with
        | some b => .array b
        | none => .empty
      let slot ← if hat.aux ≠ 0 then do
          let v ← value
          poke_slot slot buff amt cell v
        else pure slot
      pure (hat1, { bucket1 with slots := setSlot bucket1.slots code slot }, 1)
    | .array base => do
      let (hat1, slot, cell) ← hat_add_array hat base buff amt 1
      if cell ≠ 0 then do
        let slot ← if hat.aux ≠ 0 then do
            let v ← value
            poke_slot slot buff amt cell v
          else pure slot
        pure (hat1, { bucket1 with slots := setSlot bucket1.slots code slot }, 1)
      else pure (hat1, { bucket1 with slots := setSlot bucket1.slots code slot }, 0)
    | .pail p => do
      let (hat1, p1, cell) ← hat_add_pail hat p buff amt
      if cell ≠ 0 then do
        let slot ← if hat.aux ≠ 0 then do
            let v ← value
            poke_slot (.pail p1) buff amt cell v
          else pure (.pail p1)
        pure (hat1, { bucket1 with slots := setSlot bucket1.slots code slot }, 1)
      else pure (hat1, { bucket1 with slots := setSlot bucket1.slots code (.pail p1) }, 0)
  else pure (hat, bucket1, 0)

/-! ## Bursting a bucket into a radix node -/

/-- The `while` loop of `hat_burst_bucket` over the records of one array node;
`add` is the call of `hat_add_radix`. -/
def hat_burst_bucket_loop
    (add : Hat → (Nat → HatNode) → List Nat → Nat → Res (List Nat) → Res (Hat × (Nat → HatNode))) :
    Nat → Hat → HatBase → (Nat → HatNode) → Nat → Nat → Res (Hat × (Nat → HatNode))
  | 0, _, _, _, _, _ => .nofuel
  | f + 1, hat, base, radix, tst, cnt =>
    if tst < base.nxt then do
      let len ← rd base.keys tst
      let tst := (tst + 1) % U16
      let (len, tst) ←
        if len > 0x7f then do
          let hi ← rd base.keys tst
          pure (((len &&& 0x7f) + (hi <<< 7)) % U8, (tst + 1) % U16)
        else (pure (len, tst) : Res (Nat × Nat))
      let (hat1, radix1) ← add hat radix (base.keys.drop tst) len (aux_read base cnt hat.aux)
      hat_burst_bucket_loop add f hat1 base radix1 ((tst + len) % U16) ((cnt + 1) % U16)
    else pure (hat, radix)

/-- The `for` loop of `hat_burst_bucket` over the slots of a pail; `n` slots
remain. -/
def hat_burst_bucket_pail
    (add : Hat → (Nat → HatNode) → List Nat → Nat → Res (List Nat) → Res (Hat × (Nat → HatNode))) :
    Nat → Hat → HatPail → (Nat → HatNode) → Res (Hat × (Nat → HatNode))
  | 0, hat, _, radix => .ok (hat, radix)
  | n + 1, hat, pail, radix =>
    match pail.array (HatPailMax - (n + 1)) with
    | none => hat_burst_bucket_pail add n hat pail radix
    | some base => do
      let (hat1, radix1) ← hat_burst_bucket_loop add U16 hat base radix 0 0
      hat_burst_bucket_pail add n (hat_free hat1 base.addr base.type) pail radix1

/-- The `for` loop of `hat_burst_bucket` over the slots of the bucket; `n` slots
remain. -/
def hat_burst_bucket_slots
    (add : Hat → (Nat → HatNode) → List Nat → Nat → Res (List Nat) → Res (Hat × (Nat → HatNode))) :
    Nat → Hat → HatBucket → (Nat → HatNode) → Res (Hat × (Nat → HatNode))
  | 0, hat, _, radix => .ok (hat, radix)
  | n + 1, hat, bucket, radix =>
    match bucket.slots (HatBucketSlots - (n + 1)) with
    | .empty => hat_burst_bucket_slots add n hat bucket radix
    | .array base => do
      let (hat1, radix1) ← hat_burst_bucket_loop add U16 hat base radix 0 0
      hat_burst_bucket_slots add n (hat_free hat1 base.addr base.type) bucket radix1
    | .pail pail => do
      let (hat1, radix1) ← hat_burst_bucket_pail add HatPailMax hat pail radix
      hat_burst_bucket_slots add n (hat_free hat1 pail.addr HAT_pail) bucket radix1

/-- Store of the aux bytes behind `cell` in a node returned for a radix slot. -/
def poke_node (hat : Hat) (slot : BSlot) (buff : List Nat) (amt : Nat) (cell : Nat)
    (value : Res (List Nat)) : Res HatNode :=
  if hat.aux ≠ 0 then do
    let v ← value
    let s ← poke_slot slot buff amt cell v
    pure s.toNode
  else pure slot.toNode

mutual

/-- Model of `hat_add_radix`; the first argument bounds the depth of the
recursion through `hat_burst_bucket`. -/
def hat_add_radix : Nat → Hat → (Nat → HatNode) → List Nat → Nat → Res (List Nat) →
    Res (Hat × (Nat → HatNode))
  | 0, _, _, _, _, _ => .nofuel
  | f + 1, hat, radix, buff, max, value => do
    let ch ← if max ≠ 0 then rd buff 0 else pure 0
    if ch ≥ 128 then .fault
    else
      match radix ch with
      | .empty => do
        let amt := if max ≠ 0 then max - 1 else 0
        let (hat1, nb, cell) ← hat_new_array hat (buff.drop 1) amt
        let slot : BSlot := match nb with
          | some b => .array b
          | none => .empty
        let node ← poke_node hat slot (buff.drop 1) amt cell value
        pure (hat1, setSlot radix ch node)
      | _ => hat_add_radix_loop f hat radix ch buff max value

/-- The `do ... while (1)` loop of `hat_add_radix`. -/
def hat_add_radix_loop : Nat → Hat → (Nat → HatNode) → Nat → List Nat → Nat → Res (List Nat) →
    Res (Hat × (Nat → HatNode))
  | 0, _, _, _, _, _, _ => .nofuel
  | f + 1, hat, radix, ch, buff, max, value =>
    match radix ch with
    | .empty => .fault
    | .bucket bucket => do
      let (hat1, bucket1, ok) ← hat_add_bucket hat bucket (buff.drop 1) ((max + U32 - 1) % U32) value
      if ok ≠ 0 then pure (hat1, setSlot radix ch (.bucket bucket1))
      else do
        let (hat2, node) ← hat_burst_bucket f hat1 bucket1
        hat_add_radix_loop f hat2 (setSlot radix ch node) ch buff max value
    | .radix addr table => do
      let (hat1, table1) ← hat_add_radix f hat table (buff.drop 1) ((max + U32 - 1) % U32) value
      pure (hat1, setSlot radix ch (.radix addr table1))
    | .array base => do
      let (hat1, slot, cell) ← hat_add_array hat base (buff.drop 1) ((max + U32 - 1) % U32) 1
      if cell ≠ 0 then do
        let node ← poke_node hat slot (buff.drop 1) ((max + U32 - 1) % U32) cell value
        pure (hat1, setSlot radix ch node)
      else do
        let (hat2, bucket) ← hat_burst_array hat1 slot
        hat_add_radix_loop f hat2 (setSlot radix ch (.bucket bucket)) ch buff max value
    | .pail pail => do
      let (hat1, pail1, cell) ← hat_add_pail hat pail (buff.drop 1) ((max + U32 - 1) % U32)
      if cell ≠ 0 then do
        let node ← poke_node hat (.pail pail1) (buff.drop 1) ((max + U32 - 1) % U32) cell value
        pure (hat1, setSlot radix ch node)
      else do
        let (hat2, bucket) ← hat_burst_pail hat1 pail1
        hat_add_radix_loop f hat2 (setSlot radix ch (.bucket bucket)) ch buff max value

/-- Model of `hat_burst_bucket`: the radix node stored in the slot of the bucket. -/
def hat_burst_bucket : Nat → Hat → HatBucket → Res (Hat × HatNode)
  | 0, _, _ => .nofuel
  | f + 1, hat, bucket => do
    let (hat1, addr) ← hat_alloc hat HAT_radix
    let (hat2, radix) ← hat_burst_bucket_slots (hat_add_radix f) HatBucketSlots hat1 bucket
      (fun _ => .empty)
    pure (hat_free hat2 bucket.addr HAT_bucket, .radix addr radix)

end

/-! ## The descent of `hat_find` and `hat_cell` -/

/-- The loop at the head of `hat_find`, `hat_cell`: the index into the root made
of the first `bootlvl` key bytes, and the offset reached. `n` levels remain. -/
def triple_loop : Nat → List Nat → Nat → Nat → Nat → Res (Nat × Nat)
  | 0, _, _, triple, off => .ok (triple, off)
  | n + 1, buff, max, triple, off =>
    if off < max then do
      let b ← rd buff off
      triple_loop n buff max ((triple * 128 + b) % U32) (off + 1)
    else triple_loop n buff max ((triple * 128) % U32) off

/-- The record scan of the `HAT_array` and `HAT_pail` cases of `hat_find` and
`hat_cell` (`find slot == key`): `some p` when the loop returns the address `p`,
`none` when it runs to the end of the records. -/
def scan_array : Nat → Hat → HatBase → List Nat → Nat → Nat → Nat → Nat → Res (Option Nat)
  | 0, _, _, _, _, _, _, _ => .nofuel
  | f + 1, hat, base, buff, max, off, tst, cnt =>
    if tst < base.nxt then do
      let len ← rd base.keys tst
      let tst := (tst + 1) % U16
      let (len, tst) ←
        if len > 0x7f then do
          let hi ← rd base.keys tst
          pure ((len + (hi <<< 7)) % U32, (tst + 1) % U16)
        else (pure (len, tst) : Res (Nat × Nat))
      let same ←
        if len = (max + U32 - off) % U32 then do
          let r ← keycmp (base.keys.drop tst) (buff.drop off) len
          pure (decide (r = 0))
        else pure false
      if same then
        if hat.aux ≠ 0 then do
          let size ← HatSize base.type
          pure (some (slot_ptr base.addr size (((cnt + 1) * hat.aux) % U32)))
        else pure (some 1)
      else scan_array f hat base buff max off ((tst + len) % U16) ((cnt + 1) % U16)
    else pure none

/-- The `HAT_pail` case of `hat_find`, followed by the scan of the array it selects. -/
def hat_find_pail (hat : Hat) (pail : HatPail) (buff : List Nat) (max off : Nat) :
    Res (Option Nat) := do
  let code := (← hat_code (buff.drop off) ((max + U32 - off) % U32)) % HatPailMax
  match pail.array code with
  | some base => scan_array U16 hat base buff max off 0 0
  | none => pure none

/-- The `while (next)` loop of `hat_find`: `some p` when the record scan returns
the address `p`, `none` when the function ends in `return NULL`. -/
def hat_find_node : HatNode → Hat → List Nat → Nat → Nat → Res (Option Nat)
  | .empty, _, _, _, _ => .ok none
  | .array base, hat, buff, max, off => scan_array U16 hat base buff max off 0 0
  | .pail pail, hat, buff, max, off => hat_find_pail hat pail buff max off
  | .bucket bucket, hat, buff, max, off => do
    let code := (← hat_code (buff.drop off) ((max + U32 - off) % U32)) % HatBucketSlots
    match bucket.slots code with
    | .empty => pure none
    | .array base => scan_array U16 hat base buff max off 0 0
    | .pail pail => hat_find_pail hat pail buff max off
  | .radix _ table, hat, buff, max, off =>
    if off < max then
      match rd buff off with
      | .ok ch => if ch ≥ 128 then .fault else hat_find_node (table ch) hat buff max (off + 1)
      | .fault => .fault
      | .nofuel => .nofuel
    else hat_find_node (table 0) hat buff max off

/-- The descent of `hat_find (hat, buff, max)` from the root. -/
def hat_find_slot (hat : Hat) (buff : List Nat) (max : Nat) : Res (Option Nat) := do
  let (triple, off) ← triple_loop hat.bootlvl buff max 0 0
  if triple < hat.nroot then hat_find_node (hat.root triple) hat buff max off
  else .fault

/-- Model of `hat_find (hat, buff, max)`: the returned address, 0 for NULL. -/
def hat_find (hat : Hat) (buff : List Nat) (max : Nat) : Res Nat := do
  match ← hat_find_slot hat buff max with
  | some p => pure p
  | none => pure 0

/-- The value `hat_cell` returns after a successful store: the address when
`hat->aux` is non-zero, `(void *)0` otherwise. -/
def cell_ret (hat : Hat) (cell : Nat) : Nat := if hat.aux ≠ 0 then cell else 0

/-- The part of the loop of `hat_cell` that runs below a bucket (`parent` set):
`bucket` is the node behind `parent`, `code` the slot `next` points at.  The
result is `Sum.inl` with the bucket and the returned value when `hat_cell`
returns, `Sum.inr` with the bucket as it is handed to `hat_burst_bucket`. -/
def hat_cell_bucket (hat : Hat) (bucket : HatBucket) (code : Nat) (buff : List Nat)
    (max off : Nat) : Res (Hat × (HatBucket × Nat ⊕ HatBucket)) := do
  let amt := (max + U32 - off) % U32
  let bucket1 := { bucket with count := (bucket.count + 1) % U32 }
  match bucket.slots code with
  | .empty =>
    if bucket.count < HatBucketMax then do
      let (hat1, nb, cell) ← hat_new_array hat (buff.drop off) amt
      let slot : BSlot := match nb with
        | some b => .array b
        | none => .empty
      let bucket2 := { bucket1 with slots := setSlot bucket1.slots code slot }
      if cell ≠ 0 then pure (hat1, .inl (bucket2, cell_ret hat cell))
      else pure (hat1, .inr bucket2)
    else do
      let (hat1, nb, cell) ← hat_new_array hat (buff.drop off) amt
      let slot : BSlot := match nb with
        | some b => .array b
        | none => .empty
      pure (hat1, .inl ({ bucket1 with slots := setSlot bucket1.slots code slot }, cell_ret hat cell))
  | .array base => do
    match ← scan_array U16 hat base buff max off 0 0 with
    | some p => pure (hat, .inl (bucket, p))
    | none =>
      if bucket.count < HatBucketMax then do
        let (hat1, slot, cell) ← hat_add_array hat base (buff.drop off) amt 1
        let bucket2 := { bucket1 with slots := setSlot bucket1.slots code slot }
        if cell ≠ 0 then pure (hat1, .inl (bucket2, cell_ret hat cell))
        else pure (hat1, .inr bucket2)
      else pure (hat, .inr bucket1)
  | .pail pail => do
    let pcode := (← hat_code (buff.drop off) amt) % HatPailMax
    let hit ← match pail.array pcode with
      | some base => scan_array U16 hat base buff max off 0 0
      | none => pure none
    match hit with
    | some p => pure (hat, .inl (bucket, p))
    | none =>
      if bucket.count < HatBucketMax then do
        let (hat1, pail1, cell) ← hat_add_pail hat pail (buff.drop off) amt
        let bucket2 := { bucket1 with slots := setSlot bucket1.slots code (.pail pail1) }
        if cell ≠ 0 then pure (hat1, .inl (bucket2, cell_ret hat cell))
        else pure (hat1, .inr bucket2)
      else pure (hat, .inr bucket1)

/-- The loop of `hat_cell` from a slot reached with `parent` NULL: `node` is the
content of `*next`; the result holds the new content of that slot and the value
`hat_cell` returns.  Every pass of the loop takes one unit of the bound. -/
def hat_cell_loop : Nat → Hat → HatNode → List Nat → Nat → Nat → Res (Hat × HatNode × Nat)
  | 0, _, _, _, _, _ => .nofuel
  | f + 1, hat, node, buff, max, off =>
    let amt := (max + U32 - off) % U32
    match node with
    | .empty => do
      let (hat1, nb, cell) ← hat_new_array hat (buff.drop off) amt
      let node1 : HatNode := match nb with
        | some b => .array b
        | none => .empty
      pure (hat1, node1, cell_ret hat cell)
    | .array base => do
      match ← scan_array U16 hat base buff max off 0 0 with
      | some p => pure (hat, node, p)
      | none => do
        let (hat1, slot, cell) ← hat_add_array hat base (buff.drop off) amt 1
        if cell ≠ 0 then pure (hat1, slot.toNode, cell_ret hat cell)
        else do
          let (hat2, bucket) ← hat_burst_array hat1 slot
          hat_cell_loop f hat2 (.bucket bucket) buff max off
    | .pail pail => do
      let code := (← hat_code (buff.drop off) amt) % HatPailMax
      let hit ← match pail.array code with
        | some base => scan_array U16 hat base buff max off 0 0
        | none => pure none
      match hit with
      | some p => pure (hat, node, p)
      | none => do
        let (hat1, pail1, cell) ← hat_add_pail hat pail (buff.drop off) amt
        if cell ≠ 0 then pure (hat1, .pail pail1, cell_ret hat cell)
        else do
          let (hat2, bucket) ← hat_burst_pail hat1 pail1
          hat_cell_loop f hat2 (.bucket bucket) buff max off
    | .bucket bucket => do
      let code := (← hat_code (buff.drop off) amt) % HatBucketSlots
      match ← hat_cell_bucket hat bucket code buff max off with
      | (hat1, .inl (bucket1, p)) => pure (hat1, .bucket bucket1, p)
      | (hat1, .inr bucket1) => do
        let (hat2, node1) ← hat_burst_bucket f hat1 bucket1
        hat_cell_loop f hat2 node1 buff max off
    | .radix addr table =>
      if off < max then do
        let ch ← rd buff off
        if ch ≥ 128 then .fault
        else do
          let (hat1, child, p) ← hat_cell_loop f hat (table ch) buff max (off + 1)
          pure (hat1, .radix addr (setSlot table ch child), p)
      else do
        let (hat1, child, p) ← hat_cell_loop f hat (table 0) buff max off
        pure (hat1, .radix addr (setSlot table 0 child), p)

/-- Model of `hat_cell (hat, buff, max)`: the hat after the call and the returned
address (0 for NULL).  `fuel` bounds the passes of the loop. -/
def hat_cell (fuel : Nat) (hat : Hat) (buff : List Nat) (max : Nat) : Res (Hat × Nat) := do
  let (triple, off) ← triple_loop hat.bootlvl buff max 0 0
  if triple < hat.nroot then do
    let (hat1, node, p) ← hat_cell_loop fuel hat (hat.root triple) buff max off
    pure ({ hat1 with root := setSlot hat1.root triple node }, p)
  else .fault

/-! ## Opening a hat -/

/-- The loop `size *= 128` of `hat_open`, in `uint` arithmetic. -/
def open_size : Nat → Nat → Nat
  | 0, size => size
  | n + 1, size => open_size n ((size * 128) % U32)

/-- Value of `sizeof(Hat)`: 32 free-list heads, 32 counters, the segment pointer,
`bootlvl` and `aux`. -/
abbrev sizeof_Hat : Nat := 400

/-- Model of `hat_open (boot, aux)`; `malloc` gives the address each request to
`malloc` returns. -/
def hat_open (malloc : Nat → Nat) (boot aux : Nat) : Res Hat := do
  let size := open_size boot HAT_slot_size
  let seg := malloc 0
  if seg = 0 then .fault
  else do
    let round := seg &&& (HAT_cache_line - 1)
    let next := if round ≠ 0 then sizeof_HatSeg + (HAT_cache_line - round) else sizeof_HatSeg
    let hat : Hat :=
      { reuse := fun _ => []
        seg := seg
        next := next
        nseg := 1
        malloc := malloc
        bootlvl := boot % U32
        aux := aux % U32
        nroot := size / HAT_slot_size
        root := fun _ => .empty }
    if boot = 0 then do
      let (hat1, addr) ← hat_alloc hat HAT_bucket
      let bucket : HatBucket := { addr := addr, count := 0, slots := fun _ => .empty }
      pure { hat1 with root := setSlot hat1.root 0 (.bucket bucket) }
    else pure hat

/-! ## Cursor: the sorted array of a leaf -/

/-- An entry of the sorted array (`HatSort`): `key` holds the bytes of the node
block from the address of the record on (the empty list for a NULL pointer),
`slot` the address of the aux area. -/
structure HatSort where
  key : List Nat
  slot : Nat
deriving DecidableEq, Repr

/-- An entry of the zeroed array. -/
def HatSort.zero : HatSort := { key := [], slot := 0 }

/-- Read of `x[i]` where `x` points at entry `lo` of the array; an index before
the array faults, an entry never written is zero. -/
def x_get (keys : List HatSort) (lo : Int) (i : Int) : Res HatSort :=
  if 0 ≤ lo + i then .ok (keys.getD (lo + i).toNat HatSort.zero) else .fault

/-- Write of `x[i]`. -/
def x_set (keys : List HatSort) (lo : Int) (i : Int) (e : HatSort) : Res (List HatSort) :=
  if 0 ≤ lo + i then
    let j := (lo + i).toNat
    if j < keys.length then .ok (keys.set j e)
    else .ok (keys ++ List.replicate (j - keys.length) HatSort.zero ++ [e])
  else .fault

/-- Exchange of `x[i]` and `x[j]` through `swap`. -/
def x_swap (keys : List HatSort) (lo : Int) (i j : Int) : Res (List HatSort) := do
  let a ← x_get keys lo i
  let b ← x_get keys lo j
  let keys ← x_set keys lo i b
  x_set keys lo j a

/-- Model of `vecswap (i, j, n, x)`. -/
def vecswap : Nat → Int → Int → Int → List HatSort → Int → Res (List HatSort)
  | 0, _, _, _, _, _ => .nofuel
  | f + 1, i, j, n, keys, lo =>
    if n ≠ 0 then do
      let keys ← x_swap keys lo i j
      vecswap f (i + 1) (j + 1) (n - 1) keys lo
    else pure keys

/-- The byte of the key of an entry at depth `o`, as `hat_qsort` computes it for
the pivot and for `chb`, `chc`: 0 when the decoded length is not above `o`. -/
def qsort_byte (e : HatSort) (o : Nat) : Res Nat := do
  let len ← rd e.key 0
  let (len, skip) ←
    if len &&& 0x80 ≠ 0 then do
      let k1 ← rd e.key 1
      pure (((len &&& 0x7f) + k1) % U16, 2)
    else (pure (len, 1) : Res (Nat × Nat))
  if len > o then rd e.key (o + skip) else pure 0

/-- First inner loop of the partition of `hat_qsort` (`while( b <= c )` on `chb`). -/
def qsort_up : Nat → List HatSort → Int → Nat → Nat → Int → Int → Int → Res (List HatSort × Int × Int)
  | 0, _, _, _, _, _, _, _ => .nofuel
  | f + 1, keys, lo, o, pivot, a, b, c =>
    if b ≤ c then do
      let chb ← qsort_byte (← x_get keys lo b) o
      if chb > pivot then pure (keys, a, b)
      else if chb = pivot then do
        let keys ← x_swap keys lo a b
        qsort_up f keys lo o pivot (a + 1) (b + 1) c
      else qsort_up f keys lo o pivot a (b + 1) c
    else pure (keys, a, b)

/-- Second inner loop of the partition of `hat_qsort` (`while( b <= c )` on `chc`). -/
def qsort_down : Nat → List HatSort → Int → Nat → Nat → Int → Int → Int → Res (List HatSort × Int × Int)
  | 0, _, _, _, _, _, _, _ => .nofuel
  | f + 1, keys, lo, o, pivot, b, c, d =>
    if b ≤ c then do
      let chc ← qsort_byte (← x_get keys lo c) o
      if chc < pivot then pure (keys, c, d)
      else if chc = pivot then do
        let keys ← x_swap keys lo c d
        qsort_down f keys lo o pivot b (c - 1) (d - 1)
      else qsort_down f keys lo o pivot b (c - 1) d
    else pure (keys, c, d)

/-- The `while( 1 )` loop of the partition of `hat_qsort`; `g` bounds the two
inner loops. -/
def qsort_part (g : Nat) : Nat → List HatSort → Int → Nat → Nat → Int → Int → Int → Int →
    Res (List HatSort × Int × Int × Int × Int)
  | 0, _, _, _, _, _, _, _, _ => .nofuel
  | f + 1, keys, lo, o, pivot, a, b, c, d => do
    let (keys, a, b) ← qsort_up g keys lo o pivot a b c
    let (keys, c, d) ← qsort_down g keys lo o pivot b c d
    if b > c then pure (keys, a, b, c, d)
    else do
      let keys ← x_swap keys lo b c
      qsort_part g f keys lo o pivot a (b + 1) (c - 1) d

/-- The comparison loop of the insertion sort of `hat_qsort`: the difference `d`
of the first pair of bytes that differ from depth `r` on, 0 when there is none
below both lengths. -/
def ins_cmp : Nat → List Nat → List Nat → Nat → Nat → Nat → Nat → Nat → Res Int
  | 0, _, _, _, _, _, _, _ => .nofuel
  | f + 1, key1, key2, skipb, skipc, chb, chc, r =>
    if r < chb ∧ r < chc then do
      let x ← rd key1 (r + skipb)
      let y ← rd key2 (r + skipc)
      if (x : Int) - (y : Int) ≠ 0 then pure ((x : Int) - (y : Int))
      else ins_cmp f key1 key2 skipb skipc chb chc (r + 1)
    else pure 0

/-- The length and the size of the length prefix of a key, as the insertion sort
of `hat_qsort` decodes them into the `uchar` variables `chb`, `chc`. -/
def ins_len (key : List Nat) : Res (Nat × Nat) := do
  let ch ← rd key 0
  if ch &&& 0x80 ≠ 0 then do
    let k1 ← rd key 1
    pure (((ch &&& 0x7f) + k1) % U8, 2)
  else pure (ch, 1)

/-- The `for( b = a; b > 0; b-- )` loop of the insertion sort of `hat_qsort`. -/
def ins_inner : Nat → List HatSort → Int → Nat → Int → Res (List HatSort)
  | 0, _, _, _, _ => .nofuel
  | f + 1, keys, lo, o, b =>
    if b > 0 then do
      let e1 ← x_get keys lo (b - 1)
      let e2 ← x_get keys lo b
      let (chb, skipb) ← ins_len e1.key
      let (chc, skipc) ← ins_len e2.key
      let d ← ins_cmp U8 e1.key e2.key skipb skipc chb chc o
      let keys ← if d > 0 ∨ (d = 0 ∧ chb > chc) then x_swap keys lo b (b - 1) else pure keys
      ins_inner f keys lo o (b - 1)
    else pure keys

/-- The `while( ++a < n )` loop of the insertion sort of `hat_qsort`; `g` bounds
the inner loop. -/
def ins_outer (g : Nat) : Nat → List HatSort → Int → Nat → Int → Int → Res (List HatSort)
  | 0, _, _, _, _, _ => .nofuel
  | f + 1, keys, lo, o, n, a =>
    if a + 1 < n then do
      let keys ← ins_inner g keys lo o (a + 1)
      ins_outer g f keys lo o n (a + 1)
    else pure keys

/-- Model of `hat_qsort (x, n, o)`, `x` pointing at entry `lo` of the array:
`rand` gives the value of each call of `rand ()`, `k` counts the calls made so
far; the result holds the array and the new count.  `f` bounds the passes of the
outer loop and the depth of the recursion, `g` every inner loop. -/
def hat_qsort (rand : Nat → Int) (g : Nat) : Nat → Nat → List HatSort → Int → Int → Nat →
    Res (List HatSort × Nat)
  | 0, _, _, _, _, _ => .nofuel
  | f + 1, k, keys, lo, n, o =>
    if n > 10 then do
      let a := Int.tmod (rand k) n
      let keys ← x_swap keys lo 0 a
      let pivot ← qsort_byte (← x_get keys lo 0) o
      let (keys, a, b, c, d) ← qsort_part g g keys lo o pivot 1 1 (n - 1) (n - 1)
      let r := if a < b - a then a else b - a
      let keys ← vecswap g 0 (b - r) r keys lo
      let r := if d - c < n - d - 1 then d - c else n - d - 1
      let keys ← vecswap g b (n - r) r keys lo
      let (keys, k1) ←
        if d - c ≠ 0 then hat_qsort rand g f (k + 1) keys (lo + n - (d - c)) (d - c) o
        else (pure (keys, k + 1) : Res (List HatSort × Nat))
      let r := b - a
      let (keys, k2) ←
        if r ≠ 0 then hat_qsort rand g f k1 keys lo r o
        else (pure (keys, k1) : Res (List HatSort × Nat))
      let e ← x_get keys lo r
      let len ← rd e.key 0
      let len ←
        if len &&& 0x80 ≠ 0 then do
          let k1 ← rd e.key 1
          pure (((len &&& 0x7f) + k1) % U16)
        else pure len
      if len = o then pure (keys, k2)
      else hat_qsort rand g f k2 keys (lo + r) (n + a - d - 1) ((o + 1) % U8)
    else if n > 1 then do
      let keys ← ins_outer g g keys lo o n 0
      pure (keys, k)
    else pure (keys, k)

/-! ## Cursor -/

/-- The cursor (`HatCursor`).  `next[0]`, the address of the root array, is kept
as the root table itself (`root`, `nroot`); `next` holds the slot words
`next[1..255]`.  `rand` and `nrand` are the values `rand ()` returns and the
number of calls made. -/
structure HatCursor where
  cnt : Int
  idx : Int
  top : Int
  aux : Nat
  rootlvl : Nat
  maxroot : Nat
  rootscan : Nat
  nroot : Nat
  root : Nat → HatNode
  next : Nat → HatNode
  scan : Nat → Nat
  keys : List HatSort
  rand : Nat → Int
  nrand : Nat

/-- The `while` loop of `hat_strip_array`: entry `cnt` is written to `list[cnt]`,
`list` pointing at entry `pos` of the array of the cursor. -/
def hat_strip_array_loop : Nat → Nat → HatBase → Nat → List HatSort → Nat → Nat → Nat →
    Res (List HatSort × Nat)
  | 0, _, _, _, _, _, _, _ => .nofuel
  | f + 1, aux, base, size, keys, pos, tst, cnt =>
    if tst < base.nxt then do
      let keys ← x_set keys pos cnt
        { key := base.keys.drop tst, slot := slot_ptr base.addr size ((cnt + 1) * aux) }
      let len ← rd base.keys tst
      let tst := (tst + 1) % U16
      let (len, tst) ←
        if len &&& 0x80 ≠ 0 then do
          let hi ← rd base.keys tst
          pure (((len &&& 0x7f) + (hi <<< 7)) % U16, (tst + 1) % U16)
        else (pure (len, tst) : Res (Nat × Nat))
      hat_strip_array_loop f aux base size keys pos ((tst + len) % U16) ((cnt + 1) % U16)
    else pure (keys, cnt)

/-- Model of `hat_strip_array (cursor, node, list)`: the array and the count. -/
def hat_strip_array (aux : Nat) (base : HatBase) (keys : List HatSort) (pos : Nat) :
    Res (List HatSort × Nat) := do
  let size ← HatSize base.type
  hat_strip_array_loop U16 aux base size keys pos 0 0

/-- The `for` loop of `hat_strip_pail`; `n` slots remain.  Every array node is
stripped to the same `list`. -/
def hat_strip_pail_loop : Nat → Nat → HatPail → List HatSort → Nat → Nat →
    Res (List HatSort × Nat)
  | 0, _, _, keys, _, total => .ok (keys, total)
  | n + 1, aux, pail, keys, pos, total =>
    match pail.array (HatPailMax - (n + 1)) with
    | some base => do
      let (keys, cnt) ← hat_strip_array aux base keys pos
      hat_strip_pail_loop n aux pail keys pos ((total + cnt) % U32)
    | none => hat_strip_pail_loop n aux pail keys pos total

/-- Model of `hat_strip_pail (cursor, node, list)`. -/
def hat_strip_pail (aux : Nat) (pail : HatPail) (keys : List HatSort) (pos : Nat) :
    Res (List HatSort × Nat) :=
  hat_strip_pail_loop HatPailMax aux pail keys pos 0

/-- The `for` loop of the `HAT_bucket` case of `hat_sort`; `n` slots remain. -/
def hat_sort_bucket : Nat → Nat → HatBucket → List HatSort → Nat → Res (List HatSort × Nat)
  | 0, _, _, keys, cnt => .ok (keys, cnt)
  | n + 1, aux, bucket, keys, cnt =>
    match bucket.slots (HatBucketSlots - (n + 1)) with
    | .empty => hat_sort_bucket n aux bucket keys cnt
    | .array base => do
      let (keys, c) ← hat_strip_array aux base keys cnt
      hat_sort_bucket n aux bucket keys (cnt + c)
    | .pail pail => do
      let (keys, c) ← hat_strip_pail aux pail keys cnt
      hat_sort_bucket n aux bucket keys (cnt + c)

/-- Model of `hat_sort (cursor)`; `node` is `cursor->next[cursor->top]`.  The
inner loops of the sort get the bound `2 * cnt + 16`, its outer loop, which
goes one byte deeper with each pass, 256 more. -/
def hat_sort (cursor : HatCursor) (node : HatNode) : Res HatCursor := do
  let (keys, cnt) ←
    match node with
    | .array base => do
      let (keys, c) ← hat_strip_array cursor.aux base cursor.keys 0
      pure (keys, (c : Int))
    | .pail pail => do
      let (keys, c) ← hat_strip_pail cursor.aux pail cursor.keys 0
      pure (keys, (c : Int))
    | .bucket bucket => do
      let (keys, c) ← hat_sort_bucket HatBucketSlots cursor.aux bucket cursor.keys 0
      pure (keys, (c : Int))
    | _ => (pure (cursor.keys, cursor.cnt) : Res (List HatSort × Int))
  let g := 2 * cnt.toNat + 16
  let (keys, k) ← hat_qsort cursor.rand g (g + 256) cursor.nrand keys 0 cnt 0
  pure { cursor with keys := keys, cnt := cnt, nrand := k }

/-- Model of `hat_cursor (hat)`; `rand` gives the values `rand ()` will return. -/
def hat_cursor (hat : Hat) (rand : Nat → Int) : HatCursor :=
  { cnt := 0, idx := 0, top := 0, aux := hat.aux % U16, rootlvl := hat.bootlvl,
    maxroot := open_size hat.bootlvl 1, rootscan := 0, nroot := hat.nroot, root := hat.root,
    next := fun _ => .empty, scan := fun _ => 0, keys := [], rand := rand, nrand := 0 }

/-- Push of a slot word: `cursor->next[++cursor->top] = node`. -/
def cursor_push (cursor : HatCursor) (node : HatNode) : Res HatCursor :=
  if 0 ≤ cursor.top + 1 ∧ cursor.top + 1 < 256 then
    .ok { cursor with top := cursor.top + 1, next := setSlot cursor.next (cursor.top + 1).toNat node }
  else .fault

/-- The slot word `cursor->next[cursor->top]` for a `top` above 0. -/
def cursor_node (cursor : HatCursor) : Res HatNode :=
  if 0 < cursor.top ∧ cursor.top < 256 then .ok (cursor.next cursor.top.toNat) else .fault

/-- The table `cursor->next[cursor->top] & HAT_mask` that `hat_nxt` and `hat_prv`
scan, with the number of its slots: the root array at `top` 0, a radix node above. -/
def cursor_table (cursor : HatCursor) : Res ((Nat → HatNode) × Nat) :=
  if cursor.top = 0 then .ok (cursor.root, cursor.nroot)
  else do
    match ← cursor_node cursor with
    | .radix _ table => pure (table, 128)
    | _ => .fault

/-- First index `i` with `idx ≤ i < idx + n` and `radix[i]` occupied. -/
def scan_up (radix : Nat → HatNode) : Nat → Nat → Option Nat
  | 0, _ => none
  | n + 1, idx =>
    match radix idx with
    | .empty => scan_up radix n (idx + 1)
    | _ => some idx

/-- Last index `i < n` with `radix[i]` occupied. -/
def scan_down (radix : Nat → HatNode) : Nat → Option Nat
  | 0 => none
  | n + 1 =>
    match radix n with
    | .empty => scan_down radix n
    | _ => some n

/-- The code at label `loop` of `hat_nxt` and of `hat_start`'s callee: while the
top of the stack is a radix node its first occupied slot is pushed. -/
def descend_first : Nat → HatCursor → Res HatCursor
  | 0, _ => .nofuel
  | f + 1, cursor => do
    match ← cursor_node cursor with
    | .radix _ table =>
      match scan_up table 128 0 with
      | some ch => do
        let c1 := { cursor with scan := setSlot cursor.scan cursor.top.toNat ch }
        descend_first f (← cursor_push c1 (table ch))
      | none => pure cursor
    | _ => pure cursor

/-- The code at label `loop` of `hat_prv` and `hat_last`: while the top of the
stack is a radix node its last occupied slot is pushed. -/
def descend_last : Nat → HatCursor → Res HatCursor
  | 0, _ => .nofuel
  | f + 1, cursor => do
    match ← cursor_node cursor with
    | .radix _ table =>
      match scan_down table 128 with
      | some ch => do
        let c1 := { cursor with scan := setSlot cursor.scan cursor.top.toNat ch }
        descend_last f (← cursor_push c1 (table ch))
      | none => pure cursor
    | _ => pure cursor

/-- Store of the scan index of the current level: `scan[top]` above the root,
`rootscan` at the root. -/
def cursor_set_scan (cursor : HatCursor) (idx : Nat) : HatCursor :=
  if cursor.top ≠ 0 then { cursor with scan := setSlot cursor.scan cursor.top.toNat (idx % U8) }
  else { cursor with rootscan := idx }

/-- The `while( --cursor->top >= 0 )` loop of `hat_nxt`. -/
def hat_nxt_loop : Nat → HatCursor → Res (HatCursor × Nat)
  | 0, _ => .nofuel
  | f + 1, cursor =>
    let c0 := { cursor with top := cursor.top - 1 }
    if c0.top ≥ 0 then do
      let (radix, tsize) ← cursor_table c0
      let max := if c0.top = 0 then c0.maxroot else 128
      let idx := if c0.top ≠ 0 then c0.scan c0.top.toNat else c0.rootscan
      if max > tsize then .fault
      else
        match scan_up radix (max - (idx + 1)) (idx + 1) with
        | some i => do
          let c1 ← cursor_push (cursor_set_scan c0 i) (radix i)
          let c2 ← descend_first 256 c1
          let c3 ← hat_sort c2 (← cursor_node c2)
          pure ({ c3 with idx := 0 }, 1)
        | none => hat_nxt_loop f c0
    else pure (c0, 0)

/-- Model of `hat_nxt (cursor)`: the cursor and the returned flag. -/
def hat_nxt (cursor : HatCursor) : Res (HatCursor × Nat) :=
  let c0 := { cursor with idx := cursor.idx + 1 }
  if c0.idx < c0.cnt then .ok (c0, 1)
  else hat_nxt_loop 300 c0

/-- The `while( --cursor->top >= 0 )` loop of `hat_prv`. -/
def hat_prv_loop : Nat → HatCursor → Res (HatCursor × Nat)
  | 0, _ => .nofuel
  | f + 1, cursor =>
    let c0 := { cursor with top := cursor.top - 1 }
    if c0.top ≥ 0 then do
      let (radix, tsize) ← cursor_table c0
      let idx := if c0.top ≠ 0 then c0.scan c0.top.toNat else c0.rootscan
      if idx > tsize then .fault
      else
        match scan_down radix idx with
        | some i => do
          let c1 ← cursor_push (cursor_set_scan c0 i) (radix i)
          let c2 ← descend_last 256 c1
          let c3 ← hat_sort c2 (← cursor_node c2)
          pure ({ c3 with idx := c3.cnt - 1 }, 1)
        | none => hat_prv_loop f c0
    else pure (c0, 0)

/-- Model of `hat_prv (cursor)`: the cursor and the returned flag. -/
def hat_prv (cursor : HatCursor) : Res (HatCursor × Nat) :=
  if cursor.idx ≠ 0 then .ok ({ cursor with idx := cursor.idx - 1 }, 1)
  else hat_prv_loop 300 cursor

/-- Model of `hat_last (cursor)`: the cursor and the returned flag. -/
def hat_last (cursor : HatCursor) : Res (HatCursor × Nat) :=
  let c0 := { cursor with rootscan := cursor.maxroot, top := 0 }
  if c0.maxroot > c0.nroot then .fault
  else
    match scan_down c0.root c0.maxroot with
    | none => .ok ({ c0 with rootscan := 0 }, 0)
    | some i => do
      let c1 ← cursor_push { c0 with rootscan := i } (c0.root i)
      let c2 ← descend_last 256 c1
      let c3 ← hat_sort c2 (← cursor_node c2)
      pure ({ c3 with idx := c3.cnt - 1 }, 1)

/-- Model of `memcmp (a, b, n) != 0`. -/
def memcmp_ne (a b : List Nat) (n : Nat) : Res Bool :=
  if n ≤ a.length ∧ n ≤ b.length then .ok (decide (a.take n ≠ b.take n)) else .fault

/-- The `for` loop of `hat_greater`: `some idx` when it returns 1 at `idx`,
`none` when it runs to `cursor->cnt`. -/
def hat_greater_loop : Nat → List HatSort → Int → List Nat → Nat → Int → Res (Option Int)
  | 0, _, _, _, _, _ => .nofuel
  | f + 1, keys, cnt, buff, max, idx =>
    if idx < cnt then do
      let e ← x_get keys 0 idx
      let len ← rd e.key 0
      if ← memcmp_ne (e.key.drop 1) buff (if len > max then max else len) then
        hat_greater_loop f keys cnt buff max (idx + 1)
      else if len ≥ max then pure (some idx)
      else hat_greater_loop f keys cnt buff max (idx + 1)
    else pure none

/-- Model of `hat_greater (cursor, buff, max)`. -/
def hat_greater (cursor : HatCursor) (buff : List Nat) (max : Nat) : Res (HatCursor × Nat) := do
  match ← hat_greater_loop (cursor.cnt.toNat + 1) cursor.keys cursor.cnt buff max 0 with
  | some idx => pure ({ cursor with idx := idx }, 1)
  | none => hat_nxt { cursor with idx := if cursor.cnt > 0 then cursor.cnt else 0 }

/-- The value `hat_start` returns for the flag of `hat_nxt` or `hat_greater`:
the cursor, or NULL after `free (cursor)`. -/
def start_ret (r : HatCursor × Nat) : Option HatCursor :=
  if r.2 ≠ 0 then some r.1 else none

/-- The code of `hat_start` from label `loop` on. -/
def hat_start_loop : Nat → HatCursor → List Nat → Nat → Nat → Res (Option HatCursor)
  | 0, _, _, _, _ => .nofuel
  | f + 1, cursor, buff, max, off => do
    match ← cursor_node cursor with
    | .radix _ radix => do
      let (ch, off1) ←
        if max > off then do
          let b ← rd buff off
          pure (b, off + 1)
        else (pure (0, off) : Res (Nat × Nat))
      if ch < 128 then
        match radix ch with
        | .empty =>
          match scan_up radix (128 - (ch + 1)) (ch + 1) with
          | some i => do
            let c1 := { cursor with scan := setSlot cursor.scan cursor.top.toNat i }
            hat_start_loop f (← cursor_push c1 (radix i)) buff 0 off1
          | none => do
            let r ← hat_nxt cursor
            pure (start_ret r)
        | node => do
          let c1 := { cursor with scan := setSlot cursor.scan cursor.top.toNat ch }
          hat_start_loop f (← cursor_push c1 node) buff max off1
      else do
        let r ← hat_nxt cursor
        pure (start_ret r)
    | node => do
      let c1 ← hat_sort cursor node
      let r ← hat_greater { c1 with idx := 0 } (buff.drop off) ((max + U32 - off) % U32)
      pure (start_ret r)

/-- The `for` loop at the head of `hat_start` that forms `cursor->rootscan`;
`n` levels remain. -/
def start_rootscan : Nat → List Nat → Nat → Nat → Nat → Res (Nat × Nat)
  | 0, _, _, rootscan, off => .ok (rootscan, off)
  | n + 1, buff, max, rootscan, off =>
    if off < max then do
      let b ← rd buff off
      start_rootscan n buff max ((rootscan * 128 + b) % U32) (off + 1)
    else start_rootscan n buff max ((rootscan * 128) % U32) off

/-- Model of `hat_start (cursor, buff, max)`: the positioned cursor, or `none`
for NULL. -/
def hat_start (cursor : HatCursor) (buff : List Nat) (max : Nat) : Res (Option HatCursor) := do
  let max := if max > 255 then 255 else max
  let (rootscan, off) ← start_rootscan cursor.rootlvl buff max cursor.rootscan 0
  let c0 := { cursor with rootscan := rootscan, top := 0 }
  if rootscan < c0.nroot then
    match c0.root rootscan with
    | .empty => do
      let r ← hat_nxt { c0 with top := 1 }
      pure (start_ret r)
    | node => do
      let c1 ← cursor_push c0 node
      hat_start_loop 300 c1 buff max off
  else .fault

/-- Model of `hat_slot (cursor)`. -/
def hat_slot (cursor : HatCursor) : Res Nat := do
  let e ← x_get cursor.keys 0 cursor.idx
  pure e.slot

/-- The inner `for` loop of `hat_key` over the digits of `rootscan`; `scan`
digits remain. -/
def hat_key_root : Nat → Nat → List Nat → Nat → Nat → Res (List Nat × Nat)
  | 0, _, buff, _, off => .ok (buff, off)
  | scan + 1, rootscan, buff, max, off =>
    let ch := (rootscan >>> (scan * 7)) &&& 0x7F
    if ch ≠ 0 ∧ off < max then do
      let buff ← wr buff off ch
      hat_key_root scan rootscan buff max (off + 1)
    else hat_key_root scan rootscan buff max off

/-- The outer `for` loop of `hat_key` from `idx` 1 on: the scan bytes of the
radix levels; `n` levels remain. -/
def hat_key_scan : Nat → HatCursor → Nat → List Nat → Nat → Nat → Res (List Nat × Nat)
  | 0, _, _, buff, _, off => .ok (buff, off)
  | n + 1, cursor, idx, buff, max, off =>
    if off < max ∧ cursor.scan idx % U8 ≠ 0 then do
      let buff ← wr buff off (cursor.scan idx % U8)
      hat_key_scan n cursor (idx + 1) buff max (off + 1)
    else hat_key_scan n cursor (idx + 1) buff max off

/-- The `while( len-- && off < max )` loop of `hat_key`. -/
def hat_key_copy : Nat → List Nat → List Nat → Nat → Nat → Res (List Nat × Nat)
  | 0, _, buff, _, off => .ok (buff, off)
  | len + 1, key, buff, max, off =>
    if off < max then do
      let b ← rd key 0
      let buff ← wr buff off b
      hat_key_copy len (key.drop 1) buff max (off + 1)
    else pure (buff, off)

/-- Model of `hat_key (cursor, buff, max)`: the buffer after the call and the
returned length. -/
def hat_key (cursor : HatCursor) (buff : List Nat) (max : Nat) : Res (List Nat × Nat) := do
  let max := (max + U32 - 1) % U32
  if cursor.top < 0 then
    if max ≠ 0 then do
      let buff ← wr buff 0 0
      pure (buff, 0)
    else pure (buff, 0)
  else do
    let (buff, off) ←
      if 0 < cursor.top then do
        let (buff, off) ← hat_key_root cursor.rootlvl cursor.rootscan buff max 0
        hat_key_scan (cursor.top.toNat - 1) cursor 1 buff max off
      else (pure (buff, 0) : Res (List Nat × Nat))
    let e ← x_get cursor.keys 0 cursor.idx
    let len ← rd e.key 0
    let (buff, off) ← hat_key_copy len (e.key.drop 1) buff max off
    let buff ← wr buff off 0
    pure (buff, off)

/-! ## Runs from a fresh hat -/

/-- The addresses `malloc` returns in the concrete runs below: request `n` gets
the block at `(n + 1) * 2^20`. -/
def malloc_at (n : Nat) : Nat := 1048576 * (n + 1)

/-- A sequence of `hat_cell` calls, one per key of the list and each with `max`
the length of the key: the hat after the last call and the values returned. -/
def hat_cells (fuel : Nat) : Hat → List (List Nat) → Res (Hat × List Nat)
  | hat, [] => .ok (hat, [])
  | hat, key :: keys => do
    let (hat1, p) ← hat_cell fuel hat key key.length
    let (hat2, ps) ← hat_cells fuel hat1 keys
    pure (hat2, p :: ps)

/-- The call `hat_open (boot, aux)` followed by `hat_cell` on every key of `keys`. -/
def run_cells (boot aux : Nat) (keys : List (List Nat)) : Res (Hat × List Nat) := do
  let hat ← hat_open malloc_at boot aux
  hat_cells 64 hat keys

/-- The values the `hat_cell` calls of `run_cells` return, followed by the values
`hat_find` returns afterwards for the keys of `queries`. -/
def run_find (boot aux : Nat) (keys queries : List (List Nat)) : Res (List Nat × List (Res Nat)) := do
  let (hat, ps) ← run_cells boot aux keys
  pure (ps, queries.map fun q => hat_find hat q q.length)

/-- The position `hat_start (cursor, q, |q|)` reaches on a fresh cursor after
`run_cells`: `none` when `hat_start` returns NULL, otherwise the bytes `hat_key`
writes into a buffer of 256 bytes (terminator included) and the length it
returns. -/
def run_start (rand : Nat → Int) (boot aux : Nat) (keys : List (List Nat)) (q : List Nat) :
    Res (Option (List Nat × Nat)) := do
  let (hat, _) ← run_cells boot aux keys
  match ← hat_start (hat_cursor hat rand) q q.length with
  | some cursor => do
    let (buff, n) ← hat_key cursor (List.replicate 256 0) 256
    pure (some (buff.take (n + 1), n))
  | none => pure none

/-- The keys `hat_key` reports at the positions a cursor visits under `hat_nxt`,
up to the call that returns 0. -/
def walk_nxt : Nat → HatCursor → Res (List (List Nat))
  | 0, _ => .nofuel
  | f + 1, cursor => do
    let (buff, n) ← hat_key cursor (List.replicate 256 0) 256
    let (c1, more) ← hat_nxt cursor
    if more ≠ 0 then do
      let rest ← walk_nxt f c1
      pure (buff.take n :: rest)
    else pure [buff.take n]

/-- The keys `hat_key` reports at the positions a cursor visits under `hat_prv`,
up to the call that returns 0. -/
def walk_prv : Nat → HatCursor → Res (List (List Nat))
  | 0, _ => .nofuel
  | f + 1, cursor => do
    let (buff, n) ← hat_key cursor (List.replicate 256 0) 256
    let (c1, more) ← hat_prv cursor
    if more ≠ 0 then do
      let rest ← walk_prv f c1
      pure (buff.take n :: rest)
    else pure [buff.take n]

/-- The keys visited by `hat_start` with the empty key followed by `hat_nxt`
until it returns 0, after `run_cells`. -/
def run_forward (rand : Nat → Int) (boot aux : Nat) (keys : List (List Nat)) :
    Res (List (List Nat)) := do
  let (hat, _) ← run_cells boot aux keys
  match ← hat_start (hat_cursor hat rand) [] 0 with
  | some cursor => walk_nxt 65536 cursor
  | none => pure []

/-- The keys visited by `hat_last` followed by `hat_prv` until it returns 0,
after `run_cells`. -/
def run_backward (rand : Nat → Int) (boot aux : Nat) (keys : List (List Nat)) :
    Res (List (List Nat)) := do
  let (hat, _) ← run_cells boot aux keys
  let (cursor, ok) ← hat_last (hat_cursor hat rand)
  if ok ≠ 0 then walk_prv 65536 cursor else pure []

/-- The byte `a` followed by 128 bytes `x`. -/
def key_ax128 : List Nat := 97 :: List.replicate 128 120

/-- The byte `b` followed by 128 bytes `x`. -/
def key_bx128 : List Nat := 98 :: List.replicate 128 120

/-- The byte `a` followed by 127 bytes `y`. -/
def key_ay127 : List Nat := 97 :: List.replicate 127 121

/-- The byte `a`, 128 bytes `x`, the byte 127 and 127 bytes `y`. -/
def key_axy : List Nat := 97 :: (List.replicate 128 120 ++ 127 :: List.replicate 127 121)

/-- The keys `a1`, `a2`, `a3`, `a4`, `a5`. -/
def keys_a5 : List (List Nat) := [[97, 49], [97, 50], [97, 51], [97, 52], [97, 53]]

/-- The twelve keys `aa`, `ab`, ..., `al`. -/
def keys_a12 : List (List Nat) :=
  [[97, 97], [97, 98], [97, 99], [97, 100], [97, 101], [97, 102], [97, 103], [97, 104],
   [97, 105], [97, 106], [97, 107], [97, 108]]

/-! ## Predicates of the proofs -/

/-- The size of a node of kind `type` as a number: `HatSize[type]`, 0 past the table. -/
def hsize (type : Nat) : Nat := HatSizeTable.getD type 0

/-- The bytes of a sequence of records whose lengths are below 128: for each
record the length byte and the key bytes. -/
def enc : List (List Nat) → List Nat
  | [] => []
  | r :: rs => r.length :: (r ++ enc rs)

/-- An array node whose key area holds exactly the records `rs`, all shorter
than 128 bytes, with room for their aux areas. -/
structure WFArray (aux : Nat) (b : HatBase) (rs : List (List Nat)) : Prop where
  short : ∀ r ∈ rs, r.length ≤ 127
  tlo : HAT_1 ≤ b.type
  thi : b.type ≤ HatMax
  len : b.keys.length + sizeof_HatBase = hsize b.type
  nxt : b.nxt = (enc rs).length
  bytes : b.keys.take b.nxt = enc rs
  cnt : b.cnt = rs.length % U8
  cap : b.nxt + rs.length * aux + sizeof_HatBase ≤ hsize b.type
  few : aux ≠ 0 → rs.length ≤ 255
  addr : b.addr + hsize b.type < U64

/-- Position of the first record equal to `key`. -/
def rec_index (key : List Nat) : List (List Nat) → Option Nat
  | [] => none
  | r :: rs => if r = key then some 0 else (rec_index key rs).map (· + 1)

/-- The value the record scan returns when it stops at record number `i`. -/
def scan_ret (hat : Hat) (b : HatBase) (i : Nat) : Nat :=
  if hat.aux ≠ 0 then slot_ptr b.addr (hsize b.type) (((i + 1) * hat.aux) % U32) else 1

/-- The fields of the hat that the node engine never changes. -/
structure Keeps (h h1 : Hat) : Prop where
  aux : h1.aux = h.aux
  bootlvl : h1.bootlvl = h.bootlvl
  nroot : h1.nroot = h.nroot
  root : h1.root = h.root
  malloc : h1.malloc = h.malloc

/-- The allocator hands out blocks inside the address space: the bump pointer is
inside the current segment, every segment and every freed array block ends
below `2^64`, and `aux` fits 16 bits. -/
structure AllocOK (hat : Hat) : Prop where
  aux : hat.aux < U16
  next : hat.next ≤ HAT_seg
  seg : hat.seg + HAT_seg < U64
  malloc : ∀ n, hat.malloc n + HAT_seg < U64
  reuse : ∀ t, HAT_1 ≤ t → ∀ a ∈ hat.reuse t, a + hsize t < U64

/-- The outcome of a store of the key `buff`, `amt` into a well-formed array
node with records `rs`: the node now holds `rs` and the key, and `cell` is the
address of the aux area of the new record. -/
def Stored (hat h1 : Hat) (rs : List (List Nat)) (buff : List Nat) (amt : Nat) (slot : BSlot)
    (cell : Nat) : Prop :=
  AllocOK h1 ∧ Keeps hat h1 ∧ amt ≤ buff.length ∧ ∃ b', slot = .array b' ∧
    WFArray hat.aux b' (rs ++ [buff.take amt]) ∧
    cell = slot_ptr b'.addr (hsize b'.type) ((rs.length + 1) * hat.aux)

/-- The node holds well-formed records that all satisfy `Q`. -/
def QBase (aux : Nat) (Q : List Nat → Prop) (b : HatBase) : Prop :=
  ∃ rs, WFArray aux b rs ∧ ∀ r ∈ rs, Q r

/-- Every array node of the table of a pail is well formed with records in `Q`. -/
def QArr (aux : Nat) (Q : List Nat → Prop) (array : Nat → Option HatBase) : Prop :=
  ∀ i b, array i = some b → QBase aux Q b

/-- The node `b` is well formed, its last record is `key` with the aux area at
`cell`, and the records before it satisfy `Q`. -/
def Last (aux : Nat) (Q : List Nat → Prop) (b : HatBase) (key : List Nat) (cell : Nat) : Prop :=
  ∃ rs, (∀ r ∈ rs, Q r) ∧ WFArray aux b (rs ++ [key]) ∧
    cell = slot_ptr b.addr (hsize b.type) ((rs.length + 1) * aux)

/-- The key `buff`, `amt` is the last record of the array node a descent for it
reaches below `slot`. -/
def LastSlot (aux : Nat) (Q : List Nat → Prop) (slot : BSlot) (buff : List Nat) (amt : Nat)
    (cell : Nat) : Prop :=
  match slot with
  | .empty => False
  | .array b => Last aux Q b (buff.take amt) cell
  | .pail p => ∃ x b, hat_code buff amt = .ok x ∧ p.array (x % HatPailMax) = some b ∧
      Last aux Q b (buff.take amt) cell

/-- Well-formedness of the content of a bucket slot. -/
def WFSlot (aux : Nat) : BSlot → Prop
  | .empty => True
  | .array b => QBase aux (fun _ => True) b
  | .pail p => QArr aux (fun _ => True) p.array

/-- Outcome of a store into the slot of a pail: either the key is the last
record of the new array node of the slot, or nothing was stored. -/
def ChildAdd (aux : Nat) (old : Option HatBase) (new : HatBase) (key : List Nat) (cell : Nat) :
    Prop :=
  (cell ≠ 0 ∧ ∀ Q : List Nat → Prop, (∀ b, old = some b → QBase aux Q b) → Last aux Q new key cell) ∨
  (cell = 0 ∧ old = some new)

/-- Well-formedness of a node: every array node below it is well formed. -/
def WFNode (aux : Nat) : HatNode → Prop
  | .empty => True
  | .radix _ table => ∀ i, WFNode aux (table i)
  | .bucket bucket => ∀ i, WFSlot aux (bucket.slots i)
  | .array b => QBase aux (fun _ => True) b
  | .pail p => QArr aux (fun _ => True) p.array

/-- What the proofs need of the call of `hat_add_radix` inside the loops of
`hat_burst_bucket`: a store of a short record keeps the table well formed. -/
def AddOK (aux : Nat)
    (add : Hat → (Nat → HatNode) → List Nat → Nat → Res (List Nat) → Res (Hat × (Nat → HatNode))) :
    Prop :=
  ∀ (hat : Hat) (radix : Nat → HatNode) (buff : List Nat) (max : Nat) (value : Res (List Nat))
    (h1 : Hat) (radix1 : Nat → HatNode),
    hat.aux = aux → AllocOK hat → (∀ i, WFNode aux (radix i)) → max ≤ 127 → max ≤ buff.length →
    buff.length ≤ 1024 → add hat radix buff max value = .ok (h1, radix1) →
    AllocOK h1 ∧ Keeps hat h1 ∧ ∀ i, WFNode aux (radix1 i)

/-- What the proofs need of `hat_add_radix_loop`. -/
def LoopOK (aux : Nat) (f : Nat) : Prop :=
  ∀ (hat : Hat) (radix : Nat → HatNode) (ch : Nat) (buff : List Nat) (max : Nat)
    (value : Res (List Nat)) (h1 : Hat) (radix1 : Nat → HatNode),
    hat.aux = aux → AllocOK hat → (∀ i, WFNode aux (radix i)) → 1 ≤ max → max ≤ 127 →
    max ≤ buff.length → buff.length ≤ 1024 →
    hat_add_radix_loop f hat radix ch buff max value = .ok (h1, radix1) →
    AllocOK h1 ∧ Keeps hat h1 ∧ ∀ i, WFNode aux (radix1 i)

/-- What the proofs need of `hat_burst_bucket`. -/
def BurstOK (aux : Nat) (f : Nat) : Prop :=
  ∀ (hat : Hat) (bucket : HatBucket) (h1 : Hat) (node : HatNode),
    hat.aux = aux → AllocOK hat → (∀ i, WFSlot aux (bucket.slots i)) →
    hat_burst_bucket f hat bucket = .ok (h1, node) →
    AllocOK h1 ∧ Keeps hat h1 ∧ WFNode aux node

/-- What a return of the loop of `hat_cell` establishes: the value `p` returned
for the key, and what `hat_find` returns for the key on the node `node1` the
slot holds afterwards. -/
def CellPost (hat : Hat) (node1 : HatNode) (buff : List Nat) (max off p : Nat) : Prop :=
  WFNode hat.aux node1 ∧ (hat.aux ≠ 0 → p ≠ 0) ∧ (hat.aux = 0 → p = 0 ∨ p = 1) ∧
    ∀ h' : Hat, h'.aux = hat.aux →
      hat_find_node node1 h' buff max off = .ok (some (if hat.aux ≠ 0 then p else 1))

/-- What the part of the loop of `hat_cell` below a bucket establishes, for a
return and for a bucket handed to `hat_burst_bucket`. -/
def BucketPost (hat : Hat) (buff : List Nat) (max off : Nat) : HatBucket × Nat ⊕ HatBucket → Prop
  | .inl (b1, p) => CellPost hat (.bucket b1) buff max off p
  | .inr b1 => ∀ i, WFSlot hat.aux (b1.slots i)

/-- The invariant of the hat: the allocator state is sound and every node
below the root is well formed. -/
def Inv (hat : Hat) : Prop :=
  AllocOK hat ∧ ∀ i, WFNode hat.aux (hat.root i)

/-- The value `hat_find` returns for a key `hat_cell` returned `p` for. -/
def find_ret (aux p : Nat) : Nat := if aux ≠ 0 then p else 1

/-! ## Concrete runs under an allocator with bounded addresses -/

/-- Whether a run returned. -/
def Res.isOk {α : Type} : Res α → Bool
  | .ok _ => true
  | _ => false

/-- The value of a run that returned. -/
def Res.val {α : Type} : (x : Res α) → x.isOk = true → α
  | .ok a, _ => a

/-- An allocator whose blocks all lie below `2 ^ 31`. -/
def malloc_low (n : Nat) : Nat := 1048576 * (n % 1024 + 1)

set_option maxRecDepth 1000000 in
/-- The hat of `hat_open (1, 4)` under `malloc_low`. -/
def wit_open : Hat := (hat_open malloc_low 1 4).val (by decide)

set_option maxRecDepth 1000000 in
/-- The hat `wit_open` after `hat_cell` on the key "a", and the value returned. -/
def wit_cells : Hat × List Nat := (hat_cells 64 wit_open [[97]]).val (by decide)

set_option maxRecDepth 1000000 in
/-- The hat after the further call of `hat_cell` on the key "ab", and the value
returned. -/
def wit_cell : Hat × Nat := (hat_cell 64 wit_cells.1 [97, 98] 2).val (by decide)

set_option maxRecDepth 1000000 in
/-- The hat of `hat_open (1, 0)` under `malloc_low`. -/
def wit_open0 : Hat := (hat_open malloc_low 1 0).val (by decide)

set_option maxRecDepth 1000000 in
/-- The hat `wit_open0` after `hat_cell` on the key "a", and the value returned. -/
def wit_cell0 : Hat × Nat := (hat_cell 64 wit_open0 [97] 1).val (by decide)

/-! ## Runs and specifications for the cursor, the codec, the hash and the arena -/

/-- The hash as the specification words it: from `h = n`, the length, each byte
`b` in order gives `h := (h + (h << 5) + (h >> 27) + b) mod 2^32`. -/
def hash_spec (bytes : List Nat) : Nat :=
  bytes.foldl (fun h b => (h + (h <<< 5) + (h >>> 27) + b) % U32) bytes.length

/-- Whether a slot word carries the tag `HAT_pail`. -/
def BSlot.isPail : BSlot → Bool
  | .pail _ => true
  | _ => false

/-- The flag `hat_last` returns on a fresh cursor after `run_cells`, with the
fields `cnt` and `idx` of the cursor after the call. -/
def run_last (rand : Nat → Int) (boot aux : Nat) (keys : List (List Nat)) :
    Res (Nat × Int × Int) := do
  let (hat, _) ← run_cells boot aux keys
  let (cursor, flag) ← hat_last (hat_cursor hat rand)
  pure (flag, cursor.cnt, cursor.idx)

/-- The call `hat_key (cursor, buff, max)` on a cursor that `hat_start` with the
empty key has positioned after `run_cells` and one call of `hat_nxt` has moved
on: the flag `hat_nxt` returned, the field `top` of the cursor, the buffer after
`hat_key` and the length it returned. -/
def run_key_after_nxt (rand : Nat → Int) (boot aux : Nat) (keys : List (List Nat))
    (buff : List Nat) (max : Nat) : Res (Nat × Int × List Nat × Nat) := do
  let (hat, _) ← run_cells boot aux keys
  match ← hat_start (hat_cursor hat rand) [] 0 with
  | some cursor => do
    let (c1, more) ← hat_nxt cursor
    let (buff1, n) ← hat_key c1 buff max
    pure (more, c1.top, buff1, n)
  | none => .fault

/-- The length prefix `hat_new_array` writes for the key `key` into a new array
node of a hat opened with `hat_open (1, aux)` (the first two bytes of the key
area), and the result of the record scan of `hat_find` for the same key on that
node. -/
def run_codec (aux : Nat) (key : List Nat) : Res (List Nat × Option Nat) := do
  let hat ← hat_open malloc_at 1 aux
  let (hat1, nb, _) ← hat_new_array hat key key.length
  match nb with
  | some base => do
    let r ← scan_array U16 hat1 base key key.length 0 0 0
    pure (base.keys.take 2, r)
  | none => .fault

/-- The call `hat_add_array (hat, next, buff + off, max - off, 1)` that `hat_cell`
makes for `key` after `run_cells` when the root slot of `key` holds an array
node: whether the slot holds a pail afterwards, and the value returned. -/
def run_add_array (boot aux : Nat) (keys : List (List Nat)) (key : List Nat) :
    Res (Bool × Nat) := do
  let (hat, _) ← run_cells boot aux keys
  let (triple, off) ← triple_loop hat.bootlvl key key.length 0 0
  match hat.root triple with
  | .array base => do
    let (_, slot, cell) ←
      hat_add_array hat base (key.drop off) ((key.length + U32 - off) % U32) 1
    pure (slot.isPail, cell)
  | _ => .fault

/-- The segment address, the address of the block and the bump offset after
`hat_open (boot, aux)` followed by `hat_data (hat, amt)`. -/
def run_data (boot aux amt : Nat) : Res (Nat × Nat × Nat) := do
  let hat ← hat_open malloc_at boot aux
  let (hat1, addr, _) ← hat_data hat amt
  pure (hat1.seg, addr, hat1.next)

/-- The number of root slots after `hat_open (boot, aux)`, and the value of
`hat_find` for `key` on the fresh hat. -/
def run_fresh (boot aux : Nat) (key : List Nat) : Res Nat × Res Nat :=
  ((do let hat ← hat_open malloc_at boot aux
       pure hat.nroot),
   (do let hat ← hat_open malloc_at boot aux
       hat_find hat key key.length))

/-- A cursor is positioned on a record: it is not at the end of the traversal
and entry `idx` of its sorted array points at a record whose first byte counts
bytes that follow it in the block. -/
def positioned (cursor : HatCursor) : Prop :=
  0 ≤ cursor.top ∧ 0 ≤ cursor.idx ∧
    match (cursor.keys.getD cursor.idx.toNat HatSort.zero).key with
    | [] => False
    | len :: rest => len ≤ rest.length

instance (cursor : HatCursor) : Decidable (positioned cursor) := by
  unfold positioned
  cases (cursor.keys.getD cursor.idx.toNat HatSort.zero).key <;> infer_instance

/-- The cursor after `hat_start (cursor, "", 0)` on the hat `wit_cell`, or the
fresh cursor when `hat_start` does not return one. -/
def wit_cursor : HatCursor :=
  match hat_start (hat_cursor wit_cell.1 (fun _ => 0)) [] 0 with
  | .ok (some c) => c
  | _ => hat_cursor wit_cell.1 (fun _ => 0)

/-! ## Runs for the restructuring routines, the sort and the size table -/

/-- The array node under root slot `i` after `run_cells`, as `hat_strip_array`
decodes it: the size class, `cnt` and `nxt` of the node, the count
`hat_strip_array` returns and the offsets in the key area of the records it
lists. -/
def run_strip (boot aux : Nat) (keys : List (List Nat)) (i : Nat) :
    Res (Nat × Nat × Nat × Nat × List Nat) := do
  let (hat, _) ← run_cells boot aux keys
  match hat.root i with
  | .array base => do
    let (list, cnt) ← hat_strip_array hat.aux base [] 0
    pure (base.type, base.cnt, base.nxt, cnt, list.map fun e => base.keys.length - e.key.length)
  | _ => .fault

/-- The number of records of a pail as `hat_strip_pail` counts them. -/
def pail_count (aux : Nat) (pail : HatPail) : Res Nat := do
  let (_, cnt) ← hat_strip_pail aux pail [] 0
  pure cnt

/-- The call `hat_burst_pail (hat, &hat->root[i])` on the pail under root slot
`i` after `run_cells`: the number of records `hat_strip_pail` counts in the pail
before the call and the field `count` of the bucket after it. -/
def run_burst_pail (boot aux : Nat) (keys : List (List Nat)) (i : Nat) : Res (Nat × Nat) := do
  let (hat, _) ← run_cells boot aux keys
  match hat.root i with
  | .pail pail => do
    let n ← pail_count hat.aux pail
    let (_, bucket) ← hat_burst_pail hat pail
    pure (n, bucket.count)
  | _ => .fault

/-- The call `hat_burst_bucket (hat, &hat->root[i])` on the bucket under root
slot `i` after `run_cells`: for the radix slot `ch` of the new node, `cnt` and
`nxt` of the array node it holds (`none` when it holds no array node). -/
def run_burst_bucket (boot aux : Nat) (keys : List (List Nat)) (i ch : Nat) :
    Res (Option (Nat × Nat)) := do
  let (hat, _) ← run_cells boot aux keys
  match hat.root i with
  | .bucket bucket => do
    match ← hat_burst_bucket 64 hat bucket with
    | (_, .radix _ table) =>
      match table ch with
      | .array base => pure (some (base.cnt, base.nxt))
      | _ => pure none
    | _ => .fault
  | _ => .fault

/-- The addresses of the bucket node under root slot 0 and of the array node in
its slot `code` after `run_cells`. -/
def run_bucket_addr (aux : Nat) (keys : List (List Nat)) (code : Nat) : Res (Nat × Nat) := do
  let (hat, _) ← run_cells 0 aux keys
  match hat.root 0 with
  | .bucket bucket =>
    match bucket.slots code with
    | .array base => pure (bucket.addr, base.addr)
    | _ => .fault
  | _ => .fault

/-- Two calls of `hat_start` on one cursor after `run_cells`, with the keys `q1`
and `q2`: the scan index of the root after the first call, and the result of
the second call, its scan index when it returns a cursor. -/
def run_start_twice (rand : Nat → Int) (boot aux : Nat) (keys : List (List Nat))
    (q1 q2 : List Nat) : Res (Nat × Res (Option Nat)) := do
  let (hat, _) ← run_cells boot aux keys
  match ← hat_start (hat_cursor hat rand) q1 q1.length with
  | some c1 =>
    pure (c1.rootscan,
      match hat_start c1 q2 q2.length with
      | .ok (some c2) => .ok (some c2.rootscan)
      | .ok none => .ok none
      | .fault => .fault
      | .nofuel => .nofuel)
  | none => .fault

/-- An entry of the sorted array for a record with the key `key` (at most 127
bytes): the length byte, the key and four further bytes of the block. -/
def sort_entry (key : List Nat) : HatSort :=
  { key := key.length :: (key ++ [0, 0, 0, 0]), slot := 0 }

/-- The keys of the entries of a sorted array, each decoded from its length
byte. -/
def sort_keys (x : List HatSort) : List (List Nat) :=
  x.map fun e =>
    match e.key with
    | [] => []
    | len :: rest => rest.take len

/-- The call `hat_qsort (x, n, 0)` on the entries of the keys `keys`, `rand ()`
returning the values `rand`, with the bounds `hat_sort` gives: the keys in the
order of the array afterwards. -/
def run_qsort (rand : Nat → Int) (keys : List (List Nat)) : Res (List (List Nat)) := do
  let x := keys.map sort_entry
  let g := 2 * x.length + 16
  let (x1, _) ← hat_qsort rand g (g + 256) 0 x 0 x.length 0
  pure (sort_keys x1)

/-- The eleven keys `a`, `b`, ..., `k`. -/
def keys_11 : List (List Nat) :=
  [[97], [98], [99], [100], [101], [102], [103], [104], [105], [106], [107]]

/-- The key `k` followed by 400 bytes `x`. -/
def key_kx400 : List Nat := 107 :: List.replicate 400 120

/-- The key `k` followed by 110 bytes `y`. -/
def key_ky110 : List Nat := 107 :: List.replicate 110 121

/-- Eleven distinct keys, three of them with no byte above 0 at depth 0: the
empty key, the key of the bytes 0, 1 and the key of the byte 0. -/
def keys_nul : List (List Nat) :=
  [[], [0, 1], [0], [1], [2], [3], [4], [5], [6], [7], [8]]

/-- A bucket whose field `count` is `HatBucketMax` and whose slot 130, the slot
of the key `a`, is empty. -/
def wit_full_bucket : HatBucket :=
  { addr := 2097152, count := HatBucketMax, slots := fun _ => .empty }

set_option maxRecDepth 1000000 in
/-- The call `hat_new_array` for the key `a` on the hat `wit_open0`. -/
def wit_new : Hat × Option HatBase × Nat := (hat_new_array wit_open0 [97] 1).val (by decide)

/-! ## Specification of the sort -/

/-- Lexicographic byte order of keys, a key before each of its proper
extensions. -/
def key_lt : List Nat → List Nat → Prop
  | _, [] => False
  | [], _ :: _ => True
  | a :: as, b :: bs => a < b ∨ (a = b ∧ key_lt as bs)

/-- The order `key_lt` can be computed. -/
def key_lt_dec : (k1 k2 : List Nat) → Decidable (key_lt k1 k2)
  | [], [] => isFalse (by simp [key_lt])
  | _ :: _, [] => isFalse (by simp [key_lt])
  | [], _ :: _ => isTrue (by simp [key_lt])
  | a :: as, b :: bs =>
    match key_lt_dec as bs with
    | isTrue h => if hab : a ≤ b then isTrue (by
          simp only [key_lt]
          rcases Nat.lt_or_eq_of_le hab with h1 | h1
          · exact Or.inl h1
          · exact Or.inr ⟨h1, h⟩)
        else isFalse (by
          simp only [key_lt]
          omega)
    | isFalse h => if hab : a < b then isTrue (by simp only [key_lt]; exact Or.inl hab)
        else isFalse (by
          simp only [key_lt]
          intro hc
          rcases hc with h1 | ⟨_, h2⟩
          · exact hab h1
          · exact h h2)

instance (k1 k2 : List Nat) : Decidable (key_lt k1 k2) := key_lt_dec k1 k2

/-- The entry at position `j` of the array of the cursor. -/
def ent (keys : List HatSort) (j : Int) : HatSort := keys.getD j.toNat HatSort.zero

/-- The key of an entry with a one-byte length prefix. -/
def key_of (e : HatSort) : List Nat :=
  match e.key with
  | [] => []
  | len :: rest => rest.take len

/-- The byte of a key at depth `o`, 0 past its end. -/
def key_byte (k : List Nat) (o : Nat) : Nat := k.getD o 0

/-- An entry of the sorted array that points at a record with a key of at most
127 bytes, all inside the block, none of them 0. -/
def SortEnt (e : HatSort) : Prop :=
  match e.key with
  | [] => False
  | len :: rest => len ≤ 127 ∧ len ≤ rest.length ∧ ∀ b ∈ rest.take len, 0 < b ∧ b < U8

instance (e : HatSort) : Decidable (SortEnt e) := by
  unfold SortEnt
  split <;> infer_instance

/-- The entries `lo`, ..., `lo + n - 1` of the array are entries of pairwise
distinct keys of at most 127 non-zero bytes that agree on their first `o`
bytes. -/
structure SortSeg (keys : List HatSort) (lo n : Int) (o : Nat) : Prop where
  lo_nonneg : 0 ≤ lo
  n_nonneg : 0 ≤ n
  bound : lo + n ≤ keys.length
  ents : ∀ i, 0 ≤ i → i < n → SortEnt (ent keys (lo + i))
  len : ∀ i, 0 ≤ i → i < n → o ≤ (key_of (ent keys (lo + i))).length
  pre : ∀ i j, 0 ≤ i → i < n → 0 ≤ j → j < n →
    (key_of (ent keys (lo + i))).take o = (key_of (ent keys (lo + j))).take o
  dist : ∀ i j, 0 ≤ i → i < n → 0 ≤ j → j < n →
    key_of (ent keys (lo + i)) = key_of (ent keys (lo + j)) → i = j

/-- The array `keys1` is the array `keys` with the entries `lo`, ..., `lo + n - 1`
rearranged: entry `lo + i` of `keys1` is entry `lo + s i` of `keys`. -/
structure Moved (keys keys1 : List HatSort) (lo n : Int) : Prop where
  length : keys1.length = keys.length
  perm : keys1.Perm keys
  out : ∀ m, 0 ≤ m → (m < lo ∨ lo + n ≤ m) → ent keys1 m = ent keys m
  map : ∃ s : Int → Int,
    (∀ i, 0 ≤ i → i < n → 0 ≤ s i ∧ s i < n ∧ ent keys1 (lo + i) = ent keys (lo + s i)) ∧
    ∀ i j, 0 ≤ i → i < n → 0 ≤ j → j < n → s i = s j → i = j

/-- The entries `lo`, ..., `lo + n - 1` of the array are in ascending order of
their keys. -/
def Ordered (keys : List HatSort) (lo n : Int) : Prop :=
  ∀ i j, 0 ≤ i → i < j → j < n →
    key_lt (key_of (ent keys (lo + i))) (key_of (ent keys (lo + j)))

/-- The state of the partition of `hat_qsort` for the pivot byte `p`: the
entries below `a` and above `d` have the byte `p` at depth `o`, those from `a`
to `b - 1` a smaller one, those from `c + 1` to `d` a larger one. -/
structure Part (keys : List HatSort) (lo n : Int) (o p : Nat) (a b c d : Int) : Prop where
  a_pos : 1 ≤ a
  a_le : a ≤ b
  b_le : b ≤ c + 1
  c_le : c ≤ d
  d_lt : d < n
  eq_lo : ∀ i, 0 ≤ i → i < a → key_byte (key_of (ent keys (lo + i))) o = p
  lt : ∀ i, a ≤ i → i < b → key_byte (key_of (ent keys (lo + i))) o < p
  gt : ∀ i, c < i → i ≤ d → p < key_byte (key_of (ent keys (lo + i))) o
  eq_hi : ∀ i, d < i → i < n → key_byte (key_of (ent keys (lo + i))) o = p

/-! ## Hats whose root holds array nodes only, radix nodes, and further runs -/

/-- Whether a slot is empty or holds an array node. -/
def HatNode.isLeaf : HatNode → Bool
  | .empty => true
  | .array _ => true
  | _ => false

/-- Every root slot of the hat is empty or holds an array node: the hat has no
radix, bucket or pail node. -/
def ArrayOnly (hat : Hat) : Prop := ∀ i, i < hat.nroot → (hat.root i).isLeaf = true

/-- Whether the content `node` of a root slot takes one more record of `amt` key
bytes (`amt ≤ 127`, one length byte) as an array node: an empty slot when the
largest size class holds the record, so that `hat_new_array` finds a class; an
array node when the test of `hat_add_array` and `hat_promote`,
`!hat->aux || base->cnt < 255` and `(base->cnt + 1) * hat->aux + base->nxt + amt
+ skip + sizeof(HatBase) <= HatSize[type]`, holds for the largest class, so that
`hat_promote` does not go on to `hat_new_pail`. -/
def node_room (hat : Hat) (node : HatNode) (amt : Nat) : Bool :=
  match node with
  | .empty => decide (hat.aux + amt + 1 + sizeof_HatBase ≤ hsize HatMax)
  | .array base => decide ((hat.aux = 0 ∨ base.cnt < 255) ∧
      (base.cnt + 1) * hat.aux + base.nxt + amt + 1 + sizeof_HatBase ≤ hsize HatMax)
  | _ => false

/-- Whether the key `buff`, `max` indexes a root slot of the hat and the content
of that slot takes the key as a record of an array node. -/
def cell_room (hat : Hat) (buff : List Nat) (max : Nat) : Bool :=
  match triple_loop hat.bootlvl buff max 0 0 with
  | .ok (triple, off) =>
    decide (triple < hat.nroot) && node_room hat (hat.root triple) (max - off)
  | _ => false

/-- No bucket and no pail lies at or below the node: below a radix node there
are radix nodes, array nodes and empty slots only. -/
def Plain : HatNode → Prop
  | .empty => True
  | .array _ => True
  | .radix _ table => ∀ i, Plain (table i)
  | .bucket _ => False
  | .pail _ => False

/-- The value a call returned, without the hat. -/
def Res.value {α β : Type} : Res (α × β) → Res β
  | .ok (_, b) => .ok b
  | .fault => .fault
  | .nofuel => .nofuel

/-- The hat of `hat_open (boot, aux)` with a radix node of 128 empty slots in
root slot `i`: the block is the one `hat_alloc (hat, HAT_radix)` returns, as in
`hat_burst_bucket`, and the slot takes its address with the tag `HAT_radix`.
On that hat, the values of `hat_find` for the keys of `queries` and the value of
`hat_cell` for `key`. -/
def run_radix (boot aux i : Nat) (queries : List (List Nat)) (key : List Nat) :
    Res (List (Res Nat) × Res Nat) := do
  let hat ← hat_open malloc_at boot aux
  let (hat1, addr) ← hat_alloc hat HAT_radix
  let hat2 := { hat1 with root := setSlot hat1.root i (.radix addr (fun _ => .empty)) }
  pure (queries.map fun q => hat_find hat2 q q.length, (hat_cell 64 hat2 key key.length).value)

/-- The keys `kA` and `kby`: under the root slot `k` the remainders `A` and `by`
fall into the slots 98 and 72 of a pail. -/
def keys_kA2 : List (List Nat) := [[107, 65], [107, 98, 121]]

/-- The key `kadu`, whose remainder `adu` falls into slot 72 of a pail. -/
def key_kadu : List Nat := [107, 97, 100, 117]

/-! # Theorems -/

/-! ## The engine keeps the nodes well formed -/

@[simp]
theorem Res.ok_bind {α β : Type} (a : α) (f : α → Res β) : (Res.ok a >>= f) = f a := rfl
@[simp]
theorem Res.fault_bind {α β : Type} (f : α → Res β) : (Res.fault >>= f) = Res.fault := rfl
@[simp]
theorem Res.nofuel_bind {α β : Type} (f : α → Res β) : (Res.nofuel >>= f) = Res.nofuel := rfl
@[simp]
theorem Res.pure_def {α : Type} (a : α) : (pure a : Res α) = Res.ok a := rfl

theorem Res.bind_eq_ok {α β : Type} {x : Res α} {f : α → Res β} {b : β} :
    (x >>= f) = Res.ok b ↔ ∃ a, x = Res.ok a ∧ f a = Res.ok b := by
  cases x <;> simp

theorem rd_of_lt {mem : List Nat} {i : Nat} (h : i < mem.length) : rd mem i = .ok mem[i] := by
  unfold rd
  simp [List.getElem?_eq_getElem h]

theorem and7 (n : Nat) : n &&& 7 = n % 8 := Nat.and_pow_two_sub_one_eq_mod n 3

theorem take_succ_of_lt {l : List Nat} {n : Nat} (h : n < l.length) :
    l.take (n + 1) = l.take n ++ [l[n]] := by
  rw [List.take_succ, List.getElem?_eq_getElem h]
  rfl

theorem keycmp_bytes_spec (f : Nat) (s1 s2 : List Nat) (len : Nat)
    (h1 : len ≤ s1.length) (h2 : len ≤ s2.length) (hf : len % 8 < f) :
    keycmp_bytes f s1 s2 len =
      .ok (if (s1.take len).drop (len - len % 8) = (s2.take len).drop (len - len % 8)
        then some (len - len % 8) else none) := by
  induction f generalizing len with
  | zero => omega
  | succ f ih =>
    rw [keycmp_bytes]
    simp only [HAT_slot_size, and7, Nat.add_one_sub_one]
    by_cases hm : len % 8 = 0
    · have hnil : ∀ s : List Nat, (s.take len).drop len = [] := fun s =>
        List.drop_eq_nil_of_le (by simp)
      simp [hm, hnil]
    · have hpos : 0 < len := by
        rcases Nat.eq_zero_or_pos len with h | h
        · simp [h] at hm
        · exact h
      obtain ⟨n, rfl⟩ : ∃ n, len = n + 1 := ⟨len - 1, by omega⟩
      have hn1 : n < s1.length := by omega
      have hn2 : n < s2.length := by omega
      have hmod : (n + 1) - (n + 1) % 8 = n - n % 8 := by omega
      have hle : n - n % 8 ≤ n := by omega
      simp only [ne_eq, hm, not_false_eq_true, ↓reduceIte, Nat.add_one_sub_one, rd_of_lt hn1,
        rd_of_lt hn2, Res.ok_bind]
      rw [take_succ_of_lt hn1, take_succ_of_lt hn2, hmod]
      have e1 : (s1.take n ++ [s1[n]]).drop (n - n % 8) = (s1.take n).drop (n - n % 8) ++ [s1[n]] := by
        rw [List.drop_append_of_le_length]
        simp; omega
      have e2 : (s2.take n ++ [s2[n]]).drop (n - n % 8) = (s2.take n).drop (n - n % 8) ++ [s2[n]] := by
        rw [List.drop_append_of_le_length]
        simp; omega
      rw [e1, e2]
      by_cases hab : s1[n] = s2[n]
      · simp only [hab, not_true_eq_false, ↓reduceIte]
        rw [ih n (by omega) (by omega) (by omega)]
        simp
      · simp only [hab, not_false_eq_true, ↓reduceIte, Res.pure_def]
        have : ¬ ((s1.take n).drop (n - n % 8) ++ [s1[n]] = (s2.take n).drop (n - n % 8) ++ [s2[n]]) := by
          intro h
          have hl : ((s1.take n).drop (n - n % 8)).length = ((s2.take n).drop (n - n % 8)).length := by
            simp; omega
          have := List.append_inj' h rfl
          simp at this
          exact hab this.2
        simp [this]

theorem keycmp_words_spec (f : Nat) (s1 s2 : List Nat) (len : Nat)
    (h1 : len ≤ s1.length) (h2 : len ≤ s2.length) (h8 : len % 8 = 0) (hf : len / 8 < f) :
    keycmp_words f s1 s2 len = .ok (if s1.take len = s2.take len then 0 else 1) := by
  induction f generalizing len s1 s2 with
  | zero => omega
  | succ f ih =>
    rw [keycmp_words]
    simp only [HAT_slot_size]
    by_cases h0 : len = 0
    · simp [h0]
    · obtain ⟨m, rfl⟩ : ∃ m, len = 8 + m := ⟨len - 8, by omega⟩
      have hl1 : ¬ s1.length < 8 := by omega
      have hl2 : ¬ s2.length < 8 := by omega
      simp only [ne_eq, h0, not_false_eq_true, ↓reduceIte, hl1, hl2, or_self]
      rw [List.take_add, List.take_add (l := s2)]
      by_cases hw : s1.take 8 = s2.take 8
      · simp only [hw, not_true_eq_false, ↓reduceIte, Nat.add_sub_cancel_left]
        rw [ih _ _ m (by simp; omega) (by simp; omega) (by omega) (by omega)]
        simp
      · simp only [hw, not_false_eq_true, ↓reduceIte, Res.pure_def]
        have : ¬ (s1.take 8 ++ (s1.drop 8).take m = s2.take 8 ++ (s2.drop 8).take m) := by
          intro h
          have := List.append_inj h (by simp; omega)
          exact hw this.1
        simp [this]

theorem keycmp_spec (s1 s2 : List Nat) (len : Nat)
    (h1 : len ≤ s1.length) (h2 : len ≤ s2.length) :
    keycmp s1 s2 len = .ok (if s1.take len = s2.take len then 0 else 1) := by
  unfold keycmp
  rw [keycmp_bytes_spec _ _ _ _ h1 h2 (by simp only [HAT_slot_size]; omega)]
  have hsplit : ∀ s : List Nat, s.take len =
      s.take (len - len % 8) ++ (s.take len).drop (len - len % 8) := by
    intro s
    have : s.take (len - len % 8) = (s.take len).take (len - len % 8) := by
      rw [List.take_take]; congr 1; omega
    rw [this, List.take_append_drop]
  by_cases hb : (s1.take len).drop (len - len % 8) = (s2.take len).drop (len - len % 8)
  · simp only [hb, ↓reduceIte, Res.ok_bind]
    rw [keycmp_words_spec _ _ _ _ (by omega) (by omega) (by omega)
      (by simp only [HAT_slot_size]; omega)]
    rw [hsplit s1, hsplit s2, hb]
    simp
  · simp only [hb, ↓reduceIte, Res.ok_bind, Res.pure_def]
    have : ¬ (s1.take len = s2.take len) := fun h => hb (by rw [h])
    simp [this]

theorem HatSize_eq {t : Nat} (h : t < 32) : HatSize t = .ok (hsize t) := by
  unfold HatSize hsize
  have : t < HatSizeTable.length := by simpa [HatSizeTable] using h
  simp [List.getElem?_eq_getElem this, List.getD_eq_getElem?_getD]

theorem hsize_le : ∀ t, t ≤ 15 → 4 ≤ t → hsize t ≤ 512 ∧ 16 ≤ hsize t := by decide

theorem enc_append (rs1 rs2 : List (List Nat)) : enc (rs1 ++ rs2) = enc rs1 ++ enc rs2 := by
  induction rs1 with
  | nil => rfl
  | cons r rs ih => simp [enc, ih]

theorem length_le_enc (rs : List (List Nat)) : rs.length ≤ (enc rs).length := by
  induction rs with
  | nil => simp [enc]
  | cons r rs ih => simp [enc]; omega

theorem WFArray.nxt_le {aux : Nat} {b : HatBase} {rs : List (List Nat)} (h : WFArray aux b rs) :
    b.nxt + 4 ≤ hsize b.type ∧ hsize b.type ≤ 512 ∧ b.nxt ≤ b.keys.length := by
  have h1 := h.cap
  have h2 := (hsize_le b.type h.thi h.tlo).1
  have h3 := h.len
  simp only [sizeof_HatBase] at h1 h3
  omega

theorem getElem?_append_cons (l1 l2 : List Nat) (a : Nat) :
    (l1 ++ a :: l2)[l1.length]? = some a := by
  rw [List.getElem?_append_right (Nat.le_refl _)]
  simp

theorem scan_ret_shift (hat : Hat) (b : HatBase) (n : Nat) :
    (fun i => scan_ret hat b (n + 1 + i)) = ((fun i => scan_ret hat b (n + i)) ∘ fun x => x + 1) := by
  funext i
  simp [Function.comp, Nat.add_assoc, Nat.add_comm 1 i]

theorem scan_spec (hat : Hat) (b : HatBase) (buff : List Nat) (max off : Nat)
    (hoff : off ≤ max) (hmax : max ≤ buff.length) (h32 : max < U32)
    (rs2 rs1 : List (List Nat)) (hwf : WFArray hat.aux b (rs1 ++ rs2))
    (fuel : Nat) (hf : rs2.length < fuel) :
    scan_array fuel hat b buff max off (enc rs1).length rs1.length =
      .ok ((rec_index ((buff.drop off).take (max - off)) rs2).map
        fun i => scan_ret hat b (rs1.length + i)) := by
  induction rs2 generalizing rs1 fuel with
  | nil =>
    obtain ⟨f, rfl⟩ : ∃ f, fuel = f + 1 := ⟨fuel - 1, by simp at hf; omega⟩
    rw [scan_array]
    have := hwf.nxt
    simp at this
    simp [this, rec_index]
  | cons r rs2 ih =>
    obtain ⟨f, rfl⟩ : ∃ f, fuel = f + 1 := ⟨fuel - 1, by simp at hf; omega⟩
    have hb := hwf.nxt_le
    have hnxt := hwf.nxt
    have hbytes := hwf.bytes
    rw [enc_append] at hnxt hbytes
    simp only [enc, List.length_append, List.length_cons] at hnxt
    have hr : r.length ≤ 127 := hwf.short r (by simp)
    have hlt : (enc rs1).length < b.nxt := by omega
    have hk0 : b.keys[(enc rs1).length]? = some r.length := by
      have : (b.keys.take b.nxt)[(enc rs1).length]? = some r.length := by
        rw [hbytes]
        simp only [enc]
        exact getElem?_append_cons _ _ _
      rwa [List.getElem?_take_of_lt hlt] at this
    have hrd : rd b.keys (enc rs1).length = .ok r.length := by
      unfold rd; rw [hk0]
    have hrec : (b.keys.drop ((enc rs1).length + 1)).take r.length = r := by
      have : (b.keys.take b.nxt).drop ((enc rs1).length + 1) = r ++ enc rs2 := by
        rw [hbytes]
        have : enc rs1 ++ enc (r :: rs2) = (enc rs1 ++ [r.length]) ++ (r ++ enc rs2) := by
          simp [enc]
        rw [this, List.drop_left' (by simp)]
      rw [List.drop_take] at this
      have h2 : ((b.keys.drop ((enc rs1).length + 1)).take (b.nxt - ((enc rs1).length + 1))).take r.length = r := by
        rw [this]; simp
      rw [List.take_take] at h2
      rwa [Nat.min_eq_left (by omega)] at h2
    rw [scan_array]
    simp only [hlt, ↓reduceIte, hrd, Res.ok_bind]
    have hm1 : ((enc rs1).length + 1) % U16 = (enc rs1).length + 1 := by
      apply Nat.mod_eq_of_lt; simp only [U16]; omega
    have hnot : ¬ r.length > 127 := by omega
    have hsub : (max + U32 - off) % U32 = max - off := by
      simp only [U32] at h32 ⊢; omega
    have hkey : ((buff.drop off).take (max - off)).length = max - off := by
      simp; omega
    simp only [hm1, hnot, ↓reduceIte, Res.pure_def, Res.ok_bind, hsub]
    have hsize : HatSize b.type = .ok (hsize b.type) := HatSize_eq (by have := hwf.thi; simp only [HatMax, HAT_32] at this; omega)
    have hnext : scan_array f hat b buff max off (((enc rs1).length + 1 + r.length) % U16)
        ((rs1.length + 1) % U16) =
        .ok ((rec_index ((buff.drop off).take (max - off)) rs2).map
          fun i => scan_ret hat b (rs1.length + 1 + i)) := by
      have hl := length_le_enc rs1
      have e1 : ((enc rs1).length + 1 + r.length) % U16 = (enc (rs1 ++ [r])).length := by
        rw [Nat.mod_eq_of_lt (by simp only [U16]; omega)]
        simp [enc_append, enc]; omega
      have e2 : (rs1.length + 1) % U16 = (rs1 ++ [r]).length := by
        rw [Nat.mod_eq_of_lt (by simp only [U16]; omega)]
        simp
      rw [e1, e2]
      have := ih (rs1 ++ [r]) (by simpa using hwf) f (by simp at hf; omega)
      simpa using this
    by_cases hlen : r.length = max - off
    · simp only [hlen, ↓reduceIte]
      rw [keycmp_spec _ _ _ (by simp; omega) (by simp; omega)]
      have hrec2 : (b.keys.drop ((enc rs1).length + 1)).take (max - off) = r := hlen ▸ hrec
      rw [hrec2]
      by_cases hrk : r = (buff.drop off).take (max - off)
      · simp only [← hrk, ↓reduceIte, Res.ok_bind, decide_True, hsize]
        simp only [rec_index, ↓reduceIte, Option.map_some', Nat.add_zero]
        unfold scan_ret
        split <;> simp
      · simp only [hrk, ↓reduceIte, Res.ok_bind]
        simp only [one_ne_zero, decide_False, Bool.false_eq_true, ↓reduceIte]
        rw [hlen] at hnext
        rw [hnext]
        simp only [rec_index, hrk, ↓reduceIte, Option.map_map, scan_ret_shift]
    · simp only [hlen, ↓reduceIte, Res.ok_bind, Bool.false_eq_true]
      rw [hnext]
      have hne : ¬ r = (buff.drop off).take (max - off) := by
        intro h
        rw [h, hkey] at hlen
        exact hlen rfl
      simp only [rec_index, hne, ↓reduceIte, Option.map_map, scan_ret_shift]

theorem Keeps.refl (h : Hat) : Keeps h h := ⟨rfl, rfl, rfl, rfl, rfl⟩

theorem Keeps.trans {h h1 h2 : Hat} (a : Keeps h h1) (b : Keeps h1 h2) : Keeps h h2 :=
  ⟨b.aux.trans a.aux, b.bootlvl.trans a.bootlvl, b.nroot.trans a.nroot, b.root.trans a.root,
    b.malloc.trans a.malloc⟩

theorem round_hsize : ∀ t, t < 32 → round_amt (hsize t) = hsize t ∧ hsize t ≤ 1024 := by decide

theorem new_seg_ok {hat h1 : Hat} (ha : AllocOK hat) (h : new_seg hat = .ok h1) :
    Keeps hat h1 ∧ h1.next ≤ 24 ∧ h1.seg + HAT_seg < U64 ∧ h1.reuse = hat.reuse := by
  unfold new_seg at h
  simp only at h
  split at h
  · simp at h
  · simp only [Res.ok.injEq] at h
    subst h
    refine ⟨⟨rfl, rfl, rfl, rfl, rfl⟩, ?_, ha.malloc _, rfl⟩
    simp only [HAT_cache_line, sizeof_HatSeg]
    split <;> omega

theorem hat_alloc_ok {hat h1 : Hat} {t addr : Nat} (ha : AllocOK hat) (ht : t < 32)
    (h : hat_alloc hat t = .ok (h1, addr)) :
    AllocOK h1 ∧ Keeps hat h1 ∧ (HAT_1 ≤ t → addr + hsize t < U64) := by
  unfold hat_alloc at h
  rw [HatSize_eq ht] at h
  simp only [Res.ok_bind, (round_hsize t ht).1] at h
  have hsz := (round_hsize t ht).2
  have hn := ha.next
  have hs := ha.seg
  simp only [HAT_seg, HAT_slot_size, U64, U32] at hn hs ⊢
  split at h
  · rename_i block rest hre
    simp only [Res.pure_def, Res.ok.injEq, Prod.mk.injEq] at h
    obtain ⟨rfl, rfl⟩ := h
    refine ⟨⟨ha.aux, ha.next, ha.seg, ha.malloc, ?_⟩, ⟨rfl, rfl, rfl, rfl, rfl⟩, ?_⟩
    · intro t' ht' a hmem
      simp only [setSlot] at hmem
      split at hmem
      · rename_i heq
        subst heq
        exact ha.reuse _ ht' a (by rw [hre]; exact List.mem_cons_of_mem _ hmem)
      · exact ha.reuse _ ht' a hmem
    · intro ht'
      exact ha.reuse _ ht' _ (by rw [hre]; exact List.mem_cons_self _ _)
  · rename_i hre
    split at h
    · rename_i hbig
      obtain ⟨h2, hseg, hrest⟩ := Res.bind_eq_ok.mp h
      obtain ⟨hk, hn2, hs2, hr2⟩ := new_seg_ok ha hseg
      simp only [Res.pure_def, Res.ok.injEq, Prod.mk.injEq] at hrest
      obtain ⟨rfl, rfl⟩ := hrest
      simp only [HAT_seg, HAT_slot_size, U64] at hs2
      refine ⟨⟨?_, ?_, ?_, ?_, ?_⟩, ⟨hk.aux, hk.bootlvl, hk.nroot, hk.root, hk.malloc⟩, ?_⟩
      · show h2.aux < U16
        rw [hk.aux]; exact ha.aux
      · show (h2.next + hsize t) % U32 ≤ HAT_seg
        simp only [HAT_seg, HAT_slot_size, U32]; omega
      · exact hs2
      · intro n
        show h2.malloc n + HAT_seg < U64
        rw [hk.malloc]; exact ha.malloc n
      · intro t' ht' a hmem
        exact ha.reuse t' ht' a (by simpa [hr2] using hmem)
      · intro _
        show (h2.seg + h2.next) % U64 + hsize t < U64
        simp only [U64]
        omega
    · rename_i hsmall
      simp only [Res.pure_def, Res.ok_bind, Res.ok.injEq, Prod.mk.injEq] at h
      obtain ⟨rfl, rfl⟩ := h
      simp only [HAT_seg, HAT_slot_size, U32, not_lt] at hsmall
      have : (hat.next + hsize t) % 4294967296 = hat.next + hsize t := by omega
      rw [this] at hsmall
      refine ⟨⟨ha.aux, ?_, ha.seg, ha.malloc, ha.reuse⟩, ⟨rfl, rfl, rfl, rfl, rfl⟩, ?_⟩
      · show (hat.next + hsize t) % U32 ≤ HAT_seg
        simp only [HAT_seg, HAT_slot_size, U32]; omega
      · intro _
        show (hat.seg + hat.next) % U64 + hsize t < U64
        simp only [U64]
        omega

theorem hat_free_ok {hat : Hat} {a t : Nat} (ha : AllocOK hat)
    (h : HAT_1 ≤ t → a + hsize t < U64) :
    AllocOK (hat_free hat a t) ∧ Keeps hat (hat_free hat a t) := by
  refine ⟨⟨ha.aux, ha.next, ha.seg, ha.malloc, ?_⟩, ⟨rfl, rfl, rfl, rfl, rfl⟩⟩
  intro t' ht' x hmem
  simp only [hat_free, setSlot] at hmem
  split at hmem
  · rename_i heq
    subst heq
    rcases List.mem_cons.mp hmem with rfl | hm
    · exact h ht'
    · exact ha.reuse _ ht' x hm
  · exact ha.reuse _ ht' x hmem

theorem memcpy_eq_ok {dst src d : List Nat} {pos n : Nat} (h : memcpy dst pos src n = .ok d) :
    n ≤ src.length ∧ pos + n ≤ dst.length ∧ d.length = dst.length ∧
    (∀ m, m ≤ pos → d.take m = dst.take m) ∧ d.take (pos + n) = dst.take pos ++ src.take n ∧
    d.drop (pos + n) = dst.drop (pos + n) := by
  unfold memcpy at h
  split at h
  · rename_i hc
    simp only [Res.ok.injEq] at h
    subst h
    have hl : (dst.take pos ++ src.take n).length = pos + n := by
      simp; omega
    refine ⟨hc.1, hc.2, ?_, ?_, ?_, ?_⟩
    · simp; omega
    · intro m hm
      rw [List.append_assoc, List.take_append_of_le_length (by simp; omega), List.take_take]
      congr 1; omega
    · rw [List.take_left' hl]
    · rw [List.drop_left' hl]
  · simp at h

theorem wr_eq_ok {l l' : List Nat} {i a : Nat} (h : wr l i a = .ok l') :
    i < l.length ∧ l'.length = l.length ∧ (∀ m, m ≤ i → l'.take m = l.take m) ∧
    l'.take (i + 1) = l.take i ++ [a] ∧ l'.drop (i + 1) = l.drop (i + 1) := by
  unfold wr at h
  split at h
  · rename_i hc
    simp only [Res.ok.injEq] at h
    subst h
    refine ⟨hc, by simp, ?_, ?_, ?_⟩
    · intro m hm
      rw [List.set_take]
      exact List.set_eq_of_length_le (by simp; omega)
    · rw [List.take_succ, List.set_take]
      rw [List.set_eq_of_length_le (by simp)]
      simp [List.getElem?_set, hc]
    · simp [List.drop_set]
  · simp at h

theorem and127 {n : Nat} (h : n ≤ 127) : n &&& 127 = n := by
  have := Nat.and_pow_two_sub_one_eq_mod n 7
  simp only [Nat.reducePow, Nat.add_one_sub_one] at this
  rw [this]; omega

theorem and128 {n : Nat} (h : n ≤ 127) : n &&& 128 = 0 := by
  interval_cases n <;> rfl

theorem put_record_ok {keys keys' buff : List Nat} {pos amt : Nat} (h1 : amt ≤ 127)
    (h : put_record keys pos buff amt 1 = .ok keys') :
    amt ≤ buff.length ∧ pos + 1 + amt ≤ keys.length ∧ keys'.length = keys.length ∧
    (∀ m, m ≤ pos → keys'.take m = keys.take m) ∧
    keys'.take (pos + 1 + amt) = keys.take pos ++ amt :: buff.take amt := by
  unfold put_record at h
  obtain ⟨k1, hk1, h⟩ := Res.bind_eq_ok.mp h
  obtain ⟨k2, hk2, h⟩ := Res.bind_eq_ok.mp h
  have hnot : ¬ amt > 127 := by omega
  simp only [hnot, ↓reduceIte, Res.pure_def, Res.ok.injEq] at h
  subst h
  obtain ⟨a1, a2, a3, a4, a5, a6⟩ := memcpy_eq_ok hk1
  rw [and127 h1] at hk2
  obtain ⟨b1, b2, b3, b4, b5⟩ := wr_eq_ok hk2
  refine ⟨a1, by omega, by omega, ?_, ?_⟩
  · intro m hm
    rw [b3 m hm, a4 m (by omega)]
  · have e1 : pos + 1 + amt = (pos + 1) + amt := rfl
    rw [e1, List.take_add, b4, b5, a4 pos (by omega)]
    have : (k1.drop (pos + 1)).take amt = buff.take amt := by
      have := congrArg (List.drop (pos + 1)) a5
      rw [List.drop_take, List.drop_left' (by simp; omega)] at this
      simpa using this
    rw [this]
    simp

theorem new_array_type_ok (f : Nat) (hat : Hat) (amt skip t t' : Nat)
    (h : new_array_type f hat amt skip t = .ok t') :
    t ≤ t' ∧ t' < 32 ∧ (hat.aux + amt + skip) % U32 + sizeof_HatBase ≤ hsize t' := by
  induction f generalizing t with
  | zero => simp [new_array_type] at h
  | succ f ih =>
    rw [new_array_type] at h
    by_cases ht : t < 32
    · rw [HatSize_eq ht] at h
      simp only [Res.ok_bind] at h
      split at h
      · have := ih _ h
        omega
      · rename_i hc
        simp only [Res.pure_def, Res.ok.injEq] at h
        subst h
        exact ⟨Nat.le_refl _, ht, by omega⟩
    · have : HatSize t = .fault := by
        unfold HatSize
        have : HatSizeTable[t]? = none := by
          apply List.getElem?_eq_none
          simp [HatSizeTable]; omega
        rw [this]
      rw [this] at h
      simp at h

theorem hsize_pos_class : ∀ t, t < 32 → 4 ≤ t → 5 ≤ hsize t → t ≤ 15 := by decide

theorem slot_ptr_eq {addr size off : Nat} (h1 : addr + size < U64) (h2 : off ≤ size) :
    slot_ptr addr size off = addr + size - off := by
  unfold slot_ptr ptr_sub
  simp only [U64] at h1 ⊢
  omega

theorem hat_new_array_ok {hat h1 : Hat} {buff : List Nat} {amt cell : Nat} {ob : Option HatBase}
    (ha : AllocOK hat) (hamt : amt ≤ 127)
    (h : hat_new_array hat buff amt = .ok (h1, ob, cell)) :
    AllocOK h1 ∧ Keeps hat h1 ∧ amt ≤ buff.length ∧ ∃ b, ob = some b ∧
      WFArray hat.aux b [buff.take amt] ∧ cell = slot_ptr b.addr (hsize b.type) (1 * hat.aux) := by
  unfold hat_new_array at h
  have hnot : ¬ amt > 127 := by omega
  simp only [hnot, ↓reduceIte] at h
  obtain ⟨t, ht, h⟩ := Res.bind_eq_ok.mp h
  obtain ⟨ht1, ht2, ht3⟩ := new_array_type_ok _ _ _ _ _ _ ht
  have haux := ha.aux
  simp only [U16] at haux
  have hfit : hat.aux + amt + 1 + 4 ≤ hsize t := by
    simp only [U32, sizeof_HatBase] at ht3; omega
  have ht15 : t ≤ 15 := hsize_pos_class t ht2 ht1 (by omega)
  have hnot2 : ¬ t > HatMax := by simp only [HatMax, HAT_32]; omega
  simp only [hnot2, ↓reduceIte] at h
  obtain ⟨⟨h2, addr⟩, hal, h⟩ := Res.bind_eq_ok.mp h
  obtain ⟨hok, hkeep, haddr⟩ := hat_alloc_ok ha ht2 hal
  simp only [HatSize_eq ht2, Res.ok_bind] at h
  obtain ⟨keys, hput, h⟩ := Res.bind_eq_ok.mp h
  simp only [Res.pure_def, Res.ok.injEq, Prod.mk.injEq] at h
  obtain ⟨rfl, rfl, rfl⟩ := h
  obtain ⟨p1, p2, p3, p4, p5⟩ := put_record_ok hamt hput
  simp only [List.length_replicate, sizeof_HatBase] at p2 p3
  have hsz := hsize_le t ht15 ht1
  refine ⟨hok, hkeep, p1, _, rfl, ?_, ?_⟩
  · refine ⟨?_, ht1, ht15, ?_, ?_, ?_, ?_, ?_, ?_, haddr ht1⟩
    · intro r hr
      simp only [List.mem_singleton] at hr
      subst hr
      simp; omega
    · simp only [sizeof_HatBase]; omega
    · simp only [enc, U16]; simp; omega
    · have e : (amt + 1) % U16 = 0 + 1 + amt := by simp only [U16]; omega
      simp only [e, p5, enc]
      simp [p1]
    · simp
    · simp only [U16, sizeof_HatBase]; simp; omega
    · intro _; simp
  · simp only [U32]
    congr 1
    omega

theorem promote_type_ok (f need t t' : Nat) (ht : t ≤ 15) (h : promote_type f need t = .ok t') :
    (t ≤ t' ∧ t' ≤ 15 ∧ need ≤ hsize t') ∨ t' = 16 := by
  induction f generalizing t with
  | zero => simp [promote_type] at h
  | succ f ih =>
    rw [promote_type, HatSize_eq (by omega)] at h
    simp only [Res.ok_bind, HatMax, HAT_32] at h
    split at h
    · split at h
      · rcases ih (t + 1) (by omega) h with h' | h'
        · left; omega
        · right; exact h'
      · simp only [Res.pure_def, Res.ok.injEq] at h
        right; omega
    · simp only [Res.pure_def, Res.ok.injEq] at h
      subst h
      left
      omega

theorem poke_ok {aux : Nat} {b b' : HatBase} {rs : List (List Nat)} {cell : Nat} {value : List Nat}
    (hwf : WFArray aux b rs)
    (hcell : cell = slot_ptr b.addr (hsize b.type) (rs.length * aux))
    (h : poke b cell value = .ok b') :
    WFArray aux b' rs ∧ b'.addr = b.addr ∧ b'.type = b.type := by
  unfold poke at h
  obtain ⟨keys, hk, h⟩ := Res.bind_eq_ok.mp h
  simp only [Res.pure_def, Res.ok.injEq] at h
  subst h
  have hb := hwf.nxt_le
  have hcap := hwf.cap
  have haddr := hwf.addr
  have hlen := hwf.len
  simp only [sizeof_HatBase] at hcap hlen hk
  generalize hP : rs.length * aux = P at *
  have hptr : ptr_sub cell ((b.addr + 4) % U64) = hsize b.type - 4 - P := by
    rw [hcell, slot_ptr_eq haddr (by omega)]
    unfold ptr_sub
    simp only [U64] at haddr ⊢
    omega
  rw [hptr] at hk
  obtain ⟨a1, a2, a3, a4, a5, a6⟩ := memcpy_eq_ok hk
  refine ⟨⟨hwf.short, hwf.tlo, hwf.thi, ?_, hwf.nxt, ?_, hwf.cnt, ?_, hwf.few, hwf.addr⟩, rfl, rfl⟩
  · simp only [sizeof_HatBase]; omega
  · show keys.take b.nxt = enc rs
    rw [a4 _ (by omega)]
    exact hwf.bytes
  · simp only [sizeof_HatBase]; omega

theorem slot_ptr_ne_zero {aux : Nat} {b : HatBase} {rs : List (List Nat)} (hwf : WFArray aux b rs)
    {n : Nat} (hn : n ≤ rs.length) : slot_ptr b.addr (hsize b.type) (n * aux) ≠ 0 := by
  have hcap := hwf.cap
  have h1 : n * aux ≤ rs.length * aux := Nat.mul_le_mul_right _ hn
  simp only [sizeof_HatBase] at hcap
  rw [slot_ptr_eq hwf.addr (by omega)]
  omega

theorem cnt_facts {aux : Nat} {b : HatBase} {rs : List (List Nat)} (hwf : WFArray aux b rs)
    (haux : aux < U16) (hc : aux = 0 ∨ b.cnt < 255) :
    (b.cnt + 1) * aux = (rs.length + 1) * aux ∧ b.cnt * aux = rs.length * aux ∧
    ((b.cnt + 1) % U8) * aux = (rs.length + 1) * aux ∧
    (b.cnt + 1) % U8 = (rs.length + 1) % U8 ∧ (aux ≠ 0 → rs.length + 1 ≤ 255) ∧
    (rs.length + 1) * aux ≤ 255 * 65535 := by
  have hcnt := hwf.cnt
  have hfew := hwf.few
  simp only [U8, U16] at *
  by_cases h0 : aux = 0
  · subst h0
    simp
    omega
  · have h255 := hfew h0
    have hlt : b.cnt < 255 := by
      rcases hc with h | h
      · exact absurd h h0
      · exact h
    have e : b.cnt = rs.length := by omega
    have e2 : (b.cnt + 1) % 256 = rs.length + 1 := by omega
    rw [e2, e]
    refine ⟨rfl, rfl, rfl, by omega, fun _ => by omega, ?_⟩
    exact Nat.mul_le_mul (by omega) (by omega)

theorem hat_promote_k_ok (np : Hat → HatBase → List Nat → Nat → Res (Hat × BSlot × Nat))
    {hat h1 : Hat} {b : HatBase} {slot : BSlot} {cell amt pail : Nat} {buff : List Nat}
    {rs : List (List Nat)} (ha : AllocOK hat) (hwf : WFArray hat.aux b rs) (hamt : amt ≤ 127)
    (h : hat_promote_k np hat b buff amt pail = .ok (h1, slot, cell)) :
    Stored hat h1 rs buff amt slot cell ∨
    (pail ≠ 0 ∧ np hat b buff amt = .ok (h1, slot, cell)) ∨
    (pail = 0 ∧ h1 = hat ∧ slot = .array b ∧ cell = 0) := by
  unfold hat_promote_k at h
  have hnot : ¬ (amt > 127 ∧ amt < 2147483648) := by omega
  have hb := hwf.nxt_le
  have hthi := hwf.thi
  have htlo := hwf.tlo
  simp only [HatMax, HAT_32, HAT_1] at hthi htlo
  have hfail : ∀ t, t > HatMax →
      (if pail ≠ 0 ∧ HatPailMax ≠ 0 then np hat b buff amt else pure (hat, BSlot.array b, 0)) =
        .ok (h1, slot, cell) →
      (pail ≠ 0 ∧ np hat b buff amt = .ok (h1, slot, cell)) ∨
      (pail = 0 ∧ h1 = hat ∧ slot = .array b ∧ cell = 0) := by
    intro t _ h
    by_cases hp : pail = 0
    · right
      simp only [hp, ne_eq, not_true_eq_false, false_and, ↓reduceIte, Res.pure_def, Res.ok.injEq,
        Prod.mk.injEq] at h
      exact ⟨hp, h.1.symm, h.2.1.symm, h.2.2.symm⟩
    · left
      simp only [ne_eq, hp, not_false_eq_true, HatPailMax, OfNat.ofNat_ne_zero, and_self,
        ↓reduceIte] at h
      exact ⟨hp, h⟩
  by_cases hc : hat.aux = 0 ∨ b.cnt < 255
  swap
  · simp only [hnot, ↓reduceIte, HatSize_eq (show b.type < 32 by omega), Res.ok_bind, hc,
      Res.pure_def, show HatMax + 1 > HatMax by simp] at h
    right
    exact hfail _ (show HatMax + 1 > HatMax by simp) h
  simp only [hnot, ↓reduceIte, HatSize_eq (show b.type < 32 by omega), Res.ok_bind, hc] at h
  obtain ⟨t, ht, h⟩ := Res.bind_eq_ok.mp h
  by_cases hbig : t > HatMax
  · simp only [hbig, ↓reduceIte] at h
    right
    exact hfail t hbig h
  left
  simp only [hbig, ↓reduceIte] at h
  simp only [HatMax, HAT_32, not_lt] at hbig
  obtain ⟨c1, c2, c3, c4, c5, c6⟩ := cnt_facts hwf ha.aux hc
  rcases promote_type_ok _ _ _ _ (by omega) ht with ⟨t1, t2, t3⟩ | t16
  swap
  · omega
  rw [c1] at t3
  obtain ⟨⟨h2, addr⟩, hal, h⟩ := Res.bind_eq_ok.mp h
  obtain ⟨hok, hkeep, haddr⟩ := hat_alloc_ok ha (show t < 32 by omega) hal
  simp only [HatSize_eq (show t < 32 by omega), Res.ok_bind, sizeof_HatBase] at h
  obtain ⟨k1, hk1, h⟩ := Res.bind_eq_ok.mp h
  have hz : ¬ (amt &&& 128 ≠ 0) := by simp [and128 hamt]
  rw [and127 hamt] at h
  obtain ⟨a1, a2, a3, a4, a5, a6⟩ := memcpy_eq_ok hk1
  have hst := hsize_le t t2 (by omega)
  simp only [List.length_replicate, Nat.zero_add] at a2 a3 a5
  have hbytes := hwf.bytes
  have hnxt := hwf.nxt
  have fin : ∀ k2 : List Nat, k2.length = k1.length → k2.take b.nxt = k1.take b.nxt →
      (wr k2 b.nxt amt >>= fun keys => memcpy keys (b.nxt + 1) buff amt >>= fun keys =>
        Res.ok (hat_free h2 b.addr b.type,
          BSlot.array { addr := addr, nxt := (b.nxt + amt + 1) % U16, type := t,
                        cnt := (b.cnt + 1) % U8, keys := keys },
          slot_ptr addr (hsize t) ((b.cnt + 1) % U8 * hat.aux % U32))) = .ok (h1, slot, cell) →
      Stored hat h1 rs buff amt slot cell := by
    intro k2 hl2 ht2 h
    obtain ⟨k3, hk3, h⟩ := Res.bind_eq_ok.mp h
    obtain ⟨k5, hk5, h⟩ := Res.bind_eq_ok.mp h
    obtain ⟨w1, w2, w3, w4, w5⟩ := wr_eq_ok hk3
    obtain ⟨m1, m2, m3, m4, m5, m6⟩ := memcpy_eq_ok hk5
    simp only [Res.ok.injEq, Prod.mk.injEq] at h
    obtain ⟨e1, e2, e3⟩ := h
    subst e1 e2 e3
    have hfr := hat_free_ok (a := b.addr) (t := b.type) hok (fun _ => hwf.addr)
    have hlen : (buff.take amt).length = amt := by simp [m1]
    have henc : (enc (rs ++ [buff.take amt])).length = b.nxt + amt + 1 := by
      rw [enc_append, List.length_append, ← hnxt]
      simp only [enc, List.append_nil, List.length_cons, hlen]
      omega
    have hmod : (b.nxt + amt + 1) % U16 = b.nxt + amt + 1 := by
      simp only [U16]; omega
    refine ⟨hfr.1, hkeep.trans hfr.2, m1, _, rfl, ⟨?_, ?_, ?_, ?_, ?_, ?_, ?_, ?_, ?_, ?_⟩, ?_⟩
    · intro r hr
      rcases List.mem_append.mp hr with hr | hr
      · exact hwf.short r hr
      · simp only [List.mem_singleton] at hr
        subst hr
        omega
    · show HAT_1 ≤ t
      simp only [HAT_1]; omega
    · show t ≤ HatMax
      simp only [HatMax, HAT_32]; omega
    · show k5.length + sizeof_HatBase = hsize t
      simp only [sizeof_HatBase]; omega
    · show (b.nxt + amt + 1) % U16 = _
      rw [hmod, henc]
    · show k5.take ((b.nxt + amt + 1) % U16) = _
      rw [hmod, show b.nxt + amt + 1 = b.nxt + 1 + amt by omega, m5, w4, ht2, a5, hbytes,
        enc_append]
      simp [enc, hlen]
    · show (b.cnt + 1) % U8 = _
      rw [c4, List.length_append]
      rfl
    · show (b.nxt + amt + 1) % U16 + (rs ++ [buff.take amt]).length * hat.aux + sizeof_HatBase
        ≤ hsize t
      rw [hmod, List.length_append]
      simp only [List.length_singleton, sizeof_HatBase, U32] at t3 ⊢
      omega
    · intro h0
      rw [List.length_append]
      exact c5 h0
    · exact haddr (by simp only [HAT_1]; omega)
    · show slot_ptr addr (hsize t) _ = _
      rw [c3, Nat.mod_eq_of_lt (by simp only [U32]; omega)]
  by_cases h0 : hat.aux ≠ 0
  swap
  · rw [if_neg h0] at h
    simp only [↓reduceIte, Res.pure_def, Res.ok_bind, hz] at h
    exact fin k1 rfl rfl h
  · rw [if_pos h0] at h
    by_cases hcond : b.cnt * hat.aux % U32 + 4 ≤ hsize t ∧ b.cnt * hat.aux % U32 + 4 ≤ hsize b.type
    swap
    · rw [if_neg hcond] at h
      exact absurd h (by simp)
    rw [if_pos hcond] at h
    simp only [↓reduceIte, Res.pure_def, Res.ok_bind, hz] at h
    obtain ⟨k2, hk2, h⟩ := Res.bind_eq_ok.mp h
    obtain ⟨n1, n2, n3, n4, n5, n6⟩ := memcpy_eq_ok hk2
    refine fin k2 n3 (n4 _ ?_) h
    have hcap := hwf.cap
    simp only [sizeof_HatBase, U32] at t3 hcap hcond
    rw [c2] at hcond
    rw [c2, Nat.mod_eq_of_lt (by simp only [U32]; nlinarith [c6])]
    have : rs.length * hat.aux ≤ (rs.length + 1) * hat.aux := Nat.mul_le_mul_right _ (by omega)
    omega

theorem hat_add_array_k_ok (np : Hat → HatBase → List Nat → Nat → Res (Hat × BSlot × Nat))
    {hat h1 : Hat} {b : HatBase} {slot : BSlot} {cell amt pail : Nat} {buff : List Nat}
    {rs : List (List Nat)} (ha : AllocOK hat) (hwf : WFArray hat.aux b rs) (hamt : amt ≤ 127)
    (h : hat_add_array_k np hat b buff amt pail = .ok (h1, slot, cell)) :
    Stored hat h1 rs buff amt slot cell ∨
    (pail ≠ 0 ∧ np hat b buff amt = .ok (h1, slot, cell)) ∨
    (pail = 0 ∧ h1 = hat ∧ slot = .array b ∧ cell = 0) := by
  unfold hat_add_array_k at h
  have hnot : ¬ (amt > 127) := by omega
  have hb := hwf.nxt_le
  have hthi := hwf.thi
  have htlo := hwf.tlo
  simp only [HatMax, HAT_32, HAT_1] at hthi htlo
  simp only [hnot, ↓reduceIte, HatSize_eq (show b.type < 32 by omega), Res.ok_bind] at h
  by_cases hc : (hat.aux = 0 ∨ b.cnt < 255) ∧
      ((b.cnt + 1) * hat.aux + b.nxt + amt + 1) % U32 + sizeof_HatBase ≤ hsize b.type
  swap
  · rw [if_neg hc] at h
    exact hat_promote_k_ok np ha hwf hamt h
  rw [if_pos hc] at h
  left
  obtain ⟨k, hk, h⟩ := Res.bind_eq_ok.mp h
  simp only [Res.pure_def, Res.ok.injEq, Prod.mk.injEq] at h
  obtain ⟨e1, e2, e3⟩ := h
  subst e1 e2 e3
  obtain ⟨c1, c2, c3, c4, c5, c6⟩ := cnt_facts hwf ha.aux hc.1
  obtain ⟨p1, p2, p3, p4, p5⟩ := put_record_ok hamt hk
  have t3 := hc.2
  rw [c1] at t3
  have hbytes := hwf.bytes
  have hnxt := hwf.nxt
  have hlen : (buff.take amt).length = amt := by simp [p1]
  have henc : (enc (rs ++ [buff.take amt])).length = b.nxt + amt + 1 := by
    rw [enc_append, List.length_append, ← hnxt]
    simp only [enc, List.append_nil, List.length_cons, hlen]
    omega
  have hmod : (b.nxt + amt + 1) % U16 = b.nxt + amt + 1 := by
    simp only [U16]; omega
  have hl := hwf.len
  refine ⟨ha, Keeps.refl _, p1, _, rfl, ⟨?_, ?_, ?_, ?_, ?_, ?_, ?_, ?_, ?_, ?_⟩, ?_⟩
  · intro r hr
    rcases List.mem_append.mp hr with hr | hr
    · exact hwf.short r hr
    · simp only [List.mem_singleton] at hr
      subst hr
      omega
  · exact hwf.tlo
  · exact hwf.thi
  · show k.length + sizeof_HatBase = hsize b.type
    rw [p3]; exact hl
  · show (b.nxt + amt + 1) % U16 = _
    rw [hmod, henc]
  · show k.take ((b.nxt + amt + 1) % U16) = _
    rw [hmod, show b.nxt + amt + 1 = b.nxt + 1 + amt by omega, p5, hbytes, enc_append]
    simp [enc, hlen]
  · show (b.cnt + 1) % U8 = _
    rw [c4, List.length_append]
    rfl
  · show (b.nxt + amt + 1) % U16 + (rs ++ [buff.take amt]).length * hat.aux + sizeof_HatBase
      ≤ hsize b.type
    rw [hmod, List.length_append]
    simp only [List.length_singleton, sizeof_HatBase, U32] at t3 ⊢
    omega
  · intro h0
    rw [List.length_append]
    exact c5 h0
  · exact hwf.addr
  · show slot_ptr b.addr (hsize b.type) _ = _
    rw [c3, Nat.mod_eq_of_lt (by simp only [U32]; omega)]

theorem QBase.mono {aux : Nat} {Q Q' : List Nat → Prop} {b : HatBase} (h : QBase aux Q b)
    (hq : ∀ r, Q r → Q' r) : QBase aux Q' b := by
  obtain ⟨rs, h1, h2⟩ := h
  exact ⟨rs, h1, fun r hr => hq r (h2 r hr)⟩

theorem Last.base {aux : Nat} {Q : List Nat → Prop} {b : HatBase} {key : List Nat} {cell : Nat}
    (h : Last aux Q b key cell) : QBase aux (fun _ => True) b := by
  obtain ⟨rs, _, h2, _⟩ := h
  exact ⟨_, h2, fun _ _ => trivial⟩

theorem Last.ne_zero {aux : Nat} {Q : List Nat → Prop} {b : HatBase} {key : List Nat} {cell : Nat}
    (h : Last aux Q b key cell) : cell ≠ 0 := by
  obtain ⟨rs, _, h2, h3⟩ := h
  rw [h3]
  exact slot_ptr_ne_zero h2 (by simp)

theorem Stored.last {hat h1 : Hat} {rs : List (List Nat)} {buff : List Nat} {amt : Nat}
    {slot : BSlot} {cell : Nat} (h : Stored hat h1 rs buff amt slot cell)
    {Q : List Nat → Prop} (hq : ∀ r ∈ rs, Q r) :
    ∃ b, slot = .array b ∧ Last hat.aux Q b (buff.take amt) cell := by
  obtain ⟨_, _, _, b, hb, hw, hc⟩ := h
  exact ⟨b, hb, rs, hq, hw, hc⟩

/-- Outcome of `hat_add_array` with `pail` zero on a well-formed node. -/
theorem hat_add_array0_ok {hat h1 : Hat} {b b1 : HatBase} {cell amt : Nat} {buff : List Nat}
    {rs : List (List Nat)} (ha : AllocOK hat) (hwf : WFArray hat.aux b rs) (hamt : amt ≤ 127)
    (h : hat_add_array0 hat b buff amt = .ok (h1, b1, cell)) :
    (Stored hat h1 rs buff amt (.array b1) cell ∧ cell ≠ 0) ∨ (h1 = hat ∧ b1 = b ∧ cell = 0) := by
  unfold hat_add_array0 at h
  obtain ⟨⟨h2, slot, c⟩, hk, h⟩ := Res.bind_eq_ok.mp h
  rcases hat_add_array_k_ok no_new_pail ha hwf hamt hk with hs | ⟨hp, _⟩ | ⟨_, e1, e2, e3⟩
  · obtain ⟨b', hb', hl⟩ := hs.last (Q := fun _ => True) (fun _ _ => trivial)
    subst hb'
    simp only [Res.pure_def, Res.ok.injEq, Prod.mk.injEq] at h
    obtain ⟨e1, e2, e3⟩ := h
    subst e1 e2 e3
    exact Or.inl ⟨hs, hl.ne_zero⟩
  · exact absurd rfl hp
  · subst e1 e2 e3
    simp only [Res.pure_def, Res.ok.injEq, Prod.mk.injEq] at h
    obtain ⟨e1, e2, e3⟩ := h
    subst e1 e2 e3
    exact Or.inr ⟨rfl, rfl, rfl⟩

/-- The record header and the record bytes found at the offset of record
number `rs1.length` of a well-formed array node. -/
theorem rec_at {aux : Nat} {b : HatBase} {rs1 rs2 : List (List Nat)} {r : List Nat}
    (hwf : WFArray aux b (rs1 ++ r :: rs2)) :
    (enc rs1).length < b.nxt ∧ rd b.keys (enc rs1).length = .ok r.length ∧ r.length ≤ 127 ∧
    ((enc rs1).length + 1) % U16 = (enc rs1).length + 1 ∧
    (b.keys.drop ((enc rs1).length + 1)).take r.length = r ∧
    r.length ≤ (b.keys.drop ((enc rs1).length + 1)).length ∧
    ((enc rs1).length + 1 + r.length) % U16 = (enc (rs1 ++ [r])).length ∧
    (rs1.length + 1) % U16 = (rs1 ++ [r]).length := by
  have hb := hwf.nxt_le
  have hnxt := hwf.nxt
  have hbytes := hwf.bytes
  have hshort := hwf.short r (by simp)
  have hK : b.keys = enc rs1 ++ r.length :: (r ++ (enc rs2 ++ b.keys.drop b.nxt)) := by
    conv_lhs => rw [← List.take_append_drop b.nxt b.keys, hbytes, enc_append]
    simp [enc]
  have hE : (enc (rs1 ++ r :: rs2)).length = (enc rs1).length + 1 + r.length + (enc rs2).length := by
    rw [enc_append]
    simp only [enc, List.length_append, List.length_cons]
    omega
  have hE1 : (enc (rs1 ++ [r])).length = (enc rs1).length + 1 + r.length := by
    rw [enc_append]
    simp only [enc, List.length_append, List.length_cons, List.append_nil]
    omega
  have hl1 := length_le_enc rs1
  refine ⟨by omega, ?_, hshort, ?_, ?_, ?_, ?_, ?_⟩
  · unfold rd
    rw [hK, getElem?_append_cons]
  · simp only [U16]; omega
  · have e : List.drop ((enc rs1).length + 1) b.keys = r ++ (enc rs2 ++ b.keys.drop b.nxt) := by
      conv_lhs => rw [hK]
      rw [show (enc rs1).length + 1 = (enc rs1 ++ [r.length]).length by simp,
        show enc rs1 ++ r.length :: (r ++ (enc rs2 ++ List.drop b.nxt b.keys)) =
          (enc rs1 ++ [r.length]) ++ (r ++ (enc rs2 ++ List.drop b.nxt b.keys)) by simp,
        List.drop_left]
    rw [e, List.take_left]
  · rw [List.length_drop]
    omega
  · rw [hE1]
    simp only [U16]; omega
  · rw [List.length_append, List.length_singleton]
    simp only [U16]; omega

theorem rec_end {aux : Nat} {b : HatBase} {rs : List (List Nat)} (hwf : WFArray aux b rs) :
    ¬ (enc rs).length < b.nxt := by
  rw [hwf.nxt]
  omega

theorem setSlot_same {α : Type} (t : Nat → α) (i : Nat) (v : α) : setSlot t i v i = v := by
  simp [setSlot]

theorem setSlot_other {α : Type} (t : Nat → α) {i j : Nat} (v : α) (h : j ≠ i) :
    setSlot t i v j = t j := by
  simp [setSlot, h]

theorem setSlot_self {α : Type} (t : Nat → α) (i : Nat) : setSlot t i (t i) = t := by
  funext j
  unfold setSlot
  split
  · rename_i h; rw [h]
  · rfl

theorem ChildAdd.qbase {aux : Nat} {old : Option HatBase} {new : HatBase} {key : List Nat}
    {cell : Nat} (h : ChildAdd aux old new key cell) {Q : List Nat → Prop} (hk : Q key)
    (ho : ∀ b, old = some b → QBase aux Q b) : QBase aux Q new := by
  rcases h with ⟨_, h⟩ | ⟨_, h⟩
  · obtain ⟨rs, h1, h2, _⟩ := h Q ho
    refine ⟨_, h2, ?_⟩
    intro r hr
    rcases List.mem_append.mp hr with hr | hr
    · exact h1 r hr
    · simp only [List.mem_singleton] at hr
      subst hr
      exact hk
  · exact ho _ h

theorem ChildAdd.arr {aux : Nat} {array : Nat → Option HatBase} {c : Nat} {new : HatBase}
    {key : List Nat} {cell : Nat} (h : ChildAdd aux (array c) new key cell)
    {Q : List Nat → Prop} (hk : Q key) (ho : QArr aux Q array) :
    QArr aux Q (setSlot array c (some new)) := by
  intro i b hb
  by_cases hi : i = c
  · subst hi
    rw [setSlot_same] at hb
    cases hb
    exact h.qbase hk (fun b hb => ho _ b hb)
  · rw [setSlot_other _ _ hi] at hb
    exact ho i b hb

/-- Outcome of the store into one slot of a pail as `hat_add_pail` and the loop
of `hat_new_pail` do it. -/
theorem child_add_new {hat h1 : Hat} {buff : List Nat} {amt cell : Nat} {ob : Option HatBase}
    (ha : AllocOK hat) (hamt : amt ≤ 127)
    (h : hat_new_array hat buff amt = .ok (h1, ob, cell)) :
    AllocOK h1 ∧ Keeps hat h1 ∧ amt ≤ buff.length ∧ ∃ b, ob = some b ∧
      ∀ Q : List Nat → Prop, Last hat.aux Q b (buff.take amt) cell := by
  obtain ⟨a1, a2, a3, b, hb, hw, hc⟩ := hat_new_array_ok ha hamt h
  refine ⟨a1, a2, a3, b, hb, fun Q => ⟨[], ?_, hw, ?_⟩⟩
  · intro r hr; cases hr
  · rw [hc]; rfl

theorem child_add_old {hat h1 : Hat} {b b1 : HatBase} {cell amt : Nat} {buff : List Nat}
    (ha : AllocOK hat) (hwf : QBase hat.aux (fun _ => True) b) (hamt : amt ≤ 127)
    (h : hat_add_array0 hat b buff amt = .ok (h1, b1, cell)) :
    AllocOK h1 ∧ Keeps hat h1 ∧ (cell ≠ 0 → amt ≤ buff.length) ∧
      ChildAdd hat.aux (some b) b1 (buff.take amt) cell := by
  obtain ⟨rs, hw, _⟩ := hwf
  rcases hat_add_array0_ok ha hw hamt h with ⟨hs, hc⟩ | ⟨e1, e2, e3⟩
  · refine ⟨hs.1, hs.2.1, fun _ => hs.2.2.1, Or.inl ⟨hc, ?_⟩⟩
    intro Q hQ
    obtain ⟨rs', hw', hq'⟩ := hQ b rfl
    rcases hat_add_array0_ok ha hw' hamt h with ⟨hs', _⟩ | ⟨_, _, e3⟩
    · obtain ⟨b', hb', hl⟩ := hs'.last hq'
      cases hb'
      exact hl
    · exact absurd e3 hc
  · subst e1 e2 e3
    exact ⟨ha, Keeps.refl _, fun h => absurd rfl h, Or.inr ⟨rfl, rfl⟩⟩

/-- Outcome of `hat_add_pail` on a pail of well-formed array nodes. -/
theorem hat_add_pail_ok {hat h1 : Hat} {p p1 : HatPail} {cell amt : Nat} {buff : List Nat}
    (ha : AllocOK hat) (hwf : QArr hat.aux (fun _ => True) p.array) (hamt : amt ≤ 127)
    (h : hat_add_pail hat p buff amt = .ok (h1, p1, cell)) :
    AllocOK h1 ∧ Keeps hat h1 ∧ (cell ≠ 0 → amt ≤ buff.length) ∧ p1.addr = p.addr ∧
    ∃ x b', hat_code buff amt = .ok x ∧ p1.array = setSlot p.array (x % HatPailMax) (some b') ∧
      ChildAdd hat.aux (p.array (x % HatPailMax)) b' (buff.take amt) cell := by
  unfold hat_add_pail at h
  obtain ⟨x, hx, h⟩ := Res.bind_eq_ok.mp h
  cases hc : p.array (x % HatPailMax) with
  | none =>
    simp only [hc] at h
    obtain ⟨⟨h2, nb, c⟩, hn, h⟩ := Res.bind_eq_ok.mp h
    obtain ⟨a1, a2, a3, b, hb, hl⟩ := child_add_new ha hamt hn
    subst hb
    simp only [Res.pure_def, Res.ok.injEq, Prod.mk.injEq] at h
    obtain ⟨e1, e2, e3⟩ := h
    subst e1 e2 e3
    exact ⟨a1, a2, fun _ => a3, rfl, x, b, hx, rfl, Or.inl ⟨(hl (fun _ => True)).ne_zero,
      fun Q _ => hl Q⟩⟩
  | some base =>
    simp only [hc] at h
    obtain ⟨⟨h2, b1, c⟩, hn, h⟩ := Res.bind_eq_ok.mp h
    obtain ⟨a1, a2, a3, a4⟩ := child_add_old ha (hwf _ _ hc) hamt hn
    simp only [Res.pure_def, Res.ok.injEq, Prod.mk.injEq] at h
    obtain ⟨e1, e2, e3⟩ := h
    subst e1 e2 e3
    exact ⟨a1, a2, a3, rfl, x, b1, hx, rfl, hc ▸ a4⟩

theorem poke_last {aux : Nat} {Q : List Nat → Prop} {b b' : HatBase} {key : List Nat}
    {cell : Nat} {value : List Nat} (hl : Last aux Q b key cell)
    (h : poke b cell value = .ok b') : Last aux Q b' key cell := by
  obtain ⟨rs, h1, h2, h3⟩ := hl
  obtain ⟨p1, p2, p3⟩ := poke_ok h2 (by rw [h3]; simp) h
  exact ⟨rs, h1, p1, by rw [p2, p3]; exact h3⟩

theorem poke_zero {aux : Nat} {b b' : HatBase} {rs : List (List Nat)} {value : List Nat}
    (hwf : WFArray aux b rs) (h : poke b 0 value = .ok b') : False := by
  unfold poke at h
  obtain ⟨keys, hk, -⟩ := Res.bind_eq_ok.mp h
  obtain ⟨-, a2, -⟩ := memcpy_eq_ok hk
  have hb := hwf.nxt_le
  have haddr := hwf.addr
  have hlen := hwf.len
  have hs := hsize_le b.type hwf.thi hwf.tlo
  unfold ptr_sub at a2
  simp only [U64, sizeof_HatBase] at a2 haddr hlen
  omega

theorem ChildAdd.poke {aux : Nat} {old : Option HatBase} {b1 b2 : HatBase} {key : List Nat}
    {cell : Nat} {value : List Nat} (h : ChildAdd aux old b1 key cell)
    (ho : ∀ b, old = some b → QBase aux (fun _ => True) b)
    (hp : poke b1 cell value = .ok b2) : ChildAdd aux old b2 key cell := by
  rcases h with ⟨hc, h⟩ | ⟨hc, h⟩
  · exact Or.inl ⟨hc, fun Q hQ => poke_last (h Q hQ) hp⟩
  · subst hc
    obtain ⟨rs, hw, -⟩ := ho _ h
    exact (poke_zero hw hp).elim

theorem hat_new_pail_loop_ok {base : HatBase} {rs : List (List Nat)} {aux : Nat}
    (hwf : WFArray aux base rs) :
    ∀ (rs2 rs1 : List (List Nat)) (f : Nat) (hat h1 : Hat) (array array1 : Nat → Option HatBase),
      rs = rs1 ++ rs2 → hat.aux = aux → AllocOK hat → QArr aux (fun _ => True) array →
      hat_new_pail_loop f hat base array (enc rs1).length rs1.length = .ok (h1, array1) →
      AllocOK h1 ∧ Keeps hat h1 ∧
        ∀ Q : List Nat → Prop, (∀ r ∈ rs, Q r) → QArr aux Q array → QArr aux Q array1 := by
  intro rs2
  induction rs2 with
  | nil =>
    intro rs1 f hat h1 array array1 hrs haux ha hq h
    cases f with
    | zero => simp [hat_new_pail_loop] at h
    | succ f =>
      rw [List.append_nil] at hrs
      subst hrs
      rw [hat_new_pail_loop, if_neg (rec_end hwf)] at h
      simp only [Res.pure_def, Res.ok.injEq, Prod.mk.injEq] at h
      obtain ⟨e1, e2⟩ := h
      subst e1 e2
      exact ⟨ha, Keeps.refl _, fun Q _ h => h⟩
  | cons r rs2 ih =>
    intro rs1 f hat h1 array array1 hrs haux ha hq h
    cases f with
    | zero => simp [hat_new_pail_loop] at h
    | succ f =>
      subst hrs
      obtain ⟨r1, r2, r3, r4, r5, r6, r7, r8⟩ := rec_at hwf
      have hz : ¬ (r.length &&& 128 ≠ 0) := by simp [and128 r3]
      rw [hat_new_pail_loop, if_pos r1] at h
      simp only [r2, Res.ok_bind, r4, hz, ↓reduceIte, Res.pure_def] at h
      simp only [r7, r8] at h
      obtain ⟨x, hx, h⟩ := Res.bind_eq_ok.mp h
      have step : ∀ (h2 : Hat) (b1 : HatBase) (c : Nat), AllocOK h2 → Keeps hat h2 →
          ChildAdd aux (array (x % HatPailMax)) b1 r c →
          (if hat.aux ≠ 0 then do
              let value ← aux_read base rs1.length hat.aux
              let b2 ← poke b1 c value
              hat_new_pail_loop f h2 base (setSlot array (x % HatPailMax) (some b2))
                (enc (rs1 ++ [r])).length (rs1 ++ [r]).length
            else hat_new_pail_loop f h2 base (setSlot array (x % HatPailMax) (some b1))
                (enc (rs1 ++ [r])).length (rs1 ++ [r]).length) = .ok (h1, array1) →
          AllocOK h1 ∧ Keeps hat h1 ∧
            ∀ Q : List Nat → Prop, (∀ r_1 ∈ rs1 ++ r :: rs2, Q r_1) → QArr aux Q array →
              QArr aux Q array1 := by
        intro h2 b1 c a1 a2 a4 h
        have fin : ∀ b2, ChildAdd aux (array (x % HatPailMax)) b2 r c →
            hat_new_pail_loop f h2 base (setSlot array (x % HatPailMax) (some b2))
                (enc (rs1 ++ [r])).length (rs1 ++ [r]).length = .ok (h1, array1) →
            AllocOK h1 ∧ Keeps hat h1 ∧
            ∀ Q : List Nat → Prop, (∀ r_1 ∈ rs1 ++ r :: rs2, Q r_1) → QArr aux Q array →
              QArr aux Q array1 := by
          intro b2 hb2 h
          obtain ⟨i1, i2, i3⟩ := ih (rs1 ++ [r]) f h2 h1 _ array1 (by simp) (a2.aux.trans haux) a1
            (hb2.arr trivial hq) h
          refine ⟨i1, a2.trans i2, fun Q hQ hA => i3 Q hQ (hb2.arr (hQ r (by simp)) hA)⟩
        by_cases h0 : hat.aux ≠ 0
        · rw [if_pos h0] at h
          obtain ⟨v, -, h⟩ := Res.bind_eq_ok.mp h
          obtain ⟨b2, hp, h⟩ := Res.bind_eq_ok.mp h
          exact fin b2 (a4.poke (fun b hb => hq _ b hb) hp) h
        · rw [if_neg h0] at h
          exact fin b1 a4 h
      subst haux
      cases hc : array (x % HatPailMax) with
      | some child =>
        simp only [hc] at h
        obtain ⟨⟨h2, b1, c⟩, hn, h⟩ := Res.bind_eq_ok.mp h
        obtain ⟨a1, a2, a3, a4⟩ := child_add_old ha (hq _ _ hc) r3 hn
        rw [r5] at a4
        exact step h2 b1 c a1 a2 (hc ▸ a4) h
      | none =>
        simp only [hc] at h
        obtain ⟨⟨h2, nb, c⟩, hn, h⟩ := Res.bind_eq_ok.mp h
        obtain ⟨a1, a2, a3, b, hb, hl⟩ := child_add_new ha r3 hn
        subst hb
        rw [r5] at hl
        refine step h2 b c a1 a2 (Or.inl ⟨(hl (fun _ => True)).ne_zero, fun Q _ => hl Q⟩) ?_
        by_cases h0 : hat.aux ≠ 0
        · rw [if_pos h0] at h ⊢
          exact h
        · rw [if_neg h0] at h ⊢
          exact h

theorem QArr.none (aux : Nat) (Q : List Nat → Prop) : QArr aux Q (fun _ => none) := by
  intro i b h
  cases h

theorem QArr.set_some {aux : Nat} {Q : List Nat → Prop} {array : Nat → Option HatBase} {c : Nat}
    {b : HatBase} (h : QArr aux Q array) (hb : QBase aux Q b) :
    QArr aux Q (setSlot array c (some b)) := by
  intro i b' hb'
  by_cases hi : i = c
  · subst hi
    rw [setSlot_same] at hb'
    cases hb'
    exact hb
  · rw [setSlot_other _ _ hi] at hb'
    exact h i b' hb'

/-- Outcome of `hat_new_pail` on a well-formed full array node. -/
theorem hat_new_pail_ok {hat h1 : Hat} {b : HatBase} {slot : BSlot} {cell amt : Nat}
    {buff : List Nat} {rs : List (List Nat)} (ha : AllocOK hat) (hwf : WFArray hat.aux b rs)
    (hamt : amt ≤ 127) (h : hat_new_pail hat b buff amt = .ok (h1, slot, cell)) :
    AllocOK h1 ∧ Keeps hat h1 ∧ WFSlot hat.aux slot ∧
    (cell ≠ 0 → amt ≤ buff.length ∧
      ∀ Q : List Nat → Prop, (∀ r ∈ rs, Q r) → LastSlot hat.aux Q slot buff amt cell) := by
  unfold hat_new_pail at h
  obtain ⟨⟨h2, addr⟩, hal, h⟩ := Res.bind_eq_ok.mp h
  obtain ⟨a1, a2, -⟩ := hat_alloc_ok ha (show HAT_pail < 32 by decide) hal
  obtain ⟨⟨h3, array⟩, hl, h⟩ := Res.bind_eq_ok.mp h
  obtain ⟨l1, l2, l3⟩ := hat_new_pail_loop_ok hwf rs [] U16 h2 h3 _ array (by simp) a2.aux a1
    (QArr.none _ _) hl
  obtain ⟨f1, f2⟩ := hat_free_ok (a := b.addr) (t := b.type) l1 (fun _ => hwf.addr)
  obtain ⟨⟨h4, p, c⟩, hp, h⟩ := Res.bind_eq_ok.mp h
  simp only [Res.pure_def, Res.ok.injEq, Prod.mk.injEq] at h
  obtain ⟨e1, e2, e3⟩ := h
  subst e1 e2 e3
  have k3 : Keeps hat (hat_free h3 b.addr b.type) := (a2.trans l2).trans f2
  have hw : QArr (hat_free h3 b.addr b.type).aux (fun _ => True) array := by
    rw [k3.aux]
    exact l3 _ (fun _ _ => trivial) (QArr.none _ _)
  obtain ⟨p1, p2, p3, p4, x, b', hx, hs, hc⟩ := hat_add_pail_ok f1 hw hamt hp
  rw [k3.aux] at hc
  refine ⟨p1, k3.trans p2, ?_, ?_⟩
  · show QArr hat.aux (fun _ => True) p.array
    rw [hs]
    exact hc.arr trivial (l3 _ (fun _ _ => trivial) (QArr.none _ _))
  · intro hne
    refine ⟨p3 hne, fun Q hQ => ?_⟩
    rcases hc with ⟨-, hc⟩ | ⟨hc, -⟩
    · refine ⟨x, b', hx, ?_, hc Q (fun b hb => l3 Q hQ (QArr.none _ _) _ b hb)⟩
      rw [hs, setSlot_same]
    · exact absurd hc hne

/-- Outcome of `hat_add_array` on a well-formed array node. -/
theorem hat_add_array_ok {hat h1 : Hat} {b : HatBase} {slot : BSlot} {cell amt pail : Nat}
    {buff : List Nat} {rs : List (List Nat)} (ha : AllocOK hat) (hwf : WFArray hat.aux b rs)
    (hamt : amt ≤ 127) (h : hat_add_array hat b buff amt pail = .ok (h1, slot, cell)) :
    AllocOK h1 ∧ Keeps hat h1 ∧ WFSlot hat.aux slot ∧
    (cell ≠ 0 → amt ≤ buff.length ∧
      ∀ Q : List Nat → Prop, (∀ r ∈ rs, Q r) → LastSlot hat.aux Q slot buff amt cell) := by
  unfold hat_add_array at h
  rcases hat_add_array_k_ok hat_new_pail ha hwf hamt h with hs | ⟨-, hp⟩ | ⟨-, e1, e2, e3⟩
  · obtain ⟨b', hb', hl⟩ := hs.last (Q := fun _ => True) (fun _ _ => trivial)
    subst hb'
    refine ⟨hs.1, hs.2.1, hl.base, fun _ => ⟨hs.2.2.1, fun Q hQ => ?_⟩⟩
    obtain ⟨b'', hb'', hl'⟩ := hs.last hQ
    cases hb''
    exact hl'
  · exact hat_new_pail_ok ha hwf hamt hp
  · subst e1 e2 e3
    exact ⟨ha, Keeps.refl _, ⟨rs, hwf, fun _ _ => trivial⟩, fun h => absurd rfl h⟩

theorem LastSlot.wf {aux : Nat} {Q : List Nat → Prop} {slot : BSlot} {buff : List Nat}
    {amt cell : Nat} (h : LastSlot aux Q slot buff amt cell) : cell ≠ 0 := by
  cases slot with
  | empty => exact h.elim
  | array b => exact Last.ne_zero h
  | pail p =>
    obtain ⟨x, b, -, -, hl⟩ := h
    exact hl.ne_zero

/-- A store of the aux bytes at the address of the last record keeps the slot
well formed. -/
theorem poke_slot_ok {aux : Nat} {Q : List Nat → Prop} {slot slot1 : BSlot} {buff : List Nat}
    {amt cell : Nat} {value : List Nat} (hw : WFSlot aux slot)
    (hl : LastSlot aux Q slot buff amt cell)
    (h : poke_slot slot buff amt cell value = .ok slot1) :
    WFSlot aux slot1 ∧ LastSlot aux Q slot1 buff amt cell := by
  cases slot with
  | empty => exact hl.elim
  | array b =>
    simp only [poke_slot] at h
    obtain ⟨b1, hp, h⟩ := Res.bind_eq_ok.mp h
    simp only [Res.pure_def, Res.ok.injEq] at h
    subst h
    have := poke_last hl hp
    exact ⟨this.base, this⟩
  | pail p =>
    simp only [poke_slot] at h
    obtain ⟨x, hx, h⟩ := Res.bind_eq_ok.mp h
    obtain ⟨x', b, hx', hb, hl⟩ := hl
    rw [hx] at hx'
    cases hx'
    simp only [hb] at h
    obtain ⟨b1, hp, h⟩ := Res.bind_eq_ok.mp h
    simp only [Res.pure_def, Res.ok.injEq] at h
    subst h
    have hl1 := poke_last hl hp
    exact ⟨QArr.set_some hw hl1.base, x, b1, hx, setSlot_same _ _ _, hl1⟩

theorem poke_slot_zero {aux : Nat} {slot slot1 : BSlot} {buff : List Nat} {amt : Nat}
    {value : List Nat} (hw : WFSlot aux slot)
    (h : poke_slot slot buff amt 0 value = .ok slot1) : False := by
  cases slot with
  | empty => simp [poke_slot] at h
  | array b =>
    simp only [poke_slot] at h
    obtain ⟨b1, hp, -⟩ := Res.bind_eq_ok.mp h
    obtain ⟨rs, hwf, -⟩ := hw
    exact poke_zero hwf hp
  | pail p =>
    simp only [poke_slot] at h
    obtain ⟨x, hx, h⟩ := Res.bind_eq_ok.mp h
    cases hb : p.array (x % HatPailMax) with
    | none => simp [hb] at h
    | some b =>
      simp only [hb] at h
      obtain ⟨b1, hp, -⟩ := Res.bind_eq_ok.mp h
      obtain ⟨rs, hwf, -⟩ := hw _ _ hb
      exact poke_zero hwf hp

/-- The optional store of the aux bytes after a store of a record. -/
theorem poke_opt_ok {hat : Hat} {slot slot1 : BSlot} {buff : List Nat} {amt cell : Nat}
    {V : Res (List Nat)} (hw : WFSlot hat.aux slot)
    (hl : cell ≠ 0 → LastSlot hat.aux (fun _ => True) slot buff amt cell)
    (h : (if hat.aux ≠ 0 then do
            let v ← V
            poke_slot slot buff amt cell v
          else pure slot) = .ok slot1) : WFSlot hat.aux slot1 := by
  by_cases h0 : hat.aux ≠ 0
  · rw [if_pos h0] at h
    obtain ⟨v, -, h⟩ := Res.bind_eq_ok.mp h
    by_cases hc : cell = 0
    · subst hc
      exact (poke_slot_zero hw h).elim
    · exact (poke_slot_ok hw (hl hc) h).1
  · rw [if_neg h0] at h
    simp only [Res.pure_def, Res.ok.injEq] at h
    subst h
    exact hw

/-- Outcome of the three ways a record is stored into the slot of a bucket. -/
theorem slot_new_ok {hat h1 : Hat} {buff : List Nat} {amt cell : Nat} {ob : Option HatBase}
    (ha : AllocOK hat) (hamt : amt ≤ 127)
    (h : hat_new_array hat buff amt = .ok (h1, ob, cell)) :
    AllocOK h1 ∧ Keeps hat h1 ∧ amt ≤ buff.length ∧ ∃ b, ob = some b ∧
      WFSlot hat.aux (.array b) ∧
      ∀ Q : List Nat → Prop, LastSlot hat.aux Q (.array b) buff amt cell := by
  obtain ⟨a1, a2, a3, b, hb, hl⟩ := child_add_new ha hamt h
  exact ⟨a1, a2, a3, b, hb, (hl (fun _ => True)).base, hl⟩

theorem slot_pail_ok {hat h1 : Hat} {p p1 : HatPail} {cell amt : Nat} {buff : List Nat}
    (ha : AllocOK hat) (hwf : QArr hat.aux (fun _ => True) p.array) (hamt : amt ≤ 127)
    (h : hat_add_pail hat p buff amt = .ok (h1, p1, cell)) :
    AllocOK h1 ∧ Keeps hat h1 ∧ WFSlot hat.aux (.pail p1) ∧
    (cell ≠ 0 → amt ≤ buff.length ∧ ∀ Q : List Nat → Prop,
      (∀ x b, hat_code buff amt = .ok x → p.array (x % HatPailMax) = some b → QBase hat.aux Q b) →
      LastSlot hat.aux Q (.pail p1) buff amt cell) := by
  obtain ⟨p1', p2, p3, p4, x, b', hx, hs, hc⟩ := hat_add_pail_ok ha hwf hamt h
  refine ⟨p1', p2, ?_, fun hne => ⟨p3 hne, fun Q hQ => ?_⟩⟩
  · show QArr hat.aux (fun _ => True) p1.array
    rw [hs]
    exact hc.arr trivial hwf
  · rcases hc with ⟨-, hc⟩ | ⟨hc, -⟩
    · refine ⟨x, b', hx, ?_, hc Q (fun b hb => hQ x b hx hb)⟩
      rw [hs, setSlot_same]
    · exact absurd hc hne

theorem WFSlot.set_slot {aux : Nat} {slots : Nat → BSlot} {c : Nat} {s : BSlot}
    (h : ∀ i, WFSlot aux (slots i)) (hs : WFSlot aux s) : ∀ i, WFSlot aux (setSlot slots c s i) := by
  intro i
  by_cases hi : i = c
  · subst hi
    rw [setSlot_same]
    exact hs
  · rw [setSlot_other _ _ hi]
    exact h i

theorem WFSlot.empty (aux : Nat) : ∀ i : Nat, WFSlot aux ((fun _ => BSlot.empty) i) :=
  fun _ => trivial

/-- A store into the slot `code` of a table of well-formed slots, of the kind
`hat_add_array (…, 1)`. -/
theorem slot_array_ok {hat h1 : Hat} {b : HatBase} {slot : BSlot} {cell amt pail : Nat}
    {buff : List Nat} (ha : AllocOK hat) (hwf : WFSlot hat.aux (.array b))
    (hamt : amt ≤ 127) (h : hat_add_array hat b buff amt pail = .ok (h1, slot, cell)) :
    AllocOK h1 ∧ Keeps hat h1 ∧ WFSlot hat.aux slot ∧
    (cell ≠ 0 → LastSlot hat.aux (fun _ => True) slot buff amt cell) := by
  obtain ⟨rs, hw, -⟩ := hwf
  obtain ⟨a1, a2, a3, a4⟩ := hat_add_array_ok ha hw hamt h
  exact ⟨a1, a2, a3, fun hc => (a4 hc).2 _ (fun _ _ => trivial)⟩

theorem burst_store_ok {tagged : Bool} {hat h1 : Hat} {slots slots1 : Nat → BSlot}
    {code len : Nat} {buff : List Nat} {value : Res (List Nat)} (ha : AllocOK hat)
    (hw : ∀ i, WFSlot hat.aux (slots i)) (hlen : len ≤ 127)
    (h : burst_store tagged hat slots code buff len value = .ok (h1, slots1)) :
    AllocOK h1 ∧ Keeps hat h1 ∧ ∀ i, WFSlot hat.aux (slots1 i) := by
  unfold burst_store at h
  have hwc := hw code
  have fin : ∀ (h2 : Hat) (slot : BSlot) (cell : Nat), AllocOK h2 → Keeps hat h2 →
      WFSlot hat.aux slot → (cell ≠ 0 → LastSlot hat.aux (fun _ => True) slot buff len cell) →
      (if hat.aux ≠ 0 then
          (value >>= fun v => poke_slot slot buff len cell v >>= fun y =>
            Res.ok (h2, setSlot slots code y))
        else Res.ok (h2, setSlot slots code slot)) = .ok (h1, slots1) →
      AllocOK h1 ∧ Keeps hat h1 ∧ ∀ i, WFSlot hat.aux (slots1 i) := by
    intro h2 slot cell k1 k2 k3 k4 h
    by_cases h0 : hat.aux ≠ 0
    · rw [if_pos h0] at h
      obtain ⟨v, hv, h⟩ := Res.bind_eq_ok.mp h
      obtain ⟨y, hy, h⟩ := Res.bind_eq_ok.mp h
      simp only [Res.ok.injEq, Prod.mk.injEq] at h
      obtain ⟨e1, e2⟩ := h
      subst e1 e2
      refine ⟨k1, k2, WFSlot.set_slot hw (poke_opt_ok (V := .ok v) k3 k4 ?_)⟩
      rw [if_pos h0]
      exact hy
    · rw [if_neg h0] at h
      simp only [Res.ok.injEq, Prod.mk.injEq] at h
      obtain ⟨e1, e2⟩ := h
      subst e1 e2
      exact ⟨k1, k2, WFSlot.set_slot hw k3⟩
  cases hc : slots code with
  | empty =>
    simp only [hc, Res.pure_def, Res.ok_bind] at h
    obtain ⟨⟨h3, nb, c⟩, hn, h⟩ := Res.bind_eq_ok.mp h
    obtain ⟨a1, a2, a3, b, hb, a4, a5⟩ := slot_new_ok ha hlen hn
    subst hb
    simp only [Res.ok_bind] at h
    exact fin h3 (.array b) c a1 a2 a4 (fun _ => a5 _) h
  | array child =>
    simp only [hc, Res.pure_def, Res.ok_bind] at h hwc
    obtain ⟨⟨h3, slot, c⟩, hn, h⟩ := Res.bind_eq_ok.mp h
    obtain ⟨a1, a2, a3, a4⟩ := slot_array_ok ha hwc hlen hn
    exact fin h3 slot c a1 a2 a3 a4 h
  | pail p =>
    simp only [hc, Res.pure_def, Res.ok_bind] at h hwc
    cases tagged with
    | false => simp at h
    | true =>
      simp only [↓reduceIte] at h
      obtain ⟨⟨h3, p1, c⟩, hn, h⟩ := Res.bind_eq_ok.mp h
      obtain ⟨a1, a2, a3, a4⟩ := slot_pail_ok ha hwc hlen hn
      exact fin h3 (.pail p1) c a1 a2 a3 (fun hne => (a4 hne).2 _ (fun _ _ _ hb => hwc _ _ hb)) h

theorem hat_burst_array_loop_ok {base : HatBase} {rs : List (List Nat)} {aux : Nat}
    (hwf : WFArray aux base rs) :
    ∀ (rs2 rs1 : List (List Nat)) (f : Nat) (hat h1 : Hat) (bucket bucket1 : HatBucket),
      rs = rs1 ++ rs2 → hat.aux = aux → AllocOK hat → (∀ i, WFSlot aux (bucket.slots i)) →
      hat_burst_array_loop f hat base bucket (enc rs1).length rs1.length = .ok (h1, bucket1) →
      AllocOK h1 ∧ Keeps hat h1 ∧ ∀ i, WFSlot aux (bucket1.slots i) := by
  intro rs2
  induction rs2 with
  | nil =>
    intro rs1 f hat h1 bucket bucket1 hrs haux ha hq h
    cases f with
    | zero => simp [hat_burst_array_loop] at h
    | succ f =>
      rw [List.append_nil] at hrs
      subst hrs
      rw [hat_burst_array_loop, if_neg (rec_end hwf)] at h
      simp only [Res.pure_def, Res.ok.injEq, Prod.mk.injEq] at h
      obtain ⟨e1, e2⟩ := h
      subst e1 e2
      exact ⟨ha, Keeps.refl _, hq⟩
  | cons r rs2 ih =>
    intro rs1 f hat h1 bucket bucket1 hrs haux ha hq h
    cases f with
    | zero => simp [hat_burst_array_loop] at h
    | succ f =>
      subst hrs haux
      obtain ⟨r1, r2, r3, r4, r5, r6, r7, r8⟩ := rec_at hwf
      have hz : ¬ (r.length > 127) := by omega
      rw [hat_burst_array_loop, if_pos r1] at h
      simp only [r2, Res.ok_bind, r4, hz, ↓reduceIte, Res.pure_def, r7, r8] at h
      obtain ⟨x, hx, h⟩ := Res.bind_eq_ok.mp h
      obtain ⟨⟨h2, slots⟩, hs, h⟩ := Res.bind_eq_ok.mp h
      obtain ⟨a1, a2, a3⟩ := burst_store_ok ha hq r3 hs
      obtain ⟨i1, i2, i3⟩ := ih (rs1 ++ [r]) f h2 h1 _ bucket1 (by simp) a2.aux a1 a3 h
      exact ⟨i1, a2.trans i2, i3⟩

theorem hat_burst_pail_loop_ok {base : HatBase} {rs : List (List Nat)} {aux : Nat}
    (hwf : WFArray aux base rs) :
    ∀ (rs2 rs1 : List (List Nat)) (f : Nat) (hat h1 : Hat) (bucket bucket1 : HatBucket),
      rs = rs1 ++ rs2 → hat.aux = aux → AllocOK hat → (∀ i, WFSlot aux (bucket.slots i)) →
      hat_burst_pail_loop f hat base bucket (enc rs1).length rs1.length = .ok (h1, bucket1) →
      AllocOK h1 ∧ Keeps hat h1 ∧ ∀ i, WFSlot aux (bucket1.slots i) := by
  intro rs2
  induction rs2 with
  | nil =>
    intro rs1 f hat h1 bucket bucket1 hrs haux ha hq h
    cases f with
    | zero => simp [hat_burst_pail_loop] at h
    | succ f =>
      rw [List.append_nil] at hrs
      subst hrs
      rw [hat_burst_pail_loop, if_neg (rec_end hwf)] at h
      simp only [Res.pure_def, Res.ok.injEq, Prod.mk.injEq] at h
      obtain ⟨e1, e2⟩ := h
      subst e1 e2
      exact ⟨ha, Keeps.refl _, hq⟩
  | cons r rs2 ih =>
    intro rs1 f hat h1 bucket bucket1 hrs haux ha hq h
    cases f with
    | zero => simp [hat_burst_pail_loop] at h
    | succ f =>
      subst hrs haux
      obtain ⟨r1, r2, r3, r4, r5, r6, r7, r8⟩ := rec_at hwf
      have hz : ¬ (r.length &&& 128 ≠ 0) := by simp [and128 r3]
      rw [hat_burst_pail_loop, if_pos r1] at h
      simp only [r2, Res.ok_bind, r4, hz, ↓reduceIte, Res.pure_def, r7, r8] at h
      obtain ⟨x, hx, h⟩ := Res.bind_eq_ok.mp h
      obtain ⟨⟨h2, slots⟩, hs, h⟩ := Res.bind_eq_ok.mp h
      obtain ⟨a1, a2, a3⟩ := burst_store_ok ha hq r3 hs
      obtain ⟨i1, i2, i3⟩ := ih (rs1 ++ [r]) f h2 h1 _ bucket1 (by simp) a2.aux a1 a3 h
      exact ⟨i1, a2.trans i2, i3⟩

/-- Outcome of `hat_burst_array` on a slot with a well-formed array node. -/
theorem hat_burst_array_ok {hat h1 : Hat} {slot : BSlot} {bucket : HatBucket}
    (ha : AllocOK hat) (hw : WFSlot hat.aux slot)
    (h : hat_burst_array hat slot = .ok (h1, bucket)) :
    AllocOK h1 ∧ Keeps hat h1 ∧ ∀ i, WFSlot hat.aux (bucket.slots i) := by
  cases slot with
  | empty => simp [hat_burst_array] at h
  | pail p => simp [hat_burst_array] at h
  | array base =>
    simp only [hat_burst_array] at h
    obtain ⟨rs, hwf, -⟩ := hw
    obtain ⟨⟨h2, addr⟩, hal, h⟩ := Res.bind_eq_ok.mp h
    obtain ⟨a1, a2, -⟩ := hat_alloc_ok ha (show HAT_bucket < 32 by decide) hal
    obtain ⟨⟨h3, bk⟩, hl, h⟩ := Res.bind_eq_ok.mp h
    obtain ⟨l1, l2, l3⟩ := hat_burst_array_loop_ok hwf rs [] U16 h2 h3 _ bk (by simp) a2.aux a1
      (WFSlot.empty _) hl
    obtain ⟨f1, f2⟩ := hat_free_ok (a := base.addr) (t := base.type) l1 (fun _ => hwf.addr)
    simp only [Res.pure_def, Res.ok.injEq, Prod.mk.injEq] at h
    obtain ⟨e1, e2⟩ := h
    subst e1 e2
    exact ⟨f1, (a2.trans l2).trans f2, l3⟩

theorem hat_burst_pail_slots_ok {aux : Nat} {pail : HatPail}
    (hw : QArr aux (fun _ => True) pail.array) :
    ∀ (n : Nat) (hat h1 : Hat) (bucket bucket1 : HatBucket),
      hat.aux = aux → AllocOK hat → (∀ i, WFSlot aux (bucket.slots i)) →
      hat_burst_pail_slots n hat pail bucket = .ok (h1, bucket1) →
      AllocOK h1 ∧ Keeps hat h1 ∧ ∀ i, WFSlot aux (bucket1.slots i) := by
  intro n
  induction n with
  | zero =>
    intro hat h1 bucket bucket1 haux ha hq h
    simp only [hat_burst_pail_slots, Res.ok.injEq, Prod.mk.injEq] at h
    obtain ⟨e1, e2⟩ := h
    subst e1 e2
    exact ⟨ha, Keeps.refl _, hq⟩
  | succ n ih =>
    intro hat h1 bucket bucket1 haux ha hq h
    rw [hat_burst_pail_slots] at h
    cases hc : pail.array (HatPailMax - (n + 1)) with
    | none =>
      simp only [hc] at h
      exact ih hat h1 bucket bucket1 haux ha hq h
    | some base =>
      simp only [hc] at h
      obtain ⟨rs, hwf, -⟩ := hw _ _ hc
      obtain ⟨⟨h2, bk⟩, hl, h⟩ := Res.bind_eq_ok.mp h
      obtain ⟨l1, l2, l3⟩ := hat_burst_pail_loop_ok hwf rs [] U16 hat h2 _ bk (by simp) haux ha
        hq hl
      obtain ⟨f1, f2⟩ := hat_free_ok (a := base.addr) (t := base.type) l1 (fun _ => hwf.addr)
      obtain ⟨i1, i2, i3⟩ := ih _ h1 bk bucket1 ((l2.trans f2).aux.trans haux) f1 l3 h
      exact ⟨i1, (l2.trans f2).trans i2, i3⟩

/-- Outcome of `hat_burst_pail` on a pail of well-formed array nodes. -/
theorem hat_burst_pail_ok {hat h1 : Hat} {pail : HatPail} {bucket : HatBucket}
    (ha : AllocOK hat) (hw : QArr hat.aux (fun _ => True) pail.array)
    (h : hat_burst_pail hat pail = .ok (h1, bucket)) :
    AllocOK h1 ∧ Keeps hat h1 ∧ ∀ i, WFSlot hat.aux (bucket.slots i) := by
  unfold hat_burst_pail at h
  obtain ⟨⟨h2, addr⟩, hal, h⟩ := Res.bind_eq_ok.mp h
  obtain ⟨a1, a2, -⟩ := hat_alloc_ok ha (show HAT_bucket < 32 by decide) hal
  obtain ⟨⟨h3, bk⟩, hl, h⟩ := Res.bind_eq_ok.mp h
  obtain ⟨l1, l2, l3⟩ := hat_burst_pail_slots_ok hw HatPailMax h2 h3 _ bk a2.aux a1
    (WFSlot.empty _) hl
  obtain ⟨f1, f2⟩ := hat_free_ok (a := pail.addr) (t := HAT_pail) l1
    (fun h => absurd h (by decide))
  simp only [Res.pure_def, Res.ok.injEq, Prod.mk.injEq] at h
  obtain ⟨e1, e2⟩ := h
  subst e1 e2
  exact ⟨f1, (a2.trans l2).trans f2, l3⟩

theorem WFNode.toNode {aux : Nat} {s : BSlot} (h : WFSlot aux s) : WFNode aux s.toNode := by
  cases s with
  | empty => trivial
  | array b => exact h
  | pail p => exact h

theorem WFNode.set_node {aux : Nat} {table : Nat → HatNode} {c : Nat} {n : HatNode}
    (h : ∀ i, WFNode aux (table i)) (hn : WFNode aux n) :
    ∀ i, WFNode aux (setSlot table c n i) := by
  intro i
  by_cases hi : i = c
  · subst hi
    rw [setSlot_same]
    exact hn
  · rw [setSlot_other _ _ hi]
    exact h i

theorem hat_code_loop_bad : ∀ (n : Nat) (buff : List Nat) (hash : Nat), buff.length < n →
    hat_code_loop n buff hash = .fault := by
  intro n
  induction n with
  | zero => intro buff hash h; omega
  | succ n ih =>
    intro buff hash h
    cases buff with
    | nil => rfl
    | cons b rest =>
      rw [hat_code_loop]
      exact ih _ _ (by simpa using h)

theorem hat_code_bad {buff : List Nat} {amt : Nat} (h : buff.length < amt) :
    hat_code buff amt = .fault :=
  hat_code_loop_bad _ _ _ h

theorem memcpy_bad {dst src : List Nat} {pos n : Nat} (h : src.length < n) :
    memcpy dst pos src n = .fault := by
  unfold memcpy
  rw [if_neg]
  omega

theorem Res.ite_eq_ok {α : Type} {c : Prop} [Decidable c] {x y : Res α} {a : α} :
    (if c then x else y) = Res.ok a ↔ (c ∧ x = Res.ok a) ∨ (¬ c ∧ y = Res.ok a) := by
  by_cases h : c <;> simp [h]

theorem hat_add_pail_bad {hat : Hat} {p : HatPail} {buff : List Nat} {amt : Nat}
    {r : Hat × HatPail × Nat} (hb : buff.length < amt) :
    hat_add_pail hat p buff amt ≠ .ok r := by
  unfold hat_add_pail
  rw [hat_code_bad hb]
  simp

theorem hat_add_bucket_bad {hat : Hat} {bucket : HatBucket} {buff : List Nat} {amt : Nat}
    {value : Res (List Nat)} {r : Hat × HatBucket × Nat} (hb : buff.length < amt) :
    hat_add_bucket hat bucket buff amt value ≠ .ok r := by
  unfold hat_add_bucket
  rw [hat_code_bad hb]
  simp

theorem put_record_bad {keys buff : List Nat} {pos amt skip : Nat} {r : List Nat}
    (hb : buff.length < amt) : put_record keys pos buff amt skip ≠ .ok r := by
  unfold put_record
  rw [memcpy_bad hb]
  simp

theorem hat_new_pail_bad {hat : Hat} {b : HatBase} {buff : List Nat} {amt : Nat}
    {r : Hat × BSlot × Nat} (hb : buff.length < amt) :
    hat_new_pail hat b buff amt ≠ .ok r := by
  intro h
  unfold hat_new_pail at h
  obtain ⟨_, -, h⟩ := Res.bind_eq_ok.mp h
  obtain ⟨_, -, h⟩ := Res.bind_eq_ok.mp h
  obtain ⟨_, hp, -⟩ := Res.bind_eq_ok.mp h
  exact hat_add_pail_bad hb hp

theorem hat_add_array_bad {hat : Hat} {b : HatBase} {buff : List Nat} {amt pail : Nat}
    {r : Hat × BSlot × Nat} (hb : buff.length < amt) (hp : pail ≠ 0) :
    hat_add_array hat b buff amt pail ≠ .ok r := by
  intro h
  unfold hat_add_array hat_add_array_k hat_promote_k at h
  have e1 : ∀ k p s r, put_record k p buff amt s = .ok r ↔ False :=
    fun _ _ _ _ => iff_false_intro (put_record_bad hb)
  have e2 : ∀ hat b r, hat_new_pail hat b buff amt = .ok r ↔ False :=
    fun _ _ _ => iff_false_intro (hat_new_pail_bad hb)
  simp [Res.bind_eq_ok, Res.ite_eq_ok, memcpy_bad hb, e1, e2, hp] at h

theorem new_array_type_le {f : Nat} {hat : Hat} {amt skip t : Nat}
    (h : new_array_type f hat amt skip HAT_1 = .ok t) : t ≤ HatMax := by
  cases f with
  | zero => simp [new_array_type] at h
  | succ f =>
    rw [new_array_type, HatSize_eq (by decide)] at h
    simp only [Res.ok_bind] at h
    split at h
    · rename_i hgt
      obtain ⟨t1, t2, t3⟩ := new_array_type_ok _ _ _ _ _ _ h
      have h16 : hsize HAT_1 = 16 := by decide
      rw [h16] at hgt
      exact hsize_pos_class t t2 (by simp only [HAT_1] at t1; omega) (by omega)
    · simp only [Res.pure_def, Res.ok.injEq] at h
      subst h
      decide

theorem hat_new_array_bad {hat : Hat} {buff : List Nat} {amt : Nat}
    {r : Hat × Option HatBase × Nat} (hb : buff.length < amt) :
    hat_new_array hat buff amt ≠ .ok r := by
  intro h
  unfold hat_new_array at h
  obtain ⟨t, ht, h⟩ := Res.bind_eq_ok.mp h
  have := new_array_type_le ht
  rw [if_neg (by omega)] at h
  have e1 : ∀ k p s r, put_record k p buff amt s = .ok r ↔ False :=
    fun _ _ _ _ => iff_false_intro (put_record_bad hb)
  simp [Res.bind_eq_ok, e1] at h

/-- The optional store of the aux bytes, followed by the rest `K` of the caller. -/
theorem poke_k {β : Type} {hat : Hat} {slot : BSlot} {buff : List Nat} {amt cell : Nat}
    {value : Res (List Nat)} {K : BSlot → Res β} {r : β} (hw : WFSlot hat.aux slot)
    (hl : cell ≠ 0 → LastSlot hat.aux (fun _ => True) slot buff amt cell)
    (h : (if hat.aux ≠ 0 then value >>= fun v => poke_slot slot buff amt cell v >>= K
          else K slot) = .ok r) :
    ∃ slot1, WFSlot hat.aux slot1 ∧ K slot1 = .ok r := by
  by_cases h0 : hat.aux ≠ 0
  · rw [if_pos h0] at h
    obtain ⟨v, -, h⟩ := Res.bind_eq_ok.mp h
    obtain ⟨y, hy, h⟩ := Res.bind_eq_ok.mp h
    refine ⟨y, poke_opt_ok (V := .ok v) hw hl ?_, h⟩
    rw [if_pos h0]
    exact hy
  · rw [if_neg h0] at h
    exact ⟨slot, hw, h⟩

theorem poke_node_ok {hat : Hat} {slot : BSlot} {buff : List Nat} {amt cell : Nat}
    {value : Res (List Nat)} {node : HatNode} (hw : WFSlot hat.aux slot)
    (hl : cell ≠ 0 → LastSlot hat.aux (fun _ => True) slot buff amt cell)
    (h : poke_node hat slot buff amt cell value = .ok node) : WFNode hat.aux node := by
  unfold poke_node at h
  by_cases h0 : hat.aux ≠ 0
  · rw [if_pos h0] at h
    obtain ⟨v, -, h⟩ := Res.bind_eq_ok.mp h
    obtain ⟨y, hy, h⟩ := Res.bind_eq_ok.mp h
    simp only [Res.pure_def, Res.ok.injEq] at h
    subst h
    refine WFNode.toNode (poke_opt_ok (V := .ok v) hw hl ?_)
    rw [if_pos h0]
    exact hy
  · rw [if_neg h0] at h
    simp only [Res.pure_def, Res.ok.injEq] at h
    subst h
    exact WFNode.toNode hw

/-- Outcome of `hat_add_bucket` on a bucket of well-formed slots. -/
theorem hat_add_bucket_ok {hat h1 : Hat} {bucket bucket1 : HatBucket} {buff : List Nat}
    {amt ok : Nat} {value : Res (List Nat)} (ha : AllocOK hat)
    (hw : ∀ i, WFSlot hat.aux (bucket.slots i)) (hamt : amt ≤ 127)
    (h : hat_add_bucket hat bucket buff amt value = .ok (h1, bucket1, ok)) :
    AllocOK h1 ∧ Keeps hat h1 ∧ ∀ i, WFSlot hat.aux (bucket1.slots i) := by
  unfold hat_add_bucket at h
  obtain ⟨x, hx, h⟩ := Res.bind_eq_ok.mp h
  by_cases hcnt : bucket.count < HatBucketMax
  swap
  · rw [if_neg hcnt] at h
    simp only [Res.pure_def, Res.ok.injEq, Prod.mk.injEq] at h
    obtain ⟨e1, e2, e3⟩ := h
    subst e1 e2 e3
    exact ⟨ha, Keeps.refl _, hw⟩
  rw [if_pos hcnt] at h
  have hwc := hw (x % HatBucketSlots)
  cases hc : bucket.slots (x % HatBucketSlots) with
  | empty =>
    simp only [hc, Res.pure_def, Res.ok_bind] at h
    obtain ⟨⟨h3, nb, c⟩, hn, h⟩ := Res.bind_eq_ok.mp h
    obtain ⟨a1, a2, a3, b, hb, a4, a5⟩ := slot_new_ok ha hamt hn
    subst hb
    simp only [Res.ok_bind] at h
    generalize BSlot.array b = s at h a4 a5
    obtain ⟨s1, hs1, h⟩ := poke_k a4 (fun _ => a5 _) h
    simp only [Res.ok.injEq, Prod.mk.injEq] at h
    obtain ⟨e1, e2, e3⟩ := h
    subst e1 e2 e3
    exact ⟨a1, a2, WFSlot.set_slot hw hs1⟩
  | array child =>
    simp only [hc, Res.pure_def, Res.ok_bind] at h hwc
    obtain ⟨⟨h3, slot, c⟩, hn, h⟩ := Res.bind_eq_ok.mp h
    obtain ⟨a1, a2, a3, a4⟩ := slot_array_ok ha hwc hamt hn
    by_cases hc0 : c ≠ 0
    · simp only [hc0, ↓reduceIte, not_false_eq_true, ne_eq] at h
      obtain ⟨s1, hs1, h⟩ := poke_k a3 a4 h
      simp only [Res.ok.injEq, Prod.mk.injEq] at h
      obtain ⟨e1, e2, e3⟩ := h
      subst e1 e2 e3
      exact ⟨a1, a2, WFSlot.set_slot hw hs1⟩
    · simp only [hc0, ↓reduceIte] at h
      simp only [Res.ok.injEq, Prod.mk.injEq] at h
      obtain ⟨e1, e2, e3⟩ := h
      subst e1 e2 e3
      exact ⟨a1, a2, WFSlot.set_slot hw a3⟩
  | pail p =>
    simp only [hc, Res.pure_def, Res.ok_bind] at h hwc
    obtain ⟨⟨h3, p1, c⟩, hn, h⟩ := Res.bind_eq_ok.mp h
    obtain ⟨a1, a2, a3, a4⟩ := slot_pail_ok ha hwc hamt hn
    have a5 : c ≠ 0 → LastSlot hat.aux (fun _ => True) (.pail p1) buff amt c :=
      fun hne => (a4 hne).2 _ (fun _ _ _ hb => hwc _ _ hb)
    generalize BSlot.pail p1 = s at h a3 a5
    by_cases hc0 : c ≠ 0
    · simp only [hc0, ↓reduceIte, not_false_eq_true, ne_eq] at h
      obtain ⟨s1, hs1, h⟩ := poke_k a3 a5 h
      simp only [Res.ok.injEq, Prod.mk.injEq] at h
      obtain ⟨e1, e2, e3⟩ := h
      subst e1 e2 e3
      exact ⟨a1, a2, WFSlot.set_slot hw hs1⟩
    · simp only [hc0, ↓reduceIte] at h
      simp only [Res.ok.injEq, Prod.mk.injEq] at h
      obtain ⟨e1, e2, e3⟩ := h
      subst e1 e2 e3
      exact ⟨a1, a2, WFSlot.set_slot hw a3⟩

theorem hat_burst_bucket_loop_ok {base : HatBase} {rs : List (List Nat)} {aux : Nat}
    {add : Hat → (Nat → HatNode) → List Nat → Nat → Res (List Nat) → Res (Hat × (Nat → HatNode))}
    (hadd : AddOK aux add) (hwf : WFArray aux base rs) :
    ∀ (rs2 rs1 : List (List Nat)) (f : Nat) (hat h1 : Hat) (radix radix1 : Nat → HatNode),
      rs = rs1 ++ rs2 → hat.aux = aux → AllocOK hat → (∀ i, WFNode aux (radix i)) →
      hat_burst_bucket_loop add f hat base radix (enc rs1).length rs1.length = .ok (h1, radix1) →
      AllocOK h1 ∧ Keeps hat h1 ∧ ∀ i, WFNode aux (radix1 i) := by
  intro rs2
  induction rs2 with
  | nil =>
    intro rs1 f hat h1 radix radix1 hrs haux ha hq h
    cases f with
    | zero => simp [hat_burst_bucket_loop] at h
    | succ f =>
      rw [List.append_nil] at hrs
      subst hrs
      rw [hat_burst_bucket_loop, if_neg (rec_end hwf)] at h
      simp only [Res.pure_def, Res.ok.injEq, Prod.mk.injEq] at h
      obtain ⟨e1, e2⟩ := h
      subst e1 e2
      exact ⟨ha, Keeps.refl _, hq⟩
  | cons r rs2 ih =>
    intro rs1 f hat h1 radix radix1 hrs haux ha hq h
    cases f with
    | zero => simp [hat_burst_bucket_loop] at h
    | succ f =>
      subst hrs
      obtain ⟨r1, r2, r3, r4, r5, r6, r7, r8⟩ := rec_at hwf
      have hz : ¬ (r.length > 127) := by omega
      have hb := hwf.nxt_le
      rw [hat_burst_bucket_loop, if_pos r1] at h
      simp only [r2, Res.ok_bind, r4, hz, ↓reduceIte, Res.pure_def, r7, r8] at h
      obtain ⟨⟨h2, radix2⟩, hs, h⟩ := Res.bind_eq_ok.mp h
      have hl : (List.drop ((enc rs1).length + 1) base.keys).length ≤ 1024 := by
        rw [List.length_drop]
        have := hwf.len
        simp only [sizeof_HatBase] at this
        omega
      obtain ⟨a1, a2, a3⟩ := hadd _ _ _ _ _ _ _ haux ha hq r3 r6 hl hs
      obtain ⟨i1, i2, i3⟩ := ih (rs1 ++ [r]) f h2 h1 _ radix1 (by simp) (a2.aux.trans haux) a1 a3 h
      exact ⟨i1, a2.trans i2, i3⟩

theorem hat_burst_bucket_pail_ok {aux : Nat} {pail : HatPail}
    {add : Hat → (Nat → HatNode) → List Nat → Nat → Res (List Nat) → Res (Hat × (Nat → HatNode))}
    (hadd : AddOK aux add) (hw : QArr aux (fun _ => True) pail.array) :
    ∀ (n : Nat) (hat h1 : Hat) (radix radix1 : Nat → HatNode),
      hat.aux = aux → AllocOK hat → (∀ i, WFNode aux (radix i)) →
      hat_burst_bucket_pail add n hat pail radix = .ok (h1, radix1) →
      AllocOK h1 ∧ Keeps hat h1 ∧ ∀ i, WFNode aux (radix1 i) := by
  intro n
  induction n with
  | zero =>
    intro hat h1 radix radix1 haux ha hq h
    simp only [hat_burst_bucket_pail, Res.ok.injEq, Prod.mk.injEq] at h
    obtain ⟨e1, e2⟩ := h
    subst e1 e2
    exact ⟨ha, Keeps.refl _, hq⟩
  | succ n ih =>
    intro hat h1 radix radix1 haux ha hq h
    rw [hat_burst_bucket_pail] at h
    cases hc : pail.array (HatPailMax - (n + 1)) with
    | none =>
      simp only [hc] at h
      exact ih hat h1 radix radix1 haux ha hq h
    | some base =>
      simp only [hc] at h
      obtain ⟨rs, hwf, -⟩ := hw _ _ hc
      obtain ⟨⟨h2, rx⟩, hl, h⟩ := Res.bind_eq_ok.mp h
      obtain ⟨l1, l2, l3⟩ := hat_burst_bucket_loop_ok hadd hwf rs [] U16 hat h2 _ rx (by simp)
        haux ha hq hl
      obtain ⟨f1, f2⟩ := hat_free_ok (a := base.addr) (t := base.type) l1 (fun _ => hwf.addr)
      obtain ⟨i1, i2, i3⟩ := ih _ h1 rx radix1 ((l2.trans f2).aux.trans haux) f1 l3 h
      exact ⟨i1, (l2.trans f2).trans i2, i3⟩

theorem hat_burst_bucket_slots_ok {aux : Nat} {bucket : HatBucket}
    {add : Hat → (Nat → HatNode) → List Nat → Nat → Res (List Nat) → Res (Hat × (Nat → HatNode))}
    (hadd : AddOK aux add) (hw : ∀ i, WFSlot aux (bucket.slots i)) :
    ∀ (n : Nat) (hat h1 : Hat) (radix radix1 : Nat → HatNode),
      hat.aux = aux → AllocOK hat → (∀ i, WFNode aux (radix i)) →
      hat_burst_bucket_slots add n hat bucket radix = .ok (h1, radix1) →
      AllocOK h1 ∧ Keeps hat h1 ∧ ∀ i, WFNode aux (radix1 i) := by
  intro n
  induction n with
  | zero =>
    intro hat h1 radix radix1 haux ha hq h
    simp only [hat_burst_bucket_slots, Res.ok.injEq, Prod.mk.injEq] at h
    obtain ⟨e1, e2⟩ := h
    subst e1 e2
    exact ⟨ha, Keeps.refl _, hq⟩
  | succ n ih =>
    intro hat h1 radix radix1 haux ha hq h
    rw [hat_burst_bucket_slots] at h
    have hwc := hw (HatBucketSlots - (n + 1))
    cases hc : bucket.slots (HatBucketSlots - (n + 1)) with
    | empty =>
      simp only [hc] at h
      exact ih hat h1 radix radix1 haux ha hq h
    | array base =>
      simp only [hc] at h hwc
      obtain ⟨rs, hwf, -⟩ := hwc
      obtain ⟨⟨h2, rx⟩, hl, h⟩ := Res.bind_eq_ok.mp h
      obtain ⟨l1, l2, l3⟩ := hat_burst_bucket_loop_ok hadd hwf rs [] U16 hat h2 _ rx (by simp)
        haux ha hq hl
      obtain ⟨f1, f2⟩ := hat_free_ok (a := base.addr) (t := base.type) l1 (fun _ => hwf.addr)
      obtain ⟨i1, i2, i3⟩ := ih _ h1 rx radix1 ((l2.trans f2).aux.trans haux) f1 l3 h
      exact ⟨i1, (l2.trans f2).trans i2, i3⟩
    | pail p =>
      simp only [hc] at h hwc
      obtain ⟨⟨h2, rx⟩, hl, h⟩ := Res.bind_eq_ok.mp h
      obtain ⟨l1, l2, l3⟩ := hat_burst_bucket_pail_ok hadd hwc HatPailMax hat h2 _ rx haux ha hq hl
      obtain ⟨f1, f2⟩ := hat_free_ok (a := p.addr) (t := HAT_pail) l1
        (fun h => absurd h (by decide))
      obtain ⟨i1, i2, i3⟩ := ih _ h1 rx radix1 ((l2.trans f2).aux.trans haux) f1 l3 h
      exact ⟨i1, (l2.trans f2).trans i2, i3⟩

theorem hat_add_radix_bad : ∀ f : Nat,
    (∀ (hat : Hat) (radix : Nat → HatNode) (buff : List Nat) (max : Nat) (value : Res (List Nat))
      (r : Hat × (Nat → HatNode)), buff.length < max → max < U32 →
      hat_add_radix f hat radix buff max value ≠ .ok r) ∧
    (∀ (hat : Hat) (radix : Nat → HatNode) (ch : Nat) (buff : List Nat) (max : Nat)
      (value : Res (List Nat)) (r : Hat × (Nat → HatNode)),
      (buff.drop 1).length < (max + U32 - 1) % U32 →
      hat_add_radix_loop f hat radix ch buff max value ≠ .ok r) := by
  intro f
  induction f with
  | zero =>
    constructor
    · intro hat radix buff max value r _ _ h
      simp [hat_add_radix] at h
    · intro hat radix ch buff max value r _ h
      simp [hat_add_radix_loop] at h
  | succ f ih =>
    constructor
    · intro hat radix buff max value r hb hm h
      rw [hat_add_radix] at h
      have hm0 : max ≠ 0 := by omega
      simp only [hm0, ne_eq, not_false_eq_true, ↓reduceIte] at h
      obtain ⟨ch, hch, h⟩ := Res.bind_eq_ok.mp h
      have hne : buff ≠ [] := by
        intro e
        subst e
        simp [rd] at hch
      have hl : (buff.drop 1).length + 1 = buff.length := by
        cases buff with
        | nil => exact absurd rfl hne
        | cons a t => simp
      split at h
      · simp at h
      split at h
      · obtain ⟨_, hn, -⟩ := Res.bind_eq_ok.mp h
        exact hat_new_array_bad (by omega) hn
      · refine ih.2 _ _ _ _ _ _ _ ?_ h
        simp only [U32] at hm ⊢
        omega
    · intro hat radix ch buff max value r hb h
      rw [hat_add_radix_loop] at h
      split at h
      · simp at h
      · obtain ⟨_, hn, -⟩ := Res.bind_eq_ok.mp h
        exact hat_add_bucket_bad hb hn
      · obtain ⟨_, hn, -⟩ := Res.bind_eq_ok.mp h
        exact ih.1 _ _ _ _ _ _ hb (Nat.mod_lt _ (by decide)) hn
      · obtain ⟨_, hn, -⟩ := Res.bind_eq_ok.mp h
        exact hat_add_array_bad hb (by decide) hn
      · obtain ⟨_, hn, -⟩ := Res.bind_eq_ok.mp h
        exact hat_add_pail_bad hb hn

theorem radix_ok (aux : Nat) : ∀ f : Nat,
    AddOK aux (hat_add_radix f) ∧ LoopOK aux f ∧ BurstOK aux f := by
  intro f
  induction f with
  | zero =>
    refine ⟨?_, ?_, ?_⟩
    · intro hat radix buff max value h1 radix1 _ _ _ _ _ _ h
      simp [hat_add_radix] at h
    · intro hat radix ch buff max value h1 radix1 _ _ _ _ _ _ _ h
      simp [hat_add_radix_loop] at h
    · intro hat bucket h1 node _ _ _ h
      simp [hat_burst_bucket] at h
  | succ f ih =>
    obtain ⟨ihA, ihL, ihB⟩ := ih
    refine ⟨?_, ?_, ?_⟩
    · intro hat radix buff max value h1 radix1 haux ha hw hm hmb hbl h
      subst haux
      rw [hat_add_radix] at h
      have hamt : (if max ≠ 0 then max - 1 else 0) ≤ 127 := by split <;> omega
      generalize (if max ≠ 0 then max - 1 else 0) = amt at h hamt
      have key : ∀ ch, (match radix ch with
          | .empty => do
            let (hat1, nb, cell) ← hat_new_array hat (buff.drop 1) amt
            let slot : BSlot := match nb with
              | some b => .array b
              | none => .empty
            let node ← poke_node hat slot (buff.drop 1) amt cell value
            pure (hat1, setSlot radix ch node)
          | _ => hat_add_radix_loop f hat radix ch buff max value) = .ok (h1, radix1) →
          AllocOK h1 ∧ Keeps hat h1 ∧ ∀ i, WFNode hat.aux (radix1 i) := by
        intro ch h
        split at h
        · obtain ⟨⟨h2, nb, c⟩, hn, h⟩ := Res.bind_eq_ok.mp h
          obtain ⟨a1, a2, a3, b, hb, a4, a5⟩ := slot_new_ok ha hamt hn
          subst hb
          obtain ⟨node, hp, h⟩ := Res.bind_eq_ok.mp h
          simp only [Res.pure_def, Res.ok.injEq, Prod.mk.injEq] at h
          obtain ⟨e1, e2⟩ := h
          subst e1 e2
          exact ⟨a1, a2, WFNode.set_node hw (poke_node_ok a4 (fun _ => a5 _) hp)⟩
        · by_cases hm0 : max = 0
          · subst hm0
            refine absurd h ((hat_add_radix_bad f).2 _ _ _ _ _ _ _ ?_)
            rw [List.length_drop]
            simp only [U32]
            omega
          · exact ihL _ _ _ _ _ _ _ _ rfl ha hw (by omega) hm hmb hbl h
      have key2 : ∀ ch, (if ch ≥ 128 then .fault else (match radix ch with
          | .empty => do
            let (hat1, nb, cell) ← hat_new_array hat (buff.drop 1) amt
            let slot : BSlot := match nb with
              | some b => .array b
              | none => .empty
            let node ← poke_node hat slot (buff.drop 1) amt cell value
            pure (hat1, setSlot radix ch node)
          | _ => hat_add_radix_loop f hat radix ch buff max value)) = .ok (h1, radix1) →
          AllocOK h1 ∧ Keeps hat h1 ∧ ∀ i, WFNode hat.aux (radix1 i) := by
        intro ch h
        by_cases h128 : ch ≥ 128
        · rw [if_pos h128] at h
          simp at h
        · rw [if_neg h128] at h
          exact key ch h
      by_cases hm0 : max ≠ 0
      · rw [if_pos hm0] at h
        obtain ⟨ch, -, h⟩ := Res.bind_eq_ok.mp h
        exact key2 ch h
      · rw [if_neg hm0] at h
        obtain ⟨ch, -, h⟩ := Res.bind_eq_ok.mp h
        exact key2 ch h
    · intro hat radix ch buff max value h1 radix1 haux ha hw hm1 hm hmb hbl h
      subst haux
      rw [hat_add_radix_loop] at h
      have hamt : (max + U32 - 1) % U32 = max - 1 := by
        simp only [U32]
        omega
      rw [hamt] at h
      have hl1 : (buff.drop 1).length = buff.length - 1 := List.length_drop _ _
      have hwc := hw ch
      split at h
      · simp at h
      · rename_i bucket hc
        rw [hc] at hwc
        obtain ⟨⟨h2, bucket1, ok⟩, hn, h⟩ := Res.bind_eq_ok.mp h
        obtain ⟨a1, a2, a3⟩ := hat_add_bucket_ok ha hwc (by omega) hn
        by_cases hok : ok ≠ 0
        · simp only [hok, ↓reduceIte, ne_eq, not_false_eq_true, Res.pure_def, Res.ok.injEq,
            Prod.mk.injEq] at h
          obtain ⟨e1, e2⟩ := h
          subst e1 e2
          exact ⟨a1, a2, WFNode.set_node hw a3⟩
        · simp only [hok, ↓reduceIte] at h
          obtain ⟨⟨h3, node⟩, hb, h⟩ := Res.bind_eq_ok.mp h
          obtain ⟨b1, b2, b3⟩ := ihB _ _ _ _ a2.aux a1 a3 hb
          obtain ⟨c1, c2, c3⟩ := ihL _ _ _ _ _ _ _ _ ((a2.trans b2).aux) b1 (WFNode.set_node hw b3)
            hm1 hm hmb hbl h
          exact ⟨c1, (a2.trans b2).trans c2, c3⟩
      · rename_i addr table hc
        rw [hc] at hwc
        obtain ⟨⟨h2, table1⟩, hn, h⟩ := Res.bind_eq_ok.mp h
        obtain ⟨a1, a2, a3⟩ := ihA _ _ _ _ _ _ _ rfl ha hwc (by omega) (by omega) (by omega) hn
        simp only [Res.pure_def, Res.ok.injEq, Prod.mk.injEq] at h
        obtain ⟨e1, e2⟩ := h
        subst e1 e2
        exact ⟨a1, a2, WFNode.set_node hw a3⟩
      · rename_i base hc
        rw [hc] at hwc
        obtain ⟨⟨h2, slot, cell⟩, hn, h⟩ := Res.bind_eq_ok.mp h
        obtain ⟨a1, a2, a3, a4⟩ := slot_array_ok ha hwc (by omega) hn
        by_cases hc0 : cell ≠ 0
        · simp only [hc0, ↓reduceIte, ne_eq, not_false_eq_true] at h
          obtain ⟨node, hp, h⟩ := Res.bind_eq_ok.mp h
          simp only [Res.pure_def, Res.ok.injEq, Prod.mk.injEq] at h
          obtain ⟨e1, e2⟩ := h
          subst e1 e2
          exact ⟨a1, a2, WFNode.set_node hw (poke_node_ok a3 a4 hp)⟩
        · simp only [hc0, ↓reduceIte] at h
          obtain ⟨⟨h3, bucket⟩, hb, h⟩ := Res.bind_eq_ok.mp h
          rw [← a2.aux] at a3
          obtain ⟨b1, b2, b3⟩ := hat_burst_array_ok a1 a3 hb
          rw [a2.aux] at b3
          obtain ⟨c1, c2, c3⟩ := ihL _ _ _ _ _ _ _ _ ((a2.trans b2).aux) b1
            (WFNode.set_node hw (n := .bucket bucket) b3) hm1 hm hmb hbl h
          exact ⟨c1, (a2.trans b2).trans c2, c3⟩
      · rename_i pail hc
        rw [hc] at hwc
        obtain ⟨⟨h2, pail1, cell⟩, hn, h⟩ := Res.bind_eq_ok.mp h
        obtain ⟨a1, a2, a3, a4⟩ := slot_pail_ok ha hwc (by omega) hn
        by_cases hc0 : cell ≠ 0
        · simp only [hc0, ↓reduceIte, ne_eq, not_false_eq_true] at h
          obtain ⟨node, hp, h⟩ := Res.bind_eq_ok.mp h
          simp only [Res.pure_def, Res.ok.injEq, Prod.mk.injEq] at h
          obtain ⟨e1, e2⟩ := h
          subst e1 e2
          exact ⟨a1, a2, WFNode.set_node hw (poke_node_ok a3
            (fun hne => (a4 hne).2 _ (fun _ _ _ hb => hwc _ _ hb)) hp)⟩
        · simp only [hc0, ↓reduceIte] at h
          obtain ⟨⟨h3, bucket⟩, hb, h⟩ := Res.bind_eq_ok.mp h
          have a3' : QArr h2.aux (fun _ => True) pail1.array := by
            rw [a2.aux]; exact a3
          obtain ⟨b1, b2, b3⟩ := hat_burst_pail_ok a1 a3' hb
          rw [a2.aux] at b3
          obtain ⟨c1, c2, c3⟩ := ihL _ _ _ _ _ _ _ _ ((a2.trans b2).aux) b1
            (WFNode.set_node hw (n := .bucket bucket) b3) hm1 hm hmb hbl h
          exact ⟨c1, (a2.trans b2).trans c2, c3⟩
    · intro hat bucket h1 node haux ha hw h
      subst haux
      rw [hat_burst_bucket] at h
      obtain ⟨⟨h2, addr⟩, hal, h⟩ := Res.bind_eq_ok.mp h
      obtain ⟨a1, a2, -⟩ := hat_alloc_ok ha (show HAT_radix < 32 by decide) hal
      obtain ⟨⟨h3, radix⟩, hl, h⟩ := Res.bind_eq_ok.mp h
      have hemp : ∀ i : Nat, WFNode h2.aux ((fun _ => HatNode.empty) i) := by
        intro i
        simp only [WFNode]
      rw [a2.aux] at hemp
      obtain ⟨l1, l2, l3⟩ := hat_burst_bucket_slots_ok ihA hw HatBucketSlots h2 h3 _ radix a2.aux
        a1 hemp hl
      obtain ⟨f1, f2⟩ := hat_free_ok (a := bucket.addr) (t := HAT_bucket) l1
        (fun h => absurd h (by decide))
      simp only [Res.pure_def, Res.ok.injEq, Prod.mk.injEq] at h
      obtain ⟨e1, e2⟩ := h
      subst e1 e2
      exact ⟨f1, (a2.trans l2).trans f2, l3⟩

theorem rec_index_none {key : List Nat} {rs : List (List Nat)} :
    rec_index key rs = none ↔ ∀ r ∈ rs, r ≠ key := by
  induction rs with
  | nil => simp [rec_index]
  | cons r rs ih =>
    by_cases h : r = key
    · simp [rec_index, h]
    · simp [rec_index, h, ih]

theorem rec_index_last {key : List Nat} {rs : List (List Nat)} (h : ∀ r ∈ rs, r ≠ key) :
    rec_index key (rs ++ [key]) = some rs.length := by
  induction rs with
  | nil => simp [rec_index]
  | cons r rs ih =>
    have h1 : r ≠ key := h r (by simp)
    have h2 := ih (fun x hx => h x (by simp [hx]))
    simp [rec_index, h1, h2]

theorem rec_index_lt {key : List Nat} {rs : List (List Nat)} {i : Nat}
    (h : rec_index key rs = some i) : i < rs.length := by
  induction rs generalizing i with
  | nil => simp [rec_index] at h
  | cons r rs ih =>
    by_cases hr : r = key
    · simp [rec_index, hr] at h
      subst h
      simp
    · simp only [rec_index, hr, ↓reduceIte, Option.map_eq_some'] at h
      obtain ⟨j, hj, e⟩ := h
      subst e
      have := ih hj
      simp
      omega

theorem scan_whole {hat : Hat} {b : HatBase} {buff : List Nat} {max off : Nat}
    {rs : List (List Nat)} (hoff : off ≤ max) (hmax : max ≤ buff.length) (h32 : max < U32)
    (hwf : WFArray hat.aux b rs) :
    scan_array U16 hat b buff max off 0 0 =
      .ok ((rec_index ((buff.drop off).take (max - off)) rs).map (scan_ret hat b)) := by
  have hl := length_le_enc rs
  have hb := hwf.nxt_le
  have hn := hwf.nxt
  have := scan_spec hat b buff max off hoff hmax h32 rs [] (by simpa using hwf) U16
    (by simp only [U16]; omega)
  simpa [enc] using this

theorem scan_ret_small {hat : Hat} {b : HatBase} {rs : List (List Nat)} {i : Nat}
    (hwf : WFArray hat.aux b rs) (hi : i < rs.length) :
    scan_ret hat b i = if hat.aux ≠ 0 then slot_ptr b.addr (hsize b.type) ((i + 1) * hat.aux)
      else 1 := by
  unfold scan_ret
  have hcap := hwf.cap
  have hb := hwf.nxt_le
  have h1 : (i + 1) * hat.aux ≤ rs.length * hat.aux := Nat.mul_le_mul_right _ (by omega)
  rw [Nat.mod_eq_of_lt (by simp only [U32]; omega)]

/-- The record scan finds the last record when no record before it is the key. -/
theorem scan_found {hat : Hat} {b : HatBase} {buff : List Nat} {max off cell : Nat}
    {Q : List Nat → Prop} (hoff : off ≤ max) (hmax : max ≤ buff.length) (h32 : max < U32)
    (hl : Last hat.aux Q b ((buff.drop off).take (max - off)) cell)
    (hq : ∀ r, Q r → r ≠ (buff.drop off).take (max - off)) :
    scan_array U16 hat b buff max off 0 0 = .ok (some (if hat.aux ≠ 0 then cell else 1)) := by
  obtain ⟨rs, h1, h2, h3⟩ := hl
  rw [scan_whole hoff hmax h32 h2, rec_index_last (fun r hr => hq r (h1 r hr))]
  simp only [Option.map_some']
  rw [scan_ret_small h2 (by simp), h3]

theorem scan_none {hat : Hat} {b : HatBase} {buff : List Nat} {max off : Nat}
    (hoff : off ≤ max) (hmax : max ≤ buff.length) (h32 : max < U32)
    (hw : QBase hat.aux (fun _ => True) b)
    (h : scan_array U16 hat b buff max off 0 0 = .ok none) :
    QBase hat.aux (fun r => r ≠ (buff.drop off).take (max - off)) b := by
  obtain ⟨rs, hwf, -⟩ := hw
  rw [scan_whole hoff hmax h32 hwf] at h
  simp only [Res.ok.injEq, Option.map_eq_none'] at h
  exact ⟨rs, hwf, rec_index_none.mp h⟩

theorem scan_some {hat : Hat} {b : HatBase} {buff : List Nat} {max off p : Nat}
    (hoff : off ≤ max) (hmax : max ≤ buff.length) (h32 : max < U32)
    (hw : QBase hat.aux (fun _ => True) b)
    (h : scan_array U16 hat b buff max off 0 0 = .ok (some p)) :
    (hat.aux ≠ 0 → p ≠ 0) ∧ (hat.aux = 0 → p = 1) := by
  obtain ⟨rs, hwf, -⟩ := hw
  rw [scan_whole hoff hmax h32 hwf] at h
  simp only [Res.ok.injEq, Option.map_eq_some'] at h
  obtain ⟨i, hi, e⟩ := h
  have hlt := rec_index_lt hi
  rw [scan_ret_small hwf hlt] at e
  subst e
  constructor
  · intro h0
    rw [if_pos h0]
    exact slot_ptr_ne_zero hwf (by omega)
  · intro h0
    rw [if_neg (by simpa using h0)]

theorem scan_congr {hat h' : Hat} {b : HatBase} {buff : List Nat} {max off : Nat}
    (hoff : off ≤ max) (hmax : max ≤ buff.length) (h32 : max < U32)
    (hw : QBase hat.aux (fun _ => True) b) (ha : h'.aux = hat.aux) :
    scan_array U16 h' b buff max off 0 0 = scan_array U16 hat b buff max off 0 0 := by
  obtain ⟨rs, hwf, -⟩ := hw
  rw [scan_whole hoff hmax h32 hwf, scan_whole hoff hmax h32 (ha ▸ hwf)]
  have : scan_ret h' b = scan_ret hat b := by
    funext i
    simp only [scan_ret, ha]
  rw [this]

theorem amt_eq {max off : Nat} (hoff : off ≤ max) (h127 : max ≤ 127) :
    (max + U32 - off) % U32 = max - off := by
  simp only [U32]
  omega

theorem found_ret {aux p : Nat} (h : (aux ≠ 0 → p ≠ 0) ∧ (aux = 0 → p = 1)) :
    (if aux ≠ 0 then p else 1) = p := by
  by_cases h0 : aux ≠ 0
  · rw [if_pos h0]
  · rw [if_neg h0, h.2 (by simpa using h0)]

theorem cell_ret_ret (hat : Hat) (cell : Nat) :
    (if hat.aux ≠ 0 then cell_ret hat cell else 1) = if hat.aux ≠ 0 then cell else 1 := by
  unfold cell_ret
  by_cases h0 : hat.aux ≠ 0
  · simp only [if_pos h0]
  · simp only [if_neg h0]

theorem cell_ret_props {hat : Hat} {cell : Nat} (h : cell ≠ 0) :
    (hat.aux ≠ 0 → cell_ret hat cell ≠ 0) ∧ (hat.aux = 0 → cell_ret hat cell = 0 ∨ cell_ret hat cell = 1) := by
  unfold cell_ret
  constructor
  · intro h0
    rw [if_pos h0]
    exact h
  · intro h0
    rw [if_neg (by simpa using h0)]
    exact Or.inl rfl

/-- The descent of `hat_find` below a slot finds the key stored last. -/
theorem find_slot {hat h' : Hat} {slot : BSlot} {buff : List Nat} {max off cell : Nat}
    (hoff : off ≤ max) (hmax : max ≤ buff.length) (h127 : max ≤ 127)
    (hl : LastSlot hat.aux (fun r => r ≠ (buff.drop off).take (max - off)) slot (buff.drop off)
      (max - off) cell)
    (ha : h'.aux = hat.aux) :
    hat_find_node slot.toNode h' buff max off = .ok (some (if hat.aux ≠ 0 then cell else 1)) := by
  have h32 : max < U32 := by simp only [U32]; omega
  cases slot with
  | empty => exact hl.elim
  | array b =>
    simp only [BSlot.toNode, hat_find_node]
    rw [← ha] at hl ⊢
    exact scan_found hoff hmax h32 hl (fun _ h => h)
  | pail p =>
    obtain ⟨x, b, hx, hb, hl⟩ := hl
    simp only [BSlot.toNode, hat_find_node, hat_find_pail, amt_eq hoff h127, hx, Res.ok_bind, hb]
    rw [← ha] at hl ⊢
    exact scan_found hoff hmax h32 hl (fun _ h => h)

theorem find_bucket {h' : Hat} {bucket : HatBucket} {buff : List Nat} {max off x : Nat}
    (hoff : off ≤ max) (h127 : max ≤ 127) (hx : hat_code (buff.drop off) (max - off) = .ok x) :
    hat_find_node (.bucket bucket) h' buff max off =
      hat_find_node (bucket.slots (x % HatBucketSlots)).toNode h' buff max off := by
  simp only [hat_find_node, amt_eq hoff h127, hx, Res.ok_bind]
  cases bucket.slots (x % HatBucketSlots) <;> simp [BSlot.toNode, hat_find_node]

/-- A store into an empty slot. -/
theorem leaf_new {hat h2 : Hat} {buff : List Nat} {max off cell : Nat} {nb : Option HatBase}
    (ha : AllocOK hat) (hoff : off ≤ max) (hmax : max ≤ buff.length) (h127 : max ≤ 127)
    (h : hat_new_array hat (buff.drop off) (max - off) = .ok (h2, nb, cell)) :
    AllocOK h2 ∧ Keeps hat h2 ∧ cell ≠ 0 ∧ ∃ b, nb = some b ∧ WFSlot hat.aux (.array b) ∧
      ∀ h' : Hat, h'.aux = hat.aux →
        hat_find_node (BSlot.array b).toNode h' buff max off =
          .ok (some (if hat.aux ≠ 0 then cell else 1)) := by
  obtain ⟨a1, a2, a3, b, hb, a4, a5⟩ := slot_new_ok ha (show max - off ≤ 127 by omega) h
  exact ⟨a1, a2, (a5 (fun _ => True)).wf, b, hb, a4, fun h' e => find_slot hoff hmax h127 (a5 _) e⟩

/-- A store into an array node in which the scan did not find the key. -/
theorem leaf_array {hat h2 : Hat} {base : HatBase} {slot : BSlot} {buff : List Nat}
    {max off cell : Nat} (ha : AllocOK hat) (hoff : off ≤ max) (hmax : max ≤ buff.length)
    (h127 : max ≤ 127) (hw : QBase hat.aux (fun _ => True) base)
    (hs : scan_array U16 hat base buff max off 0 0 = .ok none)
    (h : hat_add_array hat base (buff.drop off) (max - off) 1 = .ok (h2, slot, cell)) :
    AllocOK h2 ∧ Keeps hat h2 ∧ WFSlot hat.aux slot ∧ (cell ≠ 0 →
      ∀ h' : Hat, h'.aux = hat.aux →
        hat_find_node slot.toNode h' buff max off =
          .ok (some (if hat.aux ≠ 0 then cell else 1))) := by
  have h32 : max < U32 := by simp only [U32]; omega
  obtain ⟨rs, hwf, hq⟩ := scan_none hoff hmax h32 hw hs
  obtain ⟨a1, a2, a3, a4⟩ := hat_add_array_ok ha hwf (show max - off ≤ 127 by omega) h
  exact ⟨a1, a2, a3, fun hc h' e => find_slot hoff hmax h127 ((a4 hc).2 _ hq) e⟩

/-- A store into a pail in which the scan did not find the key. -/
theorem leaf_pail {hat h2 : Hat} {pail pail1 : HatPail} {buff : List Nat}
    {max off cell x : Nat} (ha : AllocOK hat) (hoff : off ≤ max) (hmax : max ≤ buff.length)
    (h127 : max ≤ 127) (hw : QArr hat.aux (fun _ => True) pail.array)
    (hx : hat_code (buff.drop off) (max - off) = .ok x)
    (hs : ∀ base, pail.array (x % HatPailMax) = some base →
      scan_array U16 hat base buff max off 0 0 = .ok none)
    (h : hat_add_pail hat pail (buff.drop off) (max - off) = .ok (h2, pail1, cell)) :
    AllocOK h2 ∧ Keeps hat h2 ∧ WFSlot hat.aux (.pail pail1) ∧ (cell ≠ 0 →
      ∀ h' : Hat, h'.aux = hat.aux →
        hat_find_node (BSlot.pail pail1).toNode h' buff max off =
          .ok (some (if hat.aux ≠ 0 then cell else 1))) := by
  have h32 : max < U32 := by simp only [U32]; omega
  obtain ⟨a1, a2, a3, a4⟩ := slot_pail_ok ha hw (show max - off ≤ 127 by omega) h
  refine ⟨a1, a2, a3, fun hc h' e => find_slot hoff hmax h127 ((a4 hc).2 _ ?_) e⟩
  intro y b hy hb
  rw [hx] at hy
  cases hy
  exact scan_none hoff hmax h32 (hw _ _ hb) (hs b hb)

/-- The scan found the key: the value returned and what `hat_find` returns. -/
theorem leaf_found {hat : Hat} {base : HatBase} {buff : List Nat} {max off p : Nat}
    (hoff : off ≤ max) (hmax : max ≤ buff.length) (h127 : max ≤ 127)
    (hw : QBase hat.aux (fun _ => True) base)
    (hs : scan_array U16 hat base buff max off 0 0 = .ok (some p)) :
    (hat.aux ≠ 0 → p ≠ 0) ∧ (hat.aux = 0 → p = 0 ∨ p = 1) ∧
      ∀ h' : Hat, h'.aux = hat.aux →
        scan_array U16 h' base buff max off 0 0 = .ok (some (if hat.aux ≠ 0 then p else 1)) := by
  have h32 : max < U32 := by simp only [U32]; omega
  have hp := scan_some hoff hmax h32 hw hs
  refine ⟨hp.1, fun h0 => Or.inr (hp.2 h0), fun h' e => ?_⟩
  rw [scan_congr hoff hmax h32 hw e, hs, found_ret hp]

theorem CellPost.stored {hat : Hat} {node1 : HatNode} {buff : List Nat} {max off cell : Nat}
    (hw : WFNode hat.aux node1) (hc : cell ≠ 0)
    (hf : ∀ h' : Hat, h'.aux = hat.aux →
      hat_find_node node1 h' buff max off = .ok (some (if hat.aux ≠ 0 then cell else 1))) :
    CellPost hat node1 buff max off (cell_ret hat cell) := by
  refine ⟨hw, (cell_ret_props hc).1, (cell_ret_props hc).2, fun h' e => ?_⟩
  rw [cell_ret_ret]
  exact hf h' e

theorem CellPost.bucket {hat : Hat} {bucket : HatBucket} {buff : List Nat} {max off p x : Nat}
    (hoff : off ≤ max) (h127 : max ≤ 127) (hx : hat_code (buff.drop off) (max - off) = .ok x)
    (hw : ∀ i, WFSlot hat.aux (bucket.slots i))
    (hp : CellPost hat (bucket.slots (x % HatBucketSlots)).toNode buff max off p) :
    CellPost hat (.bucket bucket) buff max off p := by
  refine ⟨hw, hp.2.1, hp.2.2.1, fun h' e => ?_⟩
  rw [find_bucket hoff h127 hx]
  exact hp.2.2.2 h' e

/-- Outcome of the part of the loop of `hat_cell` below a bucket. -/
theorem hat_cell_bucket_ok {hat h1 : Hat} {bucket : HatBucket} {buff : List Nat}
    {max off x : Nat} {r : HatBucket × Nat ⊕ HatBucket} (ha : AllocOK hat)
    (hw : ∀ i, WFSlot hat.aux (bucket.slots i)) (hoff : off ≤ max) (hmax : max ≤ buff.length)
    (h127 : max ≤ 127) (hx : hat_code (buff.drop off) (max - off) = .ok x)
    (h : hat_cell_bucket hat bucket (x % HatBucketSlots) buff max off = .ok (h1, r)) :
    AllocOK h1 ∧ Keeps hat h1 ∧ BucketPost hat buff max off r := by
  unfold hat_cell_bucket at h
  simp only [amt_eq hoff h127] at h
  have hwc := hw (x % HatBucketSlots)
  cases hc : bucket.slots (x % HatBucketSlots) with
  | empty =>
    simp only [hc] at h
    have fin : ∀ (h2 : Hat) (nb : Option HatBase) (cell : Nat),
        hat_new_array hat (buff.drop off) (max - off) = .ok (h2, nb, cell) →
        AllocOK h2 ∧ Keeps hat h2 ∧ cell ≠ 0 ∧ ∃ b, nb = some b ∧
        ∀ (s : Nat → BSlot), s = setSlot bucket.slots (x % HatBucketSlots) (.array b) →
        CellPost hat (.bucket ⟨bucket.addr, (bucket.count + 1) % U32, s⟩) buff max off
          (cell_ret hat cell) := by
      intro h2 nb cell hn
      obtain ⟨a1, a2, a3, b, hb, a4, a5⟩ := leaf_new ha hoff hmax h127 hn
      subst hb
      refine ⟨a1, a2, a3, b, rfl, fun s hs => ?_⟩
      subst hs
      refine CellPost.bucket hoff h127 hx (WFSlot.set_slot hw a4) ?_
      simp only [setSlot_same]
      exact CellPost.stored (WFNode.toNode a4) a3 a5
    by_cases hcnt : bucket.count < HatBucketMax
    · rw [if_pos hcnt] at h
      obtain ⟨⟨h2, nb, cell⟩, hn, h⟩ := Res.bind_eq_ok.mp h
      obtain ⟨a1, a2, a3, b, hb, a4⟩ := fin h2 nb cell hn
      subst hb
      simp only [a3, ne_eq, not_false_eq_true, ↓reduceIte, Res.pure_def, Res.ok.injEq,
        Prod.mk.injEq] at h
      obtain ⟨e1, e2⟩ := h
      subst e1 e2
      exact ⟨a1, a2, a4 _ rfl⟩
    · rw [if_neg hcnt] at h
      obtain ⟨⟨h2, nb, cell⟩, hn, h⟩ := Res.bind_eq_ok.mp h
      obtain ⟨a1, a2, a3, b, hb, a4⟩ := fin h2 nb cell hn
      subst hb
      simp only [Res.pure_def, Res.ok.injEq, Prod.mk.injEq] at h
      obtain ⟨e1, e2⟩ := h
      subst e1 e2
      exact ⟨a1, a2, a4 _ rfl⟩
  | array base =>
    simp only [hc] at h hwc
    obtain ⟨hit, hs, h⟩ := Res.bind_eq_ok.mp h
    cases hit with
    | some p =>
      simp only [Res.pure_def, Res.ok.injEq, Prod.mk.injEq] at h
      obtain ⟨e1, e2⟩ := h
      subst e1 e2
      obtain ⟨f1, f2, f3⟩ := leaf_found hoff hmax h127 hwc hs
      refine ⟨ha, Keeps.refl _, CellPost.bucket hoff h127 hx hw ?_⟩
      rw [hc]
      exact ⟨hwc, f1, f2, f3⟩
    | none =>
      simp only at h
      by_cases hcnt : bucket.count < HatBucketMax
      · rw [if_pos hcnt] at h
        obtain ⟨⟨h2, slot, cell⟩, hn, h⟩ := Res.bind_eq_ok.mp h
        obtain ⟨a1, a2, a3, a4⟩ := leaf_array ha hoff hmax h127 hwc hs hn
        by_cases hc0 : cell ≠ 0
        · simp only [hc0, ne_eq, not_false_eq_true, ↓reduceIte, Res.pure_def, Res.ok.injEq,
            Prod.mk.injEq] at h
          obtain ⟨e1, e2⟩ := h
          subst e1 e2
          refine ⟨a1, a2, CellPost.bucket hoff h127 hx (WFSlot.set_slot hw a3) ?_⟩
          simp only [setSlot_same]
          exact CellPost.stored (WFNode.toNode a3) hc0 (a4 hc0)
        · simp only [hc0, ↓reduceIte, Res.pure_def, Res.ok.injEq, Prod.mk.injEq] at h
          obtain ⟨e1, e2⟩ := h
          subst e1 e2
          exact ⟨a1, a2, WFSlot.set_slot hw a3⟩
      · rw [if_neg hcnt] at h
        simp only [Res.pure_def, Res.ok.injEq, Prod.mk.injEq] at h
        obtain ⟨e1, e2⟩ := h
        subst e1 e2
        exact ⟨ha, Keeps.refl _, hw⟩
  | pail pail =>
    simp only [hc, hx, Res.ok_bind] at h hwc
    cases hpc : pail.array (x % HatPailMax) with
    | some base =>
      simp only [hpc] at h
      obtain ⟨hit, hs, h⟩ := Res.bind_eq_ok.mp h
      cases hit with
      | some p =>
        simp only [Res.pure_def, Res.ok.injEq, Prod.mk.injEq] at h
        obtain ⟨e1, e2⟩ := h
        subst e1 e2
        obtain ⟨f1, f2, f3⟩ := leaf_found hoff hmax h127 (hwc _ _ hpc) hs
        refine ⟨ha, Keeps.refl _, CellPost.bucket hoff h127 hx hw ?_⟩
        rw [hc]
        refine ⟨hwc, f1, f2, fun h' e => ?_⟩
        simp only [BSlot.toNode, hat_find_node, hat_find_pail, amt_eq hoff h127, hx, Res.ok_bind,
          hpc]
        exact f3 h' e
      | none =>
        simp only at h
        have hsn : ∀ base', pail.array (x % HatPailMax) = some base' →
            scan_array U16 hat base' buff max off 0 0 = .ok none := by
          intro base' hb'
          rw [hpc] at hb'
          cases hb'
          exact hs
        by_cases hcnt : bucket.count < HatBucketMax
        · rw [if_pos hcnt] at h
          obtain ⟨⟨h2, pail1, cell⟩, hn, h⟩ := Res.bind_eq_ok.mp h
          obtain ⟨a1, a2, a3, a4⟩ := leaf_pail ha hoff hmax h127 hwc hx hsn hn
          by_cases hc0 : cell ≠ 0
          · simp only [hc0, ne_eq, not_false_eq_true, ↓reduceIte, Res.pure_def, Res.ok.injEq,
              Prod.mk.injEq] at h
            obtain ⟨e1, e2⟩ := h
            subst e1 e2
            refine ⟨a1, a2, CellPost.bucket hoff h127 hx (WFSlot.set_slot hw a3) ?_⟩
            simp only [setSlot_same]
            exact CellPost.stored (WFNode.toNode a3) hc0 (a4 hc0)
          · simp only [hc0, ↓reduceIte, Res.pure_def, Res.ok.injEq, Prod.mk.injEq] at h
            obtain ⟨e1, e2⟩ := h
            subst e1 e2
            exact ⟨a1, a2, WFSlot.set_slot hw a3⟩
        · rw [if_neg hcnt] at h
          simp only [Res.pure_def, Res.ok.injEq, Prod.mk.injEq] at h
          obtain ⟨e1, e2⟩ := h
          subst e1 e2
          exact ⟨ha, Keeps.refl _, hw⟩

    | none =>
      simp only [hpc, Res.pure_def, Res.ok_bind] at h
      have hsn : ∀ base', pail.array (x % HatPailMax) = some base' →
          scan_array U16 hat base' buff max off 0 0 = .ok none := by
        intro base' hb'
        rw [hpc] at hb'
        cases hb'
      by_cases hcnt : bucket.count < HatBucketMax
      · rw [if_pos hcnt] at h
        obtain ⟨⟨h2, pail1, cell⟩, hn, h⟩ := Res.bind_eq_ok.mp h
        obtain ⟨a1, a2, a3, a4⟩ := leaf_pail ha hoff hmax h127 hwc hx hsn hn
        by_cases hc0 : cell ≠ 0
        · simp only [hc0, ne_eq, not_false_eq_true, ↓reduceIte, Res.pure_def, Res.ok.injEq,
            Prod.mk.injEq] at h
          obtain ⟨e1, e2⟩ := h
          subst e1 e2
          refine ⟨a1, a2, CellPost.bucket hoff h127 hx (WFSlot.set_slot hw a3) ?_⟩
          simp only [setSlot_same]
          exact CellPost.stored (WFNode.toNode a3) hc0 (a4 hc0)
        · simp only [hc0, ↓reduceIte, Res.pure_def, Res.ok.injEq, Prod.mk.injEq] at h
          obtain ⟨e1, e2⟩ := h
          subst e1 e2
          exact ⟨a1, a2, WFSlot.set_slot hw a3⟩
      · rw [if_neg hcnt] at h
        simp only [Res.pure_def, Res.ok.injEq, Prod.mk.injEq] at h
        obtain ⟨e1, e2⟩ := h
        subst e1 e2
        exact ⟨ha, Keeps.refl _, hw⟩

theorem CellPost.keeps {hat h2 : Hat} {node1 : HatNode} {buff : List Nat} {max off p : Nat}
    (hk : Keeps hat h2) (h : CellPost h2 node1 buff max off p) :
    CellPost hat node1 buff max off p := by
  unfold CellPost at h ⊢
  rw [hk.aux] at h
  exact h

/-- Every return of the loop of `hat_cell` on a well-formed node leaves a
well-formed node on which `hat_find` finds the key at the address returned. -/
theorem hat_cell_loop_ok : ∀ (f : Nat) (hat : Hat) (node : HatNode) (buff : List Nat)
    (max off : Nat) (h1 : Hat) (node1 : HatNode) (p : Nat),
    AllocOK hat → WFNode hat.aux node → off ≤ max → max ≤ buff.length → max ≤ 127 →
    hat_cell_loop f hat node buff max off = .ok (h1, node1, p) →
    AllocOK h1 ∧ Keeps hat h1 ∧ CellPost hat node1 buff max off p := by
  intro f
  induction f with
  | zero =>
    intro hat node buff max off h1 node1 p _ _ _ _ _ h
    simp [hat_cell_loop] at h
  | succ f ih =>
    intro hat node buff max off h1 node1 p ha hw hoff hmax h127 h
    cases node with
    | empty =>
      rw [hat_cell_loop] at h
      simp only [amt_eq hoff h127] at h
      obtain ⟨⟨h2, nb, cell⟩, hn, h⟩ := Res.bind_eq_ok.mp h
      obtain ⟨a1, a2, a3, b, hb, a4, a5⟩ := leaf_new ha hoff hmax h127 hn
      subst hb
      simp only [Res.pure_def, Res.ok.injEq, Prod.mk.injEq] at h
      obtain ⟨e1, e2, e3⟩ := h
      subst e1 e2 e3
      exact ⟨a1, a2, CellPost.stored a4 a3 a5⟩
    | array base =>
      rw [hat_cell_loop] at h
      simp only [amt_eq hoff h127] at h
      obtain ⟨hit, hs, h⟩ := Res.bind_eq_ok.mp h
      cases hit with
      | some q =>
        simp only [Res.pure_def, Res.ok.injEq, Prod.mk.injEq] at h
        obtain ⟨e1, e2, e3⟩ := h
        subst e1 e2 e3
        obtain ⟨f1, f2, f3⟩ := leaf_found hoff hmax h127 hw hs
        exact ⟨ha, Keeps.refl _, hw, f1, f2, f3⟩
      | none =>
        simp only at h
        obtain ⟨⟨h2, slot, cell⟩, hn, h⟩ := Res.bind_eq_ok.mp h
        obtain ⟨a1, a2, a3, a4⟩ := leaf_array ha hoff hmax h127 hw hs hn
        by_cases hc0 : cell ≠ 0
        · simp only [hc0, ne_eq, not_false_eq_true, ↓reduceIte, Res.pure_def, Res.ok.injEq,
            Prod.mk.injEq] at h
          obtain ⟨e1, e2, e3⟩ := h
          subst e1 e2 e3
          exact ⟨a1, a2, CellPost.stored (WFNode.toNode a3) hc0 (a4 hc0)⟩
        · simp only [hc0, ↓reduceIte] at h
          obtain ⟨⟨h3, bucket⟩, hb, h⟩ := Res.bind_eq_ok.mp h
          rw [← a2.aux] at a3
          obtain ⟨b1, b2, b3⟩ := hat_burst_array_ok a1 a3 hb
          have k3 := a2.trans b2
          rw [← b2.aux] at b3
          obtain ⟨c1, c2, c3⟩ := ih h3 (.bucket bucket) buff max off h1 node1 p b1 b3 hoff hmax
            h127 h
          exact ⟨c1, k3.trans c2, c3.keeps k3⟩
    | pail pail =>
      rw [hat_cell_loop] at h
      simp only [amt_eq hoff h127] at h
      obtain ⟨x, hx, h⟩ := Res.bind_eq_ok.mp h
      have fin_none : (∀ base', pail.array (x % HatPailMax) = some base' →
            scan_array U16 hat base' buff max off 0 0 = .ok none) →
          (hat_add_pail hat pail (buff.drop off) (max - off) >>= fun d =>
            if d.2.2 ≠ 0 then pure (d.1, HatNode.pail d.2.1, cell_ret hat d.2.2)
            else hat_burst_pail d.1 d.2.1 >>= fun e =>
              hat_cell_loop f e.1 (.bucket e.2) buff max off) = .ok (h1, node1, p) →
          AllocOK h1 ∧ Keeps hat h1 ∧ CellPost hat node1 buff max off p := by
        intro hsn h
        obtain ⟨⟨h2, pail1, cell⟩, hn, h⟩ := Res.bind_eq_ok.mp h
        obtain ⟨a1, a2, a3, a4⟩ := leaf_pail ha hoff hmax h127 hw hx hsn hn
        by_cases hc0 : cell ≠ 0
        · simp only [hc0, ne_eq, not_false_eq_true, ↓reduceIte, Res.pure_def, Res.ok.injEq,
            Prod.mk.injEq] at h
          obtain ⟨e1, e2, e3⟩ := h
          subst e1 e2 e3
          exact ⟨a1, a2, CellPost.stored (WFNode.toNode a3) hc0 (a4 hc0)⟩
        · simp only [hc0, ↓reduceIte] at h
          obtain ⟨⟨h3, bucket⟩, hb, h⟩ := Res.bind_eq_ok.mp h
          have a3' : QArr h2.aux (fun _ => True) pail1.array := by
            rw [a2.aux]; exact a3
          obtain ⟨b1, b2, b3⟩ := hat_burst_pail_ok a1 a3' hb
          have k3 := a2.trans b2
          rw [← b2.aux] at b3
          obtain ⟨c1, c2, c3⟩ := ih h3 (.bucket bucket) buff max off h1 node1 p b1 b3 hoff hmax
            h127 h
          exact ⟨c1, k3.trans c2, c3.keeps k3⟩
      cases hpc : pail.array (x % HatPailMax) with
      | some base =>
        simp only [hpc] at h
        obtain ⟨hit, hs, h⟩ := Res.bind_eq_ok.mp h
        cases hit with
        | some q =>
          simp only [Res.pure_def, Res.ok.injEq, Prod.mk.injEq] at h
          obtain ⟨e1, e2, e3⟩ := h
          subst e1 e2 e3
          obtain ⟨f1, f2, f3⟩ := leaf_found hoff hmax h127 (hw _ _ hpc) hs
          refine ⟨ha, Keeps.refl _, hw, f1, f2, fun h' e => ?_⟩
          simp only [hat_find_node, hat_find_pail, amt_eq hoff h127, hx, Res.ok_bind, hpc]
          exact f3 h' e
        | none =>
          refine fin_none ?_ h
          intro base' hb'
          rw [hpc] at hb'
          cases hb'
          exact hs
      | none =>
        simp only [hpc, Res.pure_def, Res.ok_bind] at h
        refine fin_none ?_ h
        intro base' hb'
        rw [hpc] at hb'
        cases hb'
    | bucket bucket =>
      rw [hat_cell_loop] at h
      simp only [amt_eq hoff h127] at h
      obtain ⟨x, hx, h⟩ := Res.bind_eq_ok.mp h
      obtain ⟨⟨h2, r⟩, hcb, h⟩ := Res.bind_eq_ok.mp h
      obtain ⟨a1, a2, a3⟩ := hat_cell_bucket_ok ha hw hoff hmax h127 hx hcb
      cases r with
      | inl v =>
        obtain ⟨b1, q⟩ := v
        simp only [Res.pure_def, Res.ok.injEq, Prod.mk.injEq] at h
        obtain ⟨e1, e2, e3⟩ := h
        subst e1 e2 e3
        exact ⟨a1, a2, a3⟩
      | inr b1 =>
        simp only at h
        obtain ⟨⟨h3, node2⟩, hb, h⟩ := Res.bind_eq_ok.mp h
        obtain ⟨b1', b2, b3⟩ := (radix_ok hat.aux f).2.2 _ _ _ _ a2.aux a1 a3 hb
        have k3 := a2.trans b2
        rw [← k3.aux] at b3
        obtain ⟨c1, c2, c3⟩ := ih h3 node2 buff max off h1 node1 p b1' b3 hoff hmax h127 h
        exact ⟨c1, k3.trans c2, c3.keeps k3⟩
    | radix addr table =>
      rw [hat_cell_loop] at h
      simp only [amt_eq hoff h127] at h
      by_cases hlt : off < max
      · rw [if_pos hlt] at h
        obtain ⟨ch, hch, h⟩ := Res.bind_eq_ok.mp h
        by_cases h128 : ch ≥ 128
        · rw [if_pos h128] at h
          simp at h
        rw [if_neg h128] at h
        obtain ⟨⟨h2, child, q⟩, hr, h⟩ := Res.bind_eq_ok.mp h
        simp only [Res.pure_def, Res.ok.injEq, Prod.mk.injEq] at h
        obtain ⟨e1, e2, e3⟩ := h
        subst e1 e2 e3
        obtain ⟨c1, c2, c3, c4, c5, c6⟩ := ih hat (table ch) buff max (off + 1) h2 child q ha
          (hw ch) (by omega) hmax h127 hr
        refine ⟨c1, c2, WFNode.set_node hw c3, c4, c5, fun h' e => ?_⟩
        simp only [hat_find_node, if_pos hlt, hch, if_neg h128, setSlot_same]
        exact c6 h' e
      · rw [if_neg hlt] at h
        obtain ⟨⟨h2, child, q⟩, hr, h⟩ := Res.bind_eq_ok.mp h
        simp only [Res.pure_def, Res.ok.injEq, Prod.mk.injEq] at h
        obtain ⟨e1, e2, e3⟩ := h
        subst e1 e2 e3
        obtain ⟨c1, c2, c3, c4, c5, c6⟩ := ih hat (table 0) buff max off h2 child q ha
          (hw 0) hoff hmax h127 hr
        refine ⟨c1, c2, WFNode.set_node hw c3, c4, c5, fun h' e => ?_⟩
        simp only [hat_find_node, if_neg hlt, setSlot_same]
        exact c6 h' e

/-- When `hat_find` finds the key below a node, the loop of `hat_cell` returns
the same value and leaves the hat and the node as they are. -/
theorem hat_cell_loop_found : ∀ (node : HatNode) (hat : Hat) (buff : List Nat) (max off q : Nat),
    hat_find_node node hat buff max off = .ok (some q) →
    ∃ f0, ∀ f, f0 ≤ f → hat_cell_loop f hat node buff max off = .ok (hat, node, q) := by
  intro node
  induction node with
  | empty =>
    intro hat buff max off q h
    simp [hat_find_node] at h
  | array base =>
    intro hat buff max off q h
    simp only [hat_find_node] at h
    refine ⟨1, fun f hf => ?_⟩
    obtain ⟨g, rfl⟩ : ∃ g, f = g + 1 := ⟨f - 1, by omega⟩
    rw [hat_cell_loop]
    simp only [h, Res.ok_bind, Res.pure_def]
  | pail pail =>
    intro hat buff max off q h
    simp only [hat_find_node, hat_find_pail] at h
    obtain ⟨x, hx, h⟩ := Res.bind_eq_ok.mp h
    refine ⟨1, fun f hf => ?_⟩
    obtain ⟨g, rfl⟩ : ∃ g, f = g + 1 := ⟨f - 1, by omega⟩
    rw [hat_cell_loop]
    cases hpc : pail.array (x % HatPailMax) with
    | none => simp [hpc] at h
    | some base =>
      simp only [hpc] at h
      simp only [hx, Res.ok_bind, hpc, h, Res.pure_def]
  | bucket bucket =>
    intro hat buff max off q h
    simp only [hat_find_node] at h
    obtain ⟨x, hx, h⟩ := Res.bind_eq_ok.mp h
    refine ⟨1, fun f hf => ?_⟩
    obtain ⟨g, rfl⟩ : ∃ g, f = g + 1 := ⟨f - 1, by omega⟩
    rw [hat_cell_loop]
    cases hc : bucket.slots (x % HatBucketSlots) with
    | empty => simp [hc] at h
    | array base =>
      simp only [hc] at h
      simp only [hx, Res.ok_bind, hat_cell_bucket, hc, h, Res.pure_def]
    | pail pail =>
      simp only [hc, hat_find_pail] at h
      obtain ⟨y, hy, h⟩ := Res.bind_eq_ok.mp h
      rw [hx] at hy
      cases hy
      cases hpc : pail.array (x % HatPailMax) with
      | none => simp [hpc] at h
      | some base =>
        simp only [hpc] at h
        simp only [hx, Res.ok_bind, hat_cell_bucket, hc, hpc, h, Res.pure_def]
  | radix addr table ih =>
    intro hat buff max off q h
    simp only [hat_find_node] at h
    by_cases hlt : off < max
    · rw [if_pos hlt] at h
      cases hr : rd buff off with
      | fault => simp [hr] at h
      | nofuel => simp [hr] at h
      | ok ch =>
        simp only [hr] at h
        by_cases h128 : ch ≥ 128
        · simp [h128] at h
        rw [if_neg h128] at h
        obtain ⟨f0, hf0⟩ := ih ch hat buff max (off + 1) q h
        refine ⟨f0 + 1, fun f hf => ?_⟩
        obtain ⟨g, rfl⟩ : ∃ g, f = g + 1 := ⟨f - 1, by omega⟩
        rw [hat_cell_loop]
        simp only [if_pos hlt, hr, Res.ok_bind, if_neg h128, hf0 g (by omega), Res.pure_def,
          setSlot_self]
    · rw [if_neg hlt] at h
      obtain ⟨f0, hf0⟩ := ih 0 hat buff max off q h
      refine ⟨f0 + 1, fun f hf => ?_⟩
      obtain ⟨g, rfl⟩ : ∃ g, f = g + 1 := ⟨f - 1, by omega⟩
      rw [hat_cell_loop]
      simp only [if_neg hlt, Res.ok_bind, hf0 g (by omega), Res.pure_def, setSlot_self]

theorem triple_loop_le : ∀ (n : Nat) (buff : List Nat) (max t off t' off' : Nat),
    triple_loop n buff max t off = .ok (t', off') → off ≤ max → off' ≤ max := by
  intro n
  induction n with
  | zero =>
    intro buff max t off t' off' h hle
    simp only [triple_loop, Res.ok.injEq, Prod.mk.injEq] at h
    omega
  | succ n ih =>
    intro buff max t off t' off' h hle
    rw [triple_loop] at h
    split at h
    · obtain ⟨b, -, h⟩ := Res.bind_eq_ok.mp h
      exact ih _ _ _ _ _ _ h (by omega)
    · exact ih _ _ _ _ _ _ h hle

theorem AllocOK.root {hat : Hat} (h : AllocOK hat) (r : Nat → HatNode) :
    AllocOK { hat with root := r } :=
  ⟨h.aux, h.next, h.seg, h.malloc, h.reuse⟩

/-- A return of `hat_cell` on a hat that satisfies the invariant. -/
theorem hat_cell_ok {f : Nat} {hat h' : Hat} {buff : List Nat} {max p : Nat} (hi : Inv hat)
    (hmax : max ≤ buff.length) (h127 : max ≤ 127)
    (h : hat_cell f hat buff max = .ok (h', p)) :
    Inv h' ∧ h'.aux = hat.aux ∧ (hat.aux ≠ 0 → p ≠ 0) ∧ (hat.aux = 0 → p = 0 ∨ p = 1) ∧
    hat_find h' buff max = .ok (find_ret hat.aux p) ∧
    ∃ f0, ∀ f2, f0 ≤ f2 → hat_cell f2 h' buff max = .ok (h', find_ret hat.aux p) := by
  unfold hat_cell at h
  obtain ⟨⟨triple, off⟩, ht, h⟩ := Res.bind_eq_ok.mp h
  simp only at h
  by_cases hn : triple < hat.nroot
  swap
  · rw [if_neg hn] at h
    simp at h
  rw [if_pos hn] at h
  obtain ⟨⟨h1, node, q⟩, hl, h⟩ := Res.bind_eq_ok.mp h
  simp only [Res.pure_def, Res.ok.injEq, Prod.mk.injEq] at h
  obtain ⟨e1, e2⟩ := h
  subst e2
  have hoff := triple_loop_le _ _ _ _ _ _ _ ht (Nat.zero_le _)
  obtain ⟨a1, a2, a3, a4, a5, a6⟩ := hat_cell_loop_ok f hat (hat.root triple) buff max off h1 node
    q hi.1 (hi.2 triple) hoff hmax h127 hl
  have e_aux : h'.aux = hat.aux := by rw [← e1]; exact a2.aux
  have e_boot : h'.bootlvl = hat.bootlvl := by rw [← e1]; exact a2.bootlvl
  have e_nroot : h'.nroot = hat.nroot := by rw [← e1]; exact a2.nroot
  have e_root : h'.root = setSlot hat.root triple node := by rw [← e1, ← a2.root]
  have e_alloc : AllocOK h' := by rw [← e1]; exact a1.root _
  clear e1
  have hfind := a6 h' e_aux
  have hnode : h'.root triple = node := by rw [e_root, setSlot_same]
  refine ⟨⟨e_alloc, ?_⟩, e_aux, a4, a5, ?_, ?_⟩
  · intro i
    rw [e_aux, e_root]
    exact WFNode.set_node hi.2 a3 i
  · unfold hat_find hat_find_slot
    rw [e_boot, ht]
    simp only [Res.ok_bind]
    rw [if_pos (show triple < h'.nroot by rw [e_nroot]; exact hn), hnode, hfind]
    simp only [Res.ok_bind, Res.pure_def, find_ret]
  · obtain ⟨f0, hf0⟩ := hat_cell_loop_found _ _ _ _ _ _ hfind
    refine ⟨f0, fun f2 hf2 => ?_⟩
    unfold hat_cell
    rw [e_boot, ht]
    simp only [Res.ok_bind]
    rw [if_pos (show triple < h'.nroot by rw [e_nroot]; exact hn), hnode, hf0 f2 hf2]
    simp only [Res.ok_bind, Res.pure_def, find_ret]
    have : setSlot h'.root triple node = h'.root := by
      rw [← hnode]
      exact setSlot_self _ _
    rw [this]

/-- The hat `hat_open` returns satisfies the invariant. -/
theorem hat_open_inv {malloc : Nat → Nat} {boot aux : Nat} {hat : Hat}
    (hm : ∀ n, malloc n + HAT_seg < U64) (haux : aux < U16)
    (h : hat_open malloc boot aux = .ok hat) : Inv hat ∧ hat.aux = aux := by
  unfold hat_open at h
  simp only at h
  by_cases hs : malloc 0 = 0
  · rw [if_pos hs] at h
    simp at h
  rw [if_neg hs] at h
  have hmod : aux % U32 = aux := Nat.mod_eq_of_lt (by simp only [U16, U32] at haux ⊢; omega)
  have hnext : (if malloc 0 &&& (HAT_cache_line - 1) ≠ 0 then
      sizeof_HatSeg + (HAT_cache_line - (malloc 0 &&& (HAT_cache_line - 1))) else sizeof_HatSeg)
      ≤ HAT_seg := by
    split <;> simp only [sizeof_HatSeg, HAT_cache_line, HAT_seg, HAT_slot_size] <;> omega
  generalize (if malloc 0 &&& (HAT_cache_line - 1) ≠ 0 then
      sizeof_HatSeg + (HAT_cache_line - (malloc 0 &&& (HAT_cache_line - 1))) else sizeof_HatSeg)
      = next at h hnext
  rw [hmod] at h
  have h0 : AllocOK (⟨fun _ => [], malloc 0, next, 1, malloc, boot % U32, aux,
      open_size boot HAT_slot_size / HAT_slot_size, fun _ => HatNode.empty⟩ : Hat) :=
    ⟨haux, hnext, hm 0, hm, fun _ _ a ha => by cases ha⟩
  by_cases hb : boot = 0
  · rw [if_pos hb] at h
    obtain ⟨⟨h1, addr⟩, hal, h⟩ := Res.bind_eq_ok.mp h
    obtain ⟨a1, a2, -⟩ := hat_alloc_ok h0 (show HAT_bucket < 32 by decide) hal
    simp only [Res.pure_def, Res.ok.injEq] at h
    subst h
    refine ⟨⟨a1.root _, fun i => ?_⟩, a2.aux⟩
    show WFNode h1.aux (setSlot h1.root 0 _ i)
    rw [a2.root]
    refine WFNode.set_node (fun _ => ?_) ?_ i
    · simp only [WFNode]
    · simp only [WFNode]
      intro _
      trivial
  · rw [if_neg hb] at h
    simp only [Res.pure_def, Res.ok.injEq] at h
    subst h
    refine ⟨⟨h0, fun i => ?_⟩, rfl⟩
    simp only [WFNode]

/-- The invariant holds after every sequence of `hat_cell` calls that return,
for keys of at most 127 bytes. -/
theorem hat_cells_inv (f : Nat) : ∀ (keys : List (List Nat)) (hat hat' : Hat) (ps : List Nat),
    Inv hat → (∀ k ∈ keys, k.length ≤ 127) → hat_cells f hat keys = .ok (hat', ps) →
    Inv hat' ∧ hat'.aux = hat.aux := by
  intro keys
  induction keys with
  | nil =>
    intro hat hat' ps hi _ h
    simp only [hat_cells, Res.ok.injEq, Prod.mk.injEq] at h
    obtain ⟨e1, -⟩ := h
    subst e1
    exact ⟨hi, rfl⟩
  | cons k keys ih =>
    intro hat hat' ps hi hk h
    rw [hat_cells] at h
    obtain ⟨⟨h1, p⟩, hc, h⟩ := Res.bind_eq_ok.mp h
    obtain ⟨⟨h2, qs⟩, hcs, h⟩ := Res.bind_eq_ok.mp h
    simp only [Res.pure_def, Res.ok.injEq, Prod.mk.injEq] at h
    obtain ⟨e1, -⟩ := h
    subst e1
    obtain ⟨a1, a2, -⟩ := hat_cell_ok hi (Nat.le_refl _) (hk k (by simp)) hc
    obtain ⟨b1, b2⟩ := ih h1 h2 qs a1 (fun x hx => hk x (by simp [hx])) hcs
    exact ⟨b1, b2.trans a2⟩

/-- When `hat_find` returns a non-null value for a key, `hat_cell` returns the
same value and leaves the hat as it is. -/
theorem hat_cell_found {hat : Hat} {buff : List Nat} {max q : Nat} (hq : q ≠ 0)
    (h : hat_find hat buff max = .ok q) :
    ∃ f0, ∀ f, f0 ≤ f → hat_cell f hat buff max = .ok (hat, q) := by
  unfold hat_find hat_find_slot at h
  obtain ⟨r, hr, h⟩ := Res.bind_eq_ok.mp h
  obtain ⟨⟨triple, off⟩, ht, hr⟩ := Res.bind_eq_ok.mp hr
  simp only at hr
  by_cases hn : triple < hat.nroot
  swap
  · rw [if_neg hn] at hr
    simp at hr
  rw [if_pos hn] at hr
  cases r with
  | none =>
    simp only [Res.pure_def, Res.ok.injEq] at h
    exact absurd h.symm hq
  | some p =>
    simp only [Res.pure_def, Res.ok.injEq] at h
    subst h
    obtain ⟨f0, hf0⟩ := hat_cell_loop_found _ _ _ _ _ _ hr
    refine ⟨f0, fun f hf => ?_⟩
    unfold hat_cell
    rw [ht]
    simp only [Res.ok_bind]
    rw [if_pos hn, hf0 f hf]
    simp only [Res.ok_bind, Res.pure_def, setSlot_self]

theorem Res.eq_ok_val {α : Type} (x : Res α) (h : x.isOk = true) : x = .ok (x.val h) := by
  cases x with
  | ok a => rfl
  | fault => cases h
  | nofuel => cases h

theorem malloc_low_ok (n : Nat) : malloc_low n + HAT_seg < U64 := by
  simp only [malloc_low, HAT_seg, HAT_slot_size, U64]
  omega

/-! ## Runs that show a defect of the source -/

set_option maxRecDepth 1000000

/-- C1 (membership after insert), evaluated with bootlvl 1 and aux 4 at the key
that is the byte `a` followed by 128 bytes `x`: `hat_cell` stores the key and
returns the address 1048748, and `hat_find` on the same key afterwards returns
NULL, because the record scan adds the second length byte to the first without
clearing the flag bit and so reads the length 128 as 256. -/
theorem C1_long_key_is_not_found :
    run_find 1 4 [key_ax128] [key_ax128] = .ok ([1048748], [.ok 0]) := by
  decide

/-- C3 (non-membership), evaluated with bootlvl 1 and aux 0 after `hat_cell` on
`a x^128` and on `a y^127`: `hat_find` returns the non-null value 1 for the key
`a x^128 0x7f y^127`, which was never inserted; the scan reads the length of the
first record as 256 and compares the query with the bytes of both records. -/
theorem C3_find_hits_a_key_never_inserted :
    key_axy ∉ [key_ax128, key_ay127] ∧
    run_find 1 0 [key_ax128, key_ay127] [key_axy] = .ok ([0, 0], [.ok 1]) := by
  decide

/-- C4 (distinct slots for distinct keys), evaluated with bootlvl 1 and aux 4
after `hat_cell` on `a x^128` and on `b x^128`: the two calls return the
different addresses 1048748 and 1048908, and `hat_find` afterwards returns the
same value, NULL, for both keys. -/
theorem C4_two_keys_one_find_result :
    key_ax128 ≠ key_bx128 ∧
    run_find 1 4 [key_ax128, key_bx128] [key_ax128, key_bx128] =
      .ok ([1048748, 1048908], [.ok 0, .ok 0]) := by
  decide

/-- C7 (cursor completeness and order), evaluated with bootlvl 1 and aux 120
after `hat_cell` on `a1`, ..., `a5`, which turns the array under the root slot
into a pail: `hat_start` with the empty key faults.  `hat_strip_pail` strips
each of the five array nodes to the same entry of the sorted array and reports
five entries, and `hat_qsort` then reads the key of an entry that is still
zero. -/
theorem C7_cursor_faults_on_a_pail :
    run_start (fun _ => 0) 1 120 keys_a5 [] = .fault := by
  decide

/-- C8 (reverse symmetry), evaluated with bootlvl 1 and aux 0 after `hat_cell`
on the twelve keys `aa`, ..., `al`: with `rand ()` returning 5 the forward
traversal visits the twelve keys in ascending order, and with `rand ()`
returning -1 `hat_last` faults, because `hat_qsort` takes the pivot from
`x[rand () % n]`, which is `x[-1]`. -/
theorem C8_backward_traversal_faults :
    run_forward (fun _ => 5) 1 0 keys_a12 = .ok keys_a12 ∧
    run_backward (fun _ => -1) 1 0 keys_a12 = .fault := by
  decide

/-- C9 (seek), evaluated with bootlvl 1 and aux 0 after `hat_cell` on `ma` and
`mc`: `hat_start` with the key `mb` returns NULL although `mc` is a key not
below `mb`; `hat_greater` only accepts a key that starts with the bytes given. -/
theorem C9_seek_misses_the_next_key :
    run_start (fun _ => 0) 1 0 [[109, 97], [109, 99]] [109, 98] = .ok none := by
  decide

/-- C10 (key round trip through the cursor), evaluated with bootlvl 1 and aux 4
after `hat_cell` on the key `a x^128`: at the only position of the cursor
`hat_key` returns 129 and writes `a`, the byte 1 and 127 bytes `x` before the
terminator; it takes the first length byte for the length and the second for
the first byte of the key. -/
theorem C10_key_of_long_record_is_wrong :
    run_start (fun _ => 0) 1 4 [key_ax128] [] =
      .ok (some (97 :: 1 :: (List.replicate 127 120 ++ [0]), 129)) ∧
    97 :: 1 :: List.replicate 127 120 ≠ key_ax128 := by
  decide

/-! ## The hash, the key of a cursor position, a fresh hat, the radix index, the arena -/

theorem hat_code_loop_spec : ∀ (bytes rest : List Nat) (h : Nat),
    hat_code_loop bytes.length (bytes ++ rest) h =
      .ok (bytes.foldl (fun h b => (h + (h <<< 5) + (h >>> 27) + b) % U32) h) := by
  intro bytes
  induction bytes with
  | nil => intro rest h; simp [hat_code_loop]
  | cons b bs ih =>
    intro rest h
    have e : (h + ((h <<< 5) % U32 + (h >>> 27) + b)) % U32 =
        (h + (h <<< 5) + (h >>> 27) + b) % U32 := by
      simp only [U32]
      omega
    simp only [List.length_cons, List.cons_append, hat_code_loop, List.foldl_cons]
    rw [e]
    exact ih rest _

/-- C18 (hash definition): for every byte string `bytes`, whatever follows it
in the buffer, `hat_code (buff, n)` with `n` the length of `bytes` returns the
value the specification describes: start from `h = n` and take `h := (h + (h <<
5) + (h >> 27) + b) mod 2^32` for each byte `b` in order.  The result is a
function of the bytes alone, and the hash of the empty string is 0. -/
theorem C18_hash_definition :
    (∀ bytes rest : List Nat, hat_code (bytes ++ rest) bytes.length = .ok (hash_spec bytes)) ∧
    hat_code [] 0 = .ok 0 ∧ hash_spec [] = 0 := by
  refine ⟨fun bytes rest => ?_, rfl, rfl⟩
  unfold hat_code hash_spec
  exact hat_code_loop_spec bytes rest bytes.length

theorem wr_ok {l : List Nat} {i : Nat} (a : Nat) (h : i < l.length) : wr l i a = .ok (l.set i a) := by
  unfold wr
  rw [if_pos h]

theorem hat_key_root_ok : ∀ (scan rootscan : Nat) (buff : List Nat) (max off : Nat),
    off ≤ max → max < buff.length →
    ∃ buff1 off1, hat_key_root scan rootscan buff max off = .ok (buff1, off1) ∧ off ≤ off1 ∧
      off1 ≤ max ∧ buff1.length = buff.length ∧ ∀ i, off1 ≤ i → buff1[i]? = buff[i]? := by
  intro scan
  induction scan with
  | zero =>
    intro rootscan buff max off h1 h2
    exact ⟨buff, off, rfl, le_refl _, h1, rfl, fun _ _ => rfl⟩
  | succ scan ih =>
    intro rootscan buff max off h1 h2
    rw [hat_key_root]
    by_cases hc : (rootscan >>> (scan * 7)) &&& 0x7F ≠ 0 ∧ off < max
    · rw [if_pos hc, wr_ok _ (by omega)]
      simp only [Res.ok_bind]
      obtain ⟨b1, o1, e, a1, a2, a3, a4⟩ := ih rootscan (buff.set off ((rootscan >>> (scan * 7)) &&& 0x7F))
        max (off + 1) (by omega) (by simpa using h2)
      refine ⟨b1, o1, e, by omega, a2, by simpa using a3, fun i hi => ?_⟩
      rw [a4 i hi, List.getElem?_set_ne (by omega)]
    · rw [if_neg hc]
      exact ih rootscan buff max off h1 h2

theorem hat_key_scan_ok : ∀ (n : Nat) (cursor : HatCursor) (idx : Nat) (buff : List Nat)
    (max off : Nat), off ≤ max → max < buff.length →
    ∃ buff1 off1, hat_key_scan n cursor idx buff max off = .ok (buff1, off1) ∧ off ≤ off1 ∧
      off1 ≤ max ∧ buff1.length = buff.length ∧ ∀ i, off1 ≤ i → buff1[i]? = buff[i]? := by
  intro n
  induction n with
  | zero =>
    intro cursor idx buff max off h1 h2
    exact ⟨buff, off, rfl, le_refl _, h1, rfl, fun _ _ => rfl⟩
  | succ n ih =>
    intro cursor idx buff max off h1 h2
    rw [hat_key_scan]
    by_cases hc : off < max ∧ cursor.scan idx % U8 ≠ 0
    · rw [if_pos hc, wr_ok _ (by omega)]
      simp only [Res.ok_bind]
      obtain ⟨b1, o1, e, a1, a2, a3, a4⟩ := ih cursor (idx + 1) (buff.set off (cursor.scan idx % U8))
        max (off + 1) (by omega) (by simpa using h2)
      refine ⟨b1, o1, e, by omega, a2, by simpa using a3, fun i hi => ?_⟩
      rw [a4 i hi, List.getElem?_set_ne (by omega)]
    · rw [if_neg hc]
      exact ih cursor (idx + 1) buff max off h1 h2

theorem hat_key_copy_ok : ∀ (len : Nat) (key buff : List Nat) (max off : Nat),
    len ≤ key.length → off ≤ max → max < buff.length →
    ∃ buff1 off1, hat_key_copy len key buff max off = .ok (buff1, off1) ∧ off ≤ off1 ∧
      off1 ≤ max ∧ buff1.length = buff.length ∧ ∀ i, off1 ≤ i → buff1[i]? = buff[i]? := by
  intro len
  induction len with
  | zero =>
    intro key buff max off _ h1 h2
    exact ⟨buff, off, rfl, le_refl _, h1, rfl, fun _ _ => rfl⟩
  | succ len ih =>
    intro key buff max off hk h1 h2
    rw [hat_key_copy]
    by_cases hc : off < max
    · rw [if_pos hc, rd_of_lt (by omega : 0 < key.length)]
      simp only [Res.ok_bind]
      rw [wr_ok _ (by omega)]
      simp only [Res.ok_bind]
      obtain ⟨b1, o1, e, a1, a2, a3, a4⟩ := ih (key.drop 1) (buff.set off key[0])
        max (off + 1) (by simp; omega) (by omega) (by simpa using h2)
      refine ⟨b1, o1, e, by omega, a2, by simpa using a3, fun i hi => ?_⟩
      rw [a4 i hi, List.getElem?_set_ne (by omega)]
    · rw [if_neg hc]
      exact ⟨buff, off, rfl, le_refl _, h1, rfl, fun _ _ => rfl⟩

/-- C13 (`hat_key` bounds its output): for every positioned cursor, every
buffer `buff` and every size `max` with `1 ≤ max`, `max` no larger than the
buffer and inside `uint`, the call `hat_key (cursor, buff, max)` returns; the
length `off` it returns is at most `max - 1`, the buffer keeps its size, the
byte at `off` is 0 and every byte after `off` is left as it was. -/
theorem C13_key_output_bounded (cursor : HatCursor) (buff : List Nat) (max : Nat)
    (hpos : positioned cursor) (h1 : 1 ≤ max) (hbuf : max ≤ buff.length) (h32 : max < U32) :
    ∃ buff1 off, hat_key cursor buff max = .ok (buff1, off) ∧ off ≤ max - 1 ∧
      buff1.length = buff.length ∧ buff1[off]? = some 0 ∧ ∀ i, off < i → buff1[i]? = buff[i]? := by
  obtain ⟨htop, hidx, hrec⟩ := hpos
  have hm : (max + U32 - 1) % U32 = max - 1 := by
    simp only [U32] at h32 ⊢
    omega
  have hlt : max - 1 < buff.length := by omega
  unfold hat_key
  simp only [hm]
  rw [if_neg (by omega)]
  have fin : ∀ (b0 : List Nat) (o0 : Nat), o0 ≤ max - 1 → b0.length = buff.length →
      (∀ i, o0 ≤ i → b0[i]? = buff[i]?) →
      ∃ buff1 off, (do
        let e ← x_get cursor.keys 0 cursor.idx
        let len ← rd e.key 0
        let (buff, off) ← hat_key_copy len (e.key.drop 1) b0 (max - 1) o0
        let buff ← wr buff off 0
        pure (buff, off) : Res (List Nat × Nat)) = .ok (buff1, off) ∧ off ≤ max - 1 ∧
        buff1.length = buff.length ∧ buff1[off]? = some 0 ∧
        ∀ i, off < i → buff1[i]? = buff[i]? := by
    intro b0 o0 ho hl hsame
    have hx : x_get cursor.keys 0 cursor.idx =
        .ok (cursor.keys.getD cursor.idx.toNat HatSort.zero) := by
      unfold x_get
      simp [hidx]
    rw [hx]
    simp only [Res.ok_bind]
    cases hk : (cursor.keys.getD cursor.idx.toNat HatSort.zero).key with
    | nil => rw [hk] at hrec; exact hrec.elim
    | cons len rest =>
      rw [hk] at hrec
      simp only at hrec
      rw [rd_of_lt (by simp)]
      simp only [Res.ok_bind, List.getElem_cons_zero, List.drop_succ_cons, List.drop_zero]
      obtain ⟨b1, o1, e, a1, a2, a3, a4⟩ := hat_key_copy_ok len rest b0 (max - 1) o0 hrec ho
        (by omega)
      rw [e]
      simp only [Res.ok_bind]
      rw [wr_ok _ (by omega)]
      refine ⟨b1.set o1 0, o1, rfl, a2, by simp only [List.length_set]; omega, ?_, fun i hi => ?_⟩
      · rw [List.getElem?_set_self (by omega)]
      · rw [List.getElem?_set_ne (by omega), a4 i (by omega), hsame i (by omega)]
  by_cases ht : 0 < cursor.top
  · rw [if_pos ht]
    obtain ⟨b1, o1, e1, a1, a2, a3, a4⟩ := hat_key_root_ok cursor.rootlvl cursor.rootscan buff
      (max - 1) 0 (Nat.zero_le _) hlt
    obtain ⟨b2, o2, e2, c1, c2, c3, c4⟩ := hat_key_scan_ok (cursor.top.toNat - 1) cursor 1 b1
      (max - 1) o1 a2 (by omega)
    simp only [e1, e2, Res.ok_bind, bind_assoc]
    exact fin b2 o2 c2 (by omega) (fun i hi => by rw [c4 i hi, a4 i (by omega)])
  · rw [if_neg ht]
    simp only [Res.pure_def, Res.ok_bind]
    exact fin buff 0 (Nat.zero_le _) rfl (fun _ _ => rfl)

theorem open_size_pow : ∀ boot, boot ≤ 4 →
    open_size boot HAT_slot_size / HAT_slot_size = 128 ^ boot := by decide

theorem triple_loop_lt : ∀ (n : Nat) (buff : List Nat) (max t off : Nat), max ≤ buff.length →
    (∀ i b, off ≤ i → i < off + n → i < max → buff[i]? = some b → b < 128) →
    ∃ t1 off1, triple_loop n buff max t off = .ok (t1, off1) ∧ t1 < (t + 1) * 128 ^ n := by
  intro n
  induction n with
  | zero =>
    intro buff max t off _ _
    exact ⟨t, off, rfl, by simp⟩
  | succ n ih =>
    intro buff max t off hmax hb
    rw [triple_loop]
    by_cases hc : off < max
    · rw [if_pos hc, rd_of_lt (by omega : off < buff.length)]
      simp only [Res.ok_bind]
      have hlt : buff[off] < 128 :=
        hb off _ (le_refl _) (by omega) hc (List.getElem?_eq_getElem (by omega))
      obtain ⟨t1, off1, e, h1⟩ := ih buff max ((t * 128 + buff[off]) % U32) (off + 1) hmax
        (fun i b h1 h2 h3 h4 => hb i b (by omega) (by omega) h3 h4)
      refine ⟨t1, off1, e, lt_of_lt_of_le h1 ?_⟩
      have h2 : (t * 128 + buff[off]) % U32 + 1 ≤ (t + 1) * 128 := by
        have := Nat.mod_le (t * 128 + buff[off]) U32
        omega
      calc ((t * 128 + buff[off]) % U32 + 1) * 128 ^ n ≤ ((t + 1) * 128) * 128 ^ n :=
            Nat.mul_le_mul_right _ h2
        _ = (t + 1) * 128 ^ (n + 1) := by ring
    · rw [if_neg hc]
      obtain ⟨t1, off1, e, h1⟩ := ih buff max ((t * 128) % U32) off hmax
        (fun i b h1 h2 h3 h4 => hb i b h1 (by omega) h3 h4)
      refine ⟨t1, off1, e, lt_of_lt_of_le h1 ?_⟩
      have h2 : (t * 128) % U32 + 1 ≤ (t + 1) * 128 := by
        have := Nat.mod_le (t * 128) U32
        omega
      calc ((t * 128) % U32 + 1) * 128 ^ n ≤ ((t + 1) * 128) * 128 ^ n :=
            Nat.mul_le_mul_right _ h2
        _ = (t + 1) * 128 ^ (n + 1) := by ring

theorem hat_code_total {buff : List Nat} {n : Nat} (h : n ≤ buff.length) :
    ∃ x, hat_code buff n = .ok x := by
  have e : buff = buff.take n ++ buff.drop n := (List.take_append_drop n buff).symm
  have hl : (buff.take n).length = n := by simp [h]
  have := hat_code_loop_spec (buff.take n) (buff.drop n) n
  rw [hl, ← e] at this
  exact ⟨_, this⟩

theorem hat_alloc_bump {hat : Hat} {t : Nat} (ht : t < 32) (hre : hat.reuse t = [])
    (hn : hat.next + hsize t ≤ HAT_seg) :
    hat_alloc hat t =
      .ok ({ hat with next := hat.next + hsize t }, (hat.seg + hat.next) % U64) := by
  unfold hat_alloc
  rw [HatSize_eq ht]
  simp only [Res.ok_bind, (round_hsize t ht).1, hre]
  have h1 : (hat.next + hsize t) % U32 = hat.next + hsize t :=
    Nat.mod_eq_of_lt (by simp only [HAT_seg, HAT_slot_size, U32] at hn ⊢; omega)
  rw [h1, if_neg (by omega)]
  simp only [Res.pure_def, Res.ok_bind, h1]

theorem or7 (n : Nat) : n ||| 7 = n / 8 * 8 + 7 := by
  have h8 : ∀ r, r < 8 → r ||| 7 = 7 := by decide
  have h1 := Nat.mul_add_lt_is_or (i := 3) (b := n % 8) (Nat.mod_lt _ (by norm_num)) (n / 8)
  have h2 := Nat.mul_add_lt_is_or (i := 3) (b := 7) (by norm_num) (n / 8)
  have h3 : n = 2 ^ 3 * (n / 8) + n % 8 := (Nat.div_add_mod n 8).symm
  calc n ||| 7 = (2 ^ 3 * (n / 8) ||| n % 8) ||| 7 := by rw [← h1, ← h3]
    _ = 2 ^ 3 * (n / 8) ||| (n % 8 ||| 7) := Nat.lor_assoc _ _ _
    _ = 2 ^ 3 * (n / 8) ||| 7 := by rw [h8 _ (Nat.mod_lt _ (by norm_num))]
    _ = n / 8 * 8 + 7 := by rw [← h2]; ring

theorem le_round_amt (amt : Nat) : amt ≤ round_amt amt := by
  unfold round_amt
  simp only [HAT_cache_line]
  split
  · rw [or7]
    omega
  · exact le_refl _

/-- The choice of the segment in `hat_alloc` and `hat_data` for a request of `r`
bytes that fits a fresh segment. -/
theorem seg_choice {hat : Hat} (hn : hat.next ≤ HAT_seg) (hs : hat.seg + HAT_seg < U64)
    (hm : hat.malloc hat.nseg ≠ 0) (hmb : hat.malloc hat.nseg + HAT_seg < U64) (r : Nat)
    (hr : r + 24 ≤ HAT_seg) :
    ∃ h2, (if (hat.next + r) % U32 > HAT_seg then new_seg hat else pure hat) = .ok h2 ∧
      h2.next + r ≤ HAT_seg ∧ h2.seg + HAT_seg < U64 ∧ h2.reuse = hat.reuse := by
  simp only [HAT_seg, HAT_slot_size, U64, U32] at hn hs hr hmb ⊢
  have e1 : (hat.next + r) % 4294967296 = hat.next + r := Nat.mod_eq_of_lt (by omega)
  rw [e1]
  by_cases hc : hat.next + r > 524320
  · rw [if_pos hc]
    unfold new_seg
    simp only
    rw [if_neg hm]
    refine ⟨_, rfl, ?_, hmb, rfl⟩
    simp only [HAT_cache_line, sizeof_HatSeg]
    split <;> omega
  · rw [if_neg hc]
    exact ⟨hat, rfl, by omega, hs, rfl⟩

theorem bump_ok {h2 : Hat} {r : Nat} (h1 : h2.next + r ≤ HAT_seg) (h3 : h2.seg + HAT_seg < U64) :
    (h2.next + r) % U32 ≤ HAT_seg ∧ h2.seg ≤ (h2.seg + h2.next) % U64 ∧
      (h2.seg + h2.next) % U64 + r = h2.seg + (h2.next + r) % U32 := by
  simp only [HAT_seg, HAT_slot_size, U64, U32] at h1 h3 ⊢
  omega

/-- C15 (a fresh hat), for the boot levels whose root size fits the `uint`
arithmetic of `hat_open` (`bootlvl ≤ 4`) and a `malloc` that returns a block:
`hat_open` returns a hat whose root has `128 ^ bootlvl` slots.  For `bootlvl`
0 the one root slot holds a bucket whose count is 0.  For `bootlvl` from 1 to 4
every root slot is empty, and `hat_find` returns NULL for every key whose first
`bootlvl` bytes, the ones that index the root, are below 128. -/
theorem C15_fresh_hat_empty (malloc : Nat → Nat) (boot aux : Nat) (hm : malloc 0 ≠ 0)
    (hb : boot ≤ 4) :
    ∃ hat, hat_open malloc boot aux = .ok hat ∧ hat.nroot = 128 ^ boot ∧
      (boot = 0 → ∃ bucket, hat.root 0 = .bucket bucket ∧ bucket.count = 0) ∧
      (boot ≠ 0 → (∀ i, hat.root i = .empty) ∧
        ∀ (buff : List Nat) (max : Nat), max ≤ buff.length →
          (∀ i b, i < boot → i < max → buff[i]? = some b → b < 128) →
          hat_find hat buff max = .ok 0) := by
  have hboot : boot % U32 = boot := Nat.mod_eq_of_lt (by simp only [U32]; omega)
  unfold hat_open
  simp only
  rw [if_neg hm]
  by_cases h0 : boot = 0
  · subst h0
    rw [if_pos rfl]
    rw [hat_alloc_bump (by decide) rfl (by
      simp only [HAT_seg, HAT_slot_size, HAT_cache_line, sizeof_HatSeg]
      have : hsize HAT_bucket = 8 := rfl
      rw [this]
      split <;> omega)]
    simp only [Res.ok_bind, Res.pure_def]
    exact ⟨_, rfl, open_size_pow 0 hb, fun _ => ⟨_, rfl, rfl⟩, fun h => (h rfl).elim⟩
  · rw [if_neg h0]
    simp only [Res.pure_def]
    refine ⟨_, rfl, open_size_pow boot hb, fun h => (h0 h).elim, fun _ => ⟨fun _ => rfl, ?_⟩⟩
    intro buff max hmax hbytes
    obtain ⟨t1, off1, e, hlt⟩ := triple_loop_lt boot buff max 0 0 hmax
      (fun i b _ h2 h3 h4 => hbytes i b (by omega) h3 h4)
    simp only [hat_find, hat_find_slot, hboot, e, Res.ok_bind]
    rw [open_size_pow boot hb, if_pos (by simpa using hlt)]
    simp [hat_find_node]

theorem hat_find_plain_total (hat : Hat) (buff : List Nat) (max : Nat) (hmax : max ≤ buff.length)
    (h32 : max < U32) : ∀ (node : HatNode) (off : Nat), WFNode hat.aux node → Plain node →
    off ≤ max → (∀ i b, off ≤ i → i < max → buff[i]? = some b → b < 128) →
    ∃ r, hat_find_node node hat buff max off = .ok r := by
  intro node
  induction node with
  | empty => intro off _ _ _ _; exact ⟨_, rfl⟩
  | radix addr table ih =>
    intro off hwf hp hoff hb
    rw [hat_find_node]
    by_cases hc : off < max
    · rw [if_pos hc]
      have hlt : off < buff.length := by omega
      have hrd : rd buff off = .ok buff[off] := rd_of_lt hlt
      rw [hrd]
      simp only
      rw [if_neg (by
        have := hb off _ (le_refl _) hc (List.getElem?_eq_getElem hlt)
        omega)]
      exact ih _ (off + 1) (hwf _) (hp _) (by omega) (fun i b h1 h2 h3 => hb i b (by omega) h2 h3)
    · rw [if_neg hc]
      exact ih _ off (hwf _) (hp _) hoff hb
  | bucket bucket => intro off _ hp _ _; exact hp.elim
  | array b =>
    intro off hwf _ hoff _
    obtain ⟨rs, hb, _⟩ := hwf
    exact ⟨_, scan_whole hoff hmax h32 hb⟩
  | pail p => intro off _ hp _ _; exact hp.elim

/-- C17 (radix indexing), as the code does it: at a radix node `hat_find` and
`hat_cell` go on in slot 0 with the offset unchanged when the key is exhausted,
and in slot `b` with the offset advanced when the next key byte `b` is below
128; `hat_cell` stores the new content of that slot back into it.  A byte of
128 or more is not folded: the index is the byte itself, which lies outside the
128 slots of the node.  From a radix node below which there are radix nodes,
well-formed array nodes and empty slots only, the lookup of a key whose
remaining bytes are all below 128 ends with a result: no index of the descent
falls outside a table. -/
theorem C17_radix_index (hat : Hat) (addr : Nat) (table : Nat → HatNode) (buff : List Nat)
    (max off f : Nat) :
    (max ≤ off →
      hat_find_node (.radix addr table) hat buff max off =
        hat_find_node (table 0) hat buff max off ∧
      hat_cell_loop (f + 1) hat (.radix addr table) buff max off = (do
        let (hat1, child, p) ← hat_cell_loop f hat (table 0) buff max off
        pure (hat1, .radix addr (setSlot table 0 child), p))) ∧
    (∀ b, off < max → buff[off]? = some b → b < 128 →
      hat_find_node (.radix addr table) hat buff max off =
        hat_find_node (table b) hat buff max (off + 1) ∧
      hat_cell_loop (f + 1) hat (.radix addr table) buff max off = (do
        let (hat1, child, p) ← hat_cell_loop f hat (table b) buff max (off + 1)
        pure (hat1, .radix addr (setSlot table b child), p))) ∧
    (∀ b, off < max → buff[off]? = some b → 128 ≤ b →
      hat_find_node (.radix addr table) hat buff max off = .fault ∧
      hat_cell_loop (f + 1) hat (.radix addr table) buff max off = .fault) ∧
    (WFNode hat.aux (.radix addr table) → Plain (.radix addr table) → off ≤ max →
      max ≤ buff.length → max < U32 →
      (∀ i b, off ≤ i → i < max → buff[i]? = some b → b < 128) →
      ∃ r, hat_find_node (.radix addr table) hat buff max off = .ok r) := by
  refine ⟨fun h => ?_, fun b h hb h128 => ?_, fun b h hb h128 => ?_,
    fun hwf hp hoff hmax h32 hb => hat_find_plain_total hat buff max hmax h32 _ off hwf hp hoff hb⟩
  · rw [hat_find_node, hat_cell_loop, if_neg (by omega)]
    simp only
    rw [if_neg (by omega)]
    exact ⟨trivial, rfl⟩
  · have hrd : rd buff off = .ok b := by
      unfold rd
      rw [hb]
    rw [hat_find_node, hat_cell_loop, if_pos h]
    simp only
    rw [if_pos h, hrd]
    simp only [Res.ok_bind]
    rw [if_neg (by omega), if_neg (by omega)]
    exact ⟨rfl, rfl⟩
  · have hrd : rd buff off = .ok b := by
      unfold rd
      rw [hb]
    rw [hat_find_node, hat_cell_loop, if_pos h]
    simp only
    rw [if_pos h, hrd]
    simp only [Res.ok_bind]
    rw [if_pos h128, if_pos h128]
    exact ⟨rfl, rfl⟩

/-- C19 (arena blocks), for a request that fits a fresh segment (`amt` rounded
up to the granule plus 24 bytes for the header and the alignment of a segment
is at most `HAT_seg`), on a hat whose bump offset is at most `HAT_seg`, whose
segments lie below `2^64` and whose `malloc` returns a block: `hat_data (amt)`
returns a block of at least `amt` bytes, all zero, that starts inside the
current segment and ends at the new bump offset, which is at most `HAT_seg`;
`hat_alloc` returns, for every node kind, a zeroed block of at least
`HatSize[type]` bytes and leaves the bump offset at most `HAT_seg`, and a block
it takes from the segment ends at the bump offset. -/
theorem C19_block_inside_segment (hat : Hat) (hn : hat.next ≤ HAT_seg)
    (hs : hat.seg + HAT_seg < U64) (hm : hat.malloc hat.nseg ≠ 0)
    (hmb : hat.malloc hat.nseg + HAT_seg < U64) :
    (∀ amt, round_amt amt + 24 ≤ HAT_seg →
      ∃ h1 addr block, hat_data hat amt = .ok (h1, addr, block) ∧ amt ≤ block.length ∧
        (∀ b ∈ block, b = 0) ∧ h1.next ≤ HAT_seg ∧ h1.seg ≤ addr ∧
        addr + block.length = h1.seg + h1.next) ∧
    (∀ type, type < 32 →
      ∃ h1 addr block size, hat_alloc_block hat type = .ok (h1, addr, block) ∧
        HatSize type = .ok size ∧ size ≤ block.length ∧ (∀ b ∈ block, b = 0) ∧
        h1.next ≤ HAT_seg ∧
        (hat.reuse type = [] → h1.seg ≤ addr ∧ addr + block.length = h1.seg + h1.next)) := by
  constructor
  · intro amt hamt
    have hmod : round_amt amt % U32 = round_amt amt :=
      Nat.mod_eq_of_lt (by simp only [HAT_seg, HAT_slot_size, U32] at hamt ⊢; omega)
    obtain ⟨h2, e2, a1, a2, _⟩ := seg_choice hn hs hm hmb (round_amt amt) hamt
    obtain ⟨b1, b2, b3⟩ := bump_ok a1 a2
    unfold hat_data
    simp only [hmod]
    by_cases hc : (hat.next + round_amt amt) % U32 > HAT_seg
    · rw [if_pos hc] at e2 ⊢
      rw [e2]
      exact ⟨_, _, _, rfl, by simpa using le_round_amt amt,
        fun b hb => (List.mem_replicate.mp hb).2, b1, b2, by simpa using b3⟩
    · rw [if_neg hc] at e2 ⊢
      rw [e2]
      exact ⟨_, _, _, rfl, by simpa using le_round_amt amt,
        fun b hb => (List.mem_replicate.mp hb).2, b1, b2, by simpa using b3⟩
  · intro type ht
    have hsz := round_hsize type ht
    unfold hat_alloc_block hat_alloc
    rw [HatSize_eq ht]
    simp only [Res.ok_bind, hsz.1]
    cases hre : hat.reuse type with
    | cons block rest =>
      simp only [Res.pure_def, Res.ok_bind]
      exact ⟨_, _, _, _, rfl, rfl, by simp, fun b hb => (List.mem_replicate.mp hb).2, hn,
        fun h => by simp at h⟩
    | nil =>
      simp only
      obtain ⟨h2, e2, a1, a2, _⟩ := seg_choice hn hs hm hmb (hsize type) (by
        have := hsz.2
        simp only [HAT_seg, HAT_slot_size]
        omega)
      obtain ⟨b1, b2, b3⟩ := bump_ok a1 a2
      by_cases hc : (hat.next + hsize type) % U32 > HAT_seg
      · rw [if_pos hc] at e2 ⊢
        rw [e2]
        exact ⟨_, _, _, _, rfl, rfl, by simp, fun b hb => (List.mem_replicate.mp hb).2, b1,
          fun _ => ⟨b2, by simpa using b3⟩⟩
      · rw [if_neg hc] at e2 ⊢
        rw [e2]
        exact ⟨_, _, _, _, rfl, rfl, by simp, fun b hb => (List.mem_replicate.mp hb).2, b1,
          fun _ => ⟨b2, by simpa using b3⟩⟩

/-! ## Runs and instances for the cursor, the codec, the radix index and the arena -/

/-- C11 (aux payload stability), evaluated with bootlvl 1 and aux 4: `hat_cell`
on the key `a x^128` returns the address 1048748 of the 4 aux bytes of the
record, a further `hat_cell` on the key `b` returns 1048764, and `hat_find` on
`a x^128` then returns NULL, so no slot with the bytes written at 1048748 is
returned. -/
theorem C11_payload_of_long_key_unreachable :
    run_find 1 4 [key_ax128, [98]] [key_ax128] = .ok ([1048748, 1048764], [.ok 0]) := by
  decide

/-- C12 (`hat_last` on an empty hat), evaluated on the hat of `hat_open (0, 0)`
with no key inserted: `hat_last` returns 1 and leaves `cnt = 0`, `idx = -1`,
because the root slot holds the bucket `hat_open` allocates and the scan of the
root stops at a non-zero slot.  On the empty hat of `hat_open (1, 0)` it
returns 0. -/
theorem C12_last_on_empty_hat_returns_true :
    run_last (fun _ => 0) 0 0 [] = .ok (1, 0, -1) ∧
    run_last (fun _ => 0) 1 0 [] = .ok (0, 0, 0) := by
  decide

/-- C13 at a cursor positioned by `hat_start` on the key `a`, with a buffer of
5 bytes and `max = 2`. -/
theorem C13_key_output_bounded_witness :
    positioned wit_cursor ∧
    ∃ buff1 off, hat_key wit_cursor [1, 2, 3, 4, 5] 2 = .ok (buff1, off) ∧ off ≤ 2 - 1 ∧
      buff1.length = [1, 2, 3, 4, 5].length ∧ buff1[off]? = some 0 ∧
      ∀ i, off < i → buff1[i]? = [1, 2, 3, 4, 5][i]? :=
  ⟨by decide, C13_key_output_bounded wit_cursor [1, 2, 3, 4, 5] 2 (by decide) (by decide)
    (by decide) (by decide)⟩

/-- C14 (`hat_key` at the end of the traversal), evaluated with bootlvl 1 and
aux 0 on the hat that holds the key `a`: after `hat_start` with the empty key
and one `hat_nxt`, which returns 0 and leaves `top = -1`, the call of `hat_key`
with a buffer of one byte and `max = 1` returns 0 and leaves the byte 120 in
`buff[0]`; the test `if( max )` runs after `max--`.  With `max = 2` the byte 0
is written. -/
theorem C14_key_at_end_writes_nothing :
    run_key_after_nxt (fun _ => 0) 1 0 [[97]] [120] 1 = .ok (0, -1, [120], 0) ∧
    run_key_after_nxt (fun _ => 0) 1 0 [[97]] [120, 121] 2 = .ok (0, -1, [0, 121], 0) := by
  decide

/-- C15 outside the domain of `C15_fresh_hat_empty`: `hat_open (5, 0)` leaves a
root of 0 slots, the size `8 * 128^5` being 0 in `uint` arithmetic, and on the
hat of `hat_open (1, 0)`, with its 128 root slots, `hat_find` on the one-byte
key 200 indexes the root at 200. -/
theorem C15_open_outside_domain :
    run_fresh 5 0 [] = (.ok 0, .fault) ∧ run_fresh 1 0 [200] = (.ok 128, .fault) := by
  decide

/-- C15 at `hat_open (1, 4)` under `malloc_low`. -/
theorem C15_fresh_hat_empty_witness :
    malloc_low 0 ≠ 0 ∧ 1 ≤ 4 ∧
    ∃ hat, hat_open malloc_low 1 4 = .ok hat ∧ hat.nroot = 128 ^ 1 ∧
      (1 = 0 → ∃ bucket, hat.root 0 = .bucket bucket ∧ bucket.count = 0) ∧
      (1 ≠ 0 → (∀ i, hat.root i = .empty) ∧
        ∀ (buff : List Nat) (max : Nat), max ≤ buff.length →
          (∀ i b, i < 1 → i < max → buff[i]? = some b → b < 128) →
          hat_find hat buff max = .ok 0) :=
  ⟨by decide, by decide, C15_fresh_hat_empty malloc_low 1 4 (by decide) (by decide)⟩

/-- C16 (key-length codec), evaluated with bootlvl 1 and aux 0: for a key of
128 bytes `hat_new_array` writes the prefix `0x80, 0x01`, and the record scan of
`hat_find` for the same key on that node finds nothing, because it reads the
prefix as `0x80 + (1 << 7) = 256`.  For a key of 127 bytes the prefix is the
byte 127 and the scan finds the record. -/
theorem C16_long_prefix_is_not_decoded :
    run_codec 0 (List.replicate 128 120) = .ok ([128, 1], none) ∧
    run_codec 0 (List.replicate 127 120) = .ok ([127, 120], some 1) := by
  decide

/-- C17, evaluated with bootlvl 1 and aux 4 on a hat whose root slot `k` holds a
radix node with 128 empty slots: `hat_find` on the key `k` followed by the byte
200 indexes that node at 200, outside its 128 slots, and so does `hat_cell`,
which goes on to store a new array node through that slot; the key `kd` is
looked up in slot 100 and the key `k` alone, exhausted at the node, in slot 0,
and neither is found. -/
theorem C17_high_byte_is_not_folded :
    run_radix 1 4 107 [[107, 200], [107, 100], [107]] [107, 200] =
      .ok ([.fault, .ok 0, .ok 0], .fault) := by
  decide

/-- C17 at a radix node with 128 empty slots: the exhausted key, the byte 100,
the byte 200, and the lookup of the key of the one byte 100. -/
theorem C17_radix_index_witness :
    hat_find_node (.radix 0 (fun _ => .empty)) wit_open [100] 0 0 =
      hat_find_node .empty wit_open [100] 0 0 ∧
    hat_find_node (.radix 0 (fun _ => .empty)) wit_open [100] 1 0 =
      hat_find_node .empty wit_open [100] 1 1 ∧
    hat_find_node (.radix 0 (fun _ => .empty)) wit_open [200] 1 0 = .fault ∧
    ∃ r, hat_find_node (.radix 0 (fun _ => .empty)) wit_open [100] 1 0 = .ok r :=
  ⟨((C17_radix_index wit_open 0 (fun _ => .empty) [100] 0 0 0).1 (by decide)).1,
   ((C17_radix_index wit_open 0 (fun _ => .empty) [100] 1 0 0).2.1 100 (by decide) rfl
     (by decide)).1,
   ((C17_radix_index wit_open 0 (fun _ => .empty) [200] 1 0 0).2.2.1 200 (by decide) rfl
     (by decide)).1,
   (C17_radix_index wit_open 0 (fun _ => .empty) [100] 1 0 0).2.2.2
     (by intro i; simp only [WFNode]) (by intro i; simp only [Plain]) (by decide) (by decide)
     (by decide)
     (by
       intro i b h1 h2 hb
       have hi : i = 0 := by omega
       subst hi
       simp only [List.getElem?_cons_zero, Option.some.injEq] at hb
       omega)⟩

/-- C19 outside the domain of `C19_block_inside_segment`: on the hat of
`hat_open (1, 0)` the call `hat_data (hat, 524312)` takes a fresh segment at
2097152, returns the block at its offset 16 and leaves the bump offset 524328,
above `HAT_seg = 524320`, the size of the segment. -/
theorem C19_data_runs_past_segment :
    run_data 1 0 524312 = .ok (2097152, 2097168, 524328) ∧ HAT_seg < 524328 := by
  decide

/-- C19 at the hat of `hat_open (1, 4)` under `malloc_low` and a request of 100
bytes. -/
theorem C19_block_inside_segment_witness :
    wit_open.next ≤ HAT_seg ∧ round_amt 100 + 24 ≤ HAT_seg ∧
    ∃ h1 addr block, hat_data wit_open 100 = .ok (h1, addr, block) ∧ 100 ≤ block.length ∧
      (∀ b ∈ block, b = 0) ∧ h1.next ≤ HAT_seg ∧ h1.seg ≤ addr ∧
      addr + block.length = h1.seg + h1.next :=
  ⟨by decide, by decide,
    (C19_block_inside_segment wit_open (by decide) (by decide) (by decide) (by decide)).1 100
      (by decide)⟩

/-- When the scan of an array node under a root or radix slot does not find the
key and `hat_add_array` returns NULL, `hat_cell` hands the slot, with whatever
`hat_add_array` left in it, to `hat_burst_array` and goes on at the bucket. -/
theorem hat_cell_loop_refused {f : Nat} {hat h1 : Hat} {base : HatBase} {buff : List Nat}
    {max off : Nat} {slot : BSlot}
    (hs : scan_array U16 hat base buff max off 0 0 = .ok none)
    (ha : hat_add_array hat base (buff.drop off) ((max + U32 - off) % U32) 1 = .ok (h1, slot, 0)) :
    hat_cell_loop (f + 1) hat (.array base) buff max off = (do
      let (hat2, bucket) ← hat_burst_array h1 slot
      hat_cell_loop f hat2 (.bucket bucket) buff max off) := by
  rw [hat_cell_loop]
  simp only
  rw [hs]
  simp only [Res.ok_bind]
  rw [ha]
  simp only [Res.ok_bind]
  rw [if_neg (by simp)]

/-- C20 (array refusal without a bucket parent), evaluated with bootlvl 1 and
aux 251: `hat_cell` on the keys `kA` and `kby` returns 1048725 and 1048986 and
leaves both records in the array node of the largest class under the root slot
`k`.  For the key `kadu` the call of `hat_add_array` that `hat_cell` makes on
that slot returns NULL after `hat_new_pail` has turned the slot into a pail, in
which `kby` fills the array node the key falls into: the slot `hat_cell` then
passes to `hat_burst_array` holds a pail, not an array node. -/
theorem C20_burst_array_gets_a_pail :
    run_find 1 251 keys_kA2 [] = .ok ([1048725, 1048986], []) ∧
    run_add_array 1 251 keys_kA2 key_kadu = .ok (true, 0) := by
  exact ⟨by decide, by decide⟩

/-! ## The regions of an array node -/

theorem new_array_type_past (hat : Hat) (amt skip : Nat)
    (hbig : hsize HatMax < (hat.aux + amt + skip) % U32 + sizeof_HatBase) :
    ∀ (k t f : Nat), t + k = 32 → HAT_1 ≤ t → k < f →
      new_array_type f hat amt skip t = .fault := by
  have hs : ∀ t, t < 32 → HAT_1 ≤ t → hsize t ≤ hsize HatMax := by decide
  intro k
  induction k with
  | zero =>
    intro t f ht _ hf
    obtain ⟨f, rfl⟩ : ∃ g, f = g + 1 := ⟨f - 1, by omega⟩
    have e : t = 32 := by omega
    subst e
    rw [new_array_type]
    rfl
  | succ k ih =>
    intro t f ht hlo hf
    obtain ⟨f, rfl⟩ : ∃ g, f = g + 1 := ⟨f - 1, by omega⟩
    have h32 : t < 32 := by omega
    rw [new_array_type, HatSize_eq h32]
    simp only [Res.ok_bind]
    have := hs t h32 hlo
    rw [if_pos (by omega)]
    exact ih (t + 1) f (by omega) (by simp only [HAT_1] at hlo ⊢; omega) (by omega)

theorem hat_new_array_some {hat h1 : Hat} {buff : List Nat} {amt cell : Nat}
    {ob : Option HatBase} (h : hat_new_array hat buff amt = .ok (h1, ob, cell)) :
    ∃ b, ob = some b := by
  unfold hat_new_array at h
  obtain ⟨t, ht, h⟩ := Res.bind_eq_ok.mp h
  have hle := new_array_type_le ht
  rw [if_neg (by omega)] at h
  obtain ⟨⟨h2, addr⟩, hal, h⟩ := Res.bind_eq_ok.mp h
  obtain ⟨sz, hsz, h⟩ := Res.bind_eq_ok.mp h
  obtain ⟨k, hk, h⟩ := Res.bind_eq_ok.mp h
  simp only [Res.pure_def, Res.ok.injEq, Prod.mk.injEq] at h
  exact ⟨_, h.2.1.symm⟩

/-- C21 (growth of an array node, failing run): `hat_open (1, 0)`, `hat_cell` on
"ab" and on `a` followed by 128 bytes `x`.  The second call goes through
`hat_promote`, which installs a node of the smallest fitting class (class
`HAT_10`, 160 bytes, `cnt` 2, `nxt` 132), but `hat_strip_array` decodes five
records from it, at the offsets 0, 2, 3, 5 and 126 of the key area, not the
record `b` followed by the record of 128 bytes: the length prefix of the new
record is written as the bytes 0, 1 without the flag bit.  With a second key of
16 bytes the node (class `HAT_2`, `nxt` 18) decodes into its two records. -/
theorem C21_promote_writes_a_wrong_prefix :
    run_strip 1 0 [[97, 98], key_ax128] 97 = .ok (10, 2, 132, 5, [0, 2, 3, 5, 126]) ∧
    run_strip 1 0 [[97, 98], 97 :: List.replicate 15 120] 97 = .ok (5, 2, 18, 2, [0, 2]) :=
  ⟨by decide, by decide⟩

/-- C22 (size class of a new array node): `hat_new_array` never returns NULL,
and when header, key, length prefix and aux area do not fit the largest class
(`HatSize[HatMax]`, 512 bytes) the loop that picks the class runs over the
entries 16 to 31 of `HatSize`, which are 0, and reads `HatSize[32]`, past the
table: the call faults. -/
theorem C22_new_array_reads_past_the_size_table (hat : Hat) (buff : List Nat) (amt : Nat)
    (hbig : hsize HatMax <
      (hat.aux + amt + (if amt > 0x7f then 2 else 1)) % U32 + sizeof_HatBase) :
    hat_new_array hat buff amt = .fault ∧
    ∀ (hat1 : Hat) (buff1 : List Nat) (amt1 : Nat) (h1 : Hat) (cell : Nat),
      hat_new_array hat1 buff1 amt1 ≠ .ok (h1, none, cell) := by
  refine ⟨?_, ?_⟩
  · unfold hat_new_array
    simp only
    rw [new_array_type_past hat amt _ hbig 28 HAT_1 64 (by decide) (by decide) (by decide)]
    rfl
  · intro hat1 buff1 amt1 h1 cell h
    obtain ⟨b, hb⟩ := hat_new_array_some h
    cases hb

/-- C22 (witness): on the hat of `hat_open (1, 0)` a key of 507 bytes needs 513
bytes. -/
theorem C22_new_array_reads_past_the_size_table_witness :
    hat_new_array wit_open0 (List.replicate 507 120) 507 = .fault ∧
    ∀ (hat1 : Hat) (buff1 : List Nat) (amt1 : Nat) (h1 : Hat) (cell : Nat),
      hat_new_array hat1 buff1 amt1 ≠ .ok (h1, none, cell) :=
  C22_new_array_reads_past_the_size_table wit_open0 (List.replicate 507 120) 507 (by decide)

/-- C23 (full bucket, empty child slot): when the loop of `hat_cell` stands at a
bucket whose `count` is `HatBucketMax` or more and the slot the key hashes to is
empty, the bucket is not burst: `hat_new_array` stores a new array node into
that slot of the bucket, `count` is incremented past `HatBucketMax`, and
`hat_cell` returns. -/
theorem C23_full_bucket_takes_a_new_array (f : Nat) (hat h1 : Hat) (bucket : HatBucket)
    (buff : List Nat) (max off x cell : Nat) (nb : Option HatBase)
    (hfull : HatBucketMax ≤ bucket.count)
    (hcode : hat_code (buff.drop off) ((max + U32 - off) % U32) = .ok x)
    (hempty : bucket.slots (x % HatBucketSlots) = .empty)
    (hnew : hat_new_array hat (buff.drop off) ((max + U32 - off) % U32) = .ok (h1, nb, cell)) :
    ∃ b, nb = some b ∧
      hat_cell_loop (f + 1) hat (.bucket bucket) buff max off =
        .ok (h1, .bucket ⟨bucket.addr, (bucket.count + 1) % U32,
          setSlot bucket.slots (x % HatBucketSlots) (.array b)⟩, cell_ret hat cell) := by
  obtain ⟨b, rfl⟩ := hat_new_array_some hnew
  refine ⟨b, rfl, ?_⟩
  rw [hat_cell_loop]
  simp only [hcode, Res.ok_bind]
  unfold hat_cell_bucket
  simp only [hempty, if_neg (Nat.not_lt.mpr hfull), hnew, Res.ok_bind, Res.pure_def]

/-- C23 (witness): the key `a` at a bucket with `count` 65536 and all slots
empty: the bucket comes back with `count` 65537 and an array node in slot
130. -/
theorem C23_full_bucket_takes_a_new_array_witness :
    ∃ b, wit_new.2.1 = some b ∧
      hat_cell_loop 1 wit_open0 (.bucket wit_full_bucket) [97] 1 0 =
        .ok (wit_new.1, .bucket ⟨wit_full_bucket.addr, (wit_full_bucket.count + 1) % U32,
          setSlot wit_full_bucket.slots (130 % HatBucketSlots) (.array b)⟩,
          cell_ret wit_open0 wit_new.2.2) :=
  C23_full_bucket_takes_a_new_array 0 wit_open0 wit_new.1 wit_full_bucket [97] 1 0 130
    wit_new.2.2 wit_new.2.1 (by decide) (by decide) rfl (Res.eq_ok_val _ (by decide))

/-- C24 (burst of a bucket, failing run): `hat_open (0, 0)`, `hat_cell` on a key
of 256 bytes `x`, then `hat_burst_bucket` on the root bucket.  The bucket held
one record; the new radix node holds an array node with one record (of length
0) under slot 0 and an array node with three records (`nxt` 360) under slot
`x`: the length 256 is decoded into a `uchar`, as 0.  A key of 255 bytes comes
out as the one record of 254 bytes under slot `x` (`nxt` 256), slot 0 staying
empty. -/
theorem C24_burst_bucket_decodes_the_length_into_a_byte :
    run_burst_bucket 0 0 [List.replicate 256 120] 0 120 = .ok (some (3, 360)) ∧
    run_burst_bucket 0 0 [List.replicate 256 120] 0 0 = .ok (some (1, 1)) ∧
    run_burst_bucket 0 0 [List.replicate 255 120] 0 120 = .ok (some (1, 256)) ∧
    run_burst_bucket 0 0 [List.replicate 255 120] 0 0 = .ok none :=
  ⟨by decide!, by decide!, by decide!, by decide!⟩

/-- C25 (burst of a pail, failing run): `hat_open (1, 0)`, `hat_cell` on `k`
followed by 400 bytes `x` and on `k` followed by 110 bytes `y`; the second key
no longer fits the array node, which becomes a pail with two records.
`hat_burst_pail` on that pail leaves a bucket whose `count` is 6: the length
400 is decoded as 16 + 3 = 19, and the rest of the record is read as further
records. -/
theorem C25_burst_pail_adds_the_high_length_byte_unshifted :
    run_burst_pail 1 0 [key_kx400, key_ky110] 107 = .ok (2, 6) := by
  decide!

/-- C26 (sort, failing run): `hat_qsort (x, 11, 0)` on the entries of the
eleven distinct keys `keys_nul`, the pivot position being 0.  The pivot is the
empty key, the pivot byte is 0, and the keys with the bytes 0, 1 and with the
byte 0 are in the part equal to the pivot; the routine returns at `len == o`
without ordering that part, and the key 0, 1 stays before its proper prefix 0.
The first ten of the keys, which go to the insertion sort, come out in
order. -/
theorem C26_sort_leaves_keys_with_zero_bytes_unordered :
    run_qsort (fun _ => 0) keys_nul =
      .ok [[], [0, 1], [0], [1], [2], [3], [4], [5], [6], [7], [8]] ∧
    run_qsort (fun _ => 0) (keys_nul.take 10) =
      .ok [[], [0], [0, 1], [1], [2], [3], [4], [5], [6], [7]] :=
  ⟨by decide, by decide⟩

/-- C28 (size table and node layouts): `HatSize[HAT_bucket]` is 8, the size of
the field `count` alone, `HatSize[HAT_pail]` is 0, and `HatSize[HAT_radix]` is
1024, the 128 slots.  After `hat_open (0, 0)` and `hat_cell` on `a` the bucket
is at 1048592 and the array node of the key at 1048600, the address of slot 0
of the bucket: the block of the bucket does not hold its slots. -/
theorem C28_size_table_leaves_out_the_slots :
    HatSize HAT_bucket = .ok 8 ∧ HatSize HAT_pail = .ok 0 ∧
    HatSize HAT_radix = .ok (128 * HAT_slot_size) ∧
    run_bucket_addr 0 [[97]] (130 % HatBucketSlots) = .ok (1048592, 1048592 + 8) :=
  ⟨by decide, by decide, by decide, by decide⟩

/-- C29 (root index of `hat_start`): `hat_open (1, 0)`, `hat_cell` on `a` and
`b`, `hat_start` on `a` on a fresh cursor, which sets the scan index of the
root to 97, and `hat_start` on `a` again on the same cursor: the index is
formed from the old one, 97 * 128 + 97, which is past the 128 root slots, and
the call faults. -/
theorem C29_second_start_keeps_the_old_root_index :
    run_start_twice (fun _ => 0) 1 0 [[97], [98]] [97] [97] = .ok (97, .fault) := by
  decide

/-- C30 (pivot position): `hat_qsort (x, 11, 0)` on the entries of the eleven
keys `a` to `k` with `rand ()` returning -1: the pivot position is
`-1 % 11 = -1`, and the exchange of `x[0]` and `x[-1]` faults.  With `rand ()`
returning 5 the keys come out in order. -/
theorem C30_negative_rand_gives_a_negative_pivot :
    Int.tmod (-1) 11 = -1 ∧ run_qsort (fun _ => -1) keys_11 = .fault ∧
    run_qsort (fun _ => 5) keys_11 = .ok keys_11 :=
  ⟨by decide, by decide, by decide⟩

/-! ## The sort on keys without a zero byte -/

theorem key_lt_irrefl : ∀ k : List Nat, ¬ key_lt k k
  | [] => by simp [key_lt]
  | a :: as => by
    simp only [key_lt, lt_self_iff_false, true_and, false_or]
    exact key_lt_irrefl as

theorem key_lt_trans : ∀ {k1 k2 k3 : List Nat}, key_lt k1 k2 → key_lt k2 k3 → key_lt k1 k3
  | _, _, [], _, h => by simp [key_lt] at h
  | _, [], _ :: _, h, _ => by simp [key_lt] at h
  | [], _ :: _, _ :: _, _, _ => by simp [key_lt]
  | a :: as, b :: bs, c :: cs, h1, h2 => by
    simp only [key_lt] at h1 h2 ⊢
    rcases h1 with h1 | ⟨e1, h1⟩
    · rcases h2 with h2 | ⟨e2, h2⟩
      · exact Or.inl (by omega)
      · exact Or.inl (by omega)
    · rcases h2 with h2 | ⟨e2, h2⟩
      · exact Or.inl (by omega)
      · exact Or.inr ⟨by omega, key_lt_trans h1 h2⟩

theorem key_lt_total : ∀ {k1 k2 : List Nat}, k1 ≠ k2 → ¬ key_lt k2 k1 → key_lt k1 k2
  | [], [], h, _ => absurd rfl h
  | [], _ :: _, _, _ => by simp [key_lt]
  | _ :: _, [], _, h => by simp [key_lt] at h
  | a :: as, b :: bs, hne, h => by
    simp only [key_lt, not_or, not_and] at h ⊢
    by_cases hab : a < b
    · exact Or.inl hab
    · have e : a = b := by omega
      subst e
      refine Or.inr ⟨rfl, key_lt_total (fun e => hne (by rw [e])) (h.2 rfl)⟩

theorem key_lt_of_byte : ∀ (o : Nat) {k1 k2 : List Nat}, o ≤ k1.length → o ≤ k2.length →
    k1.take o = k2.take o → key_byte k1 o < key_byte k2 o → key_lt k1 k2
  | 0, k1, k2, _, _, _, h => by
    cases k2 with
    | nil => simp [key_byte] at h
    | cons b bs =>
      cases k1 with
      | nil => simp [key_lt]
      | cons a as =>
        simp only [key_byte, List.getD_cons_zero] at h
        exact Or.inl h
  | o + 1, k1, k2, h1, h2, ht, h => by
    cases k1 with
    | nil => simp at h1
    | cons a as =>
      cases k2 with
      | nil => simp at h2
      | cons b bs =>
        simp only [List.take_succ_cons, List.cons.injEq] at ht
        simp only [key_byte, List.getD_cons_succ] at h
        simp only [List.length_cons, Nat.add_le_add_iff_right] at h1 h2
        exact Or.inr ⟨ht.1, key_lt_of_byte o h1 h2 ht.2 h⟩

theorem key_byte_pos {k : List Nat} {o : Nat} (h : key_byte k o ≠ 0) : o < k.length := by
  by_contra hc
  apply h
  unfold key_byte
  rw [List.getD_eq_default _ _ (by omega)]

theorem key_byte_eq {k : List Nat} {o : Nat} (h : o < k.length) : key_byte k o = k[o] := by
  unfold key_byte
  exact List.getD_eq_getElem _ _ h

theorem take_succ_byte {k : List Nat} {o : Nat} (h : o < k.length) :
    k.take (o + 1) = k.take o ++ [key_byte k o] := by
  rw [key_byte_eq h, List.take_succ, List.getElem?_eq_getElem h]
  rfl

/-! ### The array -/

theorem x_get_ent {keys : List HatSort} {lo i : Int} (h : 0 ≤ lo + i) :
    x_get keys lo i = .ok (ent keys (lo + i)) := by
  unfold x_get ent
  rw [if_pos h]

theorem x_set_ent {keys : List HatSort} {lo i : Int} {e : HatSort} (h0 : 0 ≤ lo + i)
    (h1 : lo + i < keys.length) : x_set keys lo i e = .ok (keys.set (lo + i).toNat e) := by
  unfold x_set
  rw [if_pos h0]
  simp only
  rw [if_pos (by omega)]

theorem swap_perm {l : List HatSort} {i j : Nat} (z : HatSort) (hi : i < l.length)
    (hj : j < l.length) : ((l.set i (l.getD j z)).set j (l.getD i z)).Perm l := by
  rw [List.getD_eq_getElem _ _ hi, List.getD_eq_getElem _ _ hj]
  by_cases hij : i = j
  · subst hij
    have e : (l.set i l[i]).set i l[i] = l := by
      apply List.ext_getElem (by simp)
      intro n h1 h2
      simp only [List.set_set, List.getElem_set]
      split
      · rename_i h
        subst h
        rfl
      · rfl
    rw [e]
  rw [List.perm_iff_count]
  intro b
  have hj1 : j < (l.set i l[j]).length := by simpa using hj
  rw [List.count_set _ _ _ _ hj1, List.count_set _ _ _ _ hi, List.getElem_set_ne hij]
  have c1 : (if (l[i] == b) = true then 1 else 0) ≤ List.count b l := by
    split
    · rename_i h
      have e : l[i] = b := by simpa using h
      exact List.count_pos_iff.mpr (e ▸ List.getElem_mem _)
    · omega
  omega

theorem x_swap_spec {keys : List HatSort} {lo i j : Int} (hi0 : 0 ≤ lo + i)
    (hi1 : lo + i < keys.length) (hj0 : 0 ≤ lo + j) (hj1 : lo + j < keys.length) :
    ∃ keys1, x_swap keys lo i j = .ok keys1 ∧ keys1.length = keys.length ∧ keys1.Perm keys ∧
      ∀ m, 0 ≤ m → ent keys1 m =
        ent keys (if m = lo + i then lo + j else if m = lo + j then lo + i else m) := by
  unfold x_swap
  rw [x_get_ent hi0, x_get_ent hj0]
  simp only [Res.ok_bind]
  rw [x_set_ent hi0 hi1]
  simp only [Res.ok_bind]
  rw [x_set_ent hj0 (by simpa using hj1)]
  refine ⟨_, rfl, by simp, ?_, ?_⟩
  · exact swap_perm _ (by omega) (by omega)
  · intro m hm
    unfold ent
    simp only [List.getD_eq_getElem?_getD, List.getElem?_set, List.length_set]
    by_cases h1 : m = lo + j
    · subst h1
      simp only [↓reduceIte]
      rw [if_pos (by omega)]
      by_cases h2 : lo + j = lo + i
      · rw [if_pos h2, h2]
        simp
      · rw [if_neg h2]
        simp
    · have n1 : ¬ (lo + j).toNat = m.toNat := by omega
      rw [if_neg n1]
      by_cases h2 : m = lo + i
      · subst h2
        simp only [↓reduceIte]
        rw [if_pos (by omega)]
        simp
      · have n2 : ¬ (lo + i).toNat = m.toNat := by omega
        rw [if_neg n2, if_neg h2, if_neg h1]

theorem moved_refl (keys : List HatSort) (lo n : Int) : Moved keys keys lo n :=
  ⟨rfl, List.Perm.refl _, fun _ _ _ => rfl,
    ⟨fun i => i, fun _ h0 h1 => ⟨h0, h1, rfl⟩, fun _ _ _ _ _ _ h => h⟩⟩

theorem moved_trans {keys keys1 keys2 : List HatSort} {lo n : Int}
    (h1 : Moved keys keys1 lo n) (h2 : Moved keys1 keys2 lo n) : Moved keys keys2 lo n := by
  obtain ⟨s1, m1, i1⟩ := h1.map
  obtain ⟨s2, m2, i2⟩ := h2.map
  refine ⟨h2.length.trans h1.length, h2.perm.trans h1.perm,
    fun m hm ho => (h2.out m hm ho).trans (h1.out m hm ho), ⟨fun i => s1 (s2 i), ?_, ?_⟩⟩
  · intro i h0 hn
    obtain ⟨a0, a1, a2⟩ := m2 i h0 hn
    obtain ⟨b0, b1, b2⟩ := m1 (s2 i) a0 a1
    exact ⟨b0, b1, a2.trans b2⟩
  · intro i j hi0 hi1 hj0 hj1 h
    obtain ⟨a0, a1, -⟩ := m2 i hi0 hi1
    obtain ⟨c0, c1, -⟩ := m2 j hj0 hj1
    exact i2 i j hi0 hi1 hj0 hj1 (i1 _ _ a0 a1 c0 c1 h)

theorem moved_lift {keys keys1 : List HatSort} {lo n lo1 n1 : Int}
    (h : Moved keys keys1 lo1 n1) (hlo : lo ≤ lo1) (hhi : lo1 + n1 ≤ lo + n) (h0 : 0 ≤ lo) :
    Moved keys keys1 lo n := by
  obtain ⟨s, m, inj⟩ := h.map
  refine ⟨h.length, h.perm, fun m hm ho => h.out m hm (by omega),
    ⟨fun i => if lo1 - lo ≤ i ∧ i < lo1 - lo + n1 then s (i - (lo1 - lo)) + (lo1 - lo) else i,
      ?_, ?_⟩⟩
  · intro i hi0 hi1
    by_cases hc : lo1 - lo ≤ i ∧ i < lo1 - lo + n1
    · simp only [hc, and_self, ↓reduceIte]
      obtain ⟨a0, a1, a2⟩ := m (i - (lo1 - lo)) (by omega) (by omega)
      refine ⟨by omega, by omega, ?_⟩
      have e1 : lo + i = lo1 + (i - (lo1 - lo)) := by omega
      have e2 : lo + (s (i - (lo1 - lo)) + (lo1 - lo)) = lo1 + s (i - (lo1 - lo)) := by omega
      rw [e1, e2]
      exact a2
    · simp only [hc, ↓reduceIte]
      exact ⟨hi0, hi1, h.out _ (by omega) (by omega)⟩
  · intro i j hi0 hi1 hj0 hj1 he
    simp only at he
    by_cases hc : lo1 - lo ≤ i ∧ i < lo1 - lo + n1 <;>
      by_cases hd : lo1 - lo ≤ j ∧ j < lo1 - lo + n1
    · rw [if_pos hc, if_pos hd] at he
      have := inj (i - (lo1 - lo)) (j - (lo1 - lo)) (by omega) (by omega) (by omega) (by omega)
        (by omega)
      omega
    · rw [if_pos hc, if_neg hd] at he
      obtain ⟨a0, a1, -⟩ := m (i - (lo1 - lo)) (by omega) (by omega)
      omega
    · rw [if_neg hc, if_pos hd] at he
      obtain ⟨a0, a1, -⟩ := m (j - (lo1 - lo)) (by omega) (by omega)
      omega
    · rw [if_neg hc, if_neg hd] at he
      exact he

theorem moved_swap {keys : List HatSort} {lo n i j : Int} (h0 : 0 ≤ lo)
    (hb : lo + n ≤ keys.length) (hi0 : 0 ≤ i) (hi1 : i < n) (hj0 : 0 ≤ j) (hj1 : j < n) :
    ∃ keys1, x_swap keys lo i j = .ok keys1 ∧ Moved keys keys1 lo n ∧
      ent keys1 (lo + i) = ent keys (lo + j) ∧ ent keys1 (lo + j) = ent keys (lo + i) ∧
      ∀ m, 0 ≤ m → m ≠ i → m ≠ j → ent keys1 (lo + m) = ent keys (lo + m) := by
  obtain ⟨keys1, hk, hl, hp, he⟩ := @x_swap_spec keys lo i j (by omega) (by omega) (by omega)
    (by omega)
  refine ⟨keys1, hk, ⟨hl, hp, ?_, ⟨fun m => if m = i then j else if m = j then i else m, ?_, ?_⟩⟩,
    ?_, ?_, ?_⟩
  · intro m hm ho
    rw [he m hm, if_neg (by omega), if_neg (by omega)]
  · intro m hm0 hm1
    rw [he (lo + m) (by omega)]
    have e1 : (lo + m = lo + i) = (m = i) := by simp
    have e2 : (lo + m = lo + j) = (m = j) := by simp
    simp only [e1, e2]
    split_ifs <;> refine ⟨?_, ?_, rfl⟩ <;> omega
  · intro a b _ _ _ _ hab
    simp only at hab
    split at hab <;> split at hab <;> (try split at hab) <;> (try split at hab) <;> omega
  · rw [he (lo + i) (by omega)]
    simp
  · rw [he (lo + j) (by omega)]
    by_cases h : j = i
    · subst h
      simp
    · rw [if_neg (by omega)]
      simp
  · intro m hm h1 h2
    rw [he (lo + m) (by omega), if_neg (by omega), if_neg (by omega)]

theorem sortseg_moved {keys keys1 : List HatSort} {lo n : Int} {o : Nat}
    (hs : SortSeg keys lo n o) (h : Moved keys keys1 lo n) : SortSeg keys1 lo n o := by
  obtain ⟨s, m, inj⟩ := h.map
  refine ⟨hs.lo_nonneg, hs.n_nonneg, by rw [h.length]; exact hs.bound, ?_, ?_, ?_, ?_⟩
  · intro i h0 h1
    obtain ⟨a0, a1, a2⟩ := m i h0 h1
    rw [a2]
    exact hs.ents _ a0 a1
  · intro i h0 h1
    obtain ⟨a0, a1, a2⟩ := m i h0 h1
    rw [a2]
    exact hs.len _ a0 a1
  · intro i j hi0 hi1 hj0 hj1
    obtain ⟨a0, a1, a2⟩ := m i hi0 hi1
    obtain ⟨b0, b1, b2⟩ := m j hj0 hj1
    rw [a2, b2]
    exact hs.pre _ _ a0 a1 b0 b1
  · intro i j hi0 hi1 hj0 hj1 he
    obtain ⟨a0, a1, a2⟩ := m i hi0 hi1
    obtain ⟨b0, b1, b2⟩ := m j hj0 hj1
    rw [a2, b2] at he
    exact inj i j hi0 hi1 hj0 hj1 (hs.dist _ _ a0 a1 b0 b1 he)

theorem sortseg_sub {keys : List HatSort} {lo n : Int} {o : Nat} (hs : SortSeg keys lo n o)
    {d n1 : Int} (hd : 0 ≤ d) (hn : 0 ≤ n1) (hdn : d + n1 ≤ n) : SortSeg keys (lo + d) n1 o := by
  have h0 := hs.lo_nonneg
  have hb := hs.bound
  have e : ∀ i : Int, lo + d + i = lo + (d + i) := fun i => by omega
  refine ⟨by omega, hn, by omega, ?_, ?_, ?_, ?_⟩
  · intro i h0 h1
    rw [e]
    exact hs.ents _ (by omega) (by omega)
  · intro i h0 h1
    rw [e]
    exact hs.len _ (by omega) (by omega)
  · intro i j hi0 hi1 hj0 hj1
    rw [e, e]
    exact hs.pre _ _ (by omega) (by omega) (by omega) (by omega)
  · intro i j hi0 hi1 hj0 hj1 he
    rw [e, e] at he
    have := hs.dist _ _ (by omega) (by omega) (by omega) (by omega) he
    omega

/-! ### The entries -/

theorem sort_ent_key {e : HatSort} (h : SortEnt e) :
    ∃ rest, e.key = (key_of e).length :: rest ∧ (key_of e).length ≤ 127 ∧
      (key_of e).length ≤ rest.length ∧ key_of e = rest.take (key_of e).length ∧
      ∀ b ∈ key_of e, 0 < b := by
  unfold SortEnt at h
  unfold key_of
  cases hk : e.key with
  | nil => simp [hk] at h
  | cons len rest =>
    simp only [hk] at h ⊢
    obtain ⟨h1, h2, h3⟩ := h
    have hl : (rest.take len).length = len := by simp [h2]
    refine ⟨rest, by rw [hl], by omega, by omega, by rw [hl], fun b hb => (h3 b hb).1⟩

theorem rd_entry {e : HatSort} (h : SortEnt e) {r : Nat} (hr : r < (key_of e).length) :
    rd e.key (r + 1) = .ok (key_byte (key_of e) r) := by
  obtain ⟨rest, hk, h1, h2, h3, -⟩ := sort_ent_key h
  have e3 : (key_of e)[r]? = rest[r]? := by
    rw [h3]
    simp [List.getElem?_take, hr]
  have hr2 : r < rest.length := by omega
  unfold rd key_byte
  rw [List.getD_eq_getElem?_getD, e3, hk]
  simp only [List.getElem?_cons_succ, List.getElem?_eq_getElem hr2, Option.getD_some]

theorem rd_len {e : HatSort} (h : SortEnt e) : rd e.key 0 = .ok (key_of e).length := by
  obtain ⟨rest, hk, -⟩ := sort_ent_key h
  rw [hk]
  exact rd_of_lt (by simp)

theorem key_byte_past {k : List Nat} {o : Nat} (h : k.length ≤ o) : key_byte k o = 0 := by
  unfold key_byte
  exact List.getD_eq_default _ _ h

theorem qsort_byte_spec {e : HatSort} (h : SortEnt e) (o : Nat) :
    qsort_byte e o = .ok (key_byte (key_of e) o) := by
  obtain ⟨rest, hk, h1, -⟩ := sort_ent_key h
  unfold qsort_byte
  rw [rd_len h]
  simp only [Res.ok_bind]
  rw [if_neg (by rw [and128 h1]; simp)]
  simp only [Res.pure_def, Res.ok_bind]
  by_cases hc : (key_of e).length > o
  · rw [if_pos hc]
    exact rd_entry h hc
  · rw [if_neg hc, key_byte_past (by omega)]

theorem ins_len_spec {e : HatSort} (h : SortEnt e) :
    ins_len e.key = .ok ((key_of e).length, 1) := by
  obtain ⟨rest, hk, h1, -⟩ := sort_ent_key h
  unfold ins_len
  rw [rd_len h]
  simp only [Res.ok_bind]
  rw [if_neg (by rw [and128 h1]; simp)]
  rfl

theorem drop_eq_cons {k : List Nat} {r : Nat} (h : r < k.length) :
    k.drop r = key_byte k r :: k.drop (r + 1) := by
  rw [key_byte_eq h]
  exact List.drop_eq_getElem_cons h

theorem ins_cmp_spec {e1 e2 : HatSort} (h1 : SortEnt e1) (h2 : SortEnt e2) :
    ∀ (f r : Nat), r ≤ (key_of e1).length → r ≤ (key_of e2).length →
      (key_of e1).length - r < f →
      ∃ d : Int, ins_cmp f e1.key e2.key 1 1 (key_of e1).length (key_of e2).length r = .ok d ∧
        ((0 < d ∨ (d = 0 ∧ (key_of e1).length > (key_of e2).length)) ↔
          key_lt ((key_of e2).drop r) ((key_of e1).drop r)) := by
  intro f
  induction f with
  | zero => intro r _ _ hf; omega
  | succ f ih =>
    intro r hr1 hr2 hf
    rw [ins_cmp]
    by_cases hc : r < (key_of e1).length ∧ r < (key_of e2).length
    · rw [if_pos hc, rd_entry h1 hc.1, rd_entry h2 hc.2]
      simp only [Res.ok_bind]
      rw [drop_eq_cons hc.1, drop_eq_cons hc.2]
      by_cases hd : (key_byte (key_of e1) r : Int) - (key_byte (key_of e2) r : Int) ≠ 0
      · rw [if_pos hd]
        refine ⟨_, rfl, ?_⟩
        simp only [key_lt]
        constructor
        · intro h
          left
          omega
        · intro h
          left
          omega
      · rw [if_neg hd]
        obtain ⟨d, hd1, hd2⟩ := ih (r + 1) (by omega) (by omega) (by omega)
        refine ⟨d, hd1, hd2.trans ?_⟩
        simp only [key_lt]
        have e : key_byte (key_of e2) r = key_byte (key_of e1) r := by omega
        rw [e]
        simp
    · rw [if_neg hc]
      refine ⟨0, rfl, ?_⟩
      simp only [lt_self_iff_false, true_and, false_or]
      by_cases h2e : r = (key_of e2).length
      · have e2 : (key_of e2).drop r = [] := by rw [h2e]; simp
        rw [e2]
        by_cases h1e : r < (key_of e1).length
        · rw [drop_eq_cons h1e]
          simp only [key_lt, iff_true]
          omega
        · have e1 : (key_of e1).drop r = [] := List.drop_of_length_le (by omega)
          rw [e1]
          simp only [key_lt, iff_false]
          omega
      · have h1e : r = (key_of e1).length := by omega
        have e1 : (key_of e1).drop r = [] := by rw [h1e]; simp
        rw [e1]
        have : key_lt (List.drop r (key_of e2)) [] = False := by
          cases List.drop r (key_of e2) <;> simp [key_lt]
        rw [this, iff_false]
        omega

theorem key_lt_append (p : List Nat) {s1 s2 : List Nat} :
    key_lt (p ++ s1) (p ++ s2) ↔ key_lt s1 s2 := by
  induction p with
  | nil => simp
  | cons a p ih =>
    simp only [List.cons_append, key_lt, lt_self_iff_false, true_and, false_or]
    exact ih

theorem key_lt_drop {k1 k2 : List Nat} {o : Nat} (h : k1.take o = k2.take o) :
    key_lt k1 k2 ↔ key_lt (k1.drop o) (k2.drop o) := by
  conv_lhs => rw [← List.take_append_drop o k1, ← List.take_append_drop o k2, h]
  exact key_lt_append _

/-! ### The partition -/

theorem qsort_up_spec {lo n c d : Int} {o p : Nat} :
    ∀ (f : Nat) (keys : List HatSort) (a b : Int), SortSeg keys lo n o →
      Part keys lo n o p a b c d → (c - b + 1).toNat < f →
      ∃ keys1 a1 b1, qsort_up f keys lo o p a b c = .ok (keys1, a1, b1) ∧
        Moved keys keys1 lo n ∧ Part keys1 lo n o p a1 b1 c d ∧ b ≤ b1 ∧
        (c < b1 ∨ p < key_byte (key_of (ent keys1 (lo + b1))) o) := by
  intro f
  induction f with
  | zero => intro keys a b _ _ hf; omega
  | succ f ih =>
    intro keys a b hs hp hf
    have h0 := hs.lo_nonneg
    have hb := hs.bound
    have ha := hp.a_pos
    have hab := hp.a_le
    have hbc := hp.b_le
    have hcd := hp.c_le
    have hdn := hp.d_lt
    rw [qsort_up]
    by_cases hc : b ≤ c
    swap
    · rw [if_neg hc]
      exact ⟨keys, a, b, rfl, moved_refl _ _ _, hp, le_refl _, Or.inl (by omega)⟩
    rw [if_pos hc, x_get_ent (by omega)]
    simp only [Res.ok_bind]
    rw [qsort_byte_spec (hs.ents b (by omega) (by omega))]
    simp only [Res.ok_bind]
    by_cases h1 : key_byte (key_of (ent keys (lo + b))) o > p
    · rw [if_pos h1]
      exact ⟨keys, a, b, rfl, moved_refl _ _ _, hp, le_refl _, Or.inr h1⟩
    rw [if_neg h1]
    by_cases h2 : key_byte (key_of (ent keys (lo + b))) o = p
    · rw [if_pos h2]
      obtain ⟨keys1, hk, hm, ea, eb, eo⟩ := @moved_swap keys lo n a b h0 hb (by omega) (by omega)
        (by omega) (by omega)
      rw [hk]
      simp only [Res.ok_bind]
      have hp1 : Part keys1 lo n o p (a + 1) (b + 1) c d := by
        refine ⟨by omega, by omega, by omega, hcd, hdn, ?_, ?_, ?_, ?_⟩
        · intro i hi0 hi1
          by_cases hia : i = a
          · rw [hia, ea]
            exact h2
          · rw [eo i hi0 hia (by omega)]
            exact hp.eq_lo i hi0 (by omega)
        · intro i hi0 hi1
          by_cases hib : i = b
          · rw [hib, eb]
            exact hp.lt a (le_refl _) (by omega)
          · rw [eo i (by omega) (by omega) hib]
            exact hp.lt i (by omega) (by omega)
        · intro i hi0 hi1
          rw [eo i (by omega) (by omega) (by omega)]
          exact hp.gt i hi0 hi1
        · intro i hi0 hi1
          rw [eo i (by omega) (by omega) (by omega)]
          exact hp.eq_hi i hi0 hi1
      obtain ⟨keys2, a2, b2, hr, hm2, hp2, hb2, hc2⟩ := ih keys1 (a + 1) (b + 1)
        (sortseg_moved hs hm) hp1 (by omega)
      exact ⟨keys2, a2, b2, hr, moved_trans hm hm2, hp2, by omega, hc2⟩
    · rw [if_neg h2]
      have hp1 : Part keys lo n o p a (b + 1) c d := by
        refine ⟨ha, by omega, by omega, hcd, hdn, hp.eq_lo, ?_, hp.gt, hp.eq_hi⟩
        intro i hi0 hi1
        by_cases hib : i = b
        · rw [hib]
          omega
        · exact hp.lt i hi0 (by omega)
      obtain ⟨keys2, a2, b2, hr, hm2, hp2, hb2, hc2⟩ := ih keys a (b + 1) hs hp1 (by omega)
      exact ⟨keys2, a2, b2, hr, hm2, hp2, by omega, hc2⟩

theorem qsort_down_spec {lo n a b : Int} {o p : Nat} :
    ∀ (f : Nat) (keys : List HatSort) (c d : Int), SortSeg keys lo n o →
      Part keys lo n o p a b c d → (c - b + 1).toNat < f →
      (c < b ∨ p < key_byte (key_of (ent keys (lo + b))) o) →
      ∃ keys1 c1 d1, qsort_down f keys lo o p b c d = .ok (keys1, c1, d1) ∧
        Moved keys keys1 lo n ∧ Part keys1 lo n o p a b c1 d1 ∧ c1 ≤ c ∧
        (c1 < b ∨ (p < key_byte (key_of (ent keys1 (lo + b))) o ∧
          key_byte (key_of (ent keys1 (lo + c1))) o < p)) := by
  intro f
  induction f with
  | zero => intro keys c d _ _ hf; omega
  | succ f ih =>
    intro keys c d hs hp hf hb1
    have h0 := hs.lo_nonneg
    have hb := hs.bound
    have ha := hp.a_pos
    have hab := hp.a_le
    have hbc := hp.b_le
    have hcd := hp.c_le
    have hdn := hp.d_lt
    rw [qsort_down]
    by_cases hc : b ≤ c
    swap
    · rw [if_neg hc]
      exact ⟨keys, c, d, rfl, moved_refl _ _ _, hp, le_refl _, Or.inl (by omega)⟩
    have hpb : p < key_byte (key_of (ent keys (lo + b))) o := by
      rcases hb1 with h | h
      · omega
      · exact h
    rw [if_pos hc, x_get_ent (by omega)]
    simp only [Res.ok_bind]
    rw [qsort_byte_spec (hs.ents c (by omega) (by omega))]
    simp only [Res.ok_bind]
    by_cases h1 : key_byte (key_of (ent keys (lo + c))) o < p
    · rw [if_pos h1]
      exact ⟨keys, c, d, rfl, moved_refl _ _ _, hp, le_refl _, Or.inr ⟨hpb, h1⟩⟩
    rw [if_neg h1]
    by_cases h2 : key_byte (key_of (ent keys (lo + c))) o = p
    · rw [if_pos h2]
      have hne : c ≠ b := by
        intro e
        rw [e] at h2
        omega
      obtain ⟨keys1, hk, hm, ec, ed, eo⟩ := @moved_swap keys lo n c d h0 hb (by omega) (by omega)
        (by omega) (by omega)
      rw [hk]
      simp only [Res.ok_bind]
      have hp1 : Part keys1 lo n o p a b (c - 1) (d - 1) := by
        refine ⟨ha, hab, by omega, by omega, by omega, ?_, ?_, ?_, ?_⟩
        · intro i hi0 hi1
          rw [eo i hi0 (by omega) (by omega)]
          exact hp.eq_lo i hi0 hi1
        · intro i hi0 hi1
          rw [eo i (by omega) (by omega) (by omega)]
          exact hp.lt i hi0 hi1
        · intro i hi0 hi1
          by_cases hic : i = c
          · rw [hic, ec]
            exact hp.gt d (by omega) (le_refl _)
          · rw [eo i (by omega) hic (by omega)]
            exact hp.gt i (by omega) (by omega)
        · intro i hi0 hi1
          by_cases hid : i = d
          · rw [hid, ed]
            exact h2
          · rw [eo i (by omega) (by omega) hid]
            exact hp.eq_hi i (by omega) hi1
      have hpb1 : p < key_byte (key_of (ent keys1 (lo + b))) o := by
        rw [eo b (by omega) (by omega) (by omega)]
        exact hpb
      obtain ⟨keys2, c2, d2, hr, hm2, hp2, hle2, hc2⟩ := ih keys1 (c - 1) (d - 1)
        (sortseg_moved hs hm) hp1 (by omega) (Or.inr hpb1)
      exact ⟨keys2, c2, d2, hr, moved_trans hm hm2, hp2, by omega, hc2⟩
    · rw [if_neg h2]
      have hp1 : Part keys lo n o p a b (c - 1) d := by
        refine ⟨ha, hab, by omega, by omega, hdn, hp.eq_lo, hp.lt, ?_, hp.eq_hi⟩
        intro i hi0 hi1
        by_cases hic : i = c
        · rw [hic]
          omega
        · exact hp.gt i (by omega) hi1
      obtain ⟨keys2, c2, d2, hr, hm2, hp2, hle2, hc2⟩ := ih keys (c - 1) d hs hp1 (by omega)
        (Or.inr hpb)
      exact ⟨keys2, c2, d2, hr, hm2, hp2, by omega, hc2⟩

theorem qsort_part_spec {lo n : Int} {o p g : Nat} :
    ∀ (f : Nat) (keys : List HatSort) (a b c d : Int), SortSeg keys lo n o →
      Part keys lo n o p a b c d → (c - b + 1).toNat < f → (c - b + 1).toNat < g →
      ∃ keys1 a1 b1 c1 d1, qsort_part g f keys lo o p a b c d = .ok (keys1, a1, b1, c1, d1) ∧
        Moved keys keys1 lo n ∧ Part keys1 lo n o p a1 b1 c1 d1 ∧ c1 < b1 := by
  intro f
  induction f with
  | zero => intro keys a b c d _ _ hf; omega
  | succ f ih =>
    intro keys a b c d hs hp hf hg
    rw [qsort_part]
    obtain ⟨keys1, a1, b1, hu, hm1, hp1, hbb, hc1⟩ := qsort_up_spec g keys a b hs hp hg
    rw [hu]
    simp only [Res.ok_bind]
    have hs1 := sortseg_moved hs hm1
    obtain ⟨keys2, c2, d2, hd, hm2, hp2, hcc, hc2⟩ := qsort_down_spec g keys1 c d hs1 hp1
      (by omega) hc1
    rw [hd]
    simp only [Res.ok_bind]
    have hs2 := sortseg_moved hs1 hm2
    by_cases hbc : b1 > c2
    · rw [if_pos hbc]
      exact ⟨keys2, a1, b1, c2, d2, rfl, moved_trans hm1 hm2, hp2, hbc⟩
    rw [if_neg hbc]
    have hlt : p < key_byte (key_of (ent keys2 (lo + b1))) o ∧
        key_byte (key_of (ent keys2 (lo + c2))) o < p := by
      rcases hc2 with h | h
      · omega
      · exact h
    have hne : b1 ≠ c2 := by
      intro e
      rw [e] at hlt
      omega
    have h0 := hs2.lo_nonneg
    have hb := hs2.bound
    have ha := hp2.a_pos
    have hab := hp2.a_le
    have hcd := hp2.c_le
    have hdn := hp2.d_lt
    obtain ⟨keys3, hk, hm3, eb, ec, eo⟩ := @moved_swap keys2 lo n b1 c2 h0 hb (by omega)
      (by omega) (by omega) (by omega)
    rw [hk]
    simp only [Res.ok_bind]
    have hp3 : Part keys3 lo n o p a1 (b1 + 1) (c2 - 1) d2 := by
      refine ⟨ha, by omega, by omega, by omega, hdn, ?_, ?_, ?_, ?_⟩
      · intro i hi0 hi1
        rw [eo i hi0 (by omega) (by omega)]
        exact hp2.eq_lo i hi0 hi1
      · intro i hi0 hi1
        by_cases hib : i = b1
        · rw [hib, eb]
          exact hlt.2
        · rw [eo i (by omega) hib (by omega)]
          exact hp2.lt i hi0 (by omega)
      · intro i hi0 hi1
        by_cases hic : i = c2
        · rw [hic, ec]
          exact hlt.1
        · rw [eo i (by omega) (by omega) hic]
          exact hp2.gt i (by omega) hi1
      · intro i hi0 hi1
        rw [eo i (by omega) (by omega) (by omega)]
        exact hp2.eq_hi i hi0 hi1
    obtain ⟨keys4, a4, b4, c4, d4, hr, hm4, hp4, hc4⟩ := ih keys3 a1 (b1 + 1) (c2 - 1) d2
      (sortseg_moved hs2 hm3) hp3 (by omega) (by omega)
    exact ⟨keys4, a4, b4, c4, d4, hr,
      moved_trans (moved_trans (moved_trans hm1 hm2) hm3) hm4, hp4, hc4⟩

theorem ent_congr (keys : List HatSort) {x y : Int} (h : x = y) : ent keys x = ent keys y := by
  rw [h]

theorem vecswap_spec {lo n : Int} :
    ∀ (f : Nat) (keys : List HatSort) (i j r : Int), 0 ≤ lo → lo + n ≤ keys.length →
      0 ≤ r → 0 ≤ i → i + r ≤ j → j + r ≤ n → r.toNat < f →
      ∃ keys1, vecswap f i j r keys lo = .ok keys1 ∧ Moved keys keys1 lo n ∧
        (∀ t, 0 ≤ t → t < r → ent keys1 (lo + (i + t)) = ent keys (lo + (j + t))) ∧
        (∀ t, 0 ≤ t → t < r → ent keys1 (lo + (j + t)) = ent keys (lo + (i + t))) ∧
        ∀ m, 0 ≤ m → ¬ (i ≤ m ∧ m < i + r) → ¬ (j ≤ m ∧ m < j + r) →
          ent keys1 (lo + m) = ent keys (lo + m) := by
  intro f
  induction f with
  | zero => intro keys i j r _ _ _ _ _ _ hf; omega
  | succ f ih =>
    intro keys i j r h0 hb hr hi hij hjn hf
    rw [vecswap]
    by_cases hc : r ≠ 0
    swap
    · rw [if_neg hc]
      refine ⟨keys, rfl, moved_refl _ _ _, ?_, ?_, fun _ _ _ _ => rfl⟩
      · intro t ht0 ht1
        omega
      · intro t ht0 ht1
        omega
    rw [if_pos hc]
    obtain ⟨keys1, hk, hm, ei, ej, eo⟩ := @moved_swap keys lo n i j h0 hb hi (by omega) (by omega)
      (by omega)
    rw [hk]
    simp only [Res.ok_bind]
    obtain ⟨keys2, hv, hm2, e1, e2, e3⟩ := ih keys1 (i + 1) (j + 1) (r - 1) h0
      (by rw [hm.length]; exact hb) (by omega) (by omega) (by omega) (by omega) (by omega)
    refine ⟨keys2, hv, moved_trans hm hm2, ?_, ?_, ?_⟩
    · intro t ht0 ht1
      by_cases ht : t = 0
      · subst ht
        have a1 := e3 i hi (by omega) (by omega)
        rw [ent_congr keys2 (show lo + (i + 0) = lo + i by omega), a1, ei]
        exact ent_congr keys (by omega)
      · have a1 := e1 (t - 1) (by omega) (by omega)
        rw [ent_congr keys2 (show lo + (i + t) = lo + (i + 1 + (t - 1)) by omega), a1,
          ent_congr keys1 (show lo + (j + 1 + (t - 1)) = lo + (j + t) by omega)]
        exact eo (j + t) (by omega) (by omega) (by omega)
    · intro t ht0 ht1
      by_cases ht : t = 0
      · subst ht
        have a1 := e3 j (by omega) (by omega) (by omega)
        rw [ent_congr keys2 (show lo + (j + 0) = lo + j by omega), a1, ej]
        exact ent_congr keys (by omega)
      · have a1 := e2 (t - 1) (by omega) (by omega)
        rw [ent_congr keys2 (show lo + (j + t) = lo + (j + 1 + (t - 1)) by omega), a1,
          ent_congr keys1 (show lo + (i + 1 + (t - 1)) = lo + (i + t) by omega)]
        exact eo (i + t) (by omega) (by omega) (by omega)
    · intro m hm0 h1 h2
      rw [e3 m hm0 (by omega) (by omega)]
      exact eo m hm0 (by omega) (by omega)

/-! ### The insertion sort -/

theorem ins_step {keys : List HatSort} {lo n : Int} {o : Nat} (hs : SortSeg keys lo n o)
    {b : Int} (hb0 : 0 < b) (hbn : b < n) :
    ∃ d : Int, ins_cmp U8 (ent keys (lo + (b - 1))).key (ent keys (lo + b)).key 1 1
        (key_of (ent keys (lo + (b - 1)))).length (key_of (ent keys (lo + b))).length o = .ok d ∧
      ((d > 0 ∨ (d = 0 ∧ (key_of (ent keys (lo + (b - 1)))).length >
          (key_of (ent keys (lo + b))).length)) ↔
        key_lt (key_of (ent keys (lo + b))) (key_of (ent keys (lo + (b - 1))))) ∧
      (¬ key_lt (key_of (ent keys (lo + b))) (key_of (ent keys (lo + (b - 1)))) →
        key_lt (key_of (ent keys (lo + (b - 1)))) (key_of (ent keys (lo + b)))) := by
  have h1 := hs.ents (b - 1) (by omega) (by omega)
  have h2 := hs.ents b (by omega) (by omega)
  have l1 := hs.len (b - 1) (by omega) (by omega)
  have l2 := hs.len b (by omega) (by omega)
  obtain ⟨-, -, m1, -⟩ := sort_ent_key h1
  obtain ⟨d, hd, hiff⟩ := ins_cmp_spec h1 h2 U8 o l1 l2 (by simp only [U8]; omega)
  have hpre := hs.pre b (b - 1) (by omega) (by omega) (by omega) (by omega)
  refine ⟨d, hd, hiff.trans (key_lt_drop hpre).symm, ?_⟩
  intro hn
  apply key_lt_total _ hn
  intro e
  have := hs.dist (b - 1) b (by omega) (by omega) (by omega) (by omega) e
  omega

theorem ins_inner_spec {lo n a : Int} {o : Nat} (han : a < n) :
    ∀ (f : Nat) (keys : List HatSort) (b : Int), SortSeg keys lo n o → 0 ≤ b → b ≤ a →
      (∀ i j, 0 ≤ i → i < j → j < b →
        key_lt (key_of (ent keys (lo + i))) (key_of (ent keys (lo + j)))) →
      (∀ i j, b ≤ i → i < j → j ≤ a →
        key_lt (key_of (ent keys (lo + i))) (key_of (ent keys (lo + j)))) →
      (∀ i j, 0 ≤ i → i < b → b < j → j ≤ a →
        key_lt (key_of (ent keys (lo + i))) (key_of (ent keys (lo + j)))) →
      b.toNat < f →
      ∃ keys1, ins_inner f keys lo o b = .ok keys1 ∧ Moved keys keys1 lo n ∧
        Ordered keys1 lo (a + 1) := by
  intro f
  induction f with
  | zero => intro keys b _ _ _ _ _ _ hf; omega
  | succ f ih =>
    intro keys b hs hb0 hba i1 i2 i3 hf
    have h0 := hs.lo_nonneg
    have hbd := hs.bound
    rw [ins_inner]
    by_cases hb : b > 0
    swap
    · rw [if_neg hb]
      refine ⟨keys, rfl, moved_refl _ _ _, ?_⟩
      intro i j hi hij hj
      exact i2 i j (by omega) hij (by omega)
    rw [if_pos hb, x_get_ent (by omega), x_get_ent (by omega)]
    simp only [Res.ok_bind]
    rw [ins_len_spec (hs.ents (b - 1) (by omega) (by omega)),
      ins_len_spec (hs.ents b (by omega) (by omega))]
    simp only [Res.ok_bind]
    obtain ⟨d, hd, hiff, htot⟩ := ins_step hs hb (by omega)
    rw [hd]
    simp only [Res.ok_bind]
    by_cases hsw : d > 0 ∨ (d = 0 ∧ (key_of (ent keys (lo + (b - 1)))).length >
        (key_of (ent keys (lo + b))).length)
    · rw [if_pos hsw]
      have hlt := hiff.mp hsw
      obtain ⟨keys1, hk, hm, e1, e2, eo⟩ := @moved_swap keys lo n b (b - 1) h0 hbd (by omega)
        (by omega) (by omega) (by omega)
      rw [hk]
      simp only [Res.ok_bind]
      have ev : ∀ m : Int, 0 ≤ m → ent keys1 (lo + m) =
          ent keys (lo + (if m = b then b - 1 else if m = b - 1 then b else m)) := by
        intro m hm0
        by_cases h1 : m = b
        · rw [if_pos h1, h1]
          exact e1
        · rw [if_neg h1]
          by_cases h2 : m = b - 1
          · rw [if_pos h2, h2]
            exact e2
          · rw [if_neg h2]
            exact eo m hm0 h1 h2
      obtain ⟨keys2, hr, hm2, ho⟩ := ih keys1 (b - 1) (sortseg_moved hs hm) (by omega) (by omega)
        (by
          intro i j hi hij hj
          rw [ev i hi, ev j (by omega), if_neg (by omega), if_neg (by omega), if_neg (by omega),
            if_neg (by omega)]
          exact i1 i j hi hij (by omega))
        (by
          intro i j hi hij hj
          rw [ev i (by omega), ev j (by omega)]
          by_cases hib : i = b - 1
          · rw [if_neg (by omega), if_pos hib]
            by_cases hjb : j = b
            · rw [if_pos hjb]
              exact hlt
            · rw [if_neg hjb, if_neg (by omega)]
              exact i2 b j (le_refl _) (by omega) hj
          · by_cases hib2 : i = b
            · rw [if_pos hib2, if_neg (by omega), if_neg (by omega)]
              exact i3 (b - 1) j (by omega) (by omega) (by omega) hj
            · rw [if_neg hib2, if_neg hib, if_neg (by omega), if_neg (by omega)]
              exact i2 i j (by omega) hij hj)
        (by
          intro i j hi hib hbj hj
          rw [ev i hi, ev j (by omega), if_neg (by omega), if_neg (by omega)]
          by_cases hjb : j = b
          · rw [if_pos hjb]
            exact i1 i (b - 1) hi (by omega) (by omega)
          · rw [if_neg hjb, if_neg (by omega)]
            exact i3 i j hi (by omega) (by omega) hj)
        (by omega)
      exact ⟨keys2, hr, moved_trans hm hm2, ho⟩
    · rw [if_neg hsw]
      simp only [Res.pure_def, Res.ok_bind]
      have hlt := htot (fun h => hsw (hiff.mpr h))
      obtain ⟨keys2, hr, hm2, ho⟩ := ih keys (b - 1) hs (by omega) (by omega)
        (by
          intro i j hi hij hj
          exact i1 i j hi hij (by omega))
        (by
          intro i j hi hij hj
          by_cases hib : i = b - 1
          · by_cases hjb : j = b
            · rw [hib, hjb]
              exact hlt
            · rw [hib]
              exact i3 (b - 1) j (by omega) (by omega) (by omega) hj
          · exact i2 i j (by omega) hij hj)
        (by
          intro i j hi hib hbj hj
          by_cases hjb : j = b
          · rw [hjb]
            exact key_lt_trans (i1 i (b - 1) hi (by omega) (by omega)) hlt
          · exact i3 i j hi (by omega) (by omega) hj)
        (by omega)
      exact ⟨keys2, hr, hm2, ho⟩

theorem ins_outer_spec {lo n : Int} {o g : Nat} :
    ∀ (f : Nat) (keys : List HatSort) (a : Int), SortSeg keys lo n o → 0 ≤ a →
      Ordered keys lo (a + 1) → (n - a).toNat < f → n.toNat < g →
      ∃ keys1, ins_outer g f keys lo o n a = .ok keys1 ∧ Moved keys keys1 lo n ∧
        Ordered keys1 lo n := by
  intro f
  induction f with
  | zero => intro keys a _ _ _ hf; omega
  | succ f ih =>
    intro keys a hs ha ho hf hg
    rw [ins_outer]
    by_cases hc : a + 1 < n
    swap
    · rw [if_neg hc]
      refine ⟨keys, rfl, moved_refl _ _ _, ?_⟩
      intro i j hi hij hj
      exact ho i j hi hij (by omega)
    rw [if_pos hc]
    obtain ⟨keys1, hk, hm, ho1⟩ := @ins_inner_spec lo n (a + 1) o hc g keys (a + 1) hs (by omega)
      (le_refl _) (fun i j hi hij hj => ho i j hi hij hj)
      (fun i j hi hij hj => by omega) (fun i j hi hib hbj hj => by omega) (by omega)
    rw [hk]
    simp only [Res.ok_bind]
    obtain ⟨keys2, hr, hm2, ho2⟩ := ih keys1 (a + 1) (sortseg_moved hs hm) (by omega) ho1
      (by omega) hg
    exact ⟨keys2, hr, moved_trans hm hm2, ho2⟩

/-! ### The three parts -/

theorem moved_class {keys keys1 : List HatSort} {lo n : Int} (h : Moved keys keys1 lo n)
    {P : HatSort → Prop} (hp : ∀ i, 0 ≤ i → i < n → P (ent keys (lo + i))) :
    ∀ i, 0 ≤ i → i < n → P (ent keys1 (lo + i)) := by
  obtain ⟨s, m, -⟩ := h.map
  intro i h0 h1
  obtain ⟨a0, a1, a2⟩ := m i h0 h1
  rw [a2]
  exact hp _ a0 a1

theorem key_byte_zero {e : HatSort} (h : SortEnt e) {o : Nat}
    (hb : key_byte (key_of e) o = 0) : (key_of e).length ≤ o := by
  obtain ⟨-, -, -, -, -, hpos⟩ := sort_ent_key h
  by_contra hc
  have hlt : o < (key_of e).length := by omega
  rw [key_byte_eq hlt] at hb
  have := hpos _ (List.getElem_mem hlt)
  omega

theorem eq_class_single {keys : List HatSort} {lo n : Int} {o : Nat} (hs : SortSeg keys lo n o)
    (hz : ∀ i, 0 ≤ i → i < n → key_byte (key_of (ent keys (lo + i))) o = 0) : n ≤ 1 := by
  by_contra hc
  have full : ∀ i, 0 ≤ i → i < n →
      key_of (ent keys (lo + i)) = (key_of (ent keys (lo + i))).take o := by
    intro i h0 h1
    have := key_byte_zero (hs.ents i h0 h1) (hz i h0 h1)
    rw [List.take_of_length_le this]
  have e := hs.pre 0 1 (le_refl _) (by omega) (by omega) (by omega)
  rw [← full 0 (le_refl _) (by omega), ← full 1 (by omega) (by omega)] at e
  have := hs.dist 0 1 (le_refl _) (by omega) (by omega) (by omega) e
  omega

theorem eq_class_next {keys : List HatSort} {lo n : Int} {o p : Nat} (hs : SortSeg keys lo n o)
    (hp : p ≠ 0) (hz : ∀ i, 0 ≤ i → i < n → key_byte (key_of (ent keys (lo + i))) o = p) :
    SortSeg keys lo n (o + 1) := by
  have hl : ∀ i, 0 ≤ i → i < n → o < (key_of (ent keys (lo + i))).length := by
    intro i h0 h1
    exact key_byte_pos (by rw [hz i h0 h1]; exact hp)
  refine ⟨hs.lo_nonneg, hs.n_nonneg, hs.bound, hs.ents, fun i h0 h1 => hl i h0 h1, ?_, hs.dist⟩
  intro i j hi0 hi1 hj0 hj1
  rw [take_succ_byte (hl i hi0 hi1), take_succ_byte (hl j hj0 hj1), hz i hi0 hi1, hz j hj0 hj1,
    hs.pre i j hi0 hi1 hj0 hj1]

theorem swap_layout {keys2 keys3 keys4 : List HatSort} {lo n a b c d r1 r2 : Int} {o p : Nat}
    (hp : Part keys2 lo n o p a b c d) (hcb : c < b)
    (hr1 : (r1 = a ∧ a < b - a) ∨ (r1 = b - a ∧ b - a ≤ a))
    (hr2 : (r2 = d - c ∧ d - c < n - d - 1) ∨ (r2 = n - d - 1 ∧ n - d - 1 ≤ d - c))
    (e1 : ∀ t, 0 ≤ t → t < r1 → ent keys3 (lo + (0 + t)) = ent keys2 (lo + (b - r1 + t)))
    (e2 : ∀ t, 0 ≤ t → t < r1 → ent keys3 (lo + (b - r1 + t)) = ent keys2 (lo + (0 + t)))
    (e3 : ∀ m, 0 ≤ m → ¬ (0 ≤ m ∧ m < 0 + r1) → ¬ (b - r1 ≤ m ∧ m < b - r1 + r1) →
      ent keys3 (lo + m) = ent keys2 (lo + m))
    (f1 : ∀ t, 0 ≤ t → t < r2 → ent keys4 (lo + (b + t)) = ent keys3 (lo + (n - r2 + t)))
    (f2 : ∀ t, 0 ≤ t → t < r2 → ent keys4 (lo + (n - r2 + t)) = ent keys3 (lo + (b + t)))
    (f3 : ∀ m, 0 ≤ m → ¬ (b ≤ m ∧ m < b + r2) → ¬ (n - r2 ≤ m ∧ m < n - r2 + r2) →
      ent keys4 (lo + m) = ent keys3 (lo + m)) :
    (∀ m, 0 ≤ m → m < b - a → key_byte (key_of (ent keys4 (lo + m))) o < p) ∧
    (∀ m, b - a ≤ m → m < n - (d - c) → key_byte (key_of (ent keys4 (lo + m))) o = p) ∧
    (∀ m, n - (d - c) ≤ m → m < n → p < key_byte (key_of (ent keys4 (lo + m))) o) := by
  have ha := hp.a_pos
  have hab := hp.a_le
  have hbc := hp.b_le
  have hcd := hp.c_le
  have hdn := hp.d_lt
  have k3lo : ∀ m, 0 ≤ m → m < b - a → key_byte (key_of (ent keys3 (lo + m))) o < p := by
    intro m h0 h1
    by_cases hm : m < r1
    · have := e1 m h0 hm
      rw [ent_congr keys3 (show lo + m = lo + (0 + m) by omega), this]
      exact hp.lt _ (by omega) (by omega)
    · rw [e3 m h0 (by omega) (by omega)]
      exact hp.lt _ (by omega) (by omega)
  have k3eq : ∀ m, b - a ≤ m → m < b → key_byte (key_of (ent keys3 (lo + m))) o = p := by
    intro m h0 h1
    by_cases hm : b - r1 ≤ m
    · have := e2 (m - (b - r1)) (by omega) (by omega)
      rw [ent_congr keys3 (show lo + m = lo + (b - r1 + (m - (b - r1))) by omega), this]
      exact hp.eq_lo _ (by omega) (by omega)
    · rw [e3 m (by omega) (by omega) (by omega)]
      exact hp.eq_lo _ (by omega) (by omega)
  have k3hi : ∀ m, b ≤ m → ent keys3 (lo + m) = ent keys2 (lo + m) := by
    intro m h0
    exact e3 m (by omega) (by omega) (by omega)
  refine ⟨?_, ?_, ?_⟩
  · intro m h0 h1
    rw [f3 m h0 (by omega) (by omega)]
    exact k3lo m h0 h1
  · intro m h0 h1
    by_cases hmb : m < b
    · rw [f3 m (by omega) (by omega) (by omega)]
      exact k3eq m h0 hmb
    · by_cases hm : m < b + r2
      · have := f1 (m - b) (by omega) (by omega)
        rw [ent_congr keys4 (show lo + m = lo + (b + (m - b)) by omega), this, k3hi _ (by omega)]
        exact hp.eq_hi _ (by omega) (by omega)
      · rw [f3 m (by omega) (by omega) (by omega), k3hi _ (by omega)]
        exact hp.eq_hi _ (by omega) (by omega)
  · intro m h0 h1
    by_cases hm : n - r2 ≤ m
    · have := f2 (m - (n - r2)) (by omega) (by omega)
      rw [ent_congr keys4 (show lo + m = lo + (n - r2 + (m - (n - r2))) by omega), this,
        k3hi _ (by omega)]
      exact hp.gt _ (by omega) (by omega)
    · rw [f3 m (by omega) (by omega) (by omega), k3hi _ (by omega)]
      exact hp.gt _ (by omega) (by omega)

theorem moved_region {keys keys1 : List HatSort} {lo lo1 n1 x y : Int}
    (h : Moved keys keys1 lo1 n1) (e1 : lo1 = lo + x) (e2 : n1 = y - x) {P : HatSort → Prop}
    (hp : ∀ m, x ≤ m → m < y → P (ent keys (lo + m))) :
    ∀ m, x ≤ m → m < y → P (ent keys1 (lo + m)) := by
  intro m h0 h1
  have := @moved_class keys keys1 lo1 n1 h P (by
    intro i hi0 hi1
    rw [ent_congr keys (show lo1 + i = lo + (x + i) by omega)]
    exact hp _ (by omega) (by omega)) (m - x) (by omega) (by omega)
  rw [ent_congr keys1 (show lo + m = lo1 + (m - x) by omega)]
  exact this

theorem moved_outside {keys keys1 : List HatSort} {lo lo1 n1 x y : Int}
    (h : Moved keys keys1 lo1 n1) (e1 : lo1 = lo + x) (e2 : n1 = y - x) (h0 : 0 ≤ lo) :
    ∀ m, 0 ≤ m → (m < x ∨ y ≤ m) → ent keys1 (lo + m) = ent keys (lo + m) := by
  intro m hm ho
  exact h.out _ (by omega) (by omega)

theorem ordered_region {keys : List HatSort} {lo lo1 n1 x : Int} (h : Ordered keys lo1 n1)
    (e1 : lo1 = lo + x) :
    ∀ i j, x ≤ i → i < j → j < x + n1 →
      key_lt (key_of (ent keys (lo + i))) (key_of (ent keys (lo + j))) := by
  intro i j hi hij hj
  have := h (i - x) (j - x) (by omega) (by omega) (by omega)
  rw [ent_congr keys (show lo + i = lo1 + (i - x) by omega),
    ent_congr keys (show lo + j = lo1 + (j - x) by omega)]
  exact this

theorem hat_qsort_spec (rand : Nat → Int) (hrand : ∀ i, 0 ≤ rand i) (g : Nat) :
    ∀ (f k : Nat) (keys : List HatSort) (lo n : Int) (o : Nat), SortSeg keys lo n o →
      n.toNat + 1 < g → n.toNat + (128 - o) < f →
      ∃ keys1 k1, hat_qsort rand g f k keys lo n o = .ok (keys1, k1) ∧
        Moved keys keys1 lo n ∧ Ordered keys1 lo n := by
  intro f
  induction f with
  | zero => intro k keys lo n o _ _ hf; omega
  | succ f ih =>
    intro k keys lo n o hs hg hf
    have h0 := hs.lo_nonneg
    have hb := hs.bound
    rw [hat_qsort]
    by_cases hn : n > 10
    swap
    · rw [if_neg hn]
      by_cases hn1 : n > 1
      · rw [if_pos hn1]
        obtain ⟨keys1, hk, hm, ho⟩ := @ins_outer_spec lo n o g g keys 0 hs (le_refl _)
          (fun i j hi hij hj => by omega) (by omega) (by omega)
        rw [hk]
        exact ⟨keys1, k, rfl, hm, ho⟩
      · rw [if_neg hn1]
        exact ⟨keys, k, rfl, moved_refl _ _ _, fun i j hi hij hj => by omega⟩
    rw [if_pos hn]
    simp only
    have ha0 : 0 ≤ Int.tmod (rand k) n := Int.tmod_nonneg _ (hrand k)
    have ha1 : Int.tmod (rand k) n < n := Int.tmod_lt_of_pos _ (by omega)
    obtain ⟨keys1, hk1, hm1, -⟩ := @moved_swap keys lo n 0 (Int.tmod (rand k) n) h0 hb
      (le_refl _) (by omega) ha0 ha1
    rw [hk1]
    simp only [Res.ok_bind]
    have hs1 := sortseg_moved hs hm1
    rw [x_get_ent (by omega)]
    simp only [Res.ok_bind]
    rw [qsort_byte_spec (hs1.ents 0 (le_refl _) (by omega))]
    simp only [Res.ok_bind]
    generalize hpv : key_byte (key_of (ent keys1 (lo + 0))) o = p
    have hpart : Part keys1 lo n o p 1 1 (n - 1) (n - 1) := by
      refine ⟨le_refl _, le_refl _, by omega, le_refl _, by omega, ?_, ?_, ?_, ?_⟩
      · intro i hi0 hi1
        have : i = 0 := by omega
        rw [this]
        exact hpv
      · intro i hi0 hi1
        omega
      · intro i hi0 hi1
        omega
      · intro i hi0 hi1
        omega
    obtain ⟨keys2, a, b, c, d, hq, hm2, hp2, hcb⟩ := @qsort_part_spec lo n o p g g keys1 1 1
      (n - 1) (n - 1) hs1 hpart (by omega) (by omega)
    rw [hq]
    simp only [Res.ok_bind]
    have hA := hp2.a_pos
    have hAB := hp2.a_le
    have hBC := hp2.b_le
    have hCD := hp2.c_le
    have hDN := hp2.d_lt
    have hb2 : lo + n ≤ keys2.length := by
      rw [hm2.length, hm1.length]
      exact hb
    generalize hr1 : (if a < b - a then a else b - a) = r1
    have hr1' : (r1 = a ∧ a < b - a) ∨ (r1 = b - a ∧ b - a ≤ a) := by
      rw [← hr1]
      split <;> omega
    obtain ⟨keys3, hv1, hm3, e1, e2, e3⟩ := @vecswap_spec lo n g keys2 0 (b - r1) r1 h0 hb2
      (by omega) (le_refl _) (by omega) (by omega) (by omega)
    rw [hv1]
    simp only [Res.ok_bind]
    have hb3 : lo + n ≤ keys3.length := by
      rw [hm3.length]
      exact hb2
    generalize hr2 : (if d - c < n - d - 1 then d - c else n - d - 1) = r2
    have hr2' : (r2 = d - c ∧ d - c < n - d - 1) ∨ (r2 = n - d - 1 ∧ n - d - 1 ≤ d - c) := by
      rw [← hr2]
      split <;> omega
    obtain ⟨keys4, hv2, hm4, f1, f2, f3⟩ := @vecswap_spec lo n g keys3 b (n - r2) r2 h0 hb3
      (by omega) (by omega) (by omega) (by omega) (by omega)
    rw [hv2]
    simp only [Res.ok_bind]
    obtain ⟨cl4, ce4, cg4⟩ := swap_layout hp2 hcb hr1' hr2' e1 e2 e3 f1 f2 f3
    have hm14 : Moved keys keys4 lo n := moved_trans (moved_trans (moved_trans hm1 hm2) hm3) hm4
    have hs4 := sortseg_moved hs hm14
    have ho127 : o ≤ 127 := by
      have := hs.len 0 (le_refl _) (by omega)
      obtain ⟨-, -, m1, -⟩ := sort_ent_key (hs.ents 0 (le_refl _) (by omega))
      omega
    have tail1 : ∀ (keys5 : List HatSort) (k1 : Nat),
        Moved keys4 keys5 (lo + (n - (d - c))) (d - c) →
        Ordered keys5 (lo + (n - (d - c))) (d - c) →
        ∃ keys1 k1',
          (do
            let (keys, k2) ←
              if b - a ≠ 0 then hat_qsort rand g f k1 keys5 lo (b - a) o
              else (pure (keys5, k1) : Res (List HatSort × Nat))
            let e ← x_get keys lo (b - a)
            let len ← rd e.key 0
            let len ←
              if len &&& 0x80 ≠ 0 then do
                let k1 ← rd e.key 1
                pure (((len &&& 0x7f) + k1) % U16)
              else pure len
            if len = o then pure (keys, k2)
            else hat_qsort rand g f k2 keys (lo + (b - a)) (n + a - d - 1) ((o + 1) % U8) :
              Res (List HatSort × Nat)) = .ok (keys1, k1') ∧
          Moved keys keys1 lo n ∧ Ordered keys1 lo n := by
      intro keys5 k1 hm5 ho5
      have hs5 := sortseg_moved hs4 (moved_lift hm5 (by omega) (by omega) h0)
      have cl5 : ∀ m, 0 ≤ m → m < b - a → key_byte (key_of (ent keys5 (lo + m))) o < p := by
        intro m hm0 hm1
        rw [moved_outside hm5 rfl (show d - c = n - (n - (d - c)) by omega) h0 m hm0 (by omega)]
        exact cl4 m hm0 hm1
      have ce5 : ∀ m, b - a ≤ m → m < n - (d - c) →
          key_byte (key_of (ent keys5 (lo + m))) o = p := by
        intro m hm0 hm1
        rw [moved_outside hm5 rfl (show d - c = n - (n - (d - c)) by omega) h0 m (by omega)
          (by omega)]
        exact ce4 m hm0 hm1
      have cg5 : ∀ m, n - (d - c) ≤ m → m < n →
          p < key_byte (key_of (ent keys5 (lo + m))) o :=
        @moved_region keys4 keys5 lo _ _ (n - (d - c)) n hm5 rfl (by omega)
          (fun e => p < key_byte (key_of e) o) cg4
      have tail2 : ∀ (keys6 : List HatSort) (k2 : Nat), Moved keys5 keys6 lo (b - a) →
          Ordered keys6 lo (b - a) →
          ∃ keys1 k1',
            (do
              let e ← x_get keys6 lo (b - a)
              let len ← rd e.key 0
              let len ←
                if len &&& 0x80 ≠ 0 then do
                  let k1 ← rd e.key 1
                  pure (((len &&& 0x7f) + k1) % U16)
                else pure len
              if len = o then pure (keys6, k2)
              else hat_qsort rand g f k2 keys6 (lo + (b - a)) (n + a - d - 1) ((o + 1) % U8) :
                Res (List HatSort × Nat)) = .ok (keys1, k1') ∧
            Moved keys keys1 lo n ∧ Ordered keys1 lo n := by
        intro keys6 k2 hm6 ho6
        have hs6 := sortseg_moved hs5 (moved_lift hm6 (le_refl _) (by omega) h0)
        have e6lo : lo = lo + 0 := by omega
        have cl6 : ∀ m, 0 ≤ m → m < b - a → key_byte (key_of (ent keys6 (lo + m))) o < p :=
          @moved_region keys5 keys6 lo _ _ 0 (b - a) hm6 e6lo (by omega)
            (fun e => key_byte (key_of e) o < p) cl5
        have out6 : ∀ m, b - a ≤ m → ent keys6 (lo + m) = ent keys5 (lo + m) := by
          intro m hm0
          exact moved_outside hm6 e6lo (show b - a = b - a - 0 by omega) h0 m (by omega)
            (by omega)
        have ce6 : ∀ m, b - a ≤ m → m < n - (d - c) →
            key_byte (key_of (ent keys6 (lo + m))) o = p := by
          intro m hm0 hm1
          rw [out6 m hm0]
          exact ce5 m hm0 hm1
        have cg6 : ∀ m, n - (d - c) ≤ m → m < n →
            p < key_byte (key_of (ent keys6 (lo + m))) o := by
          intro m hm0 hm1
          rw [out6 m (by omega)]
          exact cg5 m hm0 hm1
        have og6 : ∀ i j, n - (d - c) ≤ i → i < j → j < n →
            key_lt (key_of (ent keys6 (lo + i))) (key_of (ent keys6 (lo + j))) := by
          intro i j hi hij hj
          rw [out6 i (by omega), out6 j (by omega)]
          exact ordered_region ho5 rfl i j hi hij (by omega)
        have ol6 : ∀ i j, 0 ≤ i → i < j → j < b - a →
            key_lt (key_of (ent keys6 (lo + i))) (key_of (ent keys6 (lo + j))) := ho6
        have hm16 : Moved keys keys6 lo n :=
          moved_trans (moved_trans hm14 (moved_lift hm5 (by omega) (by omega) h0))
            (moved_lift hm6 (le_refl _) (by omega) h0)
        have hsE : SortSeg keys6 (lo + (b - a)) (n + a - d - 1) o :=
          sortseg_sub hs6 (by omega) (by omega) (by omega)
        have ceE : ∀ i, 0 ≤ i → i < n + a - d - 1 →
            key_byte (key_of (ent keys6 (lo + (b - a) + i))) o = p := by
          intro i hi0 hi1
          rw [ent_congr keys6 (show lo + (b - a) + i = lo + (b - a + i) by omega)]
          exact ce6 _ (by omega) (by omega)
        have cross : ∀ (keys7 : List HatSort), SortSeg keys7 lo n o →
            (∀ m, 0 ≤ m → m < b - a → key_byte (key_of (ent keys7 (lo + m))) o < p) →
            (∀ m, b - a ≤ m → m < n - (d - c) →
              key_byte (key_of (ent keys7 (lo + m))) o = p) →
            (∀ m, n - (d - c) ≤ m → m < n → p < key_byte (key_of (ent keys7 (lo + m))) o) →
            (∀ i j, 0 ≤ i → i < j → j < b - a →
              key_lt (key_of (ent keys7 (lo + i))) (key_of (ent keys7 (lo + j)))) →
            (∀ i j, b - a ≤ i → i < j → j < n - (d - c) →
              key_lt (key_of (ent keys7 (lo + i))) (key_of (ent keys7 (lo + j)))) →
            (∀ i j, n - (d - c) ≤ i → i < j → j < n →
              key_lt (key_of (ent keys7 (lo + i))) (key_of (ent keys7 (lo + j)))) →
            Ordered keys7 lo n := by
          intro keys7 hs7 cl ce cg ol oe og i j hi hij hj
          have byb : ∀ u v : Int, 0 ≤ u → u < n → 0 ≤ v → v < n →
              key_byte (key_of (ent keys7 (lo + u))) o <
                key_byte (key_of (ent keys7 (lo + v))) o →
              key_lt (key_of (ent keys7 (lo + u))) (key_of (ent keys7 (lo + v))) := by
            intro u v hu0 hu1 hv0 hv1 hlt
            exact key_lt_of_byte o (hs7.len u hu0 hu1) (hs7.len v hv0 hv1)
              (hs7.pre u v hu0 hu1 hv0 hv1) hlt
          by_cases hjl : j < b - a
          · exact ol i j hi hij hjl
          by_cases hil : i < b - a
          · apply byb i j hi (by omega) (by omega) hj
            have h1 := cl i hi hil
            by_cases hje : j < n - (d - c)
            · rw [ce j (by omega) hje]
              exact h1
            · have h2 := cg j (by omega) hj
              omega
          by_cases hje : j < n - (d - c)
          · exact oe i j (by omega) hij hje
          by_cases hie : i < n - (d - c)
          · apply byb i j hi (by omega) (by omega) hj
            rw [ce i (by omega) hie]
            exact cg j (by omega) hj
          · exact og i j (by omega) hij hj
        rw [x_get_ent (by omega)]
        simp only [Res.ok_bind]
        have hentE := hs6.ents (b - a) (by omega) (by omega)
        obtain ⟨-, -, hl127, -⟩ := sort_ent_key hentE
        rw [rd_len hentE]
        simp only [Res.ok_bind]
        rw [if_neg (by rw [and128 hl127]; simp)]
        simp only [Res.pure_def, Res.ok_bind]
        have hlenE := hs6.len (b - a) (by omega) (by omega)
        have hpE := ce6 (b - a) (le_refl _) (by omega)
        by_cases hlo : (key_of (ent keys6 (lo + (b - a)))).length = o
        · rw [if_pos hlo]
          refine ⟨keys6, k2, rfl, hm16, ?_⟩
          have hp0 : p = 0 := by
            rw [← hpE]
            exact key_byte_past (by omega)
          have hone := eq_class_single hsE (fun i hi0 hi1 => by rw [ceE i hi0 hi1, hp0])
          exact cross keys6 hs6 cl6 ce6 cg6 ol6 (fun i j hi hij hj => by omega) og6
        · rw [if_neg hlo]
          have hpne : p ≠ 0 := by
            intro hp0
            rw [hp0] at hpE
            have := key_byte_zero hentE hpE
            omega
          have hsE1 := eq_class_next hsE hpne ceE
          have ho1 : (o + 1) % U8 = o + 1 := by
            simp only [U8]
            omega
          rw [ho1]
          obtain ⟨keys7, k3, hr7, hm7, ho7⟩ := ih k2 keys6 (lo + (b - a)) (n + a - d - 1)
            (o + 1) hsE1 (by omega) (by omega)
          refine ⟨keys7, k3, hr7, moved_trans hm16 (moved_lift hm7 (by omega) (by omega) h0), ?_⟩
          have hs7 := sortseg_moved hs6 (moved_lift hm7 (by omega) (by omega) h0)
          have eE : n + a - d - 1 = n - (d - c) - (b - a) := by omega
          have out7 : ∀ m, 0 ≤ m → (m < b - a ∨ n - (d - c) ≤ m) →
              ent keys7 (lo + m) = ent keys6 (lo + m) := moved_outside hm7 rfl eE h0
          refine cross keys7 hs7 ?_ ?_ ?_ ?_ ?_ ?_
          · intro m hm0 hm1
            rw [out7 m hm0 (Or.inl hm1)]
            exact cl6 m hm0 hm1
          · exact @moved_region keys6 keys7 lo _ _ (b - a) (n - (d - c)) hm7 rfl eE
              (fun e => key_byte (key_of e) o = p) ce6
          · intro m hm0 hm1
            rw [out7 m (by omega) (Or.inr hm0)]
            exact cg6 m hm0 hm1
          · intro i j hi hij hj
            rw [out7 i hi (Or.inl (by omega)), out7 j (by omega) (Or.inl hj)]
            exact ol6 i j hi hij hj
          · intro i j hi hij hj
            exact ordered_region ho7 rfl i j hi hij (by omega)
          · intro i j hi hij hj
            rw [out7 i (by omega) (Or.inr hi), out7 j (by omega) (Or.inr (by omega))]
            exact og6 i j hi hij hj
      by_cases hz : b - a ≠ 0
      · simp only [if_pos hz]
        have hsub := @sortseg_sub keys5 lo n o hs5 0 (b - a) (le_refl _) (by omega) (by omega)
        rw [show lo + 0 = lo by omega] at hsub
        obtain ⟨keys6, k2, hr6, hm6, ho6⟩ := ih k1 keys5 lo (b - a) o hsub (by omega) (by omega)
        rw [hr6]
        simp only [Res.ok_bind]
        exact tail2 keys6 k2 hm6 ho6
      · simp only [if_neg hz, Res.pure_def, Res.ok_bind]
        exact tail2 keys5 k1 (moved_refl _ _ _) (fun i j hi hij hj => by omega)
    by_cases hz : d - c ≠ 0
    · simp only [if_pos hz]
      rw [show lo + n - (d - c) = lo + (n - (d - c)) by omega]
      obtain ⟨keys5, k1, hr5, hm5, ho5⟩ := ih (k + 1) keys4 (lo + (n - (d - c))) (d - c) o
        (sortseg_sub hs4 (by omega) (by omega) (by omega)) (by omega) (by omega)
      rw [hr5]
      simp only [Res.ok_bind]
      exact tail1 keys5 k1 hm5 ho5
    · simp only [if_neg hz, Res.pure_def, Res.ok_bind]
      exact tail1 keys4 (k + 1) (moved_refl _ _ _) (fun i j hi hij hj => by omega)

theorem ent_nat (x : List HatSort) {i : Nat} (h : i < x.length) :
    ent x (0 + (i : Int)) = x[i] := by
  unfold ent
  have e : (0 + (i : Int)).toNat = i := by omega
  rw [e]
  exact List.getD_eq_getElem _ _ h

theorem sortseg_of_list {x : List HatSort} {o : Nat} (hent : ∀ e ∈ x, SortEnt e)
    (hdist : (x.map key_of).Nodup)
    (hpre : ∀ e1 ∈ x, ∀ e2 ∈ x, o ≤ (key_of e1).length ∧
      (key_of e1).take o = (key_of e2).take o) : SortSeg x 0 x.length o := by
  have hmem : ∀ i : Int, 0 ≤ i → i < x.length → ent x (0 + i) ∈ x := by
    intro i h0 h1
    lift i to Nat using h0
    have hi : i < x.length := by omega
    rw [ent_nat x hi]
    exact List.getElem_mem hi
  refine ⟨le_refl _, by omega, by omega, ?_, ?_, ?_, ?_⟩
  · intro i h0 h1
    exact hent _ (hmem i h0 h1)
  · intro i h0 h1
    exact (hpre _ (hmem i h0 h1) _ (hmem i h0 h1)).1
  · intro i j hi0 hi1 hj0 hj1
    exact (hpre _ (hmem i hi0 hi1) _ (hmem j hj0 hj1)).2
  · intro i j hi0 hi1 hj0 hj1 he
    lift i to Nat using hi0
    lift j to Nat using hj0
    have hi : i < x.length := by omega
    have hj : j < x.length := by omega
    rw [ent_nat x hi, ent_nat x hj] at he
    have hi2 : i < (x.map key_of).length := by simpa using hi
    have hj2 : j < (x.map key_of).length := by simpa using hj
    have e2 : (x.map key_of)[i] = (x.map key_of)[j] := by
      rw [List.getElem_map, List.getElem_map]
      exact he
    have := (List.Nodup.getElem_inj_iff hdist).mp e2
    omega

theorem pairwise_of_ordered {x : List HatSort} (h : Ordered x 0 x.length) :
    (x.map key_of).Pairwise key_lt := by
  rw [List.pairwise_iff_getElem]
  intro i j hi hj hij
  have hi1 : i < x.length := by simpa using hi
  have hj1 : j < x.length := by simpa using hj
  have := h i j (by omega) (by omega) (by omega)
  rw [ent_nat x hi1, ent_nat x hj1] at this
  rw [List.getElem_map, List.getElem_map]
  exact this

/-- C26 (sort of keys without a zero byte): for every array `x` of entries whose
keys are pairwise distinct, at most 127 bytes long, without a byte 0, and agree
on their first `o` bytes, and for every sequence of values of `rand ()` that are
not negative (the pivot positions are then in `[0, n)`), `hat_qsort (x, n, o)`
with `n` the number of entries returns, given bounds `f` and `g` of the model of
at least `n + 129` and `n + 2`, and leaves `x` a permutation of its input with
the keys in ascending lexicographic byte order, a key before each of its proper
extensions. -/
theorem C26_sort_orders_keys_without_zero_bytes (rand : Nat → Int) (x : List HatSort)
    (o k f g : Nat) (hrand : ∀ i, 0 ≤ rand i) (hent : ∀ e ∈ x, SortEnt e)
    (hdist : (x.map key_of).Nodup)
    (hpre : ∀ e1 ∈ x, ∀ e2 ∈ x, o ≤ (key_of e1).length ∧
      (key_of e1).take o = (key_of e2).take o)
    (hf : x.length + 129 ≤ f) (hg : x.length + 2 ≤ g) :
    ∃ x1 k1, hat_qsort rand g f k x 0 x.length o = .ok (x1, k1) ∧ x1.Perm x ∧
      (x1.map key_of).Pairwise key_lt := by
  obtain ⟨x1, k1, hr, hm, ho⟩ := hat_qsort_spec rand hrand g f k x 0 x.length o
    (sortseg_of_list hent hdist hpre) (by omega) (by omega)
  refine ⟨x1, k1, hr, hm.perm, ?_⟩
  have hl := hm.length
  rw [← hl] at ho
  exact pairwise_of_ordered ho

/-- C26 (witness): the eleven keys `a` to `k` with `rand ()` returning 5. -/
theorem C26_sort_orders_keys_without_zero_bytes_witness :
    ∃ x1 k1, hat_qsort (fun _ => 5) 200 200 0 (keys_11.map sort_entry) 0
        (keys_11.map sort_entry).length 0 = .ok (x1, k1) ∧
      x1.Perm (keys_11.map sort_entry) ∧ (x1.map key_of).Pairwise key_lt :=
  C26_sort_orders_keys_without_zero_bytes (fun _ => 5) (keys_11.map sort_entry) 0 0 200 200
    (fun _ => (by decide : (0 : Int) ≤ 5)) (by decide) (by decide) (by decide) (by decide)
    (by decide)

/-! ## Hats whose root holds array nodes only -/

theorem hat_burst_bucket_radix {f : Nat} {hat h1 : Hat} {bucket : HatBucket} {node : HatNode}
    (h : hat_burst_bucket f hat bucket = .ok (h1, node)) : node.isLeaf = false := by
  cases f with
  | zero => simp [hat_burst_bucket] at h
  | succ f =>
    rw [hat_burst_bucket] at h
    obtain ⟨⟨h2, addr⟩, -, h⟩ := Res.bind_eq_ok.mp h
    obtain ⟨⟨h3, radix⟩, -, h⟩ := Res.bind_eq_ok.mp h
    simp only [Res.pure_def, Res.ok.injEq, Prod.mk.injEq] at h
    rw [← h.2]
    rfl

/-- The loop of `hat_cell` never turns a radix, bucket or pail node into an
array node or an empty slot. -/
theorem hat_cell_loop_leaf : ∀ (f : Nat) (hat : Hat) (node : HatNode) (buff : List Nat)
    (max off : Nat) (h1 : Hat) (node1 : HatNode) (p : Nat),
    hat_cell_loop f hat node buff max off = .ok (h1, node1, p) → node1.isLeaf = true →
    node.isLeaf = true := by
  intro f
  induction f with
  | zero =>
    intro hat node buff max off h1 node1 p h
    simp [hat_cell_loop] at h
  | succ f ih =>
    intro hat node buff max off h1 node1 p h hl
    cases node with
    | empty => rfl
    | array base => rfl
    | pail pail =>
      exfalso
      rw [hat_cell_loop] at h
      simp only at h
      obtain ⟨code, -, h⟩ := Res.bind_eq_ok.mp h
      have tail : ∀ hit : Option Nat,
          (match hit with
            | some q => (pure (hat, HatNode.pail pail, q) : Res (Hat × HatNode × Nat))
            | none => do
              let (hat1, pail1, cell) ←
                hat_add_pail hat pail (buff.drop off) ((max + U32 - off) % U32)
              if cell ≠ 0 then pure (hat1, .pail pail1, cell_ret hat cell)
              else do
                let (hat2, bucket) ← hat_burst_pail hat1 pail1
                hat_cell_loop f hat2 (.bucket bucket) buff max off) = .ok (h1, node1, p) →
          False := by
        intro hit h
        cases hit with
        | some q =>
          simp only [Res.pure_def, Res.ok.injEq, Prod.mk.injEq] at h
          rw [← h.2.1] at hl
          cases hl
        | none =>
          simp only at h
          obtain ⟨⟨h2, pail1, cell⟩, -, h⟩ := Res.bind_eq_ok.mp h
          simp only at h
          by_cases hc : cell ≠ 0
          · rw [if_pos hc] at h
            simp only [Res.pure_def, Res.ok.injEq, Prod.mk.injEq] at h
            rw [← h.2.1] at hl
            cases hl
          · rw [if_neg hc] at h
            obtain ⟨⟨h3, bucket⟩, -, h⟩ := Res.bind_eq_ok.mp h
            have := ih _ _ _ _ _ _ _ _ h hl
            cases this
      cases hpa : pail.array (code % HatPailMax) with
      | none =>
        simp only [hpa, Res.pure_def, Res.ok_bind] at h
        exact tail none h
      | some base =>
        simp only [hpa] at h
        obtain ⟨hit, -, h⟩ := Res.bind_eq_ok.mp h
        exact tail hit h
    | bucket bucket =>
      exfalso
      rw [hat_cell_loop] at h
      simp only at h
      obtain ⟨code, -, h⟩ := Res.bind_eq_ok.mp h
      obtain ⟨⟨h2, r⟩, -, h⟩ := Res.bind_eq_ok.mp h
      cases r with
      | inl r =>
        obtain ⟨b1, q⟩ := r
        simp only [Res.pure_def, Res.ok.injEq, Prod.mk.injEq] at h
        rw [← h.2.1] at hl
        cases hl
      | inr b1 =>
        simp only at h
        obtain ⟨⟨h3, node2⟩, hb, h⟩ := Res.bind_eq_ok.mp h
        have h4 := ih _ _ _ _ _ _ _ _ h hl
        rw [hat_burst_bucket_radix hb] at h4
        cases h4
    | radix addr table =>
      exfalso
      rw [hat_cell_loop] at h
      simp only at h
      by_cases hc : off < max
      · rw [if_pos hc] at h
        obtain ⟨ch, -, h⟩ := Res.bind_eq_ok.mp h
        by_cases h128 : ch ≥ 128
        · rw [if_pos h128] at h
          cases h
        · rw [if_neg h128] at h
          obtain ⟨⟨h2, child, q⟩, -, h⟩ := Res.bind_eq_ok.mp h
          simp only [Res.pure_def, Res.ok.injEq, Prod.mk.injEq] at h
          rw [← h.2.1] at hl
          cases hl
      · rw [if_neg hc] at h
        obtain ⟨⟨h2, child, q⟩, -, h⟩ := Res.bind_eq_ok.mp h
        simp only [Res.pure_def, Res.ok.injEq, Prod.mk.injEq] at h
        rw [← h.2.1] at hl
        cases hl

/-- The root of the hat after a return of `hat_cell`: one slot has changed. -/
theorem hat_cell_root {f : Nat} {hat h' : Hat} {buff : List Nat} {max p : Nat} (hi : Inv hat)
    (hmax : max ≤ buff.length) (h127 : max ≤ 127)
    (h : hat_cell f hat buff max = .ok (h', p)) :
    h'.nroot = hat.nroot ∧ h'.malloc = hat.malloc ∧ ∃ triple off h1 node, triple < hat.nroot ∧
      triple_loop hat.bootlvl buff max 0 0 = .ok (triple, off) ∧
      hat_cell_loop f hat (hat.root triple) buff max off = .ok (h1, node, p) ∧
      h'.root = setSlot hat.root triple node := by
  unfold hat_cell at h
  obtain ⟨⟨triple, off⟩, ht, h⟩ := Res.bind_eq_ok.mp h
  simp only at h
  by_cases hn : triple < hat.nroot
  swap
  · rw [if_neg hn] at h
    simp at h
  rw [if_pos hn] at h
  obtain ⟨⟨h1, node, q⟩, hl, h⟩ := Res.bind_eq_ok.mp h
  simp only [Res.pure_def, Res.ok.injEq, Prod.mk.injEq] at h
  obtain ⟨e1, e2⟩ := h
  subst e2
  have hoff := triple_loop_le _ _ _ _ _ _ _ ht (Nat.zero_le _)
  obtain ⟨-, a2, -⟩ := hat_cell_loop_ok f hat (hat.root triple) buff max off h1 node
    q hi.1 (hi.2 triple) hoff hmax h127 hl
  refine ⟨by rw [← e1]; exact a2.nroot, by rw [← e1]; exact a2.malloc, triple, off, h1, node, hn,
    ht, hl, ?_⟩
  rw [← e1, ← a2.root]

/-- A hat without radix, bucket and pail nodes after `hat_cell` had none before
the call: no call takes such a node away. -/
theorem hat_cell_arrays_before {f : Nat} {hat h' : Hat} {buff : List Nat} {max p : Nat}
    (hi : Inv hat) (hmax : max ≤ buff.length) (h127 : max ≤ 127)
    (h : hat_cell f hat buff max = .ok (h', p)) (ha : ArrayOnly h') : ArrayOnly hat := by
  obtain ⟨e1, -, triple, off, h1, node, hn, -, hl, e2⟩ := hat_cell_root hi hmax h127 h
  intro i hlt
  have h3 := ha i (by rw [e1]; exact hlt)
  rw [e2] at h3
  by_cases hc : i = triple
  · subst hc
    rw [setSlot_same] at h3
    exact hat_cell_loop_leaf _ _ _ _ _ _ _ _ _ hl h3
  · rw [setSlot_other _ _ hc] at h3
    exact h3

theorem hat_cells_arrays_before (f : Nat) : ∀ (keys : List (List Nat)) (hat hat' : Hat)
    (ps : List Nat), Inv hat → (∀ k ∈ keys, k.length ≤ 127) →
    hat_cells f hat keys = .ok (hat', ps) → ArrayOnly hat' → ArrayOnly hat := by
  intro keys
  induction keys with
  | nil =>
    intro hat hat' ps _ _ h ha
    simp only [hat_cells, Res.ok.injEq, Prod.mk.injEq] at h
    rw [h.1]
    exact ha
  | cons k keys ih =>
    intro hat hat' ps hi hk h ha
    rw [hat_cells] at h
    obtain ⟨⟨h1, p⟩, hc, h⟩ := Res.bind_eq_ok.mp h
    obtain ⟨⟨h2, qs⟩, hcs, h⟩ := Res.bind_eq_ok.mp h
    simp only [Res.pure_def, Res.ok.injEq, Prod.mk.injEq] at h
    obtain ⟨e1, -⟩ := h
    subst e1
    obtain ⟨a1, -⟩ := hat_cell_ok hi (Nat.le_refl _) (hk k (by simp)) hc
    exact hat_cell_arrays_before hi (Nat.le_refl _) (hk k (by simp)) hc
      (ih h1 h2 qs a1 (fun x hx => hk x (by simp [hx])) hcs ha)

theorem hat_cells_malloc (f : Nat) : ∀ (keys : List (List Nat)) (hat hat' : Hat)
    (ps : List Nat), Inv hat → (∀ k ∈ keys, k.length ≤ 127) →
    hat_cells f hat keys = .ok (hat', ps) → hat'.malloc = hat.malloc := by
  intro keys
  induction keys with
  | nil =>
    intro hat hat' ps _ _ h
    simp only [hat_cells, Res.ok.injEq, Prod.mk.injEq] at h
    rw [h.1]
  | cons k keys ih =>
    intro hat hat' ps hi hk h
    rw [hat_cells] at h
    obtain ⟨⟨h1, p⟩, hc, h⟩ := Res.bind_eq_ok.mp h
    obtain ⟨⟨h2, qs⟩, hcs, h⟩ := Res.bind_eq_ok.mp h
    simp only [Res.pure_def, Res.ok.injEq, Prod.mk.injEq] at h
    obtain ⟨e1, -⟩ := h
    subst e1
    obtain ⟨a1, -⟩ := hat_cell_ok hi (Nat.le_refl _) (hk k (by simp)) hc
    obtain ⟨-, a2, -⟩ := hat_cell_root hi (Nat.le_refl _) (hk k (by simp)) hc
    rw [ih h1 h2 qs a1 (fun x hx => hk x (by simp [hx])) hcs, a2]

theorem hat_alloc_malloc {hat h1 : Hat} {t addr : Nat}
    (h : hat_alloc hat t = .ok (h1, addr)) : h1.malloc = hat.malloc := by
  unfold hat_alloc at h
  obtain ⟨amt, -, h⟩ := Res.bind_eq_ok.mp h
  simp only at h
  cases hre : hat.reuse t with
  | cons block rest =>
    simp only [hre, Res.pure_def, Res.ok.injEq, Prod.mk.injEq] at h
    rw [← h.1]
  | nil =>
    simp only [hre] at h
    by_cases hc : (hat.next + round_amt amt) % U32 > HAT_seg
    · rw [if_pos hc] at h
      obtain ⟨h2, hseg, hrest⟩ := Res.bind_eq_ok.mp h
      simp only [Res.pure_def, Res.ok.injEq, Prod.mk.injEq] at hrest
      rw [← hrest.1]
      unfold new_seg at hseg
      simp only at hseg
      by_cases hz : hat.malloc hat.nseg = 0
      · rw [if_pos hz] at hseg
        cases hseg
      · rw [if_neg hz] at hseg
        simp only [Res.ok.injEq] at hseg
        rw [← hseg]
    · rw [if_neg hc] at h
      simp only [Res.pure_def, Res.ok_bind, Res.ok.injEq, Prod.mk.injEq] at h
      rw [← h.1]

theorem hat_open_malloc {malloc : Nat → Nat} {boot aux : Nat} {hat : Hat}
    (h : hat_open malloc boot aux = .ok hat) : hat.malloc = malloc := by
  unfold hat_open at h
  simp only at h
  by_cases hs : malloc 0 = 0
  · rw [if_pos hs] at h
    simp at h
  rw [if_neg hs] at h
  by_cases hb : boot = 0
  · rw [if_pos hb] at h
    obtain ⟨⟨h1, addr⟩, hal, h⟩ := Res.bind_eq_ok.mp h
    simp only [Res.pure_def, Res.ok.injEq] at h
    rw [← h]
    exact hat_alloc_malloc hal
  · rw [if_neg hb] at h
    simp only [Res.pure_def, Res.ok.injEq] at h
    rw [← h]

theorem memcpy_total {dst src : List Nat} {pos n : Nat} (h1 : n ≤ src.length)
    (h2 : pos + n ≤ dst.length) : ∃ d, memcpy dst pos src n = .ok d ∧ d.length = dst.length := by
  unfold memcpy
  rw [if_pos ⟨h1, h2⟩]
  refine ⟨_, rfl, ?_⟩
  simp only [List.length_append, List.length_take, List.length_drop]
  omega

theorem wr_total {mem : List Nat} {i : Nat} (b : Nat) (h : i < mem.length) :
    ∃ m, wr mem i b = .ok m ∧ m.length = mem.length := by
  unfold wr
  rw [if_pos h]
  exact ⟨_, rfl, by simp⟩

theorem put_record_total {keys buff : List Nat} {pos amt : Nat} (h127 : amt ≤ 127)
    (h1 : amt ≤ buff.length) (h2 : pos + 1 + amt ≤ keys.length) :
    ∃ keys1, put_record keys pos buff amt 1 = .ok keys1 := by
  unfold put_record
  obtain ⟨k1, e1, l1⟩ := @memcpy_total keys buff (pos + 1) amt h1 (by omega)
  obtain ⟨k2, e2, l2⟩ := @wr_total k1 pos (amt &&& 0x7f) (by omega)
  rw [e1]
  simp only [Res.ok_bind]
  rw [e2]
  simp only [Res.ok_bind]
  rw [if_neg (by omega)]
  exact ⟨_, rfl⟩

theorem hat_alloc_total {hat : Hat} {t : Nat} (ha : AllocOK hat) (hz : ∀ n, hat.malloc n ≠ 0)
    (ht : t < 32) : ∃ h1 addr, hat_alloc hat t = .ok (h1, addr) := by
  unfold hat_alloc
  rw [HatSize_eq ht]
  simp only [Res.ok_bind, (round_hsize t ht).1]
  cases hre : hat.reuse t with
  | cons block rest => exact ⟨_, _, rfl⟩
  | nil =>
    obtain ⟨h2, e, -⟩ := seg_choice ha.next ha.seg (hz _) (ha.malloc _) (hsize t) (by
      have := (round_hsize t ht).2
      simp only [HAT_seg, HAT_slot_size]
      omega)
    simp only
    by_cases hc : (hat.next + hsize t) % U32 > HAT_seg
    · rw [if_pos hc] at e ⊢
      rw [e]
      exact ⟨_, _, rfl⟩
    · rw [if_neg hc]
      exact ⟨_, _, rfl⟩

theorem new_array_type_total (hat : Hat) (amt skip : Nat)
    (hfit : (hat.aux + amt + skip) % U32 + sizeof_HatBase ≤ hsize HatMax) :
    ∀ (k t f : Nat), t + k = 15 → k < f →
      ∃ t', new_array_type f hat amt skip t = .ok t' ∧ t' ≤ HatMax := by
  intro k
  induction k with
  | zero =>
    intro t f ht hf
    obtain ⟨f, rfl⟩ : ∃ g, f = g + 1 := ⟨f - 1, by omega⟩
    have e : t = 15 := by omega
    subst e
    rw [new_array_type, HatSize_eq (by decide)]
    simp only [Res.ok_bind]
    rw [if_neg (by
      have : hsize HatMax = hsize 15 := rfl
      omega)]
    exact ⟨_, rfl, by decide⟩
  | succ k ih =>
    intro t f ht hf
    obtain ⟨f, rfl⟩ : ∃ g, f = g + 1 := ⟨f - 1, by omega⟩
    rw [new_array_type, HatSize_eq (by omega)]
    simp only [Res.ok_bind]
    by_cases hc : (hat.aux + amt + skip) % U32 + sizeof_HatBase > hsize t
    · rw [if_pos hc]
      exact ih (t + 1) f (by omega) (by omega)
    · rw [if_neg hc]
      exact ⟨_, rfl, by simp only [HatMax, HAT_32]; omega⟩

theorem promote_type_total (need : Nat) (hfit : need ≤ hsize HatMax) :
    ∀ (k t f : Nat), t + k = 15 → k < f →
      ∃ t', promote_type f need t = .ok t' ∧ t ≤ t' ∧ t' ≤ HatMax ∧ need ≤ hsize t' := by
  intro k
  induction k with
  | zero =>
    intro t f ht hf
    obtain ⟨f, rfl⟩ : ∃ g, f = g + 1 := ⟨f - 1, by omega⟩
    have e : t = 15 := by omega
    subst e
    rw [promote_type, HatSize_eq (by decide)]
    simp only [Res.ok_bind]
    have : hsize HatMax = hsize 15 := rfl
    rw [if_neg (by omega)]
    exact ⟨_, rfl, Nat.le_refl _, by decide, by omega⟩
  | succ k ih =>
    intro t f ht hf
    obtain ⟨f, rfl⟩ : ∃ g, f = g + 1 := ⟨f - 1, by omega⟩
    rw [promote_type, HatSize_eq (by omega)]
    simp only [Res.ok_bind]
    by_cases hc : need > hsize t
    · rw [if_pos hc, if_pos (by simp only [HatMax, HAT_32]; omega)]
      obtain ⟨t', e, a1, a2, a3⟩ := ih (t + 1) f (by omega) (by omega)
      exact ⟨t', e, by omega, a2, a3⟩
    · rw [if_neg hc]
      exact ⟨_, rfl, Nat.le_refl _, by simp only [HatMax, HAT_32]; omega, by omega⟩

/-- `hat_new_array` returns a node when the largest size class holds the record. -/
theorem hat_new_array_total {hat : Hat} {buff : List Nat} {amt : Nat} (ha : AllocOK hat)
    (hz : ∀ n, hat.malloc n ≠ 0) (h127 : amt ≤ 127) (hlen : amt ≤ buff.length)
    (hfit : hat.aux + amt + 1 + sizeof_HatBase ≤ hsize HatMax) :
    ∃ h1 b cell, hat_new_array hat buff amt = .ok (h1, some b, cell) := by
  have h512 : hsize HatMax = 512 := rfl
  simp only [sizeof_HatBase, h512] at hfit
  unfold hat_new_array
  simp only [if_neg (show ¬ amt > 0x7f by omega)]
  obtain ⟨t, et, ht⟩ := new_array_type_total hat amt 1 (by
    simp only [sizeof_HatBase, h512, U32]
    omega) 11 HAT_1 64 (by decide) (by decide)
  obtain ⟨t1, t2, t3⟩ := new_array_type_ok _ _ _ _ _ _ et
  rw [et]
  simp only [Res.ok_bind]
  rw [if_neg (by omega)]
  obtain ⟨h1, addr, ea⟩ := @hat_alloc_total hat t ha hz t2
  rw [ea]
  simp only [Res.ok_bind]
  rw [HatSize_eq t2]
  simp only [Res.ok_bind]
  obtain ⟨keys, ek⟩ := @put_record_total (List.replicate (hsize t - sizeof_HatBase) 0) buff 0 amt
    h127 hlen (by
      simp only [List.length_replicate, sizeof_HatBase, U32] at t3 ⊢
      omega)
  rw [ek]
  exact ⟨_, _, _, rfl⟩

/-- `hat_add_array` stores the record into an array node, in place or after
`hat_promote`, when the test of `hat_promote` holds for the largest size class. -/
theorem hat_add_array_total {hat : Hat} {b : HatBase} {buff : List Nat} {amt : Nat}
    {rs : List (List Nat)} (ha : AllocOK hat) (hz : ∀ n, hat.malloc n ≠ 0)
    (hwf : WFArray hat.aux b rs) (h127 : amt ≤ 127) (hlen : amt ≤ buff.length)
    (hc : hat.aux = 0 ∨ b.cnt < 255)
    (hfit : (b.cnt + 1) * hat.aux + b.nxt + amt + 1 + sizeof_HatBase ≤ hsize HatMax) :
    ∃ h1 b1 cell, hat_add_array hat b buff amt 1 = .ok (h1, .array b1, cell) := by
  have h512 : hsize HatMax = 512 := rfl
  simp only [sizeof_HatBase, h512] at hfit
  have hthi : b.type ≤ 15 := hwf.thi
  have hty : b.type < 32 := by omega
  have hlen4 := hwf.len
  have hcap := hwf.cap
  simp only [sizeof_HatBase] at hlen4 hcap
  obtain ⟨c1, c2, -, -, -, c6⟩ := cnt_facts hwf ha.aux hc
  have hneed : ((b.cnt + 1) * hat.aux + b.nxt + amt + 1) % U32 =
      (b.cnt + 1) * hat.aux + b.nxt + amt + 1 := Nat.mod_eq_of_lt (by simp only [U32]; omega)
  unfold hat_add_array hat_add_array_k
  simp only [if_neg (show ¬ amt > 0x7f by omega)]
  rw [HatSize_eq hty]
  simp only [Res.ok_bind, hneed, sizeof_HatBase]
  by_cases hin : (hat.aux = 0 ∨ b.cnt < 255) ∧
      (b.cnt + 1) * hat.aux + b.nxt + amt + 1 + 4 ≤ hsize b.type
  · rw [if_pos hin]
    obtain ⟨keys, ek⟩ := @put_record_total b.keys buff b.nxt amt h127 hlen (by omega)
    rw [ek]
    exact ⟨_, _, _, rfl⟩
  · rw [if_neg hin]
    unfold hat_promote_k
    simp only [if_neg (show ¬ (amt > 0x7f ∧ amt < 2147483648) by omega)]
    rw [HatSize_eq hty]
    simp only [Res.ok_bind, hneed, sizeof_HatBase]
    rw [if_pos hc]
    obtain ⟨t, et, t1, t2, t3⟩ := promote_type_total
      ((b.cnt + 1) * hat.aux + b.nxt + amt + 1 + 4) (by omega) (15 - b.type) b.type 64
      (by omega) (by omega)
    simp only [HatMax, HAT_32] at t2
    rw [et]
    simp only [Res.ok_bind]
    rw [if_neg (by simp only [HatMax, HAT_32]; omega)]
    obtain ⟨h1, addr, ea⟩ := @hat_alloc_total hat t ha hz (by omega)
    rw [ea]
    simp only [Res.ok_bind]
    rw [HatSize_eq (by omega)]
    simp only [Res.ok_bind]
    have hmul : b.cnt * hat.aux ≤ (b.cnt + 1) * hat.aux := Nat.mul_le_mul_right _ (by omega)
    have hn : (b.cnt * hat.aux) % U32 = b.cnt * hat.aux :=
      Nat.mod_eq_of_lt (by simp only [U32]; omega)
    obtain ⟨k1, e1, l1⟩ := @memcpy_total (List.replicate (hsize t - 4) 0) b.keys 0 b.nxt
      (by omega) (by simp only [List.length_replicate]; omega)
    simp only [List.length_replicate] at l1
    rw [e1]
    simp only [Res.ok_bind, hn]
    have tail : ∀ k2 : List Nat, k2.length = hsize t - 4 →
        ∃ h1' b1 cell, (do
          let keys ← wr k2 b.nxt (amt &&& 0x7f)
          let keys ← if amt &&& 0x80 ≠ 0 then wr keys (b.nxt + 1) ((amt >>> 7) % U8)
            else pure keys
          let keys ← memcpy keys (b.nxt + 1) buff amt
          (pure (hat_free h1 b.addr b.type,
            BSlot.array ⟨addr, (b.nxt + amt + 1) % U16, t, (b.cnt + 1) % U8, keys⟩,
            slot_ptr addr (hsize t) (((b.cnt + 1) % U8 * hat.aux) % U32)) :
              Res (Hat × BSlot × Nat))) = .ok (h1', .array b1, cell) := by
      intro k2 l2
      obtain ⟨k3, e3, l3⟩ := @wr_total k2 b.nxt (amt &&& 0x7f) (by omega)
      rw [e3]
      simp only [Res.ok_bind]
      rw [if_neg (by rw [and128 h127]; simp)]
      simp only [Res.pure_def, Res.ok_bind]
      obtain ⟨k4, e4, l4⟩ := @memcpy_total k3 buff (b.nxt + 1) amt hlen (by omega)
      rw [e4]
      exact ⟨_, _, _, rfl⟩
    by_cases h0 : hat.aux ≠ 0
    · rw [if_pos h0, if_pos (by omega)]
      obtain ⟨k2, e2, l2⟩ := @memcpy_total k1 (b.keys.drop (hsize b.type - 4 - b.cnt * hat.aux))
        (hsize t - 4 - b.cnt * hat.aux) (b.cnt * hat.aux)
        (by simp only [List.length_drop]; omega) (by omega)
      rw [e2]
      simp only [Res.ok_bind]
      exact tail k2 (by omega)
    · rw [if_neg h0]
      simp only [Res.pure_def, Res.ok_bind]
      exact tail k1 l1

theorem hat_new_pail_pail {hat h1 : Hat} {b : HatBase} {buff : List Nat} {amt cell : Nat}
    {slot : BSlot} (h : hat_new_pail hat b buff amt = .ok (h1, slot, cell)) :
    slot.isPail = true := by
  unfold hat_new_pail at h
  obtain ⟨⟨h2, addr⟩, -, h⟩ := Res.bind_eq_ok.mp h
  obtain ⟨⟨h3, array⟩, -, h⟩ := Res.bind_eq_ok.mp h
  obtain ⟨⟨h4, pail, c⟩, -, h⟩ := Res.bind_eq_ok.mp h
  simp only [Res.pure_def, Res.ok.injEq, Prod.mk.injEq] at h
  rw [← h.2.1]
  rfl

/-- The address `hat_add_array` returns with the record stored in an array node
is not null. -/
theorem hat_add_array_room {hat : Hat} {b : HatBase} {buff : List Nat} {amt : Nat}
    {rs : List (List Nat)} (ha : AllocOK hat) (hz : ∀ n, hat.malloc n ≠ 0)
    (hwf : WFArray hat.aux b rs) (h127 : amt ≤ 127) (hlen : amt ≤ buff.length)
    (hc : hat.aux = 0 ∨ b.cnt < 255)
    (hfit : (b.cnt + 1) * hat.aux + b.nxt + amt + 1 + sizeof_HatBase ≤ hsize HatMax) :
    ∃ h1 b1 cell, hat_add_array hat b buff amt 1 = .ok (h1, .array b1, cell) ∧ cell ≠ 0 := by
  obtain ⟨h1, b1, cell, e⟩ := hat_add_array_total ha hz hwf h127 hlen hc hfit
  refine ⟨h1, b1, cell, e, ?_⟩
  unfold hat_add_array at e
  rcases hat_add_array_k_ok hat_new_pail ha hwf h127 e with hs | ⟨-, hp⟩ | ⟨h0, -⟩
  · obtain ⟨b', -, hl⟩ := hs.last (Q := fun _ => True) (fun _ _ => trivial)
    exact hl.ne_zero
  · have := hat_new_pail_pail hp
    cases this
  · cases h0

/-- On an empty slot, and on an array node in which `hat_promote` finds room,
the loop of `hat_cell` returns in its first pass and leaves an array node in the
slot; with `aux` zero the value is 0 for a key `hat_find` does not find and 1
for a key it finds. -/
theorem hat_cell_loop_total {hat : Hat} {node : HatNode} {buff : List Nat} {max off : Nat}
    (ha : AllocOK hat) (hz : ∀ n, hat.malloc n ≠ 0) (hw : WFNode hat.aux node)
    (hoff : off ≤ max) (hmax : max ≤ buff.length) (h127 : max ≤ 127)
    (hroom : node_room hat node (max - off) = true) :
    ∃ h1 node1 p, node1.isLeaf = true ∧
      (∀ f, hat_cell_loop (f + 1) hat node buff max off = .ok (h1, node1, p)) ∧
      (hat.aux = 0 → (p = 0 ∧ hat_find_node node hat buff max off = .ok none) ∨
        (p = 1 ∧ hat_find_node node hat buff max off = .ok (some 1))) := by
  have h32 : max < U32 := by simp only [U32]; omega
  cases node with
  | empty =>
    simp only [node_room, decide_eq_true_eq] at hroom
    obtain ⟨h1, b, cell, e⟩ := @hat_new_array_total hat (buff.drop off) (max - off) ha hz
      (by omega) (by rw [List.length_drop]; omega) hroom
    refine ⟨h1, .array b, cell_ret hat cell, rfl, fun f => ?_, fun h0 => Or.inl ⟨?_, rfl⟩⟩
    · rw [hat_cell_loop]
      simp only [amt_eq hoff h127]
      rw [e]
      rfl
    · unfold cell_ret
      rw [if_neg (by simpa using h0)]
  | array base =>
    simp only [node_room, decide_eq_true_eq] at hroom
    obtain ⟨rs, hwf, -⟩ := hw
    cases hs : scan_array U16 hat base buff max off 0 0 with
    | fault => rw [scan_whole hoff hmax h32 hwf] at hs; cases hs
    | nofuel => rw [scan_whole hoff hmax h32 hwf] at hs; cases hs
    | ok r =>
      cases r with
      | some q =>
        refine ⟨hat, .array base, q, rfl, fun f => ?_, fun h0 => Or.inr ⟨?_, ?_⟩⟩
        · rw [hat_cell_loop]
          simp only
          rw [hs]
          rfl
        · exact (scan_some hoff hmax h32 ⟨rs, hwf, fun _ _ => trivial⟩ hs).2 h0
        · rw [hat_find_node, hs,
            (scan_some hoff hmax h32 ⟨rs, hwf, fun _ _ => trivial⟩ hs).2 h0]
      | none =>
        obtain ⟨h1, b1, cell, e, hc⟩ := @hat_add_array_room hat base (buff.drop off) (max - off)
          rs ha hz hwf (by omega) (by rw [List.length_drop]; omega) hroom.1 hroom.2
        refine ⟨h1, .array b1, cell_ret hat cell, rfl, fun f => ?_, fun h0 => Or.inl ⟨?_, ?_⟩⟩
        · rw [hat_cell_loop]
          simp only [amt_eq hoff h127]
          rw [hs]
          simp only [Res.ok_bind]
          rw [e]
          simp only [Res.ok_bind]
          rw [if_pos hc]
          rfl
        · unfold cell_ret
          rw [if_neg (by simpa using h0)]
        · rw [hat_find_node, hs]
  | radix addr table => simp [node_room] at hroom
  | bucket bucket => simp [node_room] at hroom
  | pail pail => simp [node_room] at hroom

/-- On a hat without radix, bucket and pail nodes `hat_cell` returns for a key
whose root slot has room, and leaves such a hat. -/
theorem hat_cell_total {hat : Hat} {buff : List Nat} {max : Nat} (hi : Inv hat)
    (hz : ∀ n, hat.malloc n ≠ 0) (hmax : max ≤ buff.length) (h127 : max ≤ 127)
    (ha : ArrayOnly hat) (hroom : cell_room hat buff max = true) :
    ∃ h1 p, (∀ f, 1 ≤ f → hat_cell f hat buff max = .ok (h1, p)) ∧ ArrayOnly h1 ∧
      (hat.aux = 0 → (p = 0 ∧ hat_find hat buff max = .ok 0) ∨
        (p = 1 ∧ hat_find hat buff max = .ok 1)) := by
  unfold cell_room at hroom
  cases ht : triple_loop hat.bootlvl buff max 0 0 with
  | fault => simp [ht] at hroom
  | nofuel => simp [ht] at hroom
  | ok r =>
    obtain ⟨triple, off⟩ := r
    simp only [ht, Bool.and_eq_true, decide_eq_true_eq] at hroom
    obtain ⟨hn, hr⟩ := hroom
    have hoff := triple_loop_le _ _ _ _ _ _ _ ht (Nat.zero_le _)
    obtain ⟨h1, node1, p, hl, he, hp⟩ := hat_cell_loop_total hi.1 hz (hi.2 triple) hoff hmax h127 hr
    obtain ⟨-, a2, -⟩ := hat_cell_loop_ok 1 hat (hat.root triple) buff max off h1 node1 p hi.1
      (hi.2 triple) hoff hmax h127 (he 0)
    refine ⟨{ h1 with root := setSlot h1.root triple node1 }, p, fun f hf => ?_, ?_, fun h0 => ?_⟩
    · obtain ⟨g, rfl⟩ : ∃ g, f = g + 1 := ⟨f - 1, by omega⟩
      unfold hat_cell
      rw [ht]
      simp only [Res.ok_bind]
      rw [if_pos hn, he g]
      rfl
    · intro i hlt
      show (setSlot h1.root triple node1 i).isLeaf = true
      rw [a2.root]
      by_cases hc : i = triple
      · subst hc
        rw [setSlot_same]
        exact hl
      · rw [setSlot_other _ _ hc]
        exact ha i (by
          have : h1.nroot = hat.nroot := a2.nroot
          rw [← this]
          exact hlt)
    · have hf : ∀ r, hat_find_node (hat.root triple) hat buff max off = .ok r →
          hat_find hat buff max = .ok (match r with | some q => q | none => 0) := by
        intro r e
        unfold hat_find hat_find_slot
        rw [ht]
        simp only [Res.ok_bind]
        rw [if_pos hn, e]
        cases r <;> rfl
      rcases hp h0 with ⟨e1, e2⟩ | ⟨e1, e2⟩
      · exact Or.inl ⟨e1, hf _ e2⟩
      · exact Or.inr ⟨e1, hf _ e2⟩

theorem malloc_low_ne (n : Nat) : malloc_low n ≠ 0 := by
  simp only [malloc_low]
  omega

/-! ## Insert followed by find, and repeated insert -/

/-- C2 (counterexample): with `aux` = 4, `hat_cell` returns 1048604 for the key
"a"; after `hat_cell` on the key "abcdefgh" the array node of both records has
been promoted to the next size class, and `hat_find` returns 1048636 for "a". -/
theorem C2_find_returns_another_address :
    run_find 1 4 [[97], [97, 98, 99, 100, 101, 102, 103, 104]] [[97]] =
      .ok ([1048604, 1048632], [.ok 1048636]) := by decide

/-- C2 (amended): on a hat without radix, bucket and pail nodes, reached from
`hat_open` by `hat_cell` calls on keys of at most 127 bytes, a call
`hat_find (k)` directly after a call `hat_cell (k)` that returned `p` returns
`p` when `aux` is not zero, and `(void *)1` when `aux` is zero.  The hat after
the call has only empty root slots and array nodes, and so has every hat of the
run before it: no bucket and no pail is made on the way. -/
theorem C2_find_after_cell (malloc : Nat → Nat) (boot aux fuel : Nat) (keys : List (List Nat))
    (k : List Nat) (hat0 hat hat1 : Hat) (ps : List Nat) (p : Nat)
    (hm : ∀ n, malloc n + HAT_seg < U64) (haux : aux < 65536)
    (hkeys : ∀ x ∈ keys, x.length ≤ 127) (hk : k.length ≤ 127)
    (h0 : hat_open malloc boot aux = .ok hat0)
    (h1 : hat_cells fuel hat0 keys = .ok (hat, ps))
    (h2 : hat_cell fuel hat k k.length = .ok (hat1, p))
    (ha : ArrayOnly hat1) :
    ArrayOnly hat0 ∧ ArrayOnly hat ∧
      hat_find hat1 k k.length = .ok (if aux ≠ 0 then p else 1) := by
  obtain ⟨i0, e0⟩ := hat_open_inv hm haux h0
  obtain ⟨i1, e1⟩ := hat_cells_inv fuel keys hat0 hat ps i0 hkeys h1
  obtain ⟨-, -, -, -, hf, -⟩ := hat_cell_ok i1 (Nat.le_refl _) hk h2
  have a1 := hat_cell_arrays_before i1 (Nat.le_refl _) hk h2 ha
  refine ⟨hat_cells_arrays_before fuel keys hat0 hat ps i0 hkeys h1 a1, a1, ?_⟩
  rw [hf, e1, e0]
  rfl

/-- C2 (witness): `hat_open (1, 4)`, `hat_cell` on "a", then `hat_cell` on "ab",
which returns 1048600 and leaves an array node under the root slot `a`;
`hat_find` on "ab" returns that address. -/
theorem C2_find_after_cell_witness :
    ArrayOnly wit_cell.1 ∧ wit_cell.2 = 1048600 ∧
    (ArrayOnly wit_open ∧ ArrayOnly wit_cells.1 ∧
      hat_find wit_cell.1 [97, 98] 2 = .ok (if 4 ≠ 0 then wit_cell.2 else 1)) :=
  ⟨by unfold ArrayOnly; decide, by decide,
    C2_find_after_cell malloc_low 1 4 64 [[97]] [97, 98] wit_open wit_cells.1 wit_cell.1
    wit_cells.2 wit_cell.2 malloc_low_ok (by decide) (by decide) (by decide)
    (Res.eq_ok_val _ (by decide)) (Res.eq_ok_val _ (by decide)) (Res.eq_ok_val _ (by decide))
    (by unfold ArrayOnly; decide)⟩

/-- C5 (counterexample): with `aux` = 0 the first `hat_cell` on the key "a"
returns `(void *)0` and the second, directly after it, returns `(void *)1`. -/
theorem C5_second_cell_returns_another_value :
    run_find 1 0 [[97], [97]] [] = .ok ([0, 1], []) := by decide

/-- C5 (amended): on a hat without radix, bucket and pail nodes, reached from
`hat_open` by `hat_cell` calls on keys of at most 127 bytes, after a call
`hat_cell (k)` that returned `p` every further call `hat_cell (k)` (with enough
passes of its loop allowed) returns and leaves the hat exactly as it is; it
returns `p` when `aux` is not zero and `(void *)1` when `aux` is zero.  The hat
before the first call has no radix, bucket or pail node either. -/
theorem C5_cell_again (malloc : Nat → Nat) (boot aux fuel : Nat) (keys : List (List Nat))
    (k : List Nat) (hat0 hat hat1 : Hat) (ps : List Nat) (p : Nat)
    (hm : ∀ n, malloc n + HAT_seg < U64) (haux : aux < 65536)
    (hkeys : ∀ x ∈ keys, x.length ≤ 127) (hk : k.length ≤ 127)
    (h0 : hat_open malloc boot aux = .ok hat0)
    (h1 : hat_cells fuel hat0 keys = .ok (hat, ps))
    (h2 : hat_cell fuel hat k k.length = .ok (hat1, p))
    (ha : ArrayOnly hat1) :
    ArrayOnly hat ∧
      ∃ f0, ∀ f, f0 ≤ f → hat_cell f hat1 k k.length = .ok (hat1, if aux ≠ 0 then p else 1) := by
  obtain ⟨i0, e0⟩ := hat_open_inv hm haux h0
  obtain ⟨i1, e1⟩ := hat_cells_inv fuel keys hat0 hat ps i0 hkeys h1
  obtain ⟨-, -, -, -, -, f0, hf⟩ := hat_cell_ok i1 (Nat.le_refl _) hk h2
  refine ⟨hat_cell_arrays_before i1 (Nat.le_refl _) hk h2 ha, f0, fun f hle => ?_⟩
  rw [hf f hle, e1, e0]
  rfl

/-- C5 (witness): `hat_open (1, 0)` and `hat_cell` on "a", which returns 0 and
leaves an array node under the root slot `a`; every further `hat_cell` on "a"
returns 1 and leaves the hat as it is. -/
theorem C5_cell_again_witness :
    ArrayOnly wit_cell0.1 ∧ wit_cell0.2 = 0 ∧
    (ArrayOnly wit_open0 ∧ ∃ f0, ∀ f, f0 ≤ f →
      hat_cell f wit_cell0.1 [97] 1 = .ok (wit_cell0.1, if 0 ≠ 0 then wit_cell0.2 else 1)) :=
  ⟨by unfold ArrayOnly; decide, by decide,
    C5_cell_again malloc_low 1 0 64 [] [97] wit_open0 wit_open0 wit_cell0.1
    [] wit_cell0.2 malloc_low_ok (by decide) (by decide) (by decide)
    (Res.eq_ok_val _ (by decide)) rfl (Res.eq_ok_val _ (by decide))
    (by unfold ArrayOnly; decide)⟩

/-- C6 (counterexample): with `aux` = 0 `hat_cell` returns `(void *)0`, the null
pointer, for the new key "a"; `hat_find` then returns `(void *)1` for it. -/
theorem C6_cell_returns_null :
    run_find 1 0 [[97]] [[97]] = .ok ([0], [.ok 1]) := by decide

/-- C6 (amended): on a hat without radix, bucket and pail nodes, reached from
`hat_open` by `hat_cell` calls on keys of at most 127 bytes under a `malloc`
that does not fail, `hat_cell` returns in the first pass of its loop for every
key of at most 127 bytes whose root slot is empty or holds an array node with
room for the record (`cell_room`), and it leaves such a hat.  The value is not
null when `aux` is not zero.  When `aux` is zero the value is `(void *)0` for a
key `hat_find` did not find before the call and `(void *)1` for a key it found.
And for every key `hat_find` finds, with or without room, `hat_cell` returns the
value of `hat_find` and leaves the hat as it is. -/
theorem C6_cell_value (malloc : Nat → Nat) (boot aux fuel : Nat) (keys : List (List Nat))
    (k : List Nat) (hat0 hat : Hat) (ps : List Nat)
    (hm : ∀ n, malloc n + HAT_seg < U64) (hz : ∀ n, malloc n ≠ 0) (haux : aux < 65536)
    (hkeys : ∀ x ∈ keys, x.length ≤ 127) (hk : k.length ≤ 127)
    (h0 : hat_open malloc boot aux = .ok hat0)
    (h1 : hat_cells fuel hat0 keys = .ok (hat, ps))
    (ha : ArrayOnly hat) :
    (cell_room hat k k.length = true →
      ∃ hat1 p, (∀ f, 1 ≤ f → hat_cell f hat k k.length = .ok (hat1, p)) ∧ ArrayOnly hat1 ∧
        (aux ≠ 0 → p ≠ 0) ∧
        (aux = 0 → (p = 0 ∧ hat_find hat k k.length = .ok 0) ∨
          (p = 1 ∧ hat_find hat k k.length = .ok 1))) ∧
    (∀ q, q ≠ 0 → hat_find hat k k.length = .ok q →
      (aux = 0 → q = 1) ∧ ∃ f0, ∀ f, f0 ≤ f → hat_cell f hat k k.length = .ok (hat, q)) := by
  obtain ⟨i0, e0⟩ := hat_open_inv hm haux h0
  obtain ⟨i1, e1⟩ := hat_cells_inv fuel keys hat0 hat ps i0 hkeys h1
  have em : hat.malloc = malloc := by
    rw [hat_cells_malloc fuel keys hat0 hat ps i0 hkeys h1, hat_open_malloc h0]
  have ea : hat.aux = aux := by rw [e1, e0]
  refine ⟨fun hroom => ?_, fun q hq hfq => ?_⟩
  · obtain ⟨hat1, p, hc, a1, a2⟩ := hat_cell_total i1 (by rw [em]; exact hz) (Nat.le_refl _) hk
      ha hroom
    obtain ⟨-, -, b1, -⟩ := hat_cell_ok i1 (Nat.le_refl _) hk (hc 1 (Nat.le_refl _))
    rw [ea] at a2 b1
    exact ⟨hat1, p, hc, a1, b1, a2⟩
  · obtain ⟨f0, hf0⟩ := hat_cell_found hq hfq
    refine ⟨fun h0 => ?_, f0, hf0⟩
    obtain ⟨-, -, -, b2, -, -⟩ := hat_cell_ok i1 (Nat.le_refl _) hk (hf0 f0 (Nat.le_refl _))
    rw [ea] at b2
    rcases b2 h0 with h | h
    · exact absurd h hq
    · exact h

/-- C6 (witness): `hat_open (1, 4)` and `hat_cell` on "a"; the root slot `a`
then holds an array node with room for the key "ab", and `hat_cell` on "ab"
returns a value that is not null. -/
theorem C6_cell_value_witness :
    ArrayOnly wit_cells.1 ∧ cell_room wit_cells.1 [97, 98] 2 = true ∧
    ((cell_room wit_cells.1 [97, 98] 2 = true →
      ∃ hat1 p, (∀ f, 1 ≤ f → hat_cell f wit_cells.1 [97, 98] 2 = .ok (hat1, p)) ∧
        ArrayOnly hat1 ∧ (4 ≠ 0 → p ≠ 0) ∧
        (4 = 0 → (p = 0 ∧ hat_find wit_cells.1 [97, 98] 2 = .ok 0) ∨
          (p = 1 ∧ hat_find wit_cells.1 [97, 98] 2 = .ok 1))) ∧
    (∀ q, q ≠ 0 → hat_find wit_cells.1 [97, 98] 2 = .ok q →
      (4 = 0 → q = 1) ∧
        ∃ f0, ∀ f, f0 ≤ f → hat_cell f wit_cells.1 [97, 98] 2 = .ok (wit_cells.1, q))) :=
  ⟨by unfold ArrayOnly; decide, by decide,
    C6_cell_value malloc_low 1 4 64 [[97]] [97, 98] wit_open wit_cells.1 wit_cells.2 malloc_low_ok
    malloc_low_ne (by decide) (by decide) (by decide)
    (Res.eq_ok_val _ (by decide)) (Res.eq_ok_val _ (by decide)) (by unfold ArrayOnly; decide)⟩

end HatTrie
